import Mathlib

/-!
Environment builder of the Wazuh engine.

A shallow embedding of `_builder/asset.hpp` and `_builder/environment.hpp`.

Expressions are `std::shared_ptr` values in the source: nodes have an identity,
operator nodes are mutated after their creation (`getOperands().push_back`) and
one node can be an operand of several operators.  The embedding therefore keeps
the nodes in a store (`Heap`); an `Expression` is a nullable index into it.
-/

namespace Wazuh

/-! ## Expressions -/

/-- Modelled from the spec: `expression.hpp` is not part of the sources.  The
node kinds of section 3: `Term`, `And`, `Or`, `Chain`, `Broadcast`,
`Implication`. -/
inductive Kind where
  | term
  | and
  | or
  | chain
  | broadcast
  | implication
deriving DecidableEq, Repr

/-- Modelled from the spec: `expression.hpp` is not part of the sources.  An
`Expression` is a shared pointer to a node ("reference identity", section 3):
`none` is the null pointer, `some i` points to the node stored at index `i`. -/
abbrev Expression := Option Nat

/-- Modelled from the spec: `expression.hpp` is not part of the sources.  One
expression node (section 3): its kind, display name and operand pointers; a
`Term` has no operands. -/
structure Node where
  kind : Kind
  name : String
  operands : List Expression
deriving DecidableEq, Repr

/-- The store of all nodes created so far; a node's identity is its index. -/
abbrev Heap := List Node

/-- Modelled from the spec: `expression.hpp` is not part of the sources.  The
constructors of section 4.1 (`And::create`, `Or::create`, ...): a new node
at the end of the store; returns its index. -/
def create (h : Heap) (kind : Kind) (name : String) (operands : List Expression) :
    Nat × Heap :=
  (h.length, h ++ [⟨kind, name, operands⟩])

/-- Modelled from the spec: `expression.hpp` is not part of the sources.  The
statement `op->getOperands().push_back(e)` on the node at index `i` (section
4.1: operators expose a mutable operands collection the compiler appends to). -/
def pushOperand (h : Heap) (i : Nat) (e : Expression) : Heap :=
  match h[i]? with
  | some n => h.set i { n with operands := n.operands ++ [e] }
  | none => h

/-- Failures: the exceptions the source throws or lets through. -/
inductive Err where
  /-- A `std::runtime_error` thrown by the code itself, with its message. -/
  | runtime (msg : String)
  /-- The `std::out_of_range` of a map's `at` on a missing key. -/
  | outOfRange (key : String)
  /-- A `Json` accessor (`getObject`, `getArray`, `getString`) on another type. -/
  | jsonType
  /-- The call `Registry::getBuilder` on a name that is not registered. -/
  | unknownBuilder (key : String)
  /-- A stage builder that fails. -/
  | stageBuild (msg : String)
  /-- A failure of the Catalog. -/
  | catalogFetch (msg : String)
  /-- Dereference of a null `Expression`. -/
  | nullDeref
  /-- The call `getPtr<Operation>()` on a node that is a `Term`. -/
  | notOperation
  /-- The call `Graph::addNode` on a key that is already a node. -/
  | duplicateNode (key : String)
  /-- The call `Graph::addEdge` on an edge that would close a cycle: the family
  and the path of the cycle. -/
  | cycleDetected (family : String) (path : List String)
  /-- The recursion did not end within the model's bound. -/
  | fuel
deriving DecidableEq, Repr

/-! ## Json -/

/-- Modelled from the spec: `json.hpp` is not part of the sources.  The values
as the code uses them: an object is the ordered sequence of its key/value
tuples (`getObject`, in definition order, section 4.3), an array the sequence
of its elements (`getArray`). -/
inductive Json where
  | null
  | bool (b : Bool)
  | num (n : Int)
  | str (s : String)
  | arr (xs : List Json)
  | obj (kvs : List (String × Json))

/-- Modelled from the spec: `Json::getObject` (`json.hpp` is not part of the
sources); a value that is no object is an error (`EnvMalformed`, wrong JSON
shape). -/
def Json.getObject : Json → Except Err (List (String × Json))
  | .obj kvs => .ok kvs
  | _ => .error .jsonType

/-- Modelled from the spec: `Json::getArray` (`json.hpp` is not part of the
sources); a value that is no array is an error. -/
def Json.getArray : Json → Except Err (List Json)
  | .arr xs => .ok xs
  | _ => .error .jsonType

/-- Modelled from the spec: `Json::getString` (`json.hpp` is not part of the
sources); a value that is no string is an error (section 4.3: each entry of
`parents` must be a string). -/
def Json.getString : Json → Except Err String
  | .str s => .ok s
  | _ => .error .jsonType

/-- The idiom `pos = std::find_if(first entry whose key is key)` followed by
`erase(pos)` on a vector of tuples: the value found and the vector without that
one entry, or `none` when `find_if` returns `end()`. -/
def extract (key : String) : List (String × Json) → Option (Json × List (String × Json))
  | [] => none
  | (k, v) :: rest =>
    if k = key then some (v, rest)
    else
      match extract key rest with
      | some (x, r) => some (x, (k, v) :: r)
      | none => none

/-- The member `std::unordered_set::insert`: no effect on an element already
present. -/
def setInsert (s : List String) (x : String) : List String :=
  if x ∈ s then s else s ++ [x]

/-- The member `find` of a map held as a list of key/value pairs. -/
def lookup {α : Type} (key : String) : List (String × α) → Option α
  | [] => none
  | (k, v) :: rest => if k = key then some v else lookup key rest

/-- The member `insert` of `std::unordered_map` (and of a `std::map` that is
only looked up): no effect when the key is already present. -/
def mapInsert {α : Type} (m : List (String × α)) (key : String) (v : α) : List (String × α) :=
  match lookup key m with
  | some _ => m
  | none => m ++ [(key, v)]

/-! ## Ports: Registry, Catalog, container iteration order -/

/-- An expression returned by a Registry builder, given as the sequence of the
nodes it is made of: operand pointers are relative to the start of the
sequence and the last node is the root.  The empty sequence is the null
expression. -/
abbrev Fragment := List Node

/-- Moves the pointers of a fragment node by `off`. -/
def shiftNode (off : Nat) (n : Node) : Node :=
  { n with operands := n.operands.map (fun e => e.map (fun i => i + off)) }

/-- Stores a builder's result in the heap and returns the pointer to its root. -/
def place (h : Heap) (f : Fragment) : Expression × Heap :=
  (if f.length = 0 then none else some (h.length + f.length - 1),
   h ++ f.map (shiftNode h.length))

/-- What the code takes from outside.
`registry`: `registry.hpp` is not part of the sources; `none` is a name with no
builder registered.  `catalog`: the template parameter `T catalog` with its
`getAsset(int, std::string)`.  `iter`: the order in which a
`std::unordered_set`/`std::unordered_map` holding the given keys (listed in
insertion order) is iterated, which C++ leaves unspecified. -/
structure Ports where
  registry : String → Option (Json → Except Err Fragment)
  catalog : Nat → String → Except Err Json
  iter : List String → List String

/-- Modelled from the spec: `Registry::getBuilder(name)(json)` (`registry.hpp`
is not part of the sources), the result stored in the heap.  Section 4.2: an
unknown name raises an error, and a builder may itself fail. -/
def runBuilder (P : Ports) (name : String) (json : Json) (h : Heap) :
    Except Err (Expression × Heap) :=
  match P.registry name with
  | none => .error (.unknownBuilder name)
  | some b =>
    match b json with
    | .error e => .error e
    | .ok f => .ok (place h f)

/-! ## asset.hpp -/

/-- The enumeration `Asset::Type`, enumerators in declaration order. -/
inductive AssetType where
  | decoder
  | filter
  | rule
  | output
deriving DecidableEq, Repr

/-- The conversion `static_cast<int>(Asset::Type)`. -/
def AssetType.code : AssetType → Nat
  | .decoder => 0
  | .filter => 1
  | .rule => 2
  | .output => 3

/-- The `struct Asset`. The two sets are kept in insertion order. -/
structure Asset where
  m_name : String
  m_check : Expression
  m_stages : Expression
  m_type : AssetType
  m_parents : List String
  m_filters : List String
deriving DecidableEq, Repr

/-- The constructor `Asset(std::string name, Type type)`. -/
def Asset.named (name : String) (type : AssetType) : Asset :=
  ⟨name, none, none, type, [], []⟩

/-- The loop `for (auto& parent : parents) m_parents.insert(parent.getString())`. -/
def insertParents : List Json → List String → Except Err (List String)
  | [], acc => .ok acc
  | j :: rest, acc =>
    match j.getString with
    | .error e => .error e
    | .ok s => insertParents rest (setInsert acc s)

/-- The loop over the remaining tuples of the definition: each is built by
`"stage." + key` and pushed onto the operands of the `stages` node `s`. -/
def buildStages (P : Ports) (s : Nat) : List (String × Json) → Heap → Except Err Heap
  | [], h => .ok h
  | (k, v) :: rest, h =>
    match runBuilder P ("stage." ++ k) v h with
    | .error e => .error e
    | .ok (e, h1) => buildStages P s rest (pushOperand h1 s e)

/-- The constructor `Asset(const Json& jsonDefinition, Type type)`. -/
def Asset.fromJson (P : Ports) (jsonDefinition : Json) (type : AssetType) (h : Heap) :
    Except Err (Asset × Heap) :=
  match jsonDefinition.getObject with
  | .error e => .error e
  | .ok objectDefinition =>
  match extract "name" objectDefinition with
  | none => .error (.runtime "Asset definition must have a name")
  | some (nameJson, obj1) =>
  match nameJson.getString with
  | .error e => .error e
  | .ok m_name =>
  match (match extract "parents" obj1 with
         | none => Except.ok (([] : List String), obj1)
         | some (parentsJson, o) =>
           match parentsJson.getArray with
           | .error e => .error e
           | .ok parents =>
             match insertParents parents [] with
             | .error e => .error e
             | .ok ps => .ok (ps, o)) with
  | .error e => .error e
  | .ok (m_parents, obj2) =>
  let obj3 := match extract "metaData" obj2 with
    | none => obj2
    | some (_, o) => o
  match (match extract "check" obj3 with
         | none => Except.ok ((none : Expression), h, obj3)
         | some (checkJson, o) =>
           match runBuilder P "stage.check" checkJson h with
           | .error e => .error e
           | .ok (c, h1) => .ok (c, h1, o)) with
  | .error e => .error e
  | .ok (m_check, h1, obj4) =>
  let (s, h2) := create h1 .and "stages" []
  match buildStages P s obj4 h2 with
  | .error e => .error e
  | .ok h3 => .ok (⟨m_name, m_check, some s, type, m_parents, []⟩, h3)

/-- Modelled from the spec: `expression.hpp` is not part of the sources.  The
expression `m_check->getPtr<Operation>()->getOperands()`: the operands of an
operator node; a null pointer and a `Term` (section 3: an opaque leaf, no
operands) have none. -/
def getOperands (h : Heap) (e : Expression) : Except Err (List Expression) :=
  match e with
  | none => .error .nullDeref
  | some p =>
    match h[p]? with
    | none => .error .nullDeref
    | some n => if n.kind = .term then .error .notOperation else .ok n.operands

/-- The member `Asset::getExpression`. -/
def Asset.getExpression (a : Asset) (h : Heap) : Except Err (Expression × Heap) :=
  match a.m_type with
  | .output | .rule | .decoder =>
    let (p, h1) := create h .implication a.m_name [a.m_check, a.m_stages]
    .ok (some p, h1)
  | .filter =>
    match getOperands h a.m_check with
    | .error e => .error e
    | .ok ops =>
      let (p, h1) := create h .and a.m_name ops
      .ok (some p, h1)

/-! ## graph.hpp -/

/-- Modelled from the spec: `graph.hpp` (the class template `Graph<K, T>`) is not
part of the sources.  Section 3: a graph has a root key, `nodes`, a map from
asset name to asset, and `edges`, a map from parent name to the ordered
children names.  The members `m_nodes` and `m_edges` are the ones the source
reads directly (`graph.m_nodes`, `graph.m_edges.at(key)`).

The assets are held by value: the source holds them through
`std::shared_ptr`, the one mutation after construction is
`graph.node(parent)->m_filters.insert(name)` and `m_filters` is only ever read
through `graph.node`. -/
structure Graph where
  m_root : String
  m_nodes : List (String × Asset)
  m_edges : List (String × List String)
deriving DecidableEq, Repr

/-- Modelled from the spec: the constructor `Graph(rootId, root)`, section 4.4
`new(root_name, root_asset)`: "creates a graph with the given synthetic root
node and no edges".  The root has its entry in the edge map, with no children
yet: the fold reads `m_edges.at(key)` for every node it visits, and scenario S1
(section 8) gives a node without children the operator `Or("children", [])`. -/
def Graph.new (rootId : String) (root : Asset) : Graph :=
  ⟨rootId, [(rootId, root)], [(rootId, [])]⟩

/-- Modelled from the spec: `Graph::root()`, the key of the synthetic root
(section 3). -/
def Graph.root (g : Graph) : String := g.m_root

/-- Modelled from the spec: `Graph::hasNode`, section 4.4 `has_node`. -/
def Graph.hasNode (g : Graph) (key : String) : Bool :=
  (lookup key g.m_nodes).isSome

/-- Modelled from the spec: `Graph::node`, section 4.4 `node(name)`; a key that
is not a node has no asset. -/
def Graph.node (g : Graph) (key : String) : Except Err Asset :=
  match lookup key g.m_nodes with
  | some a => .ok a
  | none => .error (.outOfRange key)

/-- Modelled from the spec: `Graph::addNode`, section 4.4 `add_node(name, asset)`:
"insert; duplicate name is an error".  The new node gets its entry in the edge
map, with no children, unless an edge from it is already stored (a child that
named it as parent was added first). -/
def Graph.addNode (g : Graph) (key : String) (a : Asset) : Except Err Graph :=
  if g.hasNode key then .error (.duplicateNode key)
  else .ok { g with m_nodes := g.m_nodes ++ [(key, a)], m_edges := mapInsert g.m_edges key [] }

/-- Modelled from the spec: the edge map of `add_edge` (section 4.4).  Appends
`child` to the children of `parent`, with a new entry when `parent` has none;
an edge already present is left alone. -/
def insertEdge (parent child : String) : List (String × List String) → List (String × List String)
  | [] => [(parent, [child])]
  | (k, cs) :: rest =>
    if k = parent then (k, if child ∈ cs then cs else cs ++ [child]) :: rest
    else (k, cs) :: insertEdge parent child rest

/-- Modelled from the spec: the search of `add_edge` for a path that the new
edge would close to a cycle (section 4.4: "must refuse to introduce a cycle").
The path from `src` to `dst` along stored edges that a depth-first search in
the order of the children finds first, of at most `fuel` keys. -/
def findPath (edges : List (String × List String)) : Nat → String → String → Option (List String)
  | 0, _, _ => none
  | fuel + 1, src, dst =>
    if src = dst then some [src]
    else ((lookup src edges).getD []).findSome?
      (fun c => (findPath edges fuel c dst).map (fun l => src :: l))

/-- Modelled from the spec: the family that `CycleDetected(family, path)`
(section 7) names.  The root of the graph of a family is named
`<family>Input` (section 3); the family is the root key without these five
characters. -/
def Graph.family (g : Graph) : String :=
  String.mk (g.m_root.data.take (g.m_root.data.length - 5))

/-- Modelled from the spec: `Graph::addEdge`, section 4.4 `add_edge(parent, child)`:
children are kept in insertion order, duplicate edges are idempotent, and the
edge is refused when it would introduce a cycle: when the stored edges lead
from `child` to `parent`.  The error is the `CycleDetected(family, path)` of
section 7, its path the cycle from `parent` over `child` back to `parent`
(scenario S5).  A path without a repeated key passes at most one key per entry
of the edge map before it ends, which bounds the search.  Apart from that
(sections 4.5, 7 and 9) the edge is stored whether or not its ends are nodes. -/
def Graph.addEdge (g : Graph) (parent child : String) : Except Err Graph :=
  match findPath g.m_edges (g.m_edges.length + 1) child parent with
  | some path => .error (.cycleDetected g.family (parent :: path))
  | none => .ok { g with m_edges := insertEdge parent child g.m_edges }

/-- The expression `graph.m_edges.at(key)` of the source: `at` throws
`std::out_of_range` when the map has no entry for the key. -/
def Graph.edgesAt (g : Graph) (key : String) : Except Err (List String) :=
  match lookup key g.m_edges with
  | some cs => .ok cs
  | none => .error (.outOfRange key)

/-- The statement `graph.node(key)->m_filters.insert(name)`. -/
def insertFilter (key name : String) : List (String × Asset) → List (String × Asset)
  | [] => []
  | (k, a) :: rest =>
    if k = key then (k, { a with m_filters := setInsert a.m_filters name }) :: rest
    else (k, a) :: insertFilter key name rest

/-! ## environment.hpp -/

/-- The function `getAssetType`. -/
def getAssetType (name : String) : Except Err AssetType :=
  if name = "decoders" then .ok .decoder
  else if name = "rules" then .ok .rule
  else if name = "outputs" then .ok .output
  else if name = "filters" then .ok .filter
  else .error (.runtime "Unknown asset type")

/-- Lexicographic order of two character sequences. -/
def charsLt : List Char → List Char → Bool
  | [], [] => false
  | [], _ :: _ => true
  | _ :: _, [] => false
  | a :: as, b :: bs =>
    if a.toNat < b.toNat then true
    else if b.toNat < a.toNat then false
    else charsLt as bs

/-- The `operator<` of `std::string`, the key order of a `std::map`. -/
def stringLt (a b : String) : Bool := charsLt a.data b.data

/-- The member `std::map::insert`: the entries are kept in ascending key order and a key
already present keeps its value. -/
def sortedInsert {α : Type} (key : String) (v : α) : List (String × α) → List (String × α)
  | [] => [(key, v)]
  | (k, x) :: rest =>
    if key = k then (k, x) :: rest
    else if stringLt key k then (key, v) :: (k, x) :: rest
    else (k, x) :: sortedInsert key v rest

/-- Assignment through the reference `m_graphs[graphName]`. -/
def mapSet {α : Type} (key : String) (v : α) : List (String × α) → List (String × α)
  | [] => []
  | (k, x) :: rest => if k = key then (k, v) :: rest else (k, x) :: mapSet key v rest

/-- The `class Environment`, together with the store of the expressions its assets
point to. -/
structure Environment where
  m_name : String
  m_assets : List (String × Asset)
  m_graphs : List (String × Graph)
  heap : Heap
deriving DecidableEq, Repr

/-- The entries of an unordered map in iteration order. -/
def iterate {α : Type} (P : Ports) (m : List (String × α)) : List (String × α) :=
  (P.iter (m.map Prod.fst)).filterMap (fun k => (lookup k m).map (fun v => (k, v)))

/-- The loop `for (auto& parent : asset->m_parents) graph.addEdge(parent, name)`. -/
def addParentEdges (name : String) : List String → Graph → Except Err Graph
  | [], g => .ok g
  | parent :: rest, g =>
    match g.addEdge parent name with
    | .error e => .error e
    | .ok g1 => addParentEdges name rest g1

/-- The loop of `Environment::buildGraph` over the asset definitions, on the
asset map, the graph and the expression store. -/
def buildGraphLoop (P : Ports) (type : AssetType) :
    List (String × Json) → List (String × Asset) × Graph × Heap →
    Except Err (List (String × Asset) × Graph × Heap)
  | [], s => .ok s
  | (name, json) :: rest, (assets, graph, h) =>
    match Asset.fromJson P json type h with
    | .error e => .error e
    | .ok (asset, h1) =>
      let assets1 := mapInsert assets name asset
      match graph.addNode name asset with
      | .error e => .error e
      | .ok g1 =>
        match (if asset.m_parents.isEmpty then g1.addEdge g1.root name
               else addParentEdges name (P.iter asset.m_parents) g1) with
        | .error e => .error e
        | .ok g2 => buildGraphLoop P type rest (assets1, g2, h1)

/-- The member `Environment::buildGraph`.  The reference `m_graphs[graphName]`
names an entry that exists: the constructor inserts the graph of the family
before it calls `buildGraph`. -/
def Environment.buildGraph (P : Ports) (env : Environment)
    (assetsDefinitons : List (String × Json)) (graphName : String) (type : AssetType) :
    Except Err Environment :=
  let graph := (lookup graphName env.m_graphs).getD ⟨"", [], []⟩
  match buildGraphLoop P type (iterate P assetsDefinitons) (env.m_assets, graph, env.heap) with
  | .error e => .error e
  | .ok (assets, g, h) =>
    .ok { env with m_assets := assets, m_graphs := mapSet graphName g env.m_graphs, heap := h }

/-- The inner loop of `addFilters` over the parents of one filter. -/
def addFilterTo (name : String) : List String → Graph → Graph
  | [], g => g
  | parent :: rest, g =>
    if g.hasNode parent then
      addFilterTo name rest { g with m_nodes := insertFilter parent name g.m_nodes }
    else addFilterTo name rest g

/-- The outer loop of `addFilters` over the asset map. -/
def addFiltersLoop (P : Ports) : List (String × Asset) → Graph → Graph
  | [], g => g
  | (name, asset) :: rest, g =>
    if asset.m_type = .filter then
      addFiltersLoop P rest (addFilterTo name (P.iter asset.m_parents) g)
    else addFiltersLoop P rest g

/-- The member `Environment::addFilters`. -/
def Environment.addFilters (P : Ports) (env : Environment) (graphName : String) : Environment :=
  let graph := (lookup graphName env.m_graphs).getD ⟨"", [], []⟩
  { env with m_graphs := mapSet graphName (addFiltersLoop P (iterate P env.m_assets) graph) env.m_graphs }

/-- The `std::transform` of the filter preload: every listed filter is fetched
with type code 1, parsed as a `FILTER` and inserted in the asset map. -/
def loadFilters (P : Ports) : List Json → List (String × Asset) × Heap →
    Except Err (List (String × Asset) × Heap)
  | [], s => .ok s
  | json :: rest, (assets, h) =>
    match json.getString with
    | .error e => .error e
    | .ok key =>
      match P.catalog 1 key with
      | .error e => .error e
      | .ok definition =>
        match Asset.fromJson P definition .filter h with
        | .error e => .error e
        | .ok (a, h1) => loadFilters P rest (mapInsert assets key a, h1)

/-- The `std::transform` that fetches the definitions of one family. -/
def fetchDefinitions (P : Ports) (code : Nat) : List Json → List (String × Json) →
    Except Err (List (String × Json))
  | [], acc => .ok acc
  | json :: rest, acc =>
    match json.getString with
    | .error e => .error e
    | .ok key =>
      match P.catalog code key with
      | .error e => .error e
      | .ok definition => fetchDefinitions P code rest (mapInsert acc key definition)

/-- The loop "Build graphs" of the constructor. -/
def buildGraphs (P : Ports) : List (String × Json) → Environment → Except Err Environment
  | [], env => .ok env
  | (name, json) :: rest, env =>
    match json.getArray with
    | .error e => .error e
    | .ok assetNames =>
      match getAssetType name with
      | .error e => .error e
      | .ok ty =>
        let root := Graph.new (name ++ "Input") (Asset.named (name ++ "Input") ty)
        let env1 : Environment := { env with m_graphs := sortedInsert name root env.m_graphs }
        match fetchDefinitions P ty.code assetNames [] with
        | .error e => .error e
        | .ok assetsDefinitions =>
          match env1.buildGraph P assetsDefinitions name ty with
          | .error e => .error e
          | .ok env2 => buildGraphs P rest (env2.addFilters P name)

/-- The constructor `Environment(name, jsonDefinition, catalog)`. -/
def Environment.compile (P : Ports) (name : String) (jsonDefinition : Json) :
    Except Err Environment :=
  match jsonDefinition.getObject with
  | .error e => .error e
  | .ok envObj =>
    match (match extract "filters" envObj with
           | none => Except.ok (([] : List (String × Asset)), ([] : Heap), envObj)
           | some (filtersJson, o) =>
             match filtersJson.getArray with
             | .error e => .error e
             | .ok filtersList =>
               match loadFilters P filtersList ([], []) with
               | .error e => .error e
               | .ok (assets, h) => .ok (assets, h, o)) with
    | .error e => .error e
    | .ok (assets, h, envObj1) => buildGraphs P envObj1 ⟨name, assets, [], h⟩

/-- The state of one family's fold: the expression store and `sharedParents`. -/
structure FoldState where
  heap : Heap
  sharedParents : List (String × Expression)
deriving DecidableEq, Repr

/-- The two `switch (graphType)` of `getExpression`: the operator of a family,
none for a type the switch throws on. -/
def familyOp : AssetType → Option Kind
  | .decoder => some .or
  | .rule => some .broadcast
  | .output => some .broadcast
  | .filter => none

/-- The loop `for (auto& filter : asset->m_filters)` of `visit`: the expression
of each filter is pushed onto the `filters` node `f`. -/
def pushFilters (assets : List (String × Asset)) (f : Nat) : List String → Heap → Except Err Heap
  | [], h => .ok h
  | filter :: rest, h =>
    match lookup filter assets with
    | none => .error (.outOfRange filter)
    | some fa =>
      match fa.getExpression h with
      | .error e => .error e
      | .ok (e, h1) => pushFilters assets f rest (pushOperand h1 f e)

/-- The part of `visit` that creates `assetNode` for `asset`, whose children
operator is the node `c`. -/
def buildAssetNode (P : Ports) (assets : List (String × Asset)) (asset : Asset) (c : Nat)
    (h : Heap) : Except Err (Nat × Heap) :=
  if asset.m_filters.length > 0 then
    let (f, h1) := create h .and "filters" []
    match pushFilters assets f (P.iter asset.m_filters) h1 with
    | .error e => .error e
    | .ok h2 =>
      let h3 := pushOperand h2 f (some c)
      match asset.getExpression h3 with
      | .error e => .error e
      | .ok (a, h4) => .ok (create h4 .implication (asset.m_name ++ "Node") [a, some f])
  else
    match asset.getExpression h with
    | .error e => .error e
    | .ok (a, h1) => .ok (create h1 .implication (asset.m_name ++ "Node") [a, some c])

/-- The loops `for (auto& child : ...) op->getOperands().push_back(visitRef(child, visitRef))`
of `getExpression`, for the operator at index `op`. -/
def visitChildren (visitRef : String → FoldState → Except Err (Expression × FoldState))
    (op : Nat) : List String → FoldState → Except Err FoldState
  | [], st => .ok st
  | child :: rest, st =>
    match visitRef child st with
    | .error e => .error e
    | .ok (e, st1) => visitChildren visitRef op rest { st1 with heap := pushOperand st1.heap op e }

/-- The lambda `visit` of `getExpression`.  The first argument bounds the
nesting depth of the recursion; at depth zero the model gives up with
`Err.fuel`. -/
def visit (P : Ports) (assets : List (String × Asset)) (graph : Graph) (graphType : AssetType) :
    Nat → String → FoldState → Except Err (Expression × FoldState)
  | 0, _, _ => .error .fuel
  | fuel + 1, current, st =>
    match lookup current st.sharedParents with
    | some e => .ok (e, st)
    | none =>
      match graph.node current with
      | .error e => .error e
      | .ok asset =>
        match familyOp graphType with
        | none => .error (.runtime "Unsupported asset graph type")
        | some k =>
          let (assetChildren, h1) := create st.heap k "children" []
          match buildAssetNode P assets asset assetChildren h1 with
          | .error e => .error e
          | .ok (assetNode, h2) =>
            let shared :=
              if asset.m_parents.length > 1 then
                mapInsert st.sharedParents current (some assetNode)
              else st.sharedParents
            match graph.edgesAt current with
            | .error e => .error e
            | .ok children =>
              match visitChildren (visit P assets graph graphType fuel) assetChildren children
                  ⟨h2, shared⟩ with
              | .error e => .error e
              | .ok st1 => .ok (some assetNode, st1)

/-- Bound on the nesting depth of `visit` on a graph: a run that ends builds
a node with several parents once, and between two nested builds of one other
node it builds a node with several parents for the first time. -/
def visitFuel (graph : Graph) : Nat :=
  (graph.m_nodes.length + 2) * (graph.m_nodes.length + 2)

/-- The loop `for (auto& [name, graph] : m_graphs)` of `getExpression`;
`environment` is the index of the top `Chain`. -/
def foldGraphs (P : Ports) (assets : List (String × Asset)) (environment : Nat) :
    List (String × Graph) → Heap → Except Err Heap
  | [], h => .ok h
  | (_, graph) :: rest, h =>
    match graph.node graph.root with
    | .error e => .error e
    | .ok rootAsset =>
      match familyOp rootAsset.m_type with
      | none => .error (.runtime "Unsupported asset type")
      | some k =>
        let (root, h1) := create h k rootAsset.m_name []
        let h2 := pushOperand h1 environment (some root)
        match graph.edgesAt graph.root with
        | .error e => .error e
        | .ok children =>
          match visitChildren (visit P assets graph rootAsset.m_type (visitFuel graph)) root
              children ⟨h2, []⟩ with
          | .error e => .error e
          | .ok st => foldGraphs P assets environment rest st.heap

/-- The member `Environment::getExpression`: the pointer to the top `Chain` and the store
it lives in. -/
def Environment.getExpression (P : Ports) (env : Environment) : Except Err (Expression × Heap) :=
  let (environment, h0) := create env.heap .chain env.m_name []
  match foldGraphs P env.m_assets environment env.m_graphs h0 with
  | .error e => .error e
  | .ok h => .ok (some environment, h)

/-! ## Vocabulary of the statements -/

/-- The keys of a definition that the `Asset` constructor handles itself. -/
def reservedKeys : List String := ["name", "parents", "metaData", "check"]

/-- A tuple of a definition whose key is none of `name`, `parents`, `metaData`,
`check`. -/
def isStage (kv : String × Json) : Bool := decide (kv.1 ∉ reservedKeys)

/-- A vector of tuples without the first tuple whose key is `key`. -/
def eraseKey (key : String) : List (String × Json) → List (String × Json)
  | [] => []
  | (k, v) :: rest => if k = key then rest else (k, v) :: eraseKey key rest

/-- The tuples that are left of a definition when the constructor has taken out
`name`, `parents`, `metaData` and `check`. -/
def stageTuples (kvs : List (String × Json)) : List (String × Json) :=
  eraseKey "check" (eraseKey "metaData" (eraseKey "parents" (eraseKey "name" kvs)))

/-- The nodes of the fragment `f` are stored in `h` from index `off` on. -/
def PlacedAt (h : Heap) (off : Nat) (f : Fragment) : Prop :=
  ∀ j (hj : j < f.length), h[off + j]? = some (shiftNode off (f.get ⟨j, hj⟩))

/-- The pointer to the root of a fragment stored from index `off` on. -/
def rootOf (off : Nat) (f : Fragment) : Expression :=
  if f.length = 0 then none else some (off + f.length - 1)

/-- The expression `o` is the result of the Registry builder `"stage." + key`
on the value of the tuple `kv`, stored in `h`. -/
def IsStageResult (P : Ports) (h : Heap) (kv : String × Json) (o : Expression) : Prop :=
  ∃ b f off, P.registry ("stage." ++ kv.1) = some b ∧ b kv.2 = .ok f ∧
    PlacedAt h off f ∧ o = rootOf off f

/-- The node `p` is an asset node of a family whose operator kind is `k`: an
`Implication` whose consequent is the asset's children operator `c`, or an
`And` named `filters` whose last operand is `c`; the children operator has kind
`k`, is named `children` and its operands are asset nodes listed in `S`. -/
def AssetNodeShape (k : Kind) (h : Heap) (S : List Nat) (p : Nat) : Prop :=
  ∃ nm a x c ops, h[p]? = some ⟨.implication, nm, [a, some x]⟩ ∧
    (x = c ∨ ∃ fs, h[x]? = some ⟨.and, "filters", fs ++ [some c]⟩) ∧
    h[c]? = some ⟨k, "children", ops⟩ ∧ ∀ o ∈ ops, ∃ q ∈ S, o = some q

/-- The operator `q` is the root of a family sub-expression: kind `k`, name
`nm`, its operands are asset nodes, and every asset node reached from it has
the family's shape. -/
def FamilyShape (k : Kind) (nm : String) (h : Heap) (q : Nat) : Prop :=
  ∃ qops S, h[q]? = some ⟨k, nm, qops⟩ ∧ (∀ o ∈ qops, ∃ p ∈ S, o = some p) ∧
    ∀ p ∈ S, AssetNodeShape k h S p

/-- The operator kind of a family sub-expression, by the family's key: `Or` for
the decoders, `Broadcast` for the rules and the outputs. -/
def familyKind (family : String) : Kind :=
  if family = "decoders" then .or else .broadcast

/-- Every node listed in `S` is an asset node of a family of kind `k`. -/
def NodesOK (k : Kind) (h : Heap) (S : List Nat) : Prop :=
  ∀ p ∈ S, AssetNodeShape k h S p

/-- Every expression of the list is a node listed in `S`. -/
def AllIn (S : List Nat) (ops : List Expression) : Prop :=
  ∀ o ∈ ops, ∃ q ∈ S, o = some q

/-- Every node of `h` is still the same node in `h1`. -/
def Extends (h h1 : Heap) : Prop :=
  ∀ i, i < h.length → h1[i]? = h[i]?

/-- Every node of `h` other than the one at index `t` is still the same node
in `h1`. -/
def AgreeExcept (t : Nat) (h h1 : Heap) : Prop :=
  ∀ i, i < h.length → i ≠ t → h1[i]? = h[i]?

/-- Every node of `h` that is not a `Chain` is still the same node in `h1`. -/
def AgreeOffChain (h h1 : Heap) : Prop :=
  ∀ (i : Nat) (n : Node), h[i]? = some n → n.kind ≠ .chain → h1[i]? = some n

/-- Every expression cached in `sharedParents` is a node listed in `S`. -/
def CacheIn (S : List Nat) (cache : List (String × Expression)) : Prop :=
  ∀ key e, lookup key cache = some e → ∃ q ∈ S, e = some q

/-- What a run of `visit` that returns keeps true: the nodes listed stay asset
nodes, new ones are added to the list, the cache holds listed nodes only, no
existing node changes, and the result is a listed node. -/
def VisitOK (k : Kind)
    (visitRef : String → FoldState → Except Err (Expression × FoldState)) : Prop :=
  ∀ cur st e st1 S, NodesOK k st.heap S → CacheIn S st.sharedParents →
    visitRef cur st = .ok (e, st1) →
    ∃ S1, S ⊆ S1 ∧ NodesOK k st1.heap S1 ∧ CacheIn S1 st1.sharedParents ∧
      Extends st.heap st1.heap ∧ ∃ q ∈ S1, e = some q

/-- The root asset of the graph of a family is named `<family>Input` and has
the type of the family. -/
def RootOK (family : String) (g : Graph) : Prop :=
  ∃ ra, lookup g.m_root g.m_nodes = some ra ∧ ra.m_name = family ++ "Input" ∧
    getAssetType family = .ok ra.m_type

/-- The relation between a family graph and its operand of the top `Chain`:
the operand is the root operator of the family, of the kind that goes with the
type of the root asset and named as the root asset, and below it the
expression has the family's shape. -/
def FamilyOperand (h : Heap) (ng : String × Graph) (o : Expression) : Prop :=
  ∃ rootAsset k q, ng.2.node ng.2.root = .ok rootAsset ∧
    familyOp rootAsset.m_type = some k ∧ o = some q ∧ FamilyShape k rootAsset.m_name h q

/-! ## Example inputs -/

/-- The name of the `Term` the example builders make of a stage value. -/
def termOf : Json → String
  | .str s => s
  | _ => "term"

/-- An example Registry: `stage.check` builds `And("check", [Term])`,
`stage.normalize` builds a `Term`; nothing else is registered. -/
def exRegistry (name : String) : Option (Json → Except Err Fragment) :=
  if name = "stage.check" then
    some (fun j => .ok [⟨.term, termOf j, []⟩, ⟨.and, "check", [some 0]⟩])
  else if name = "stage.normalize" then
    some (fun j => .ok [⟨.term, termOf j, []⟩])
  else none

/-- An example definition with the keys `name`, `parents`, `check`, `normalize`. -/
def exAsset (name : String) (parents : List String) : Json :=
  .obj [("name", .str name), ("parents", .arr (parents.map .str)),
        ("check", .str ("c_" ++ name)), ("normalize", .str ("n_" ++ name))]

/-- Scenario S1: the definition of `d1`. -/
def defS1 : Json := .obj [("name", .str "d1"), ("check", .str "c"), ("normalize", .str "n")]

/-- Scenario S1: Registry and Catalog. -/
def portsS1 : Ports :=
  ⟨exRegistry, fun _ n => if n = "d1" then .ok defS1 else .error (.catalogFetch n), id⟩

/-- Scenario S1: the environment definition. -/
def envS1 : Json := .obj [("decoders", .arr [.str "d1"])]

/-- Scenario S2: `a` and `b` have no parents, `c` has the parents `a` and `b`. -/
def portsS2 : Ports :=
  ⟨exRegistry,
   fun _ n =>
     if n = "a" then .ok (exAsset "a" [])
     else if n = "b" then .ok (exAsset "b" [])
     else if n = "c" then .ok (exAsset "c" ["a", "b"])
     else .error (.catalogFetch n),
   id⟩

/-- Scenario S2: the environment definition. -/
def envS2 : Json := .obj [("rules", .arr [.str "a", .str "b", .str "c"])]

/-- Scenario S3: the filter `f` and the decoder `c` have the parent `p`. -/
def portsS3 : Ports :=
  ⟨exRegistry,
   fun _ n =>
     if n = "f" then .ok (exAsset "f" ["p"])
     else if n = "p" then .ok (exAsset "p" [])
     else if n = "c" then .ok (exAsset "c" ["p"])
     else .error (.catalogFetch n),
   id⟩

/-- Scenario S3: the environment definition. -/
def envS3 : Json :=
  .obj [("filters", .arr [.str "f"]), ("decoders", .arr [.str "p", .str "c"])]

/-- Scenario S4: the definition of `d1` with the stage `wat`. -/
def defS4 : Json := .obj [("name", .str "d1"), ("check", .str "c"), ("wat", .str "w")]

/-- Scenario S6: one decoder, two rules, one output, none with parents. -/
def portsS6 : Ports :=
  ⟨exRegistry,
   fun _ n =>
     if n = "d1" ∨ n = "r1" ∨ n = "r2" ∨ n = "o1" then .ok (exAsset n [])
     else .error (.catalogFetch n),
   id⟩

/-- Scenario S6: the environment definition. -/
def envS6 : Json :=
  .obj [("decoders", .arr [.str "d1"]), ("rules", .arr [.str "r1", .str "r2"]),
        ("outputs", .arr [.str "o1"])]

/-- Rules in a line below `a`: `b` has the parent `a`, `c` has the parent `b`;
the filter `f` names the synthetic root `rulesInput` as its parent. -/
def portsRootFilter : Ports :=
  ⟨exRegistry,
   fun _ n =>
     if n = "a" then .ok (exAsset "a" [])
     else if n = "b" then .ok (exAsset "b" ["a"])
     else if n = "c" then .ok (exAsset "c" ["b"])
     else if n = "f" then .ok (exAsset "f" ["rulesInput"])
     else .error (.catalogFetch n),
   id⟩

/-- The environment definition of the rules in a line with the filter on the
root. -/
def envRootFilter : Json :=
  .obj [("filters", .arr [.str "f"]), ("rules", .arr [.str "a", .str "b", .str "c"])]

/-- A store with the check `And("check", [Term "c"])` and an empty `stages`. -/
def exHeap : Heap := [⟨.term, "c", []⟩, ⟨.and, "check", [some 0]⟩, ⟨.and, "stages", []⟩]

/-- The `Asset` constructor from the point where the values of `name`, `parents`
and `check` have been looked up (`none`: the definition has no such key) and
`stages` are the tuples left for the stage loop. -/
def Asset.fromParts (P : Ports) (type : AssetType) (h : Heap)
    (nameJson parentsJson checkJson : Option Json) (stages : List (String × Json)) :
    Except Err (Asset × Heap) :=
  match nameJson with
  | none => .error (.runtime "Asset definition must have a name")
  | some nj =>
  match nj.getString with
  | .error e => .error e
  | .ok m_name =>
  match (match parentsJson with
         | none => Except.ok ([] : List String)
         | some pj =>
           match pj.getArray with
           | .error e => .error e
           | .ok parents => insertParents parents []) with
  | .error e => .error e
  | .ok m_parents =>
  match (match checkJson with
         | none => Except.ok ((none : Expression), h)
         | some cj => runBuilder P "stage.check" cj h) with
  | .error e => .error e
  | .ok (m_check, h1) =>
  match buildStages P h1.length stages (h1 ++ [⟨.and, "stages", []⟩]) with
  | .error e => .error e
  | .ok h3 => .ok (⟨m_name, m_check, some h1.length, type, m_parents, []⟩, h3)

/-- A Registry and Catalog that fail at every call. -/
def portsFail : Ports :=
  ⟨fun _ => some (fun _ => .error (.stageBuild "builder called")),
   fun _ n => .error (.catalogFetch n), id⟩

/-- A definition with a name and a stage but no check. -/
def defNoCheck : Json := .obj [("name", .str "d1"), ("normalize", .str "n")]

/-- The definition of the filter `f` with the parent `p` and no check. -/
def defFilterNoCheck : Json := .obj [("name", .str "f"), ("parents", .arr [.str "p"])]

/-- The decoder `p` and the filter `f` on it, defined without check. -/
def portsNoCheck : Ports :=
  ⟨exRegistry,
   fun _ n =>
     if n = "f" then .ok defFilterNoCheck
     else if n = "p" then .ok (exAsset "p" [])
     else .error (.catalogFetch n),
   id⟩

/-- The environment definition of the decoder `p` with the filter `f`. -/
def envNoCheck : Json :=
  .obj [("filters", .arr [.str "f"]), ("decoders", .arr [.str "p"])]

/-- A definition with a `metaData` entry among its keys. -/
def defMeta : Json :=
  .obj [("name", .str "d1"), ("metaData", .obj [("title", .str "t")]), ("check", .str "c"),
        ("normalize", .str "n")]

/-- Scenario S3 with a Catalog that only answers the type codes 0 and 1. -/
def portsS3Strict : Ports :=
  { portsS3 with
    catalog := fun c n => if c = 1 ∨ c = 0 then portsS3.catalog c n else .error (.catalogFetch n) }

/-- The tuples of the environment definition of scenario S3. -/
def envS3Kvs : List (String × Json) :=
  [("filters", .arr [.str "f"]), ("decoders", .arr [.str "p", .str "c"])]

/-- The compiled environment of scenario S3 with the Catalog `portsS3Strict`. -/
def envS3Compiled : Environment :=
  match Environment.compile portsS3Strict "env" (.obj envS3Kvs) with
  | .ok env => env
  | .error _ => ⟨"", [], [], []⟩

/-- The keys of an environment definition that the constructor knows. -/
def familyKeys : List String := ["filters", "decoders", "rules", "outputs"]

/-- The error `e` is a failure of the Catalog or of a stage builder. -/
def FromPorts (P : Ports) (e : Err) : Prop :=
  (∃ c n, P.catalog c n = .error e) ∨ (∃ key b j, P.registry key = some b ∧ b j = .error e)

/-- The error `e` is one of: a Json value of the wrong type, a definition
without name, a stage without builder, a key that is already a node, an edge
that would close a cycle. -/
def Benign (e : Err) : Prop :=
  e = .jsonType ∨ e = .runtime "Asset definition must have a name" ∨
    (∃ k, e = .unknownBuilder k) ∨ (∃ k, e = .duplicateNode k) ∨
    (∃ family path, e = .cycleDetected family path)

/-- An environment definition with the unknown key `inputs`. -/
def envUnknownKey : Json := .obj [("decoders", .arr [.str "d1"]), ("inputs", .arr [])]

/-- An environment definition whose `decoders` value is no array. -/
def envBadShape : Json := .obj [("decoders", .str "d1")]

/-- The rules in a line below `a`, with the two filters `fz` and `fa`, listed
in this order, on the rule `b`. -/
def portsTwoFilters : Ports :=
  ⟨exRegistry,
   fun _ n =>
     if n = "a" then .ok (exAsset "a" [])
     else if n = "b" then .ok (exAsset "b" ["a"])
     else if n = "c" then .ok (exAsset "c" ["b"])
     else if n = "fz" then .ok (exAsset "fz" ["b"])
     else if n = "fa" then .ok (exAsset "fa" ["b"])
     else .error (.catalogFetch n),
   id⟩

/-- The environment definition of the rules in a line and two filters. -/
def envTwoFilters : Json :=
  .obj [("filters", .arr [.str "fz", .str "fa"]), ("rules", .arr [.str "a", .str "b", .str "c"])]

/-- The expression `o` is the result of `getExpression` of the asset that the
asset map holds under the name `nm`, and its node is stored in `h`. -/
def IsFilterOperand (assets : List (String × Asset)) (h : Heap) (nm : String)
    (o : Expression) : Prop :=
  ∃ fa hq q nd, lookup nm assets = some fa ∧ fa.getExpression hq = .ok (some q, hq ++ [nd]) ∧
    o = some q ∧ h[q]? = some nd

/-- A rule with the two filters `fz` and `fa` attached, in this order. -/
def exFiltered : Asset := ⟨"b", some 1, some 2, .rule, [], ["fz", "fa"]⟩

/-- An asset map with the two filters `fz` and `fa`. -/
def exFilterAssets : List (String × Asset) :=
  [("fa", ⟨"fa", some 1, some 2, .filter, ["b"], []⟩),
   ("fz", ⟨"fz", some 1, some 2, .filter, ["b"], []⟩)]

/-- The store `exHeap` with a children operator at index 3. -/
def exHeapChildren : Heap := exHeap ++ [⟨.broadcast, "children", []⟩]

/-- The store after the node of `exFiltered` is built on `exHeapChildren`. -/
def exHeapBuilt : Heap :=
  exHeap ++ [⟨.broadcast, "children", []⟩, ⟨.and, "filters", [some 5, some 6, some 3]⟩,
    ⟨.and, "fz", [some 0]⟩, ⟨.and, "fa", [some 0]⟩, ⟨.implication, "b", [some 1, some 2]⟩,
    ⟨.implication, "bNode", [some 7, some 4]⟩]

/-- Scenario S5: `a` has the parent `b` and `b` has the parent `a`. -/
def portsS5 : Ports :=
  ⟨exRegistry,
   fun _ n =>
     if n = "a" then .ok (exAsset "a" ["b"])
     else if n = "b" then .ok (exAsset "b" ["a"])
     else .error (.catalogFetch n),
   id⟩

/-- Scenario S5: the environment definition. -/
def envS5 : Json := .obj [("decoders", .arr [.str "a", .str "b"])]

/-- The iteration of an unordered container yields the elements it holds and
no others. -/
def IterSound (P : Ports) : Prop :=
  ∀ (l : List String) (x : String), x ∈ P.iter l ↔ x ∈ l

/-- The graph has the edge from `p` to `c`: `c` is in `m_edges.at(p)`. -/
def HasEdge (g : Graph) (p c : String) : Prop :=
  ∃ cs, g.edgesAt p = .ok cs ∧ c ∈ cs

/-- The edges of the graph are exactly the edge from the root to every other
node without parents and the edges from `p` to every other node that has `p`
among its parents. -/
def EdgesExact (g : Graph) : Prop :=
  ∀ p c, HasEdge g p c ↔
    ∃ a, c ≠ g.m_root ∧ g.node c = .ok a ∧ ((a.m_parents = [] ∧ p = g.m_root) ∨ p ∈ a.m_parents)

/-- No list of children holds a child twice. -/
def EdgesNodup (g : Graph) : Prop :=
  ∀ p cs, g.edgesAt p = .ok cs → cs.Nodup

/-- The graph of a family: the root is `<family>Input`, a node without parents,
and the edges are exactly the declared ones, each once. -/
def GraphInv (family : String) (g : Graph) : Prop :=
  g.m_root = family ++ "Input" ∧ (∃ ra, g.node g.m_root = .ok ra ∧ ra.m_parents = []) ∧
    EdgesNodup g ∧ EdgesExact g

/-- No path of one or more edges leads from a key back to itself. -/
def Acyclic (g : Graph) : Prop :=
  ∀ v, ¬ Relation.TransGen (HasEdge g) v v

/-- The node map `l1` is the node map `l` with filters added: the same keys, the
same assets but for `m_filters`, and a node `c` has gained exactly the filters
`f` with `X c f`. -/
def FiltersGrow (X : String → String → Prop) (l l1 : List (String × Asset)) : Prop :=
  ∀ c, (lookup c l = none ∧ lookup c l1 = none) ∨
    ∃ a a1, lookup c l = some a ∧ lookup c l1 = some a1 ∧
      a1 = { a with m_filters := a1.m_filters } ∧
      ∀ f, f ∈ a1.m_filters ↔ (f ∈ a.m_filters ∨ X c f)

/-- An environment that holds the new graph of the decoders only: the state in
which the constructor calls `buildGraph` for the family. -/
def envNewDecoders : Environment :=
  ⟨"env", [], [("decoders", Graph.new "decodersInput" (Asset.named "decodersInput" .decoder))], []⟩

/-- The environment `envNewDecoders` after `buildGraph` for the decoders `p`
(no parents) and `c` (parent `p`). -/
def envBuiltDecoders : Environment :=
  match envNewDecoders.buildGraph portsS3 [("p", exAsset "p" []), ("c", exAsset "c" ["p"])]
      "decoders" .decoder with
  | .ok e => e
  | .error _ => envNewDecoders

/-- The asset map after the filter preload of the constructor: the parsed
filters that the key `filters` of the environment definition lists, and no
asset when the key is missing. -/
def preloadedFilters (P : Ports) (envObj : List (String × Json)) : List (String × Asset) :=
  match extract "filters" envObj with
  | none => []
  | some (filtersJson, _) =>
    match filtersJson.getArray with
    | .error _ => []
    | .ok filtersList =>
      match loadFilters P filtersList ([], []) with
      | .error _ => []
      | .ok (assets, _) => assets

/-- The filter-typed entries of the asset map are exactly the entries of `F`. -/
def AssetsInv (F assets : List (String × Asset)) : Prop :=
  ∀ f a, (lookup f assets = some a ∧ a.m_type = .filter) ↔ lookup f F = some a

/-- Every filter of a node is an entry of `F` that has the key of the node
among its parents. -/
def FiltersSound (F : List (String × Asset)) (g : Graph) : Prop :=
  ∀ key a, g.node key = .ok a → ∀ f, f ∈ a.m_filters →
    ∃ fa, lookup f F = some fa ∧ key ∈ fa.m_parents

/-- The filters of a node are exactly the entries of `F` that have the key of
the node among their parents. -/
def FiltersExact (F : List (String × Asset)) (g : Graph) : Prop :=
  ∀ key a, g.node key = .ok a → ∀ f, f ∈ a.m_filters ↔
    ∃ fa, lookup f F = some fa ∧ key ∈ fa.m_parents

/-- The graph with the asset of the node `key` replaced by `a`. -/
def Graph.setNode (g : Graph) (key : String) (a : Asset) : Graph :=
  { g with m_nodes := mapSet key a g.m_nodes }

/-- The rules in a line below `a`, and the rule `z` whose only parent `zz` is no
node. -/
def portsDangling : Ports :=
  ⟨exRegistry,
   fun _ n =>
     if n = "a" then .ok (exAsset "a" [])
     else if n = "b" then .ok (exAsset "b" ["a"])
     else if n = "c" then .ok (exAsset "c" ["b"])
     else if n = "z" then .ok (exAsset "z" ["zz"])
     else .error (.catalogFetch n),
   id⟩

/-- The environment definition of the rules `a`, `b`, `c`, `z`. -/
def envDangling : List (String × Json) :=
  [("rules", .arr [.str "a", .str "b", .str "c", .str "z"])]

/-- The compiled environment of `envDangling`. -/
def envDanglingCompiled : Environment :=
  match Environment.compile portsDangling "env" (.obj envDangling) with
  | .ok env => env
  | .error _ => ⟨"", [], [], []⟩

/-- The graph of the rules of `envDanglingCompiled`. -/
def graphDangling : Graph :=
  (lookup "rules" envDanglingCompiled.m_graphs).getD ⟨"", [], []⟩

/-! ## builders/assetBuilder.cpp -/

/-- The `std::transform` of `assetBuilder` over the stages left: each is built
by `"stage." + key`, in order, and the results are collected in the vector
`stages`. -/
def buildStageList (P : Ports) : List (String × Json) → Heap →
    Except Err (List Expression × Heap)
  | [], h => .ok ([], h)
  | (k, v) :: rest, h =>
    match runBuilder P ("stage." ++ k) v h with
    | .error e => .error e
    | .ok (e, h1) =>
      match buildStageList P rest h1 with
      | .error e2 => .error e2
      | .ok (es, h2) => .ok (e :: es, h2)

/-- The function `assetBuilder(definition)`, on the name and the stage list that
the `std::any_cast` takes out of `definition`. -/
def assetBuilder (P : Ports) (name : String) (stagesObj : List (String × Json)) (h : Heap) :
    Except Err (Expression × Heap) :=
  match extract "check" stagesObj with
  | none => .error (.runtime "Asset definition must have a check")
  | some (checkJson, stagesObj1) =>
    match runBuilder P "stage.check" checkJson h with
    | .error e => .error e
    | .ok (condition, h1) =>
      match buildStageList P stagesObj1 h1 with
      | .error e => .error e
      | .ok (stages, h2) =>
        let (consequence, h3) := create h2 .and "consequence" stages
        let (expression, h4) := create h3 .implication name [condition, some consequence]
        .ok (some expression, h4)

/-- A stage list with two entries keyed `check`. -/
def stagesTwoChecks : List (String × Json) :=
  [("normalize", .str "n"), ("check", .str "c1"), ("check", .str "c2")]

/-- The tree that an expression unfolds to in a store, down to a given depth:
`cut` stands for what lies deeper, `null` for the null expression. -/
inductive Tree where
  | null
  | cut
  | node (kind : Kind) (name : String) (operands : List Tree)

/-- The tree that the expression `e` unfolds to in the store `h`, down to the
depth given. -/
def treeOf (h : Heap) : Nat → Expression → Tree
  | 0, _ => .cut
  | _ + 1, none => .null
  | d + 1, some p =>
    match h[p]? with
    | none => .null
    | some n => .node n.kind n.name (n.operands.map (treeOf h d))

/-- Every operand pointer of the fragment points to a node of the fragment: the
expression a builder returns is made of its own nodes. -/
def Closed (f : Fragment) : Prop :=
  ∀ n ∈ f, ∀ i, some i ∈ n.operands → i < f.length

/-- The expression `Asset({name} + stages, DECODER).getExpression()`: the
definition is the object with the entry `name` followed by the stage list. -/
def decoderExpression (P : Ports) (name : String) (stages : List (String × Json)) (h : Heap) :
    Except Err (Expression × Heap) :=
  match Asset.fromJson P (.obj (("name", .str name) :: stages)) .decoder h with
  | .error e => .error e
  | .ok (a, h1) => a.getExpression h1

/-! ## builder/builders/assetBuilderOutput.cpp -/

/-- Failures of `assetBuilderOutput`: the exception thrown, by its type and
message.  A `std::throw_with_nested` is given by its outer exception. -/
inductive OutErr where
  | invalidArgument (msg : String)
  | runtimeError (msg : String)
deriving DecidableEq, Repr

/-- An entry of the Registry of `builder/`, the `std::variant` that
`assetBuilderOutput` opens with `std::get`: an `OpBuilder` makes a `Lifter` of a
Json value, a `CombinatorBuilder` makes one of a vector of `Lifter`s.  The
result `none` is a builder that throws. -/
inductive OutBuilder (L : Type) where
  | op (b : Json → Option L)
  | combinator (b : List L → Option L)

/-- What `assetBuilderOutput` takes from outside: `registry.hpp` of `builder/`
is not part of the sources; `none` is a name for which `Registry::getBuilder`
throws.  The type `L` stands for `types::Lifter`. -/
structure OutPorts (L : Type) where
  registry : String → Option (OutBuilder L)

/-- The `struct types::ConnectableT` as the `return` statement fills it. -/
structure Connectable (L : Type) where
  name : String
  parents : List String
  output : L

/-- The expression `std::get<types::OpBuilder>(Registry::getBuilder(name))(value)`;
`none` when a part of it throws. -/
def runOp {L : Type} (O : OutPorts L) (name : String) (value : Json) : Option L :=
  match O.registry name with
  | some (.op b) => b value
  | _ => none

/-- The expression
`std::get<types::CombinatorBuilder>(Registry::getBuilder(name))(stages)`;
`none` when a part of it throws. -/
def runCombinator {L : Type} (O : OutPorts L) (name : String) (stages : List L) : Option L :=
  match O.registry name with
  | some (.combinator b) => b stages
  | _ => none

/-- The value of `GetType()`, the enumeration `rapidjson::Type`. -/
def Json.typeCode : Json → Nat
  | .null => 0
  | .bool false => 1
  | .bool true => 2
  | .obj _ => 3
  | .arr _ => 4
  | .str _ => 5
  | .num _ => 6

/-- The conversion of the `const char*` that `GetString()` returns to a
`std::string`: the characters before the first U+0000. -/
def cstr (s : String) : String :=
  String.mk (s.data.takeWhile (fun c => c.toNat != 0))

/-- The members of a document with their keys as `std::string` made of
`it->name.GetString()`. -/
def cstrKeys (members : List (String × Json)) : List (String × Json) :=
  members.map (fun kv => (cstr kv.1, kv.2))

/-- The loop that fills the auxiliary `std::map` `attributes` with the members
of the document: the key is the `std::string` made of `it->name.GetString()`,
and `emplace` leaves a key that is present as it is. -/
def fillAttributes : List (String × Json) → List (String × Json) → List (String × Json)
  | [], attributes => attributes
  | (k, v) :: rest, attributes => fillAttributes rest (sortedInsert (cstr k) v attributes)

/-- The loop `parents.push_back(parentName.GetString())` over the array; a
value that is no string fails the assertion of `GetString`, taken as a throw. -/
def pushParents : List Json → Option (List String)
  | [] => some []
  | .str s :: rest =>
    match pushParents rest with
    | some l => some (cstr s :: l)
    | none => none
  | _ :: _ => none

/-- The loop "Rest of stages" over the map `attributes`: the stages built and
the vector `toPop`, or the key of the first attribute whose stage cannot be
built. -/
def buildRest {L : Type} (O : OutPorts L) :
    List (String × Json) → Except String (List L × List String)
  | [] => .ok ([], [])
  | (k, v) :: rest =>
    match runOp O k v with
    | none => .error k
    | some l =>
      match buildRest O rest with
      | .error k2 => .error k2
      | .ok (ls, toPop) => .ok (l :: ls, k :: toPop)

/-- The loop `for (auto name : toPop) attributes.erase(name)`. -/
def popAll : List String → List (String × Json) → List (String × Json)
  | [], attributes => attributes
  | k :: rest, attributes => popAll rest (eraseKey k attributes)

/-- The function `assetBuilderOutput(def)`.  The log lines are left out. -/
def assetBuilderOutput {L : Type} (O : OutPorts L) (definition : Json) :
    Except OutErr (Connectable L) :=
  match definition with
  | .obj members =>
    let attributes := fillAttributes members []
    match lookup "name" attributes with
    | some (.str name) =>
      let attributes1 := eraseKey "name" attributes
      match (match lookup "parents" attributes1 with
             | none => some (([] : List String), attributes1)
             | some (.arr ps) =>
               match pushParents ps with
               | some l => some (l, eraseKey "parents" attributes1)
               | none => none
             | some _ => none) with
      | none =>
        .error (.invalidArgument
          "Output builder encountered exception building attribute parents.")
      | some (parents, attributes2) =>
        match (lookup "check" attributes2).bind (runOp O "check") with
        | none =>
          .error (.runtimeError "Output builder encountered exception building stage check.")
        | some check =>
          let attributes3 := eraseKey "check" attributes2
          match (lookup "outputs" attributes3).bind (runOp O "outputs") with
          | none =>
            .error (.runtimeError
              "Output builder encountered exception building stage outputs.")
          | some outputs =>
            let attributes4 := eraseKey "outputs" attributes3
            match buildRest O attributes4 with
            | .error k =>
              .error (.runtimeError
                ("Output builder encountered exception building stage " ++ k ++ "."))
            | .ok (rest, toPop) =>
              if (popAll toPop attributes4).isEmpty = false then
                .error (.invalidArgument
                  "Output builder, json definition contains unproccessed attributes")
              else
                match runCombinator O "combinator.chain" (check :: outputs :: rest) with
                | none =>
                  .error (.runtimeError
                    "Output builder encountered exception building chaining all stages.")
                | some output => .ok ⟨cstr name, parents, output⟩
    | _ =>
      .error (.invalidArgument "Output builder encountered exception building attribute name.")
  | other =>
    .error (.invalidArgument
      ("Expexted type 'Object' but got [" ++ toString other.typeCode ++ "]"))

/-- The keys of the list are in strictly ascending order. -/
def KeysSorted {α : Type} (l : List (String × α)) : Prop :=
  (l.map Prod.fst).Pairwise (fun a b => stringLt a b = true)

/-- The attributes that `assetBuilderOutput` handles by name. -/
def outputKeys : List String := ["name", "parents", "check", "outputs"]

/-- An example Registry of `builder/` whose `Lifter`s are texts: `check`,
`outputs` and `normalize` tag the text of their value, `combinator.chain`
joins the texts of its stages. -/
def exOutPorts : OutPorts String :=
  ⟨fun name =>
    if name = "check" then some (.op (fun j => some ("check:" ++ termOf j)))
    else if name = "outputs" then some (.op (fun j => some ("outputs:" ++ termOf j)))
    else if name = "normalize" then some (.op (fun j => some ("normalize:" ++ termOf j)))
    else if name = "map" then some (.op (fun j => some ("map:" ++ termOf j)))
    else if name = "combinator.chain" then some (.combinator (fun ls => some (" ".intercalate ls)))
    else none⟩

/-- The name `out`, the character U+0000 and `x`. -/
def nameWithNul : String := String.mk ['o', 'u', 't', Char.ofNat 0, 'x']

/-- An output definition whose name holds the character U+0000. -/
def exOutputDefNul : Json :=
  .obj [("name", .str nameWithNul), ("check", .str "c"), ("outputs", .str "o")]

/-- An output definition whose stages are listed with `outputs` first, `check`
last and the other attributes in descending key order. -/
def exOutputDef : Json :=
  .obj [("outputs", .str "o"), ("normalize", .str "n"), ("name", .str "out1"),
        ("map", .str "m"), ("parents", .arr [.str "p2", .str "p1"]), ("check", .str "c")]

/-- The recursion path of `visit`: `v` is a child of the first key of the list,
every key of the list is a child of the next one, and the last key is a child
of the root; with the empty list, `v` is a child of the root. -/
def CallChain (g : Graph) : String → List String → Prop
  | v, [] => HasEdge g g.m_root v
  | v, p :: rest => HasEdge g p v ∧ CallChain g p rest

/-- Every node of a family graph but the root holds an asset parsed, with the
type of the family, from the answer of the Catalog for the code of that type
and the key of the node; only its filters have been added since. -/
def FromCatalog (P : Ports) (fam : String) (g : Graph) : Prop :=
  ∀ key a, g.node key = .ok a → key ≠ fam ++ "Input" →
    ∃ ty d a0 h0 h1, getAssetType fam = .ok ty ∧ P.catalog ty.code key = .ok d ∧
      Asset.fromJson P d ty h0 = .ok (a0, h1) ∧ a = { a0 with m_filters := a.m_filters }

/-- The asset nodes that the fold of one family has built: for the key of a
graph node, the index of its asset node and of its children operator. -/
abbrev BuiltMap := List (String × (Nat × Nat))

/-- The asset node that the fold has built for a key, as a pointer; null when
it has built none. -/
def nodeOf (N : BuiltMap) (key : String) : Expression :=
  (lookup key N).map Prod.fst

/-- The node at `p` is the asset node that `visit` builds for `asset`, with its
own nodes stored from `c` to `p`: the children operator at `c`, of kind `k`,
named `children`, with the operands `ops`; the expression of the asset at `a`,
for a Decoder, Rule or Output the `Implication(name, check, stages)`; and the
node `Implication(name + "Node", A, X)` at `p`, whose consequent `X` is the
children operator when the asset has no filters, and otherwise the `And` named
`filters` that holds the expression of every filter, in the iteration order of
`m_filters`, followed by the children operator. -/
def AssetNodeAt (P : Ports) (assets : List (String × Asset)) (k : Kind) (h : Heap)
    (asset : Asset) (p c : Nat) (ops : List Expression) : Prop :=
  h[c]? = some ⟨k, "children", ops⟩ ∧
  ∃ a x, c < a ∧ a < p ∧
    h[p]? = some ⟨.implication, asset.m_name ++ "Node", [some a, some x]⟩ ∧
    (asset.m_type ≠ .filter →
      h[a]? = some ⟨.implication, asset.m_name, [asset.m_check, asset.m_stages]⟩) ∧
    ((asset.m_filters = [] ∧ x = c) ∨
      (asset.m_filters ≠ [] ∧ c < x ∧ x < p ∧
        ∃ fops, h[x]? = some ⟨.and, "filters", fops ++ [some c]⟩ ∧
          List.Forall₂ (fun nm o => IsFilterOperand assets h nm o ∧ ∃ q, o = some q ∧ c < q ∧ q < p)
            (P.iter asset.m_filters) fops))

/-- Every entry of the map `N` is an asset node of the graph stored in `h`:
the key has an asset and an edge list, the fold has built a node for every
child, and the operands of the children operator are the nodes of the
children in the order of the edge list. -/
def Built (P : Ports) (assets : List (String × Asset)) (g : Graph) (k : Kind) (h : Heap)
    (N : BuiltMap) : Prop :=
  ∀ key p c, lookup key N = some (p, c) →
    ∃ asset cs, g.node key = .ok asset ∧ g.edgesAt key = .ok cs ∧
      (∀ d ∈ cs, ∃ pc, lookup d N = some pc) ∧
      AssetNodeAt P assets k h asset p c (cs.map (nodeOf N))

/-- What holds between two steps of the fold of one family, with `N` the nodes
built so far and `S` the keys whose nodes are being built (the recursion path
of `visit`): the entries of `N` are asset nodes; a cached expression belongs
to a key with several parents that is on the path or whose node is built, and
then it is that node; a built node with several parents is cached; a built
node with at most one parent has its edges from the root, from the path or
from built nodes; no key of the path and not the root is in `N`; and two keys
have different nodes. -/
structure FoldInv (P : Ports) (assets : List (String × Asset)) (g : Graph) (k : Kind)
    (st : FoldState) (N : BuiltMap) (S : List String) : Prop where
  built : Built P assets g k st.heap N
  cacheOk : ∀ key e, lookup key st.sharedParents = some e →
    key ∈ S ∨ ∃ pc, lookup key N = some pc ∧ e = some pc.1
  cacheMulti : ∀ key e, lookup key st.sharedParents = some e →
    ∃ a, g.node key = .ok a ∧ a.m_parents.length > 1
  shared : ∀ key pc a, lookup key N = some pc → g.node key = .ok a →
    a.m_parents.length > 1 → lookup key st.sharedParents = some (some pc.1)
  single : ∀ key pc a, lookup key N = some pc → g.node key = .ok a →
    a.m_parents.length ≤ 1 → ∀ q, HasEdge g q key →
    q = g.m_root ∨ q ∈ S ∨ ∃ pc1, lookup q N = some pc1
  stackFree : ∀ key ∈ S, lookup key N = none
  rootFree : lookup g.m_root N = none
  inj : ∀ k1 k2 pc1 pc2, lookup k1 N = some pc1 → lookup k2 N = some pc2 →
    pc1.1 = pc2.1 → k1 = k2

/-- What a run of `visit` for `cur` that returns gives, from the built nodes
`N` on the path `S`: the built nodes `N1`, which hold `N` and the node of `cur`,
the result; no existing node has changed, the cache has kept its entries, the
own nodes of a new entry are new nodes, and a new entry is `cur` or has an
edge from a new entry. -/
def VisitPost (P : Ports) (assets : List (String × Asset)) (g : Graph) (k : Kind)
    (cur : String) (S : List String) (st : FoldState) (N : BuiltMap) (e : Expression)
    (st1 : FoldState) (N1 : BuiltMap) : Prop :=
  FoldInv P assets g k st1 N1 S ∧
  (∀ key pc, lookup key N = some pc → lookup key N1 = some pc) ∧
  (∃ pc, lookup cur N1 = some pc ∧ e = some pc.1) ∧
  Extends st.heap st1.heap ∧
  (∀ key x, lookup key st.sharedParents = some x → lookup key st1.sharedParents = some x) ∧
  (∀ key pc, lookup key N1 = some pc → lookup key N = none → st.heap.length ≤ pc.2) ∧
  (∀ d pc, lookup d N1 = some pc → lookup d N = none →
    d = cur ∨ ∃ q pc1, lookup q N1 = some pc1 ∧ lookup q N = none ∧ HasEdge g q d)

/-- Every run of `visitRef` that returns, started on the recursion path `S` for
a key that is not built yet unless it has several parents, keeps `FoldInv`. -/
def VisitBuilds (P : Ports) (assets : List (String × Asset)) (g : Graph) (k : Kind)
    (visitRef : String → FoldState → Except Err (Expression × FoldState)) : Prop :=
  ∀ cur st N S e st1, FoldInv P assets g k st N S → CallChain g cur S →
    (∀ a, g.node cur = .ok a → a.m_parents.length ≤ 1 → lookup cur N = none) →
    visitRef cur st = .ok (e, st1) →
    ∃ N1, VisitPost P assets g k cur S st N e st1 N1

/-- The state of the loop over the children of `cur` after the children `pre`:
`FoldInv` on the path `S`, which holds `cur` unless `cur` is the root; the
operator `op` holds the nodes of `pre`; a built node with at most one parent
and an edge from `cur` is in `pre`; `op` is none of the own nodes of an
entry; against the start of the loop (`N0`, `h0`) no entry is lost, no node
but `op` has changed, the cache has kept its entries, the own nodes of a new
entry are new, and a new entry is in `pre` or has an edge from a new entry. -/
structure LoopInv (P : Ports) (assets : List (String × Asset)) (g : Graph) (k : Kind)
    (cur : String) (S : List String) (op : Nat) (nm : String) (N0 : BuiltMap) (h0 : Heap)
    (cache0 : List (String × Expression))
    (pre : List String) (st : FoldState) (N : BuiltMap) : Prop where
  inv : FoldInv P assets g k st N S
  top : st.heap[op]? = some ⟨k, nm, pre.map (nodeOf N)⟩
  done : ∀ d ∈ pre, ∃ pc, lookup d N = some pc
  own : ∀ d pc a, lookup d N = some pc → g.node d = .ok a → a.m_parents.length ≤ 1 →
    HasEdge g cur d → d ∈ pre
  apart : ∀ key pc, lookup key N = some pc → pc.1 < op ∨ op < pc.2
  keep : ∀ key pc, lookup key N0 = some pc → lookup key N = some pc
  agree : AgreeExcept op h0 st.heap
  cacheKeep : ∀ key x, lookup key cache0 = some x → lookup key st.sharedParents = some x
  fresh : ∀ key pc, lookup key N = some pc → lookup key N0 = none → h0.length ≤ pc.2
  closed : ∀ d pc, lookup d N = some pc → lookup d N0 = none →
    d ∈ pre ∨ ∃ q pc1, lookup q N = some pc1 ∧ lookup q N0 = none ∧ HasEdge g q d

/-- The sub-expression of a family graph in the store `h`, with `N` the asset
nodes built for it: the operand `o` of the top `Chain` is the root operator of
the family, of the kind of the family and named as the root asset; its
operands are the asset nodes of the children of the root, in the order of the
edge list; every entry of `N` is the asset node of its key, with the asset
nodes of the children of the key as the operands of its children operator;
two keys have different asset nodes, and the root has none. -/
def BuiltFamily (P : Ports) (assets : List (String × Asset)) (h : Heap)
    (ng : String × Graph) (o : Expression) (k : Kind) (N : BuiltMap) : Prop :=
  ∃ rootAsset r cs, ng.2.node ng.2.root = .ok rootAsset ∧
    familyOp rootAsset.m_type = some k ∧ o = some r ∧
    ng.2.edgesAt ng.2.root = .ok cs ∧
    h[r]? = some ⟨k, rootAsset.m_name, cs.map (nodeOf N)⟩ ∧
    (∀ d ∈ cs, ∃ pc, lookup d N = some pc) ∧
    Built P assets ng.2 k h N ∧
    (∀ k1 k2 pc1 pc2, lookup k1 N = some pc1 → lookup k2 N = some pc2 →
      pc1.1 = pc2.1 → k1 = k2) ∧
    lookup ng.2.m_root N = none

/-- The check of the asset is an operation stored in `h`: no null pointer and
no `Term`. -/
def checkIsOperation (h : Heap) (a : Asset) : Bool :=
  match a.m_check with
  | some p =>
    match h[p]? with
    | some n => n.kind != .term
    | none => false
  | none => false

/-- A valid environment, as far as the fold depends on it (section 3 of the
specification): no family graph has the key `filters`; every parent that a
node declares is a node of its graph; and every filter attached to a node is
an asset of the asset map whose check is an operation. -/
def Environment.valid (env : Environment) : Bool :=
  env.m_graphs.all (fun ng =>
    ng.1 != "filters" &&
    ng.2.m_nodes.all (fun kv =>
      kv.2.m_parents.all (fun p => ng.2.hasNode p) &&
      kv.2.m_filters.all (fun f =>
        match lookup f env.m_assets with
        | some fa => fa.m_type != .filter || checkIsOperation env.heap fa
        | none => false)))

/-- Every node of the graph has its entry in the edge map. -/
def AllEntries (g : Graph) : Prop :=
  ∀ key, g.hasNode key = true → ∃ cs, g.edgesAt key = .ok cs

/-! ## Theorems -/

/-! ### The store -/

theorem length_pushOperand (h : Heap) (i : Nat) (e : Expression) :
    (pushOperand h i e).length = h.length := by
  unfold pushOperand
  cases h[i]? <;> simp

theorem getElem?_pushOperand_ne (h : Heap) (i j : Nat) (e : Expression) (hij : i ≠ j) :
    (pushOperand h i e)[j]? = h[j]? := by
  unfold pushOperand
  cases h[i]? with
  | none => rfl
  | some n => simp [List.getElem?_set_ne hij]

theorem getElem?_pushOperand_self (h : Heap) (i : Nat) (e : Expression) (n : Node)
    (hn : h[i]? = some n) :
    (pushOperand h i e)[i]? = some { n with operands := n.operands ++ [e] } := by
  have hi : i < h.length := (List.getElem?_eq_some.mp hn).1
  unfold pushOperand
  rw [hn]
  simp [List.getElem?_set, hi]

/-! ### The Asset constructor -/

theorem extract_some {key : String} {l : List (String × Json)} {v : Json}
    {r : List (String × Json)} (h : extract key l = some (v, r)) : r = eraseKey key l := by
  induction l generalizing r with
  | nil => simp [extract] at h
  | cons kv rest ih =>
    obtain ⟨k, w⟩ := kv
    by_cases hk : k = key
    · simp [extract, hk] at h
      simp [eraseKey, hk, h.2]
    · simp only [extract, hk, if_false] at h
      cases hx : extract key rest with
      | none => simp [hx] at h
      | some xr =>
        obtain ⟨x, r1⟩ := xr
        simp only [hx, Option.some.injEq, Prod.mk.injEq] at h
        have hx1 : extract key rest = some (v, r1) := by rw [hx, h.1]
        simp [eraseKey, hk, ← h.2, ih hx1]

theorem extract_none {key : String} {l : List (String × Json)} (h : extract key l = none) :
    eraseKey key l = l := by
  induction l with
  | nil => rfl
  | cons kv rest ih =>
    obtain ⟨k, w⟩ := kv
    by_cases hk : k = key
    · simp [extract, hk] at h
    · simp only [extract, hk, if_false] at h
      cases hx : extract key rest with
      | none => simp [eraseKey, hk, ih hx]
      | some xr => simp [hx] at h

theorem eraseKey_sublist (key : String) (l : List (String × Json)) :
    (eraseKey key l).Sublist l := by
  induction l with
  | nil => exact List.Sublist.slnil
  | cons kv rest ih =>
    obtain ⟨k, w⟩ := kv
    by_cases hk : k = key
    · simp [eraseKey, hk]
    · simp only [eraseKey, hk, if_false]
      exact ih.cons₂ _

theorem filter_eraseKey (key : String) (hkey : key ∈ reservedKeys) (l : List (String × Json)) :
    (eraseKey key l).filter isStage = l.filter isStage := by
  induction l with
  | nil => rfl
  | cons kv rest ih =>
    obtain ⟨k, w⟩ := kv
    by_cases hk : k = key
    · subst hk
      have hst : isStage (k, w) = false := by simp [isStage, hkey]
      simp [eraseKey, List.filter_cons, hst]
    · simp only [eraseKey, hk, if_false, List.filter_cons, ih]

theorem keys_eraseKey_subset (key : String) (l : List (String × Json)) :
    ∀ k ∈ (eraseKey key l).map Prod.fst, k ∈ l.map Prod.fst := by
  intro k hk
  exact (List.Sublist.map Prod.fst (eraseKey_sublist key l)).subset hk

theorem nodup_eraseKey (key : String) (l : List (String × Json))
    (hl : (l.map Prod.fst).Nodup) : ((eraseKey key l).map Prod.fst).Nodup :=
  hl.sublist (List.Sublist.map Prod.fst (eraseKey_sublist key l))

theorem not_mem_eraseKey (key : String) (l : List (String × Json))
    (hl : (l.map Prod.fst).Nodup) : key ∉ (eraseKey key l).map Prod.fst := by
  induction l with
  | nil => simp [eraseKey]
  | cons kv rest ih =>
    obtain ⟨k, w⟩ := kv
    simp only [List.map_cons, List.nodup_cons] at hl
    by_cases hk : k = key
    · simp only [eraseKey, hk, if_true]
      exact hk ▸ hl.1
    · simp only [eraseKey, hk, if_false, List.map_cons, List.mem_cons, not_or]
      exact ⟨fun h => hk h.symm, ih hl.2⟩

/-- With pairwise distinct keys, the tuples left for the stages are the tuples
of the definition whose key is not reserved, in the order of the definition. -/
theorem stageTuples_eq_filter (kvs : List (String × Json)) (hn : (kvs.map Prod.fst).Nodup) :
    stageTuples kvs = kvs.filter isStage := by
  have h1 := nodup_eraseKey "name" kvs hn
  have h2 := nodup_eraseKey "parents" _ h1
  have h3 := nodup_eraseKey "metaData" _ h2
  have n1 : "name" ∉ (stageTuples kvs).map Prod.fst := fun h =>
    not_mem_eraseKey "name" kvs hn
      (keys_eraseKey_subset _ _ _ (keys_eraseKey_subset _ _ _ (keys_eraseKey_subset _ _ _ h)))
  have n2 : "parents" ∉ (stageTuples kvs).map Prod.fst := fun h =>
    not_mem_eraseKey "parents" _ h1
      (keys_eraseKey_subset _ _ _ (keys_eraseKey_subset _ _ _ h))
  have n3 : "metaData" ∉ (stageTuples kvs).map Prod.fst := fun h =>
    not_mem_eraseKey "metaData" _ h2 (keys_eraseKey_subset _ _ _ h)
  have n4 : "check" ∉ (stageTuples kvs).map Prod.fst := not_mem_eraseKey "check" _ h3
  have hall : (stageTuples kvs).filter isStage = stageTuples kvs := by
    apply List.filter_eq_self.mpr
    intro kv hkv
    have hm : kv.1 ∈ (stageTuples kvs).map Prod.fst := List.mem_map_of_mem Prod.fst hkv
    simp only [isStage, reservedKeys, List.mem_cons, List.mem_singleton, List.not_mem_nil,
      or_false, decide_eq_true_eq, not_or]
    exact ⟨fun h => n1 (h ▸ hm), fun h => n2 (h ▸ hm), fun h => n3 (h ▸ hm),
      fun h => n4 (h ▸ hm)⟩
  rw [← hall]
  simp only [stageTuples]
  rw [filter_eraseKey "check" (by decide), filter_eraseKey "metaData" (by decide),
    filter_eraseKey "parents" (by decide), filter_eraseKey "name" (by decide)]

/-- Every tuple with a key that is not reserved is left for the stages, and the
tuples left are in the order of the definition. -/
theorem stageTuples_sublist (kvs : List (String × Json)) :
    (kvs.filter isStage).Sublist (stageTuples kvs) ∧ (stageTuples kvs).Sublist kvs := by
  constructor
  · have h : (stageTuples kvs).filter isStage = kvs.filter isStage := by
      simp only [stageTuples]
      rw [filter_eraseKey "check" (by decide), filter_eraseKey "metaData" (by decide),
        filter_eraseKey "parents" (by decide), filter_eraseKey "name" (by decide)]
    rw [← h]
    exact List.filter_sublist _
  · exact ((eraseKey_sublist _ _).trans (eraseKey_sublist _ _)).trans
      ((eraseKey_sublist _ _).trans (eraseKey_sublist _ _))

theorem placedAt_of_agree {h h1 : Heap} {off : Nat} {f : Fragment}
    (hp : PlacedAt h off f) (hag : ∀ i, off ≤ i → i < h.length → h1[i]? = h[i]?) :
    PlacedAt h1 off f := by
  intro j hj
  have hlt : off + j < h.length := (List.getElem?_eq_some.mp (hp j hj)).1
  rw [hag (off + j) (Nat.le_add_right _ _) hlt]
  exact hp j hj

theorem runBuilder_ok {P : Ports} {name : String} {json : Json} {h h1 : Heap}
    {e : Expression} (hr : runBuilder P name json h = .ok (e, h1)) :
    ∃ b f, P.registry name = some b ∧ b json = .ok f ∧ e = rootOf h.length f ∧
      h1 = h ++ f.map (shiftNode h.length) := by
  unfold runBuilder at hr
  cases hb : P.registry name with
  | none => simp [hb] at hr
  | some b =>
    simp only [hb] at hr
    cases hf : b json with
    | error err => simp [hf] at hr
    | ok f =>
      simp only [hf, place, Except.ok.injEq, Prod.mk.injEq] at hr
      exact ⟨b, f, rfl, hf, by rw [← hr.1]; rfl, hr.2.symm⟩

theorem placedAt_append (h : Heap) (f : Fragment) :
    PlacedAt (h ++ f.map (shiftNode h.length)) h.length f := by
  intro j hj
  rw [List.getElem?_append_right (Nat.le_add_right _ _)]
  simp [List.getElem?_map, List.getElem?_eq_getElem hj]

/-- The stage loop: the operands pushed onto the `stages` node are, in order,
the results of the builders of the tuples; no other node that exists changes. -/
theorem buildStages_spec (P : Ports) (s : Nat) :
    ∀ (entries : List (String × Json)) (h h1 : Heap) (ops0 : List Expression),
      h[s]? = some ⟨.and, "stages", ops0⟩ → buildStages P s entries h = .ok h1 →
      ∃ ops, h1[s]? = some ⟨.and, "stages", ops0 ++ ops⟩ ∧
        List.Forall₂ (IsStageResult P h1) entries ops ∧
        (∀ i, i < h.length → i ≠ s → h1[i]? = h[i]?) ∧ h.length ≤ h1.length := by
  intro entries
  induction entries with
  | nil =>
    intro h h1 ops0 hs hb
    simp only [buildStages, Except.ok.injEq] at hb
    subst hb
    exact ⟨[], by simpa using hs, List.Forall₂.nil, fun _ _ _ => rfl, le_refl _⟩
  | cons kv rest ih =>
    intro h h1 ops0 hs hb
    obtain ⟨k, v⟩ := kv
    simp only [buildStages] at hb
    cases hr : runBuilder P ("stage." ++ k) v h with
    | error err => simp [hr] at hb
    | ok res =>
      obtain ⟨e, h2⟩ := res
      simp only [hr] at hb
      obtain ⟨b, f, hreg, hbf, he, hh2⟩ := runBuilder_ok hr
      have hslt : s < h.length := (List.getElem?_eq_some.mp hs).1
      have hs2 : h2[s]? = some ⟨.and, "stages", ops0⟩ := by
        rw [hh2, List.getElem?_append_left hslt]; exact hs
      have hs3 := getElem?_pushOperand_self h2 s e _ hs2
      obtain ⟨ops, hs1, hall, hframe, hlen⟩ := ih (pushOperand h2 s e) h1 (ops0 ++ [e]) hs3 hb
      have hlen2 : h2.length = h.length + f.length := by simp [hh2]
      refine ⟨e :: ops, by simpa using hs1, List.Forall₂.cons ?_ hall, ?_, ?_⟩
      · refine ⟨b, f, h.length, hreg, hbf, ?_, he⟩
        have hp : PlacedAt h2 h.length f := hh2 ▸ placedAt_append h f
        apply placedAt_of_agree hp
        intro i hi hlt
        have hne : i ≠ s := by omega
        rw [hframe i (by rw [length_pushOperand]; exact hlt) hne]
        exact getElem?_pushOperand_ne h2 s i e (Ne.symm hne)
      · intro i hi hne
        rw [hframe i (by rw [length_pushOperand]; omega) hne,
          getElem?_pushOperand_ne h2 s i e (Ne.symm hne), hh2, List.getElem?_append_left hi]
      · rw [length_pushOperand] at hlen
        omega

/-- What a successful run of the constructor went through: the `stages` node
is created after the check and the stage loop runs over the tuples left. -/
theorem fromJson_ok {P : Ports} {kvs : List (String × Json)} {ty : AssetType} {h h1 : Heap}
    {a : Asset} (hp : Asset.fromJson P (.obj kvs) ty h = .ok (a, h1)) :
    ∃ hc : Heap, h.length ≤ hc.length ∧ a.m_stages = some hc.length ∧
      buildStages P hc.length (stageTuples kvs) (hc ++ [⟨.and, "stages", []⟩]) = .ok h1 := by
  simp only [Asset.fromJson, Json.getObject] at hp
  cases h1x : extract "name" kvs with
  | none => simp [h1x] at hp
  | some r1 =>
    obtain ⟨nameJson, obj1⟩ := r1
    have e1 := extract_some h1x
    simp only [h1x] at hp
    cases hn : nameJson.getString with
    | error err => simp [hn] at hp
    | ok nm =>
      simp only [hn] at hp
      split at hp
      · simp at hp
      · rename_i ps obj2 hpar
        have e2 : obj2 = eraseKey "parents" obj1 := by
          cases h2x : extract "parents" obj1 with
          | none =>
            simp only [h2x, Except.ok.injEq, Prod.mk.injEq] at hpar
            rw [extract_none h2x]; exact hpar.2.symm
          | some r2 =>
            obtain ⟨pj, o⟩ := r2
            simp only [h2x] at hpar
            cases hga : pj.getArray with
            | error err => simp [hga] at hpar
            | ok arr =>
              simp only [hga] at hpar
              cases hip : insertParents arr [] with
              | error err => simp [hip] at hpar
              | ok ps1 =>
                simp only [hip, Except.ok.injEq, Prod.mk.injEq] at hpar
                rw [← hpar.2]; exact extract_some h2x
        have e3 : (match extract "metaData" obj2 with
            | none => obj2
            | some (_, o) => o) = eraseKey "metaData" obj2 := by
          cases h3x : extract "metaData" obj2 with
          | none => simp [extract_none h3x]
          | some r3 => obtain ⟨mj, o⟩ := r3; simp [extract_some h3x]
        rw [e3] at hp
        split at hp
        · simp at hp
        · rename_i c hc obj4 hchk
          have e4 : obj4 = eraseKey "check" (eraseKey "metaData" obj2) ∧ h.length ≤ hc.length := by
            cases h4x : extract "check" (eraseKey "metaData" obj2) with
            | none =>
              simp only [h4x, Except.ok.injEq, Prod.mk.injEq] at hchk
              rw [extract_none h4x]
              exact ⟨hchk.2.2.symm, by rw [← hchk.2.1]⟩
            | some r4 =>
              obtain ⟨cj, o⟩ := r4
              simp only [h4x] at hchk
              cases hrb : runBuilder P "stage.check" cj h with
              | error err => simp [hrb] at hchk
              | ok res =>
                obtain ⟨c1, hc1⟩ := res
                simp only [hrb, Except.ok.injEq, Prod.mk.injEq] at hchk
                obtain ⟨b, f, -, -, -, hh⟩ := runBuilder_ok hrb
                refine ⟨by rw [← hchk.2.2]; exact extract_some h4x, ?_⟩
                rw [← hchk.2.1, hh]; simp
          refine ⟨hc, e4.2, ?_, ?_⟩
          · simp only [create] at hp
            split at hp
            · simp at hp
            · simp only [Except.ok.injEq, Prod.mk.injEq] at hp
              rw [← hp.1]
          · simp only [create] at hp
            split at hp
            · simp at hp
            · rename_i h3 hbs
              simp only [Except.ok.injEq, Prod.mk.injEq] at hp
              rw [← hp.2, ← hbs, e4.1, e2, e1, stageTuples]

theorem fromJson_object {P : Ports} {json : Json} {ty : AssetType} {h h1 : Heap} {a : Asset}
    (hp : Asset.fromJson P json ty h = .ok (a, h1)) : ∃ kvs, json = .obj kvs := by
  cases json with
  | obj kvs => exact ⟨kvs, rfl⟩
  | _ => simp [Asset.fromJson, Json.getObject] at hp

theorem forall₂_of_mem {α β : Type} {R : α → β → Prop} {l : List α} {ops : List β}
    (hall : List.Forall₂ R l ops) {x : α} (hx : x ∈ l) : ∃ o, R x o := by
  induction hall with
  | nil => simp at hx
  | cons hab _ ih =>
    rcases List.mem_cons.mp hx with rfl | hx1
    · exact ⟨_, hab⟩
    · exact ih hx1

/-- The stages of a parsed asset: the `stages` node of the asset is an `And`
named `stages` whose operands are the builder results of the tuples left. -/
theorem fromJson_stages {P : Ports} {kvs : List (String × Json)} {ty : AssetType}
    {h h1 : Heap} {a : Asset} (hp : Asset.fromJson P (.obj kvs) ty h = .ok (a, h1)) :
    ∃ s ops, a.m_stages = some s ∧ h1[s]? = some ⟨.and, "stages", ops⟩ ∧
      List.Forall₂ (IsStageResult P h1) (stageTuples kvs) ops := by
  obtain ⟨hc, -, hst, hbs⟩ := fromJson_ok hp
  have hs0 : (hc ++ [(⟨.and, "stages", []⟩ : Node)])[hc.length]? = some ⟨.and, "stages", []⟩ :=
    List.getElem?_concat_length hc _
  obtain ⟨ops, hs1, hall, -, -⟩ := buildStages_spec P hc.length _ _ h1 [] hs0 hbs
  exact ⟨hc.length, ops, hst, by simpa using hs1, hall⟩

/-- C9. When a definition parses, the `stages` node of the asset is
`And("stages", ops)` and `ops` are, in order, the results of the builders
`"stage." + key` on the values of the tuples left once `name`, `parents`,
`metaData` and `check` are taken out.  Those tuples are in the order of the
definition and hold every tuple whose key is none of the four; when the keys of
the definition are pairwise distinct they are exactly the tuples whose key is
none of the four. -/
theorem C9_stages_in_definition_order (P : Ports) (json : Json) (ty : AssetType)
    (h h1 : Heap) (a : Asset) (hp : Asset.fromJson P json ty h = .ok (a, h1)) :
    ∃ kvs s ops, json = .obj kvs ∧ a.m_stages = some s ∧
      h1[s]? = some ⟨.and, "stages", ops⟩ ∧
      List.Forall₂ (IsStageResult P h1) (stageTuples kvs) ops ∧
      (kvs.filter isStage).Sublist (stageTuples kvs) ∧ (stageTuples kvs).Sublist kvs ∧
      ((kvs.map Prod.fst).Nodup → stageTuples kvs = kvs.filter isStage) := by
  obtain ⟨kvs, rfl⟩ := fromJson_object hp
  obtain ⟨s, ops, hs, hnode, hall⟩ := fromJson_stages hp
  exact ⟨kvs, s, ops, rfl, hs, hnode, hall, (stageTuples_sublist kvs).1,
    (stageTuples_sublist kvs).2, stageTuples_eq_filter kvs⟩

/-- C9 at the definition of `d1` of scenario S1, which parses. -/
theorem C9_stages_in_definition_order_witness :
    Asset.fromJson portsS1 defS1 .decoder [] =
      .ok (⟨"d1", some 1, some 2, .decoder, [], []⟩,
        [⟨.term, "c", []⟩, ⟨.and, "check", [some 0]⟩, ⟨.and, "stages", [some 3]⟩,
         ⟨.term, "n", []⟩]) ∧
    ∃ kvs s ops, defS1 = .obj kvs ∧
      (⟨"d1", some 1, some 2, .decoder, [], []⟩ : Asset).m_stages = some s ∧
      ([⟨.term, "c", []⟩, ⟨.and, "check", [some 0]⟩, ⟨.and, "stages", [some 3]⟩,
         ⟨.term, "n", []⟩] : Heap)[s]? = some ⟨.and, "stages", ops⟩ ∧
      List.Forall₂ (IsStageResult portsS1
        [⟨.term, "c", []⟩, ⟨.and, "check", [some 0]⟩, ⟨.and, "stages", [some 3]⟩,
         ⟨.term, "n", []⟩]) (stageTuples kvs) ops ∧
      (kvs.filter isStage).Sublist (stageTuples kvs) ∧ (stageTuples kvs).Sublist kvs ∧
      ((kvs.map Prod.fst).Nodup → stageTuples kvs = kvs.filter isStage) :=
  ⟨rfl, C9_stages_in_definition_order portsS1 defS1 .decoder [] _ _ rfl⟩

/-- C10. Parsing a definition produces no asset when one of its keys other than
`name`, `parents`, `metaData`, `check` has no builder registered under
`"stage." + key`. -/
theorem C10_unknown_stage_rejected (P : Ports) (json : Json) (ty : AssetType) (h : Heap)
    (kvs : List (String × Json)) (k : String) (hj : json = .obj kvs)
    (hk : k ∈ kvs.map Prod.fst) (hres : k ∉ reservedKeys)
    (hreg : P.registry ("stage." ++ k) = none) :
    ∃ e, Asset.fromJson P json ty h = .error e := by
  subst hj
  cases hp : Asset.fromJson P (.obj kvs) ty h with
  | error e => exact ⟨e, rfl⟩
  | ok res =>
    exfalso
    obtain ⟨a, h1⟩ := res
    obtain ⟨s, ops, -, -, hall⟩ := fromJson_stages hp
    obtain ⟨kv, hkv, hfst⟩ := List.mem_map.mp hk
    have hst : kv ∈ kvs.filter isStage := by
      apply List.mem_filter.mpr
      refine ⟨hkv, ?_⟩
      simp only [isStage, decide_eq_true_eq]
      rw [hfst]; exact hres
    obtain ⟨o, b, f, off, hb, -⟩ := forall₂_of_mem hall ((stageTuples_sublist kvs).1.subset hst)
    rw [hfst, hreg] at hb
    exact Option.noConfusion hb

/-- C10 at scenario S4: the definition `d1` with the stage `wat`, for which the
Registry has no `stage.wat`, is rejected as an unknown builder. -/
theorem C10_unknown_stage_rejected_witness :
    Asset.fromJson portsS1 defS4 .decoder [] = .error (.unknownBuilder "stage.wat") ∧
    ∃ e, Asset.fromJson portsS1 defS4 .decoder [] = .error e :=
  ⟨rfl, C10_unknown_stage_rejected portsS1 defS4 .decoder []
    [("name", .str "d1"), ("check", .str "c"), ("wat", .str "w")] "wat" rfl
    (by decide) (by decide) rfl⟩

/-! ### Asset::getExpression -/

/-- What `Asset::getExpression` returns: `Implication(name, check, stages)` for
an asset of type Decoder, Rule or Output, and `And(name, operands of check)`
for a Filter whose check is an operation; the result for a Filter is the same
whatever its stages are. -/
theorem asset_getExpression_spec (a : Asset) (h : Heap) :
    (a.m_type ≠ .filter →
      a.getExpression h =
        .ok (some h.length, h ++ [⟨.implication, a.m_name, [a.m_check, a.m_stages]⟩])) ∧
    (a.m_type = .filter → ∀ p n, a.m_check = some p → h[p]? = some n → n.kind ≠ .term →
      a.getExpression h = .ok (some h.length, h ++ [⟨.and, a.m_name, n.operands⟩])) ∧
    (a.m_type = .filter → ∀ s,
      ({ a with m_stages := s } : Asset).getExpression h = a.getExpression h) := by
  refine ⟨?_, ?_, ?_⟩
  · intro hty
    cases hm : a.m_type <;> simp_all [Asset.getExpression, create]
  · intro hty p n hc hp hk
    simp [Asset.getExpression, hty, getOperands, hc, hp, hk, create]
  · intro hty s
    simp [Asset.getExpression, hty]

/-- C4. The Filter parsed from the definition `defFilterNoCheck`, which has a
name and parents and no `check`: the constructor returns the asset with the
null check, and `Asset::getExpression` on it returns no `And`: it ends with the
dereference of the null check.  The same asset taken as a Decoder gives the
`Implication` with the null check as antecedent. -/
theorem C4_filter_without_check_throws :
    Asset.fromJson portsNoCheck defFilterNoCheck .filter [] =
      .ok (⟨"f", none, some 0, .filter, ["p"], []⟩, [⟨.and, "stages", []⟩]) ∧
    (⟨"f", none, some 0, .filter, ["p"], []⟩ : Asset).getExpression [⟨.and, "stages", []⟩] =
      .error .nullDeref ∧
    (⟨"f", none, some 0, .decoder, ["p"], []⟩ : Asset).getExpression [⟨.and, "stages", []⟩] =
      .ok (some 1, [⟨.and, "stages", []⟩, ⟨.implication, "f", [none, some 0]⟩]) :=
  ⟨rfl, rfl, rfl⟩

/-! ### The fold -/

theorem extends_refl (h : Heap) : Extends h h := fun _ _ => rfl

theorem extends_length {h h1 : Heap} (he : Extends h h1) : h.length ≤ h1.length := by
  by_contra hlt
  have hpos : h1.length < h.length := Nat.lt_of_not_le hlt
  have h1n : h1[h1.length]? = none := List.getElem?_eq_none (le_refl _)
  rw [he _ hpos, List.getElem?_eq_getElem hpos] at h1n
  exact Option.noConfusion h1n

theorem extends_trans {h h1 h2 : Heap} (h01 : Extends h h1) (h12 : Extends h1 h2) :
    Extends h h2 := by
  intro i hi
  rw [h12 i (Nat.lt_of_lt_of_le hi (extends_length h01)), h01 i hi]

theorem extends_append (h t : Heap) : Extends h (h ++ t) :=
  fun _ hi => List.getElem?_append_left hi

theorem extends_of_agreeExcept {t : Nat} {h0 h h1 : Heap} (h0h : Extends h0 h)
    (ht : h0.length ≤ t) (ha : AgreeExcept t h h1) : Extends h0 h1 := by
  intro i hi
  rw [ha i (Nat.lt_of_lt_of_le hi (extends_length h0h)) (by omega), h0h i hi]

theorem agreeOffChain_of_extends {h h1 : Heap} (he : Extends h h1) : AgreeOffChain h h1 := by
  intro i n hn _
  rw [he i (List.getElem?_eq_some.mp hn).1]; exact hn

theorem agreeOffChain_trans {h h1 h2 : Heap} (h01 : AgreeOffChain h h1)
    (h12 : AgreeOffChain h1 h2) : AgreeOffChain h h2 :=
  fun i n hn hk => h12 i n (h01 i n hn hk) hk

theorem shape_agree {k : Kind} {h h1 : Heap} {S S1 : List Nat} {p : Nat}
    (hk : k ≠ .chain) (hs : AssetNodeShape k h S p) (ha : AgreeOffChain h h1)
    (hsub : S ⊆ S1) : AssetNodeShape k h1 S1 p := by
  obtain ⟨nm, a, x, c, ops, hp, hx, hc, hops⟩ := hs
  refine ⟨nm, a, x, c, ops, ha p _ hp (by simp), ?_, ha c _ hc (by simpa using hk), ?_⟩
  · rcases hx with hx | ⟨fs, hfs⟩
    · exact Or.inl hx
    · exact Or.inr ⟨fs, ha x _ hfs (by simp)⟩
  · intro o ho
    obtain ⟨q, hq, hoq⟩ := hops o ho
    exact ⟨q, hsub hq, hoq⟩

theorem nodesOK_agree {k : Kind} {h h1 : Heap} {S : List Nat} (hk : k ≠ .chain)
    (hs : NodesOK k h S) (ha : AgreeOffChain h h1) : NodesOK k h1 S :=
  fun p hp => shape_agree hk (hs p hp) ha (fun _ hx => hx)

theorem shape_push {k : Kind} {h : Heap} {S : List Nat} {p t : Nat} {nm : String}
    {ops : List Expression} {e : Expression} (hki : k ≠ .implication) (hka : k ≠ .and)
    (hs : AssetNodeShape k h S p) (ht : h[t]? = some ⟨k, nm, ops⟩)
    (he : ∃ q ∈ S, e = some q) : AssetNodeShape k (pushOperand h t e) S p := by
  obtain ⟨nm1, a, x, c, ops1, hp, hx, hc, hops⟩ := hs
  have hpt : t ≠ p := by
    intro heq; rw [heq, hp] at ht
    simp only [Option.some.injEq, Node.mk.injEq] at ht
    exact hki ht.1.symm
  by_cases hct : t = c
  · subst hct
    rw [hc] at ht
    simp only [Option.some.injEq, Node.mk.injEq] at ht
    refine ⟨nm1, a, x, t, ops1 ++ [e], ?_, ?_, ?_, ?_⟩
    · rw [getElem?_pushOperand_ne h t p e hpt]; exact hp
    · rcases hx with hx | ⟨fs, hfs⟩
      · exact Or.inl hx
      · right
        refine ⟨fs, ?_⟩
        have hxt : t ≠ x := by
          intro heq; rw [← heq, hc] at hfs
          simp only [Option.some.injEq, Node.mk.injEq] at hfs
          exact hka hfs.1
        rw [getElem?_pushOperand_ne h t x e hxt]; exact hfs
    · rw [getElem?_pushOperand_self h t e _ hc]
    · intro o ho
      rcases List.mem_append.mp ho with ho | ho
      · exact hops o ho
      · rw [List.mem_singleton.mp ho]; exact he
  · refine ⟨nm1, a, x, c, ops1, ?_, ?_, ?_, hops⟩
    · rw [getElem?_pushOperand_ne h t p e hpt]; exact hp
    · rcases hx with hx | ⟨fs, hfs⟩
      · exact Or.inl hx
      · right
        refine ⟨fs, ?_⟩
        have hxt : t ≠ x := by
          intro heq; rw [← heq, ht] at hfs
          simp only [Option.some.injEq, Node.mk.injEq] at hfs
          exact hka hfs.1
        rw [getElem?_pushOperand_ne h t x e hxt]; exact hfs
    · rw [getElem?_pushOperand_ne h t c e hct]; exact hc

theorem getExpression_ok {a : Asset} {h h1 : Heap} {e : Expression}
    (hg : a.getExpression h = .ok (e, h1)) : ∃ n, h1 = h ++ [n] ∧ e = some h.length := by
  unfold Asset.getExpression at hg
  cases hty : a.m_type <;> simp only [hty, create, Except.ok.injEq, Prod.mk.injEq] at hg
  · exact ⟨_, hg.2.symm, hg.1.symm⟩
  · cases hop : getOperands h a.m_check with
    | error err => simp [hop] at hg
    | ok ops =>
      simp only [hop, Except.ok.injEq, Prod.mk.injEq] at hg
      exact ⟨_, hg.2.symm, hg.1.symm⟩
  · exact ⟨_, hg.2.symm, hg.1.symm⟩
  · exact ⟨_, hg.2.symm, hg.1.symm⟩

/-- The filter loop pushes onto the `filters` node only and leaves every other
existing node as it is. -/
theorem pushFilters_spec (assets : List (String × Asset)) (f : Nat) :
    ∀ (names : List String) (h h1 : Heap) (ops0 : List Expression),
      h[f]? = some ⟨.and, "filters", ops0⟩ → pushFilters assets f names h = .ok h1 →
      ∃ ops, h1[f]? = some ⟨.and, "filters", ops0 ++ ops⟩ ∧ AgreeExcept f h h1 ∧
        h.length ≤ h1.length := by
  intro names
  induction names with
  | nil =>
    intro h h1 ops0 hf hp
    simp only [pushFilters, Except.ok.injEq] at hp
    subst hp
    exact ⟨[], by simpa using hf, fun _ _ _ => rfl, le_refl _⟩
  | cons nm rest ih =>
    intro h h1 ops0 hf hp
    simp only [pushFilters] at hp
    cases hl : lookup nm assets with
    | none => simp [hl] at hp
    | some fa =>
      simp only [hl] at hp
      cases hg : fa.getExpression h with
      | error err => simp [hg] at hp
      | ok res =>
        obtain ⟨e, h2⟩ := res
        simp only [hg] at hp
        obtain ⟨n, hh2, -⟩ := getExpression_ok hg
        have hflt : f < h.length := (List.getElem?_eq_some.mp hf).1
        have hf2 : h2[f]? = some ⟨.and, "filters", ops0⟩ := by
          rw [hh2, List.getElem?_append_left hflt]; exact hf
        obtain ⟨ops, hf1, hag, hlen⟩ :=
          ih (pushOperand h2 f e) h1 (ops0 ++ [e]) (getElem?_pushOperand_self h2 f e _ hf2) hp
        rw [length_pushOperand] at hlen
        have hl2 : h2.length = h.length + 1 := by simp [hh2]
        refine ⟨e :: ops, by simpa using hf1, ?_, by omega⟩
        intro i hi hne
        rw [hag i (by rw [length_pushOperand]; omega) hne,
          getElem?_pushOperand_ne h2 f i e (Ne.symm hne), hh2, List.getElem?_append_left hi]

/-- The node that `visit` creates for an asset: an `Implication` whose
consequent is the children operator `c` or an `And` named `filters` that ends
with `c`; no node that existed before changes. -/
theorem buildAssetNode_spec {P : Ports} {assets : List (String × Asset)} {asset : Asset}
    {c p : Nat} {h h1 : Heap} (hb : buildAssetNode P assets asset c h = .ok (p, h1)) :
    Extends h h1 ∧ ∃ nm a x, h1[p]? = some ⟨.implication, nm, [a, some x]⟩ ∧
      (x = c ∨ ∃ fs, h1[x]? = some ⟨.and, "filters", fs ++ [some c]⟩) := by
  unfold buildAssetNode at hb
  split at hb
  · simp only [create] at hb
    cases hpf : pushFilters assets h.length (P.iter asset.m_filters)
        (h ++ [⟨.and, "filters", []⟩]) with
    | error err => simp [hpf] at hb
    | ok h2 =>
      simp only [hpf] at hb
      cases hg : asset.getExpression (pushOperand h2 h.length (some c)) with
      | error err => simp [hg] at hb
      | ok res =>
        obtain ⟨a, h4⟩ := res
        simp only [hg, Except.ok.injEq, Prod.mk.injEq] at hb
        obtain ⟨ops, hf2, hag, hlen⟩ := pushFilters_spec assets h.length _ _ h2 []
          (List.getElem?_concat_length h _) hpf
        obtain ⟨n, hh4, -⟩ := getExpression_ok hg
        have hf3 := getElem?_pushOperand_self h2 h.length (some c) _ hf2
        have hl0 : (h ++ [(⟨.and, "filters", []⟩ : Node)]).length = h.length + 1 := by simp
        have hl3 : (pushOperand h2 h.length (some c)).length = h2.length :=
          length_pushOperand _ _ _
        have hflt : h.length < (pushOperand h2 h.length (some c)).length := by
          rw [hl3]; omega
        refine ⟨?_, asset.m_name ++ "Node", a, h.length, ?_, Or.inr ⟨ops, ?_⟩⟩
        · intro i hi
          rw [← hb.2, List.getElem?_append_left (by rw [hh4]; simp; omega), hh4,
            List.getElem?_append_left (by omega),
            getElem?_pushOperand_ne h2 h.length i (some c) (by omega),
            hag i (by omega) (by omega), List.getElem?_append_left hi]
        · rw [← hb.2, ← hb.1]; simp
        · rw [← hb.2, List.getElem?_append_left (by rw [hh4]; simp; omega), hh4,
            List.getElem?_append_left hflt, hf3]
          simp
  · cases hg : asset.getExpression h with
    | error err => simp [hg] at hb
    | ok res =>
      obtain ⟨a, h2⟩ := res
      simp only [hg, create, Except.ok.injEq, Prod.mk.injEq] at hb
      obtain ⟨n, hh2, -⟩ := getExpression_ok hg
      refine ⟨?_, asset.m_name ++ "Node", a, c, ?_, Or.inl rfl⟩
      · rw [← hb.2, hh2, List.append_assoc]
        exact extends_append h _
      · rw [← hb.2, ← hb.1]; simp

theorem lookup_append_none {α : Type} {key : String} {m t : List (String × α)}
    (hm : lookup key m = none) : lookup key (m ++ t) = lookup key t := by
  induction m with
  | nil => rfl
  | cons kv rest ih =>
    obtain ⟨k, v⟩ := kv
    by_cases hk : k = key
    · simp [lookup, hk] at hm
    · simp only [lookup, hk, if_false] at hm
      simp only [List.cons_append, lookup, hk, if_false]
      exact ih hm

theorem lookup_append_some {α : Type} {key : String} {m t : List (String × α)} {v : α}
    (hm : lookup key m = some v) : lookup key (m ++ t) = some v := by
  induction m with
  | nil => simp [lookup] at hm
  | cons kv rest ih =>
    obtain ⟨k, w⟩ := kv
    by_cases hk : k = key
    · simp only [lookup, hk, if_true] at hm
      simp [lookup, hk, hm]
    · simp only [lookup, hk, if_false] at hm
      simp only [List.cons_append, lookup, hk, if_false]
      exact ih hm

theorem cacheIn_insert {S : List Nat} {cache : List (String × Expression)} {cur : String}
    {p : Nat} (hc : CacheIn S cache) (hp : p ∈ S) :
    CacheIn S (mapInsert cache cur (some p)) := by
  intro key e hl
  unfold mapInsert at hl
  cases hcur : lookup cur cache with
  | some v => rw [hcur] at hl; exact hc key e hl
  | none =>
    rw [hcur] at hl
    cases hkey : lookup key cache with
    | some v =>
      rw [lookup_append_some hkey] at hl
      exact hc key e (hkey.trans hl)
    | none =>
      rw [lookup_append_none hkey] at hl
      by_cases hk : cur = key
      · simp only [lookup, hk, if_true, Option.some.injEq] at hl
        exact ⟨p, hp, hl.symm⟩
      · simp [lookup, hk] at hl

theorem cacheIn_mono {S S1 : List Nat} {cache : List (String × Expression)}
    (hc : CacheIn S cache) (hsub : S ⊆ S1) : CacheIn S1 cache := by
  intro key e hl
  obtain ⟨q, hq, he⟩ := hc key e hl
  exact ⟨q, hsub hq, he⟩

/-- The loop over the children of a node: the results of the visits are pushed
onto the operator `op`, which keeps its kind and name; the listed nodes stay
asset nodes. -/
theorem visitChildren_spec {k : Kind} (hki : k ≠ .implication) (hka : k ≠ .and)
    {visitRef : String → FoldState → Except Err (Expression × FoldState)}
    (hv : VisitOK k visitRef) (op : Nat) (nm : String) :
    ∀ (children : List String) (st st1 : FoldState) (S : List Nat) (ops : List Expression),
      NodesOK k st.heap S → CacheIn S st.sharedParents →
      st.heap[op]? = some ⟨k, nm, ops⟩ → AllIn S ops →
      visitChildren visitRef op children st = .ok st1 →
      ∃ S1 ops1, S ⊆ S1 ∧ NodesOK k st1.heap S1 ∧ CacheIn S1 st1.sharedParents ∧
        AgreeExcept op st.heap st1.heap ∧ st1.heap[op]? = some ⟨k, nm, ops1⟩ ∧
        AllIn S1 ops1 := by
  intro children
  induction children with
  | nil =>
    intro st st1 S ops hn hc hop hall hvc
    simp only [visitChildren, Except.ok.injEq] at hvc
    subst hvc
    exact ⟨S, ops, fun _ hx => hx, hn, hc, fun _ _ _ => rfl, hop, hall⟩
  | cons child rest ih =>
    intro st st1 S ops hn hc hop hall hvc
    simp only [visitChildren] at hvc
    cases hr : visitRef child st with
    | error err => simp [hr] at hvc
    | ok res =>
      obtain ⟨e, st2⟩ := res
      simp only [hr] at hvc
      obtain ⟨S2, hsub, hn2, hc2, hext, he⟩ := hv child st e st2 S hn hc hr
      have hoplt : op < st.heap.length := (List.getElem?_eq_some.mp hop).1
      have hop2 : st2.heap[op]? = some ⟨k, nm, ops⟩ := by rw [hext op hoplt]; exact hop
      have hn3 : NodesOK k (pushOperand st2.heap op e) S2 :=
        fun p hp => shape_push hki hka (hn2 p hp) hop2 he
      have hall3 : AllIn S2 (ops ++ [e]) := by
        intro o ho
        rcases List.mem_append.mp ho with ho | ho
        · obtain ⟨q, hq, hoq⟩ := hall o ho
          exact ⟨q, hsub hq, hoq⟩
        · rw [List.mem_singleton.mp ho]; exact he
      obtain ⟨S1, ops1, hsub1, hn1, hc1, hag1, hop1, hall1⟩ :=
        ih ⟨pushOperand st2.heap op e, st2.sharedParents⟩ st1 S2 (ops ++ [e]) hn3 hc2
          (getElem?_pushOperand_self st2.heap op e _ hop2) hall3 hvc
      refine ⟨S1, ops1, fun _ hx => hsub1 (hsub hx), hn1, hc1, ?_, hop1, hall1⟩
      intro i hi hne
      have hi2 : i < st2.heap.length := Nat.lt_of_lt_of_le hi (extends_length hext)
      rw [hag1 i (by simpa [length_pushOperand] using hi2) hne]
      simp only
      rw [getElem?_pushOperand_ne st2.heap op i e (Ne.symm hne), hext i hi]

theorem familyOp_kind {t : AssetType} {k : Kind} (h : familyOp t = some k) :
    k ≠ .implication ∧ k ≠ .and ∧ k ≠ .chain := by
  cases t <;> simp [familyOp] at h <;> subst h <;> simp

/-- Every run of `visit` that returns keeps the shape of the family. -/
theorem visit_spec (P : Ports) (assets : List (String × Asset)) (graph : Graph)
    (graphType : AssetType) (k : Kind) (hfam : familyOp graphType = some k) :
    ∀ fuel, VisitOK k (visit P assets graph graphType fuel) := by
  obtain ⟨hki, hka, hkc⟩ := familyOp_kind hfam
  intro fuel
  induction fuel with
  | zero =>
    intro cur st e st1 S _ _ hvis
    simp [visit] at hvis
  | succ fuel ih =>
    intro cur st e st1 S hn hc hvis
    simp only [visit] at hvis
    cases hl : lookup cur st.sharedParents with
    | some e0 =>
      simp only [hl, Except.ok.injEq, Prod.mk.injEq] at hvis
      obtain ⟨q, hq, he⟩ := hc cur e0 hl
      exact ⟨S, fun _ hx => hx, hvis.2 ▸ hn, hvis.2 ▸ hc, hvis.2 ▸ extends_refl _,
        q, hq, hvis.1 ▸ he⟩
    | none =>
      simp only [hl] at hvis
      cases hnode : graph.node cur with
      | error err => simp [hnode] at hvis
      | ok asset =>
        simp only [hnode, hfam, create] at hvis
        cases hb : buildAssetNode P assets asset st.heap.length
            (st.heap ++ [⟨k, "children", []⟩]) with
        | error err => simp [hb] at hvis
        | ok res =>
          obtain ⟨p, h2⟩ := res
          simp only [hb] at hvis
          cases hedges : graph.edgesAt cur with
          | error err => simp [hedges] at hvis
          | ok children =>
            simp only [hedges] at hvis
            split at hvis
            · simp at hvis
            · rename_i st2 hvc
              simp only [Except.ok.injEq, Prod.mk.injEq] at hvis
              obtain ⟨hext2, nm, a, x, hp, hx⟩ := buildAssetNode_spec hb
              have hext02 : Extends st.heap h2 := extends_trans (extends_append _ _) hext2
              have hc2 : h2[st.heap.length]? = some ⟨k, "children", []⟩ := by
                rw [hext2 _ (by simp)]
                exact List.getElem?_concat_length _ _
              have hn2 : NodesOK k h2 (p :: S) := by
                intro q hq
                rcases List.mem_cons.mp hq with rfl | hq
                · exact ⟨nm, a, x, st.heap.length, [], hp, hx, hc2, by simp⟩
                · exact shape_agree hkc (hn q hq) (agreeOffChain_of_extends hext02)
                    (List.subset_cons_self _ _)
              have hcache : CacheIn (p :: S)
                  (if asset.m_parents.length > 1 then mapInsert st.sharedParents cur (some p)
                   else st.sharedParents) := by
                split
                · exact cacheIn_insert (cacheIn_mono hc (List.subset_cons_self _ _))
                    (List.mem_cons_self _ _)
                · exact cacheIn_mono hc (List.subset_cons_self _ _)
              obtain ⟨S1, ops1, hsub1, hn1, hc1, hag1, -, -⟩ :=
                visitChildren_spec hki hka ih st.heap.length "children" children
                  ⟨h2, _⟩ st2 (p :: S) [] hn2 hcache hc2 (by simp [AllIn]) hvc
              refine ⟨S1, fun _ hx => hsub1 (List.mem_cons_of_mem _ hx), hvis.2 ▸ hn1,
                hvis.2 ▸ hc1, hvis.2 ▸ extends_of_agreeExcept hext02 (le_refl _) hag1,
                p, hsub1 (List.mem_cons_self _ _), hvis.1.symm⟩

/-- The loop over the family graphs: every graph adds one operand to the top
`Chain`, in the order of the list, and each operand is the root operator of
its family. -/
theorem foldGraphs_spec (P : Ports) (assets : List (String × Asset)) (envp : Nat)
    (nm : String) :
    ∀ (graphs : List (String × Graph)) (h hfin : Heap) (ops0 : List Expression),
      h[envp]? = some ⟨.chain, nm, ops0⟩ →
      foldGraphs P assets envp graphs h = .ok hfin →
      ∃ ops, hfin[envp]? = some ⟨.chain, nm, ops0 ++ ops⟩ ∧ AgreeOffChain h hfin ∧
        List.Forall₂ (FamilyOperand hfin) graphs ops := by
  intro graphs
  induction graphs with
  | nil =>
    intro h hfin ops0 he hf
    simp only [foldGraphs, Except.ok.injEq] at hf
    subst hf
    exact ⟨[], by simpa using he, fun _ _ hn _ => hn, List.Forall₂.nil⟩
  | cons ng rest ih =>
    intro h hfin ops0 he hf
    obtain ⟨name, graph⟩ := ng
    simp only [foldGraphs] at hf
    cases hroot : graph.node graph.root with
    | error err => simp [hroot] at hf
    | ok rootAsset =>
      simp only [hroot] at hf
      cases hfam : familyOp rootAsset.m_type with
      | none => simp [hfam] at hf
      | some k =>
        simp only [hfam, create] at hf
        cases hedges : graph.edgesAt graph.root with
        | error err => simp [hedges] at hf
        | ok children =>
          simp only [hedges] at hf
          split at hf
          · simp at hf
          · rename_i st hvc
            obtain ⟨hki, hka, hkc⟩ := familyOp_kind hfam
            have helt : envp < h.length := (List.getElem?_eq_some.mp he).1
            have hne : envp ≠ h.length := Nat.ne_of_lt helt
            have he1 : (h ++ [(⟨k, rootAsset.m_name, []⟩ : Node)])[envp]? =
                some ⟨.chain, nm, ops0⟩ := by
              rw [List.getElem?_append_left helt]; exact he
            have hr2 : (pushOperand (h ++ [(⟨k, rootAsset.m_name, []⟩ : Node)]) envp
                (some h.length))[h.length]? = some ⟨k, rootAsset.m_name, []⟩ := by
              rw [getElem?_pushOperand_ne _ envp h.length _ hne]
              exact List.getElem?_concat_length _ _
            have hl2 : (pushOperand (h ++ [(⟨k, rootAsset.m_name, []⟩ : Node)]) envp
                (some h.length)).length = h.length + 1 := by
              rw [length_pushOperand]; simp
            have he2 := getElem?_pushOperand_self _ envp (some h.length) _ he1
            have hag : ∀ i, i < h.length → i ≠ envp →
                (pushOperand (h ++ [(⟨k, rootAsset.m_name, []⟩ : Node)]) envp
                  (some h.length))[i]? = h[i]? := by
              intro i hi hie
              rw [getElem?_pushOperand_ne _ envp i _ (Ne.symm hie),
                List.getElem?_append_left hi]
            generalize pushOperand (h ++ [(⟨k, rootAsset.m_name, []⟩ : Node)]) envp
              (some h.length) = h2 at hvc hr2 hl2 he2 hag
            obtain ⟨S1, ops1, -, hn1, -, hag1, hop1, hall1⟩ :=
              visitChildren_spec hki hka
                (visit_spec P assets graph rootAsset.m_type k hfam (visitFuel graph))
                h.length rootAsset.m_name children ⟨h2, []⟩ st [] []
                (by intro p hp; simp at hp) (by intro key e hl; simp [lookup] at hl)
                hr2 (by simp [AllIn]) hvc
            have hag1a : AgreeExcept h.length h2 st.heap := hag1
            have hest : st.heap[envp]? = some ⟨.chain, nm, ops0 ++ [some h.length]⟩ := by
              rw [hag1a envp (by omega) hne]
              exact he2
            obtain ⟨ops, hfin1, hag2, hall2⟩ := ih st.heap hfin (ops0 ++ [some h.length]) hest hf
            have hag0 : AgreeOffChain h st.heap := by
              intro i n hin hnk
              have hilt : i < h.length := (List.getElem?_eq_some.mp hin).1
              have hie : i ≠ envp := by
                intro heq; rw [heq, he] at hin
                simp only [Option.some.injEq] at hin
                rw [← hin] at hnk; exact hnk rfl
              rw [hag1a i (by omega) (Nat.ne_of_lt hilt), hag i hilt hie]
              exact hin
            refine ⟨some h.length :: ops, by simpa using hfin1,
              agreeOffChain_trans hag0 hag2, List.Forall₂.cons ?_ hall2⟩
            refine ⟨rootAsset, k, h.length, hroot, hfam, rfl, ops1, S1,
              hag2 _ _ hop1 (by simpa using hkc), hall1, nodesOK_agree hkc hn1 hag2⟩

/-- The result of `getExpression`, when it returns: the top `Chain` named as
the environment, with one operand per family graph in the order of the graph
map, each the root operator of its family. -/
theorem getExpression_families {P : Ports} {env : Environment} {r : Expression}
    {h : Heap} (hg : env.getExpression P = .ok (r, h)) :
    ∃ rp ops, r = some rp ∧ h[rp]? = some ⟨.chain, env.m_name, ops⟩ ∧
      List.Forall₂ (FamilyOperand h) env.m_graphs ops := by
  simp only [Environment.getExpression, create] at hg
  split at hg
  · simp at hg
  · rename_i hfin hf
    simp only [Except.ok.injEq, Prod.mk.injEq] at hg
    obtain ⟨ops, hfin1, -, hall⟩ := foldGraphs_spec P env.m_assets env.heap.length env.m_name
      env.m_graphs _ hfin [] (List.getElem?_concat_length _ _) hf
    exact ⟨env.heap.length, ops, hg.1.symm, by simpa [← hg.2] using hfin1, hg.2 ▸ hall⟩

/-! ### The constructor of the environment -/

theorem lookup_insertFilter {key name r : String} {l : List (String × Asset)} {ra : Asset}
    (hl : lookup r l = some ra) :
    ∃ rb, lookup r (insertFilter key name l) = some rb ∧ rb.m_name = ra.m_name ∧
      rb.m_type = ra.m_type := by
  induction l with
  | nil => simp [lookup] at hl
  | cons kv rest ih =>
    obtain ⟨k, a⟩ := kv
    by_cases hk : k = key
    · subst hk
      by_cases hr : k = r
      · subst hr
        simp only [lookup, if_true, Option.some.injEq] at hl
        subst hl
        exact ⟨{ a with m_filters := setInsert a.m_filters name },
          by simp [insertFilter, lookup], rfl, rfl⟩
      · simp only [lookup, hr, if_false] at hl
        exact ⟨ra, by simp [insertFilter, lookup, hr, hl], rfl, rfl⟩
    · by_cases hr : k = r
      · subst hr
        simp only [lookup, if_true, Option.some.injEq] at hl
        subst hl
        exact ⟨a, by simp [insertFilter, hk, lookup], rfl, rfl⟩
      · simp only [lookup, hr, if_false] at hl
        obtain ⟨rb, hrb, h1, h2⟩ := ih hl
        exact ⟨rb, by simp [insertFilter, hk, lookup, hr, hrb], h1, h2⟩

theorem addEdge_ok {g g1 : Graph} {parent child : String}
    (h : g.addEdge parent child = .ok g1) :
    g1 = { g with m_edges := insertEdge parent child g.m_edges } ∧
      findPath g.m_edges (g.m_edges.length + 1) child parent = none := by
  unfold Graph.addEdge at h
  cases hf : findPath g.m_edges (g.m_edges.length + 1) child parent with
  | some path => simp [hf] at h
  | none =>
    simp only [hf, Except.ok.injEq] at h
    exact ⟨h.symm, rfl⟩

/-- What `addEdge` leaves alone, it leaves alone over the loop of the parents. -/
theorem addParentEdges_induct (Q : Graph → Prop) (name : String)
    (hstep : ∀ (g g1 : Graph) (parent : String), g.addEdge parent name = .ok g1 → Q g → Q g1) :
    ∀ (parents : List String) (g g1 : Graph),
      addParentEdges name parents g = .ok g1 → Q g → Q g1 := by
  intro parents
  induction parents with
  | nil =>
    intro g g1 h hq
    simp only [addParentEdges, Except.ok.injEq] at h
    exact h ▸ hq
  | cons parent rest ih =>
    intro g g1 h hq
    simp only [addParentEdges] at h
    cases he : g.addEdge parent name with
    | error err => simp [he] at h
    | ok g2 =>
      simp only [he] at h
      exact ih g2 g1 h (hstep g g2 parent he hq)

/-- One round of the loop of `buildGraph` that ends well: the asset is parsed,
its node added, its edges added, and the loop goes on. -/
theorem buildGraphLoop_cons {P : Ports} {ty : AssetType} {name : String} {json : Json}
    {rest : List (String × Json)} {assets : List (String × Asset)} {g : Graph} {h : Heap}
    {r : List (String × Asset) × Graph × Heap}
    (hb : buildGraphLoop P ty ((name, json) :: rest) (assets, g, h) = .ok r) :
    ∃ asset h1 g1 g2, Asset.fromJson P json ty h = .ok (asset, h1) ∧
      g.addNode name asset = .ok g1 ∧
      (if asset.m_parents.isEmpty then g1.addEdge g1.root name
        else addParentEdges name (P.iter asset.m_parents) g1) = .ok g2 ∧
      buildGraphLoop P ty rest (mapInsert assets name asset, g2, h1) = .ok r := by
  rw [buildGraphLoop] at hb
  split at hb
  · cases hb
  · rename_i asset h1 hp
    split at hb
    · cases hb
    · rename_i g1 hadd
      split at hb
      · cases hb
      · rename_i g2 he
        exact ⟨asset, h1, g1, g2, hp, hadd, he, hb⟩

/-- What `addEdge` leaves alone, the edges of one asset leave alone. -/
theorem addAssetEdges_induct (Q : Graph → Prop) (P : Ports) (name : String) (asset : Asset)
    (hstep : ∀ (g g1 : Graph) (parent : String), g.addEdge parent name = .ok g1 → Q g → Q g1)
    {g g1 : Graph}
    (he : (if asset.m_parents.isEmpty then g.addEdge g.root name
        else addParentEdges name (P.iter asset.m_parents) g) = .ok g1) (hq : Q g) : Q g1 := by
  split at he
  · exact hstep _ _ _ he hq
  · exact addParentEdges_induct Q name hstep _ _ _ he hq

theorem rootOK_addEdge {family : String} {g g1 : Graph} {parent child : String}
    (he : g.addEdge parent child = .ok g1) (hr : RootOK family g) : RootOK family g1 := by
  rw [(addEdge_ok he).1]; exact hr

theorem rootOK_addNode {family key : String} {a : Asset} {g g1 : Graph}
    (ha : g.addNode key a = .ok g1) (hr : RootOK family g) : RootOK family g1 := by
  unfold Graph.addNode at ha
  split at ha
  · simp at ha
  · simp only [Except.ok.injEq] at ha
    obtain ⟨ra, hl, hn, ht⟩ := hr
    exact ⟨ra, by rw [← ha]; exact lookup_append_some hl, hn, ht⟩


theorem rootOK_buildGraphLoop {family : String} (P : Ports) (ty : AssetType) :
    ∀ (defs : List (String × Json)) (assets assets1 : List (String × Asset))
      (g g1 : Graph) (h h1 : Heap),
      buildGraphLoop P ty defs (assets, g, h) = .ok (assets1, g1, h1) →
      RootOK family g → RootOK family g1 := by
  intro defs
  induction defs with
  | nil =>
    intro assets assets1 g g1 h h1 hb hr
    simp only [buildGraphLoop, Except.ok.injEq, Prod.mk.injEq] at hb
    exact hb.2.1 ▸ hr
  | cons d rest ih =>
    intro assets assets1 g g1 h h1 hb hr
    obtain ⟨name, json⟩ := d
    obtain ⟨asset, h2, g2, g3, -, hadd, he, hb2⟩ := buildGraphLoop_cons hb
    refine ih _ _ _ _ _ _ hb2 ?_
    exact addAssetEdges_induct (RootOK family) P name asset
      (fun _ _ _ he1 hq => rootOK_addEdge he1 hq) he (rootOK_addNode hadd hr)

theorem rootOK_addFilterTo {family : String} (name : String) :
    ∀ (parents : List String) (g : Graph), RootOK family g →
      RootOK family (addFilterTo name parents g) := by
  intro parents
  induction parents with
  | nil => intro g hr; exact hr
  | cons parent rest ih =>
    intro g hr
    simp only [addFilterTo]
    split
    · apply ih
      obtain ⟨ra, hl, hn, ht⟩ := hr
      obtain ⟨rb, hlb, hnb, htb⟩ := @lookup_insertFilter parent name _ _ _ hl
      exact ⟨rb, hlb, hnb.trans hn, htb ▸ ht⟩
    · exact ih _ hr

theorem rootOK_addFiltersLoop {family : String} (P : Ports) :
    ∀ (assets : List (String × Asset)) (g : Graph), RootOK family g →
      RootOK family (addFiltersLoop P assets g) := by
  intro assets
  induction assets with
  | nil => intro g hr; exact hr
  | cons na rest ih =>
    intro g hr
    obtain ⟨name, asset⟩ := na
    simp only [addFiltersLoop]
    split
    · exact ih _ (rootOK_addFilterTo name _ _ hr)
    · exact ih _ hr

theorem mem_sortedInsert {α : Type} {key : String} {v : α} {l : List (String × α)}
    {x : String × α} (hx : x ∈ sortedInsert key v l) : x ∈ l ∨ x = (key, v) := by
  induction l with
  | nil => right; simpa [sortedInsert] using hx
  | cons kv rest ih =>
    obtain ⟨k, w⟩ := kv
    simp only [sortedInsert] at hx
    split at hx
    · exact Or.inl hx
    · split at hx
      · rcases List.mem_cons.mp hx with h1 | h1
        · exact Or.inr h1
        · exact Or.inl h1
      · rcases List.mem_cons.mp hx with h1 | h1
        · exact Or.inl (h1 ▸ List.mem_cons_self _ _)
        · rcases ih h1 with h2 | h2
          · exact Or.inl (List.mem_cons_of_mem _ h2)
          · exact Or.inr h2

theorem mem_mapSet {α : Type} {key : String} {v : α} {l : List (String × α)}
    {x : String × α} (hx : x ∈ mapSet key v l) :
    x ∈ l ∨ (x = (key, v) ∧ ∃ w, lookup key l = some w) := by
  induction l with
  | nil => simp [mapSet] at hx
  | cons kv rest ih =>
    obtain ⟨k, w⟩ := kv
    simp only [mapSet] at hx
    by_cases hk : k = key
    · simp only [hk, if_true] at hx
      rcases List.mem_cons.mp hx with h1 | h1
      · exact Or.inr ⟨h1, w, by simp [lookup, hk]⟩
      · exact Or.inl (List.mem_cons_of_mem _ h1)
    · simp only [hk, if_false] at hx
      rcases List.mem_cons.mp hx with h1 | h1
      · exact Or.inl (h1 ▸ List.mem_cons_self _ _)
      · rcases ih h1 with h2 | ⟨h2, w1, hw1⟩
        · exact Or.inl (List.mem_cons_of_mem _ h2)
        · exact Or.inr ⟨h2, w1, by simp [lookup, hk, hw1]⟩

theorem lookup_mem {α : Type} {key : String} {v : α} {l : List (String × α)}
    (hl : lookup key l = some v) : (key, v) ∈ l := by
  induction l with
  | nil => simp [lookup] at hl
  | cons kv rest ih =>
    obtain ⟨k, w⟩ := kv
    by_cases hk : k = key
    · simp only [lookup, hk, if_true, Option.some.injEq] at hl
      rw [hk, hl]; exact List.mem_cons_self _ _
    · simp only [lookup, hk, if_false] at hl
      exact List.mem_cons_of_mem _ (ih hl)

/-- The loop "Build graphs" keeps the name of the environment, and the root
asset of every graph is the one the loop created for the family. -/
theorem buildGraphs_spec (P : Ports) :
    ∀ (entries : List (String × Json)) (env env1 : Environment),
      buildGraphs P entries env = .ok env1 →
      (∀ ng ∈ env.m_graphs, RootOK ng.1 ng.2) →
      env1.m_name = env.m_name ∧ ∀ ng ∈ env1.m_graphs, RootOK ng.1 ng.2 := by
  intro entries
  induction entries with
  | nil =>
    intro env env1 hb hr
    simp only [buildGraphs, Except.ok.injEq] at hb
    exact hb ▸ ⟨rfl, hr⟩
  | cons en rest ih =>
    intro env env1 hb hr
    obtain ⟨name, json⟩ := en
    simp only [buildGraphs] at hb
    cases harr : json.getArray with
    | error err => simp [harr] at hb
    | ok assetNames =>
      simp only [harr] at hb
      cases hty : getAssetType name with
      | error err => simp [hty] at hb
      | ok ty =>
        simp only [hty] at hb
        cases hfd : fetchDefinitions P ty.code assetNames [] with
        | error err => simp [hfd] at hb
        | ok defs =>
          simp only [hfd] at hb
          split at hb
          · simp at hb
          · rename_i env2 hbg
            have hr1 : ∀ ng ∈ sortedInsert name
                (Graph.new (name ++ "Input") (Asset.named (name ++ "Input") ty)) env.m_graphs,
                RootOK ng.1 ng.2 := by
              intro ng hng
              rcases mem_sortedInsert hng with h1 | h1
              · exact hr ng h1
              · rw [h1]
                exact ⟨Asset.named (name ++ "Input") ty, by simp [Graph.new, lookup], rfl, hty⟩
            have hset : ∀ (gs : List (String × Graph)) (g0 g1 : Graph),
                (∀ ng ∈ gs, RootOK ng.1 ng.2) →
                (RootOK name ((lookup name gs).getD g0) → RootOK name g1) →
                ∀ ng ∈ mapSet name g1 gs, RootOK ng.1 ng.2 := by
              intro gs g0 g1 hgs himp ng hng
              rcases mem_mapSet hng with h1 | ⟨h1, w, hw⟩
              · exact hgs ng h1
              · rw [h1]
                apply himp
                rw [hw]
                exact hgs (name, w) (lookup_mem hw)
            have hr2 : env2.m_name = env.m_name ∧ ∀ ng ∈ env2.m_graphs, RootOK ng.1 ng.2 := by
              simp only [Environment.buildGraph] at hbg
              split at hbg
              · simp at hbg
              · rename_i assets g h hloop
                simp only [Except.ok.injEq] at hbg
                rw [← hbg]
                refine ⟨rfl, ?_⟩
                exact hset _ _ g hr1 (rootOK_buildGraphLoop P ty _ _ _ _ _ _ _ hloop)
            have hr3 : (env2.addFilters P name).m_name = env.m_name ∧
                ∀ ng ∈ (env2.addFilters P name).m_graphs, RootOK ng.1 ng.2 := by
              refine ⟨hr2.1, ?_⟩
              simp only [Environment.addFilters]
              exact hset _ _ _ hr2.2 (rootOK_addFiltersLoop P _ _)
            obtain ⟨hn, hg⟩ := ih _ env1 hb hr3.2
            exact ⟨hn.trans hr3.1, hg⟩

theorem compile_spec {P : Ports} {name : String} {json : Json} {env : Environment}
    (hc : Environment.compile P name json = .ok env) :
    env.m_name = name ∧ ∀ ng ∈ env.m_graphs, RootOK ng.1 ng.2 := by
  simp only [Environment.compile] at hc
  split at hc
  · simp at hc
  · split at hc
    · simp at hc
    · exact buildGraphs_spec P _ _ env hc (by intro ng hng; simp at hng)

theorem forall₂_imp_mem {α β : Type} {R Q : α → β → Prop} {l : List α} {ops : List β}
    (hall : List.Forall₂ R l ops) (himp : ∀ x ∈ l, ∀ o, R x o → Q x o) :
    List.Forall₂ Q l ops := by
  induction hall with
  | nil => exact List.Forall₂.nil
  | cons hab _ ih =>
    exact List.Forall₂.cons (himp _ (List.mem_cons_self _ _) _ hab)
      (ih (fun x hx o hr => himp x (List.mem_cons_of_mem _ hx) o hr))

/-- C3. When the fold of a compiled environment returns, the result is the
`Chain` of one root operator per family graph, in the order of the graph map.
The family is one of decoders, rules, outputs; its root operator is named
`<family>Input` and is an `Or` for the decoders and a `Broadcast` for the rules
and the outputs; every operand of the root is an asset node, every asset node
is an `Implication` whose children operator (its consequent, or the last
operand of its `And("filters")`) is named `children` and has the kind of the
family, and the operands of a children operator are asset nodes again. -/
theorem C3_family_combinators (P : Ports) (name : String) (json : Json) (env : Environment)
    (r : Expression) (h : Heap) (hc : Environment.compile P name json = .ok env)
    (hg : env.getExpression P = .ok (r, h)) :
    ∃ rp ops, r = some rp ∧ h[rp]? = some ⟨.chain, name, ops⟩ ∧
      List.Forall₂ (fun (ng : String × Graph) (o : Expression) =>
        (ng.1 = "decoders" ∨ ng.1 = "rules" ∨ ng.1 = "outputs") ∧
        ∃ q, o = some q ∧ FamilyShape (familyKind ng.1) (ng.1 ++ "Input") h q)
        env.m_graphs ops := by
  obtain ⟨hname, hroots⟩ := compile_spec hc
  obtain ⟨rp, ops, hr, hrp, hall⟩ := getExpression_families hg
  refine ⟨rp, ops, hr, hname ▸ hrp, forall₂_imp_mem hall ?_⟩
  intro ng hng o ⟨rootAsset, k, q, hnode, hfam, ho, hshape⟩
  obtain ⟨ra, hl, hn, hty⟩ := hroots ng hng
  have hra : rootAsset = ra := by
    simp only [Graph.node, Graph.root, hl, Except.ok.injEq] at hnode
    exact hnode.symm
  subst hra
  rw [hn] at hshape
  have hkey : (ng.1 = "decoders" ∨ ng.1 = "rules" ∨ ng.1 = "outputs") ∧
      k = familyKind ng.1 := by
    unfold getAssetType at hty
    unfold familyKind
    split at hty
    · rename_i h1
      simp only [Except.ok.injEq] at hty
      rw [← hty] at hfam
      simp only [familyOp, Option.some.injEq] at hfam
      exact ⟨Or.inl h1, by simp [h1, hfam]⟩
    · rename_i h1
      split at hty
      · rename_i h2
        simp only [Except.ok.injEq] at hty
        rw [← hty] at hfam
        simp only [familyOp, Option.some.injEq] at hfam
        exact ⟨Or.inr (Or.inl h2), by simp [h1, hfam]⟩
      · split at hty
        · rename_i h3
          simp only [Except.ok.injEq] at hty
          rw [← hty] at hfam
          simp only [familyOp, Option.some.injEq] at hfam
          exact ⟨Or.inr (Or.inr h3), by simp [h1, hfam]⟩
        · split at hty
          · simp only [Except.ok.injEq] at hty
            rw [← hty] at hfam
            simp [familyOp] at hfam
          · simp at hty
  exact ⟨hkey.1, q, ho, hkey.2 ▸ hshape⟩

/-- C3 at scenario S6: one decoder, two rules and one output, none with parents. -/
theorem C3_family_combinators_witness :
    ∃ env r h, Environment.compile portsS6 "env" envS6 = .ok env ∧
      env.getExpression portsS6 = .ok (r, h) ∧
      ∃ rp ops, r = some rp ∧ h[rp]? = some ⟨.chain, "env", ops⟩ ∧
        List.Forall₂ (fun (ng : String × Graph) (o : Expression) =>
          (ng.1 = "decoders" ∨ ng.1 = "rules" ∨ ng.1 = "outputs") ∧
          ∃ q, o = some q ∧ FamilyShape (familyKind ng.1) (ng.1 ++ "Input") h q)
          env.m_graphs ops :=
  ⟨_, _, _, rfl, rfl, C3_family_combinators portsS6 "env" envS6 _ _ _ rfl rfl⟩

/-! ### The fold at the scenarios of the specification -/

/-- C2. The decoder `p` carries the filter `f`, whose definition has no check:
the environment compiles, with the graph of the decoders as its one family
graph and `f` attached to `p`, and `getExpression` returns no `Chain`: it ends
with the dereference of the null check of `f` while the node of `p` is built. -/
theorem C2_filter_without_check_fold_throws :
    ∃ env g ap af, Environment.compile portsNoCheck "env" envNoCheck = .ok env ∧
      env.m_graphs.map Prod.fst = ["decoders"] ∧
      lookup "decoders" env.m_graphs = some g ∧
      g.node "p" = .ok ap ∧ ap.m_filters = ["f"] ∧
      lookup "f" env.m_assets = some af ∧ af.m_check = none ∧
      env.getExpression portsNoCheck = .error .nullDeref :=
  ⟨_, _, _, _, rfl, rfl, rfl, rfl, rfl, rfl, rfl, rfl⟩

/-- C6. The filter `f` names the synthetic root `rulesInput` as its parent:
`addFilters` attaches it to the root asset, the fold returns, and no node of
the output is an `And` named `filters` or carries the name of `f`. -/
theorem C6_root_filter_not_in_output :
    ∃ env g ar r h, Environment.compile portsRootFilter "env" envRootFilter = .ok env ∧
      lookup "rules" env.m_graphs = some g ∧
      g.node g.root = .ok ar ∧ ar.m_filters = ["f"] ∧
      env.getExpression portsRootFilter = .ok (r, h) ∧
      ∀ n ∈ h, n.name ≠ "filters" ∧ n.name ≠ "f" :=
  ⟨_, _, _, _, _, rfl, rfl, rfl, rfl, rfl, by decide⟩

/-! ### The Asset constructor, continued -/

theorem lookup_of_extract_none {key : String} {l : List (String × Json)}
    (h : extract key l = none) : lookup key l = none := by
  induction l with
  | nil => rfl
  | cons kv rest ih =>
    obtain ⟨k, w⟩ := kv
    by_cases hk : k = key
    · simp [extract, hk] at h
    · simp only [extract, hk, if_false] at h
      simp only [lookup, hk, if_false]
      cases hx : extract key rest with
      | none => exact ih hx
      | some xr => simp [hx] at h

theorem lookup_of_extract_some {key : String} {l : List (String × Json)} {v : Json}
    {r : List (String × Json)} (h : extract key l = some (v, r)) : lookup key l = some v := by
  induction l generalizing r with
  | nil => simp [extract] at h
  | cons kv rest ih =>
    obtain ⟨k, w⟩ := kv
    by_cases hk : k = key
    · simp only [extract, hk, if_true, Option.some.injEq, Prod.mk.injEq] at h
      simp [lookup, hk, h.1]
    · simp only [extract, hk, if_false] at h
      simp only [lookup, hk, if_false]
      cases hx : extract key rest with
      | none => simp [hx] at h
      | some xr =>
        obtain ⟨x, r1⟩ := xr
        simp only [hx, Option.some.injEq, Prod.mk.injEq] at h
        exact ih (h.1 ▸ hx)

theorem lookup_eq_none {α : Type} {key : String} {l : List (String × α)}
    (hn : key ∉ l.map Prod.fst) : lookup key l = none := by
  induction l with
  | nil => rfl
  | cons kv rest ih =>
    obtain ⟨k, w⟩ := kv
    simp only [List.map_cons, List.mem_cons, not_or] at hn
    have hk : ¬ k = key := fun hk => hn.1 hk.symm
    simp only [lookup, hk, if_false]
    exact ih hn.2

/-- The constructor is the lookup of the three values, each in what the
extractions before it left, followed by the rest of the constructor. -/
theorem fromJson_eq_fromParts (P : Ports) (kvs : List (String × Json)) (ty : AssetType)
    (h : Heap) :
    Asset.fromJson P (.obj kvs) ty h =
      Asset.fromParts P ty h (lookup "name" kvs) (lookup "parents" (eraseKey "name" kvs))
        (lookup "check" (eraseKey "metaData" (eraseKey "parents" (eraseKey "name" kvs))))
        (stageTuples kvs) := by
  simp only [Asset.fromJson, Json.getObject, Asset.fromParts, stageTuples, create]
  cases h1 : extract "name" kvs with
  | none => rw [lookup_of_extract_none h1]
  | some r1 =>
    obtain ⟨nj, obj1⟩ := r1
    rw [lookup_of_extract_some h1, ← extract_some h1]
    simp only
    cases nj.getString with
    | error e => rfl
    | ok nm =>
      simp only
      have hmeta : ∀ obj2 : List (String × Json), (match extract "metaData" obj2 with
          | none => obj2
          | some (_, o) => o) = eraseKey "metaData" obj2 := by
        intro obj2
        cases h3 : extract "metaData" obj2 with
        | none => simp [extract_none h3]
        | some r3 => obtain ⟨mj, o⟩ := r3; simp [extract_some h3]
      have hcheck : ∀ obj3 : List (String × Json),
          (match extract "check" obj3 with
            | none => Except.ok ((none : Expression), h, obj3)
            | some (checkJson, o) =>
              match runBuilder P "stage.check" checkJson h with
              | .error e => .error e
              | .ok (c, h1) => .ok (c, h1, o)) =
          (match (match lookup "check" obj3 with
              | none => Except.ok ((none : Expression), h)
              | some cj => runBuilder P "stage.check" cj h) with
            | .error e => .error e
            | .ok (c, h1) => .ok (c, h1, eraseKey "check" obj3)) := by
        intro obj3
        cases h4 : extract "check" obj3 with
        | none => simp [lookup_of_extract_none h4, extract_none h4]
        | some r4 =>
          obtain ⟨cj, o⟩ := r4
          simp only [lookup_of_extract_some h4, ← extract_some h4]
          cases runBuilder P "stage.check" cj h with
          | error e => rfl
          | ok res => rfl
      cases h2 : extract "parents" obj1 with
      | none =>
        rw [lookup_of_extract_none h2, extract_none h2]
        simp only [hmeta, hcheck]
        cases (match lookup "check" (eraseKey "metaData" obj1) with
              | none => Except.ok ((none : Expression), h)
              | some cj => runBuilder P "stage.check" cj h) with
        | error e => rfl
        | ok res => rfl
      | some r2 =>
        obtain ⟨pj, obj2⟩ := r2
        rw [lookup_of_extract_some h2, ← extract_some h2]
        simp only
        cases pj.getArray with
        | error e => rfl
        | ok arr =>
          simp only
          cases insertParents arr [] with
          | error e => rfl
          | ok ps =>
            simp only [hmeta, hcheck]
            cases (match lookup "check" (eraseKey "metaData" obj2) with
                  | none => Except.ok ((none : Expression), h)
                  | some cj => runBuilder P "stage.check" cj h) with
            | error e => rfl
            | ok res => rfl

/-- C11. A definition without a `name` key is rejected with the error "Asset
definition must have a name", for every asset type, whatever its other keys
are and whatever the Registry is: the constructor ends before it asks the
Registry for any builder. -/
theorem C11_missing_name_rejected (P : Ports) (kvs : List (String × Json)) (ty : AssetType)
    (h : Heap) (hn : "name" ∉ kvs.map Prod.fst) :
    Asset.fromJson P (.obj kvs) ty h =
      .error (.runtime "Asset definition must have a name") := by
  rw [fromJson_eq_fromParts, lookup_eq_none hn]
  rfl

/-- C11 at a definition with a check and a stage but no name, with a Registry
whose builders all fail: the error is the missing name, not a builder's. -/
theorem C11_missing_name_rejected_witness :
    Asset.fromJson portsFail (.obj [("check", .str "c"), ("normalize", .str "n")]) .rule [] =
      .error (.runtime "Asset definition must have a name") :=
  C11_missing_name_rejected portsFail [("check", .str "c"), ("normalize", .str "n")] .rule []
    (by decide)

/-- C12. A definition with a name and no `check` key is not rejected: the
constructor returns an asset whose check is the null expression. -/
theorem C12_missing_check_accepted :
    Asset.fromJson portsS1 defNoCheck .decoder [] =
      .ok (⟨"d1", none, some 0, .decoder, [], []⟩,
        [⟨.and, "stages", [some 1]⟩, ⟨.term, "n", []⟩]) ∧
    Asset.fromJson portsS1 defNoCheck .filter [] =
      .ok (⟨"d1", none, some 0, .filter, [], []⟩,
        [⟨.and, "stages", [some 1]⟩, ⟨.term, "n", []⟩]) ∧
    (⟨"d1", none, some 0, .filter, [], []⟩ : Asset).getExpression
        [⟨.and, "stages", [some 1]⟩, ⟨.term, "n", []⟩] = .error .nullDeref :=
  ⟨rfl, rfl, rfl⟩

theorem lookup_eraseKey_ne {k1 k2 : String} (hne : k1 ≠ k2) (l : List (String × Json)) :
    lookup k1 (eraseKey k2 l) = lookup k1 l := by
  induction l with
  | nil => rfl
  | cons kv rest ih =>
    obtain ⟨k, w⟩ := kv
    by_cases hk2 : k = k2
    · subst hk2
      have hk1 : ¬ k = k1 := fun hk => hne hk.symm
      simp [eraseKey, lookup, hk1]
    · by_cases hk1 : k = k1
      · subst hk1
        simp [eraseKey, lookup, hk2]
      · simp [eraseKey, lookup, hk2, hk1, ih]

theorem eraseKey_comm (a b : String) (l : List (String × Json)) :
    eraseKey a (eraseKey b l) = eraseKey b (eraseKey a l) := by
  induction l with
  | nil => rfl
  | cons kv rest ih =>
    obtain ⟨k, w⟩ := kv
    by_cases ha : k = a
    · by_cases hb : k = b
      · rw [← ha, ← hb]
      · subst ha
        simp [eraseKey, hb]
    · by_cases hb : k = b
      · subst hb
        simp [eraseKey, ha]
      · simp [eraseKey, ha, hb, ih]

theorem eraseKey_of_not_mem {key : String} {l : List (String × Json)}
    (hn : key ∉ l.map Prod.fst) : eraseKey key l = l := by
  induction l with
  | nil => rfl
  | cons kv rest ih =>
    obtain ⟨k, w⟩ := kv
    simp only [List.map_cons, List.mem_cons, not_or] at hn
    have hk : ¬ k = key := fun hk => hn.1 hk.symm
    simp only [eraseKey, hk, if_false, ih hn.2]

theorem not_mem_keys_eraseKey {key k : String} {l : List (String × Json)}
    (hn : key ∉ l.map Prod.fst) : key ∉ (eraseKey k l).map Prod.fst :=
  fun h => hn (keys_eraseKey_subset k l key h)

theorem stage_key_ne_metaData {k : String} (hk : k ≠ "metaData") :
    "stage." ++ k ≠ "stage.metaData" := by
  intro h
  have h2 : ("stage.metaData" : String) = "stage." ++ "metaData" := by decide
  rw [h2] at h
  have h3 := congrArg String.data h
  simp only [String.data_append] at h3
  exact hk (String.ext (List.append_cancel_left h3))

theorem runBuilder_congr {P Q : Ports} {name : String}
    (hreg : Q.registry name = P.registry name) (json : Json) (h : Heap) :
    runBuilder Q name json h = runBuilder P name json h := by
  simp only [runBuilder, hreg]

theorem buildStages_congr {P Q : Ports} (s : Nat) :
    ∀ (l : List (String × Json)) (h : Heap),
      (∀ k ∈ l.map Prod.fst, Q.registry ("stage." ++ k) = P.registry ("stage." ++ k)) →
      buildStages Q s l h = buildStages P s l h := by
  intro l
  induction l with
  | nil => intro h _; rfl
  | cons kv rest ih =>
    intro h hreg
    obtain ⟨k, v⟩ := kv
    simp only [buildStages]
    rw [runBuilder_congr (hreg k (by simp))]
    cases runBuilder P ("stage." ++ k) v h with
    | error e => rfl
    | ok res =>
      simp only
      exact ih _ (fun k1 hk1 => hreg k1 (by simp only [List.map_cons, List.mem_cons]; exact Or.inr hk1))

theorem fromParts_congr {P Q : Ports} (ty : AssetType) (h : Heap)
    (nameJson parentsJson checkJson : Option Json) (stages : List (String × Json))
    (hcheck : Q.registry "stage.check" = P.registry "stage.check")
    (hreg : ∀ k ∈ stages.map Prod.fst, Q.registry ("stage." ++ k) = P.registry ("stage." ++ k)) :
    Asset.fromParts Q ty h nameJson parentsJson checkJson stages =
      Asset.fromParts P ty h nameJson parentsJson checkJson stages := by
  simp only [Asset.fromParts]
  cases checkJson with
  | none => simp only [buildStages_congr _ _ _ hreg]
  | some cj => simp only [runBuilder_congr hcheck, buildStages_congr _ _ _ hreg]

/-- C17. For a definition with at most one `metaData` entry, parsing the
definition and parsing it without that entry give the same result (the same
asset and the same stored expressions, or the same error), and the result does
not depend on what the Registry holds under `stage.metaData`. -/
theorem C17_metaData_discarded (P : Ports) (kvs : List (String × Json)) (ty : AssetType)
    (h : Heap) (hone : "metaData" ∉ (eraseKey "metaData" kvs).map Prod.fst) :
    Asset.fromJson P (.obj (eraseKey "metaData" kvs)) ty h = Asset.fromJson P (.obj kvs) ty h ∧
    ∀ Q : Ports, (∀ k, k ≠ "stage.metaData" → Q.registry k = P.registry k) →
      Asset.fromJson Q (.obj kvs) ty h = Asset.fromJson P (.obj kvs) ty h := by
  have hx : eraseKey "parents" (eraseKey "name" (eraseKey "metaData" kvs)) =
      eraseKey "metaData" (eraseKey "parents" (eraseKey "name" kvs)) := by
    rw [eraseKey_comm "name" "metaData", eraseKey_comm "parents" "metaData"]
  have hnot : "metaData" ∉
      (eraseKey "metaData" (eraseKey "parents" (eraseKey "name" kvs))).map Prod.fst := by
    rw [← hx]
    exact not_mem_keys_eraseKey (not_mem_keys_eraseKey hone)
  constructor
  · rw [fromJson_eq_fromParts, fromJson_eq_fromParts]
    simp only [stageTuples]
    rw [hx, eraseKey_of_not_mem hnot, lookup_eraseKey_ne (by decide),
      eraseKey_comm "name" "metaData", lookup_eraseKey_ne (by decide)]
  · intro Q hQ
    rw [fromJson_eq_fromParts, fromJson_eq_fromParts]
    apply fromParts_congr
    · exact hQ _ (by decide)
    · intro k hk
      apply hQ
      apply stage_key_ne_metaData
      intro hkm
      rw [hkm] at hk
      exact not_mem_keys_eraseKey hnot hk

/-- C17 at a definition with one `metaData` entry: the asset is the one of the
definition without the entry, also with a Registry that has no `stage.metaData`. -/
theorem C17_metaData_discarded_witness :
    Asset.fromJson portsS1 defMeta .decoder [] = Asset.fromJson portsS1 defS1 .decoder [] ∧
    (Asset.fromJson portsS1
        (.obj (eraseKey "metaData"
          [("name", .str "d1"), ("metaData", .obj [("title", .str "t")]), ("check", .str "c"),
           ("normalize", .str "n")])) .decoder [] =
      Asset.fromJson portsS1 defMeta .decoder [] ∧
     ∀ Q : Ports, (∀ k, k ≠ "stage.metaData" → Q.registry k = portsS1.registry k) →
      Asset.fromJson Q defMeta .decoder [] = Asset.fromJson portsS1 defMeta .decoder []) :=
  ⟨rfl, C17_metaData_discarded portsS1 _ .decoder [] (by decide)⟩

/-! ### What the constructor of the environment asks the Catalog -/

theorem fromJson_congr {P Q : Ports} (hreg : Q.registry = P.registry) (json : Json)
    (ty : AssetType) (h : Heap) : Asset.fromJson Q json ty h = Asset.fromJson P json ty h := by
  cases json with
  | obj kvs =>
    rw [fromJson_eq_fromParts, fromJson_eq_fromParts]
    exact fromParts_congr ty h _ _ _ _ (by rw [hreg]) (fun k _ => by rw [hreg])
  | _ => rfl

theorem buildGraphLoop_congr {P Q : Ports} (hreg : Q.registry = P.registry)
    (hiter : Q.iter = P.iter) (ty : AssetType) :
    ∀ (defs : List (String × Json)) (s : List (String × Asset) × Graph × Heap),
      buildGraphLoop Q ty defs s = buildGraphLoop P ty defs s := by
  intro defs
  induction defs with
  | nil => intro s; rfl
  | cons d rest ih =>
    intro s
    obtain ⟨name, json⟩ := d
    obtain ⟨assets, graph, h⟩ := s
    simp only [buildGraphLoop, fromJson_congr hreg, hiter]
    cases Asset.fromJson P json ty h with
    | error e => rfl
    | ok res =>
      simp only
      cases graph.addNode name res.1 with
      | error e => rfl
      | ok g1 => simp only [ih]

theorem iterate_congr {α : Type} {P Q : Ports} (hiter : Q.iter = P.iter)
    (m : List (String × α)) : iterate Q m = iterate P m := by
  simp only [iterate, hiter]

theorem addFiltersLoop_congr {P Q : Ports} (hiter : Q.iter = P.iter) :
    ∀ (assets : List (String × Asset)) (g : Graph),
      addFiltersLoop Q assets g = addFiltersLoop P assets g := by
  intro assets
  induction assets with
  | nil => intro g; rfl
  | cons na rest ih =>
    intro g
    obtain ⟨name, asset⟩ := na
    simp only [addFiltersLoop, hiter, ih]

theorem loadFilters_congr {P Q : Ports} (hreg : Q.registry = P.registry)
    (hcat : ∀ n, Q.catalog 1 n = P.catalog 1 n) :
    ∀ (l : List Json) (s : List (String × Asset) × Heap),
      loadFilters Q l s = loadFilters P l s := by
  intro l
  induction l with
  | nil => intro s; rfl
  | cons j rest ih =>
    intro s
    obtain ⟨assets, h⟩ := s
    simp only [loadFilters]
    cases j.getString with
    | error e => rfl
    | ok key =>
      simp only [hcat, fromJson_congr hreg]
      cases P.catalog 1 key with
      | error e => rfl
      | ok definition =>
        simp only
        cases Asset.fromJson P definition .filter h with
        | error e => rfl
        | ok res => simp only [ih]

theorem fetchDefinitions_congr {P Q : Ports} (code : Nat)
    (hcat : ∀ n, Q.catalog code n = P.catalog code n) :
    ∀ (l : List Json) (acc : List (String × Json)),
      fetchDefinitions Q code l acc = fetchDefinitions P code l acc := by
  intro l
  induction l with
  | nil => intro acc; rfl
  | cons j rest ih =>
    intro acc
    simp only [fetchDefinitions]
    cases j.getString with
    | error e => rfl
    | ok key =>
      simp only [hcat]
      cases P.catalog code key with
      | error e => rfl
      | ok definition => simp only [ih]

theorem buildGraphs_congr {P Q : Ports} (hreg : Q.registry = P.registry)
    (hiter : Q.iter = P.iter) :
    ∀ (entries : List (String × Json)) (env : Environment),
      (∀ fam ∈ entries.map Prod.fst, ∀ ty, getAssetType fam = .ok ty →
        ∀ n, Q.catalog ty.code n = P.catalog ty.code n) →
      buildGraphs Q entries env = buildGraphs P entries env := by
  intro entries
  induction entries with
  | nil => intro env _; rfl
  | cons en rest ih =>
    intro env hcat
    obtain ⟨name, json⟩ := en
    simp only [buildGraphs]
    cases json.getArray with
    | error e => rfl
    | ok assetNames =>
      simp only
      cases hty : getAssetType name with
      | error e => rfl
      | ok ty =>
        simp only
        rw [fetchDefinitions_congr ty.code (hcat name (by simp) ty hty)]
        cases fetchDefinitions P ty.code assetNames [] with
        | error e => rfl
        | ok defs =>
          simp only [Environment.buildGraph, buildGraphLoop_congr hreg hiter,
            iterate_congr hiter]
          split
          · rfl
          · simp only [Environment.addFilters, addFiltersLoop_congr hiter, iterate_congr hiter]
            exact ih _ (fun fam hfam => hcat fam (by
              simp only [List.map_cons, List.mem_cons]; exact Or.inr hfam))

theorem mem_keys_of_lookup {α : Type} {key : String} {l : List (String × α)} {v : α}
    (hl : lookup key l = some v) : key ∈ l.map Prod.fst :=
  List.mem_map.mpr ⟨(key, v), lookup_mem hl, rfl⟩

/-! ### The failures of the constructor of the environment -/

theorem insertParents_error : ∀ (l : List Json) (acc : List String) (e : Err),
    insertParents l acc = .error e → e = .jsonType := by
  intro l
  induction l with
  | nil => intro acc e h; simp [insertParents] at h
  | cons j rest ih =>
    intro acc e h
    simp only [insertParents] at h
    cases j with
    | str s => exact ih _ _ h
    | _ => simp only [Json.getString, Except.error.injEq] at h; exact h.symm

theorem runBuilder_error {P : Ports} {name : String} {j : Json} {h : Heap} {e : Err}
    (hr : runBuilder P name j h = .error e) : e = .unknownBuilder name ∨ FromPorts P e := by
  unfold runBuilder at hr
  cases hb : P.registry name with
  | none => simp only [hb, Except.error.injEq] at hr; exact Or.inl hr.symm
  | some b =>
    simp only [hb] at hr
    cases hf : b j with
    | error err =>
      simp only [hf, Except.error.injEq] at hr
      exact Or.inr (Or.inr ⟨name, b, j, hb, hr ▸ hf⟩)
    | ok f => simp [hf] at hr

theorem buildStages_error {P : Ports} (s : Nat) :
    ∀ (l : List (String × Json)) (h : Heap) (e : Err), buildStages P s l h = .error e →
      Benign e ∨ FromPorts P e := by
  intro l
  induction l with
  | nil => intro h e hb; simp [buildStages] at hb
  | cons kv rest ih =>
    intro h e hb
    obtain ⟨k, v⟩ := kv
    simp only [buildStages] at hb
    cases hr : runBuilder P ("stage." ++ k) v h with
    | error err =>
      simp only [hr, Except.error.injEq] at hb
      rcases runBuilder_error hr with h1 | h1
      · exact Or.inl (Or.inr (Or.inr (Or.inl ⟨_, hb ▸ h1⟩)))
      · exact Or.inr (hb ▸ h1)
    | ok res =>
      simp only [hr] at hb
      exact ih _ _ hb

theorem fromJson_error {P : Ports} {json : Json} {ty : AssetType} {h : Heap} {e : Err}
    (hp : Asset.fromJson P json ty h = .error e) : Benign e ∨ FromPorts P e := by
  cases json with
  | obj kvs =>
    rw [fromJson_eq_fromParts] at hp
    simp only [Asset.fromParts] at hp
    split at hp
    · simp only [Except.error.injEq] at hp
      exact Or.inl (Or.inr (Or.inl hp.symm))
    · rename_i nj _
      cases nj with
      | str s =>
        simp only [Json.getString] at hp
        split at hp
        · rename_i err hpar
          simp only [Except.error.injEq] at hp
          subst hp
          left; left
          split at hpar
          · simp at hpar
          · rename_i pj _
            cases pj with
            | arr xs =>
              simp only [Json.getArray] at hpar
              exact insertParents_error _ _ _ hpar
            | _ =>
              simp only [Json.getArray, Except.error.injEq] at hpar
              exact hpar.symm
        · split at hp
          · rename_i err hchk
            simp only [Except.error.injEq] at hp
            subst hp
            split at hchk
            · simp at hchk
            · rcases runBuilder_error hchk with h1 | h1
              · exact Or.inl (Or.inr (Or.inr (Or.inl ⟨_, h1⟩)))
              · exact Or.inr h1
          · split at hp
            · rename_i err hbs
              simp only [Except.error.injEq] at hp
              exact hp ▸ buildStages_error _ _ _ _ hbs
            · simp at hp
      | _ =>
        simp only [Json.getString, Except.error.injEq] at hp
        exact Or.inl (Or.inl hp.symm)
  | _ =>
    simp only [Asset.fromJson, Json.getObject, Except.error.injEq] at hp
    exact Or.inl (Or.inl hp.symm)

theorem getString_error {j : Json} {e : Err} (h : j.getString = .error e) : e = .jsonType := by
  cases j <;> simp only [Json.getString, Except.error.injEq] at h <;> first | exact h.symm | simp at h

theorem getArray_error {j : Json} {e : Err} (h : j.getArray = .error e) : e = .jsonType := by
  cases j <;> simp only [Json.getArray, Except.error.injEq] at h <;> first | exact h.symm | simp at h

theorem loadFilters_error {P : Ports} :
    ∀ (l : List Json) (s : List (String × Asset) × Heap) (e : Err),
      loadFilters P l s = .error e → Benign e ∨ FromPorts P e := by
  intro l
  induction l with
  | nil => intro s e h; simp [loadFilters] at h
  | cons j rest ih =>
    intro s e h
    obtain ⟨assets, hp⟩ := s
    simp only [loadFilters] at h
    cases hs : j.getString with
    | error err =>
      simp only [hs, Except.error.injEq] at h
      exact Or.inl (Or.inl (h ▸ getString_error hs))
    | ok key =>
      simp only [hs] at h
      cases hc : P.catalog 1 key with
      | error err =>
        simp only [hc, Except.error.injEq] at h
        exact Or.inr (Or.inl ⟨1, key, h ▸ hc⟩)
      | ok definition =>
        simp only [hc] at h
        cases hf : Asset.fromJson P definition .filter hp with
        | error err =>
          simp only [hf, Except.error.injEq] at h
          exact h ▸ fromJson_error hf
        | ok res =>
          simp only [hf] at h
          exact ih _ _ h

theorem fetchDefinitions_error {P : Ports} (code : Nat) :
    ∀ (l : List Json) (acc : List (String × Json)) (e : Err),
      fetchDefinitions P code l acc = .error e → Benign e ∨ FromPorts P e := by
  intro l
  induction l with
  | nil => intro acc e h; simp [fetchDefinitions] at h
  | cons j rest ih =>
    intro acc e h
    simp only [fetchDefinitions] at h
    cases hs : j.getString with
    | error err =>
      simp only [hs, Except.error.injEq] at h
      exact Or.inl (Or.inl (h ▸ getString_error hs))
    | ok key =>
      simp only [hs] at h
      cases hc : P.catalog code key with
      | error err =>
        simp only [hc, Except.error.injEq] at h
        exact Or.inr (Or.inl ⟨code, key, h ▸ hc⟩)
      | ok definition =>
        simp only [hc] at h
        exact ih _ _ h

theorem addEdge_error {g : Graph} {parent child : String} {e : Err}
    (h : g.addEdge parent child = .error e) :
    ∃ path, findPath g.m_edges (g.m_edges.length + 1) child parent = some path ∧
      e = .cycleDetected g.family (parent :: path) := by
  unfold Graph.addEdge at h
  cases hf : findPath g.m_edges (g.m_edges.length + 1) child parent with
  | some path =>
    simp only [hf, Except.error.injEq] at h
    exact ⟨path, rfl, h.symm⟩
  | none => simp [hf] at h

theorem addParentEdges_error (name : String) :
    ∀ (parents : List String) (g : Graph) (e : Err),
      addParentEdges name parents g = .error e → ∃ family path, e = .cycleDetected family path := by
  intro parents
  induction parents with
  | nil => intro g e h; simp [addParentEdges] at h
  | cons parent rest ih =>
    intro g e h
    simp only [addParentEdges] at h
    cases he : g.addEdge parent name with
    | error err =>
      simp only [he, Except.error.injEq] at h
      obtain ⟨path, -, hp⟩ := addEdge_error he
      exact ⟨_, _, h ▸ hp⟩
    | ok g1 =>
      simp only [he] at h
      exact ih g1 e h

/-- The loop of `buildGraph` fails only when the constructor of an asset fails,
when a key is already a node, or when an edge is refused because it would
close a cycle. -/
theorem buildGraphLoop_error {P : Ports} (ty : AssetType) :
    ∀ (defs : List (String × Json)) (s : List (String × Asset) × Graph × Heap) (e : Err),
      buildGraphLoop P ty defs s = .error e →
      (∃ name json h, (name, json) ∈ defs ∧ Asset.fromJson P json ty h = .error e) ∨
        (∃ name, (name ∈ defs.map Prod.fst) ∧ e = .duplicateNode name) ∨
        ∃ family path, e = .cycleDetected family path := by
  intro defs
  induction defs with
  | nil => intro s e h; simp [buildGraphLoop] at h
  | cons d rest ih =>
    intro s e h
    obtain ⟨name, json⟩ := d
    obtain ⟨assets, graph, hp⟩ := s
    simp only [buildGraphLoop] at h
    cases hf : Asset.fromJson P json ty hp with
    | error err =>
      simp only [hf, Except.error.injEq] at h
      exact Or.inl ⟨name, json, hp, List.mem_cons_self _ _, h ▸ hf⟩
    | ok res =>
      simp only [hf] at h
      cases ha : graph.addNode name res.1 with
      | error err =>
        simp only [ha, Except.error.injEq] at h
        right; left
        refine ⟨name, by simp, ?_⟩
        unfold Graph.addNode at ha
        split at ha
        · simp only [Except.error.injEq] at ha
          rw [← h, ← ha]
        · simp at ha
      | ok g1 =>
        simp only [ha] at h
        split at h
        · rename_i err hedge
          simp only [Except.error.injEq] at h
          right; right
          split at hedge
          · obtain ⟨path, -, hp⟩ := addEdge_error hedge
            exact ⟨_, _, h ▸ hp⟩
          · exact h ▸ addParentEdges_error name _ _ _ hedge
        · rcases ih _ _ h with ⟨n1, j1, h1, hm, hfe⟩ | ⟨n1, hm, he⟩ | hcyc
          · exact Or.inl ⟨n1, j1, h1, List.mem_cons_of_mem _ hm, hfe⟩
          · exact Or.inr (Or.inl
              ⟨n1, by simp only [List.map_cons, List.mem_cons]; exact Or.inr hm, he⟩)
          · exact Or.inr (Or.inr hcyc)

theorem getAssetType_unknown {k : String} (hk : k ∉ familyKeys) :
    getAssetType k = .error (.runtime "Unknown asset type") := by
  simp only [familyKeys, List.mem_cons, List.mem_singleton, List.not_mem_nil, or_false,
    not_or] at hk
  simp [getAssetType, hk.1, hk.2.1, hk.2.2.1, hk.2.2.2]

theorem getAssetType_known {k : String} (hk : k ∈ familyKeys) :
    ∃ ty, getAssetType k = .ok ty := by
  simp only [familyKeys, List.mem_cons, List.mem_singleton, List.not_mem_nil, or_false] at hk
  rcases hk with rfl | rfl | rfl | rfl
  · exact ⟨.filter, rfl⟩
  · exact ⟨.decoder, rfl⟩
  · exact ⟨.rule, rfl⟩
  · exact ⟨.output, rfl⟩

theorem buildGraphs_unknown_key {P : Ports} :
    ∀ (entries : List (String × Json)) (env : Environment) (k : String),
      k ∈ entries.map Prod.fst → k ∉ familyKeys → ∃ e, buildGraphs P entries env = .error e := by
  intro entries
  induction entries with
  | nil => intro env k hk; simp at hk
  | cons en rest ih =>
    intro env k hk hnk
    obtain ⟨name, json⟩ := en
    simp only [buildGraphs]
    cases json.getArray with
    | error e => exact ⟨e, rfl⟩
    | ok assetNames =>
      simp only
      cases hty : getAssetType name with
      | error e => exact ⟨e, rfl⟩
      | ok ty =>
        simp only
        have hne : k ≠ name := by
          intro heq
          subst heq
          rw [getAssetType_unknown hnk] at hty
          exact Except.noConfusion hty
        have hrest : k ∈ rest.map Prod.fst := by
          simp only [List.map_cons, List.mem_cons] at hk
          exact hk.resolve_left hne
        cases fetchDefinitions P ty.code assetNames [] with
        | error e => exact ⟨e, rfl⟩
        | ok defs =>
          simp only
          split
          · exact ⟨_, rfl⟩
          · exact ih _ k hrest hnk

theorem buildGraphs_error {P : Ports} :
    ∀ (entries : List (String × Json)) (env : Environment) (e : Err),
      (∀ k ∈ entries.map Prod.fst, k ∈ familyKeys) → buildGraphs P entries env = .error e →
      Benign e ∨ FromPorts P e := by
  intro entries
  induction entries with
  | nil => intro env e _ h; simp [buildGraphs] at h
  | cons en rest ih =>
    intro env e hkeys h
    obtain ⟨name, json⟩ := en
    simp only [buildGraphs] at h
    cases harr : json.getArray with
    | error err =>
      simp only [harr, Except.error.injEq] at h
      exact Or.inl (Or.inl (h ▸ getArray_error harr))
    | ok assetNames =>
      simp only [harr] at h
      obtain ⟨ty, hty⟩ := getAssetType_known (hkeys name (by simp))
      simp only [hty] at h
      cases hfd : fetchDefinitions P ty.code assetNames [] with
      | error err =>
        simp only [hfd, Except.error.injEq] at h
        exact h ▸ fetchDefinitions_error _ _ _ _ hfd
      | ok defs =>
        simp only [hfd] at h
        split at h
        · rename_i err hbg
          simp only [Except.error.injEq] at h
          subst h
          simp only [Environment.buildGraph] at hbg
          split at hbg
          · rename_i err2 hloop
            simp only [Except.error.injEq] at hbg
            subst hbg
            rcases buildGraphLoop_error _ _ _ _ hloop with
              ⟨n1, j1, h1, -, hfe⟩ | ⟨n1, -, he⟩ | hcyc
            · exact fromJson_error hfe
            · exact Or.inl (Or.inr (Or.inr (Or.inr (Or.inl ⟨n1, he⟩))))
            · exact Or.inl (Or.inr (Or.inr (Or.inr (Or.inr hcyc))))
          · simp at hbg
        · exact ih _ _ (fun k hk => hkeys k (by
            simp only [List.map_cons, List.mem_cons]; exact Or.inr hk)) h

/-- C14. Compiling a definition with a top-level key other than `filters`,
`decoders`, `rules`, `outputs` fails.  When every key is one of the four, a
failure is a Json value of the wrong type, a definition without name, a stage
without builder, a key that is already a node, an edge that would close a
cycle, or a failure of the Catalog or of a stage builder; the error of an
unknown family is none of the first five. -/
theorem C14_unknown_family_rejected :
    (∀ (P : Ports) (name : String) (kvs : List (String × Json)) (k : String),
      k ∈ kvs.map Prod.fst → k ∉ familyKeys →
      ∃ e, Environment.compile P name (.obj kvs) = .error e) ∧
    (∀ (P : Ports) (name : String) (kvs : List (String × Json)) (e : Err),
      (∀ k ∈ kvs.map Prod.fst, k ∈ familyKeys) →
      Environment.compile P name (.obj kvs) = .error e → Benign e ∨ FromPorts P e) ∧
    ¬ Benign (.runtime "Unknown asset type") := by
  refine ⟨?_, ?_, ?_⟩
  · intro P name kvs k hk hnk
    simp only [Environment.compile, Json.getObject]
    have hkf : k ≠ "filters" := fun h => hnk (h ▸ by decide)
    have hmem : k ∈ (eraseKey "filters" kvs).map Prod.fst := by
      obtain ⟨kv, hkv, hfst⟩ := List.mem_map.mp hk
      have hl : ∃ v, lookup k kvs = some v := by
        cases hlk : lookup k kvs with
        | some v => exact ⟨v, rfl⟩
        | none =>
          exfalso
          clear hkv hfst kv
          induction kvs with
          | nil => simp at hk
          | cons a rest ih =>
            obtain ⟨k1, w1⟩ := a
            by_cases h1 : k1 = k
            · simp [lookup, h1] at hlk
            · simp only [lookup, h1, if_false] at hlk
              simp only [List.map_cons, List.mem_cons] at hk
              exact ih (hk.resolve_left (fun h => h1 h.symm)) hlk
      obtain ⟨v, hv⟩ := hl
      exact mem_keys_of_lookup ((lookup_eraseKey_ne hkf kvs).trans hv)
    cases hx : extract "filters" kvs with
    | none =>
      simp only
      rw [extract_none hx] at hmem
      exact buildGraphs_unknown_key _ _ k hmem hnk
    | some r =>
      obtain ⟨fj, o⟩ := r
      rw [← extract_some hx] at hmem
      simp only
      cases fj.getArray with
      | error e => exact ⟨e, rfl⟩
      | ok filtersList =>
        simp only
        cases loadFilters P filtersList ([], []) with
        | error e => exact ⟨e, rfl⟩
        | ok res =>
          simp only
          exact buildGraphs_unknown_key _ _ k hmem hnk
  · intro P name kvs e hkeys hc
    simp only [Environment.compile, Json.getObject] at hc
    have hsub : ∀ k ∈ (eraseKey "filters" kvs).map Prod.fst, k ∈ familyKeys :=
      fun k hk => hkeys k (keys_eraseKey_subset _ _ k hk)
    cases hx : extract "filters" kvs with
    | none =>
      simp only [hx] at hc
      rw [extract_none hx] at hsub
      exact buildGraphs_error _ _ _ hsub hc
    | some r =>
      obtain ⟨fj, o⟩ := r
      rw [← extract_some hx] at hsub
      simp only [hx] at hc
      cases harr : fj.getArray with
      | error err =>
        simp only [harr, Except.error.injEq] at hc
        exact Or.inl (Or.inl (hc ▸ getArray_error harr))
      | ok filtersList =>
        simp only [harr] at hc
        cases hlf : loadFilters P filtersList ([], []) with
        | error err =>
          simp only [hlf, Except.error.injEq] at hc
          exact hc ▸ loadFilters_error _ _ _ hlf
        | ok res =>
          simp only [hlf] at hc
          exact buildGraphs_error _ _ _ hsub hc
  · intro hb
    rcases hb with h | h | ⟨k, h⟩ | ⟨k, h⟩ | ⟨f, q, h⟩
    · exact Err.noConfusion h
    · simp only [Err.runtime.injEq] at h
      exact absurd h (by decide)
    · exact Err.noConfusion h
    · exact Err.noConfusion h
    · exact Err.noConfusion h

/-- C14 at a definition with the unknown key `inputs`, which is rejected as an
unknown asset type, and at a definition with the one key `decoders` whose value
is no array, which fails for the shape of the value. -/
theorem C14_unknown_family_rejected_witness :
    Environment.compile portsS1 "env" envUnknownKey =
      .error (.runtime "Unknown asset type") ∧
    (∃ e, Environment.compile portsS1 "env" envUnknownKey = .error e) ∧
    Environment.compile portsS1 "env" envBadShape = .error .jsonType ∧
    (Benign .jsonType ∨ FromPorts portsS1 .jsonType) :=
  ⟨rfl,
   C14_unknown_family_rejected.1 portsS1 "env"
     [("decoders", .arr [.str "d1"]), ("inputs", .arr [])] "inputs" (by decide) (by decide),
   rfl,
   C14_unknown_family_rejected.2.1 portsS1 "env" [("decoders", .str "d1")] .jsonType
     (by decide) rfl⟩

/-! ### The order of the filters -/

theorem pushFilters_order (assets : List (String × Asset)) (f : Nat) :
    ∀ (names : List String) (h h1 : Heap) (ops0 : List Expression),
      h[f]? = some ⟨.and, "filters", ops0⟩ → pushFilters assets f names h = .ok h1 →
      ∃ ops, h1[f]? = some ⟨.and, "filters", ops0 ++ ops⟩ ∧
        List.Forall₂ (fun nm o => ∃ fa hq q nd, lookup nm assets = some fa ∧
          fa.getExpression hq = .ok (some q, hq ++ [nd]) ∧ o = some q ∧ h1[q]? = some nd ∧
          f < q) names ops := by
  intro names
  induction names with
  | nil =>
    intro h h1 ops0 hf hp
    simp only [pushFilters, Except.ok.injEq] at hp
    subst hp
    exact ⟨[], by simpa using hf, List.Forall₂.nil⟩
  | cons nm rest ih =>
    intro h h1 ops0 hf hp
    simp only [pushFilters] at hp
    cases hl : lookup nm assets with
    | none => simp [hl] at hp
    | some fa =>
      simp only [hl] at hp
      cases hg : fa.getExpression h with
      | error err => simp [hg] at hp
      | ok res =>
        obtain ⟨e, h2⟩ := res
        simp only [hg] at hp
        obtain ⟨n, hh2, he⟩ := getExpression_ok hg
        have hflt : f < h.length := (List.getElem?_eq_some.mp hf).1
        have hf2 : h2[f]? = some ⟨.and, "filters", ops0⟩ := by
          rw [hh2, List.getElem?_append_left hflt]; exact hf
        have hf3 := getElem?_pushOperand_self h2 f e _ hf2
        obtain ⟨ops, hf1, hall⟩ := ih (pushOperand h2 f e) h1 (ops0 ++ [e]) hf3 hp
        obtain ⟨_, -, hag, -⟩ := pushFilters_spec assets f rest (pushOperand h2 f e) h1
          (ops0 ++ [e]) hf3 hp
        refine ⟨e :: ops, by simpa using hf1, List.Forall₂.cons ?_ hall⟩
        refine ⟨fa, h, h.length, n, hl, by rw [hg, hh2, he], he, ?_, hflt⟩
        rw [hag h.length (by rw [length_pushOperand, hh2]; simp) (Nat.ne_of_gt hflt),
          getElem?_pushOperand_ne h2 f h.length e (Nat.ne_of_lt hflt), hh2]
        simp

/-- C16. The node of an asset with filters is `Implication(name + "Node", A, F)`
where `F` is the `And` named `filters` whose operands are the expressions of
the attached filters in the iteration order of the asset's `m_filters` set,
followed by the children operator; the filters are not sorted by name. -/
theorem C16_filters_in_iteration_order (P : Ports) (assets : List (String × Asset))
    (asset : Asset) (c p : Nat) (h h1 : Heap) (hf : asset.m_filters ≠ [])
    (hb : buildAssetNode P assets asset c h = .ok (p, h1)) :
    ∃ a f ops, h1[p]? = some ⟨.implication, asset.m_name ++ "Node", [a, some f]⟩ ∧
      h1[f]? = some ⟨.and, "filters", ops ++ [some c]⟩ ∧
      List.Forall₂ (IsFilterOperand assets h1) (P.iter asset.m_filters) ops := by
  unfold buildAssetNode at hb
  have hlen : asset.m_filters.length > 0 := List.length_pos.mpr hf
  simp only [hlen, if_true, create] at hb
  cases hpf : pushFilters assets h.length (P.iter asset.m_filters)
      (h ++ [⟨.and, "filters", []⟩]) with
  | error err => simp [hpf] at hb
  | ok h2 =>
    simp only [hpf] at hb
    cases hg : asset.getExpression (pushOperand h2 h.length (some c)) with
    | error err => simp [hg] at hb
    | ok res =>
      obtain ⟨a, h4⟩ := res
      simp only [hg, Except.ok.injEq, Prod.mk.injEq] at hb
      obtain ⟨ops, hf2, hall⟩ := pushFilters_order assets h.length _ _ h2 []
        (List.getElem?_concat_length h _) hpf
      obtain ⟨n, hh4, -⟩ := getExpression_ok hg
      have hf3 := getElem?_pushOperand_self h2 h.length (some c) _ hf2
      have hl3 : (pushOperand h2 h.length (some c)).length = h2.length :=
        length_pushOperand _ _ _
      have hkeep : ∀ q nd, h2[q]? = some nd → h.length < q → h1[q]? = some nd := by
        intro q nd hq hlt
        have hq2 : q < h2.length := (List.getElem?_eq_some.mp hq).1
        rw [← hb.2, List.getElem?_append_left (by rw [hh4]; simp; omega), hh4,
          List.getElem?_append_left (by omega),
          getElem?_pushOperand_ne h2 h.length q (some c) (Nat.ne_of_lt hlt)]
        exact hq
      have hflt : h.length < h2.length := (List.getElem?_eq_some.mp hf2).1
      refine ⟨a, h.length, ops, ?_, ?_, ?_⟩
      · rw [← hb.2, ← hb.1]; simp
      · rw [← hb.2, List.getElem?_append_left (by rw [hh4]; simp; omega), hh4,
          List.getElem?_append_left (by omega), hf3]
        simp
      · refine forall₂_imp_mem hall ?_
        intro nm _ o ⟨fa, hq, q, nd, hl, hge, ho, hnd, hlt⟩
        exact ⟨fa, hq, q, nd, hl, hge, ho, hkeep q nd hnd hlt⟩

/-- C16 at a rule with the filters `fz` and `fa` attached in this order. -/
theorem C16_filters_in_iteration_order_witness :
    buildAssetNode portsS1 exFilterAssets exFiltered 3 exHeapChildren = .ok (8, exHeapBuilt) ∧
    ∃ a f ops,
      exHeapBuilt[8]? = some ⟨.implication, exFiltered.m_name ++ "Node", [a, some f]⟩ ∧
      exHeapBuilt[f]? = some ⟨.and, "filters", ops ++ [some 3]⟩ ∧
      List.Forall₂ (IsFilterOperand exFilterAssets exHeapBuilt)
        (portsS1.iter exFiltered.m_filters) ops :=
  ⟨rfl, C16_filters_in_iteration_order portsS1 exFilterAssets exFiltered 3 8 exHeapChildren
    exHeapBuilt (by decide) rfl⟩

/-- C16, counterexample. The rule `b` has the filters `fz` and `fa`; in the output
of the fold the operands of its `And("filters")` are the expression of `fz`, then
the expression of `fa`, then the children operator, and `fa` is less than `fz`. -/
theorem C16_filters_not_sorted :
    ∃ env r h, Environment.compile portsTwoFilters "env" envTwoFilters = .ok env ∧
      env.getExpression portsTwoFilters = .ok (r, h) ∧
      h[30]? = some ⟨.implication, "bNode", [some 29, some 26]⟩ ∧
      h[26]? = some ⟨.and, "filters", [some 27, some 28, some 25]⟩ ∧
      h[27]? = some ⟨.and, "fz", [some 0]⟩ ∧ h[28]? = some ⟨.and, "fa", [some 4]⟩ ∧
      h[25]? = some ⟨.broadcast, "children", [some 33]⟩ ∧
      stringLt "fa" "fz" = true :=
  ⟨_, _, _, rfl, rfl, rfl, rfl, rfl, rfl, rfl, rfl⟩

/-! ### The edges of a family graph -/

theorem edgesAt_ok_iff {g : Graph} {p : String} {cs : List String} :
    g.edgesAt p = .ok cs ↔ lookup p g.m_edges = some cs := by
  unfold Graph.edgesAt
  cases lookup p g.m_edges <;> simp

theorem node_ok_iff {g : Graph} {c : String} {a : Asset} :
    g.node c = .ok a ↔ lookup c g.m_nodes = some a := by
  unfold Graph.node
  cases lookup c g.m_nodes <;> simp

theorem lookup_insertEdge_ne {p c x : String} (hx : x ≠ p) (E : List (String × List String)) :
    lookup x (insertEdge p c E) = lookup x E := by
  induction E with
  | nil =>
    have hpx : ¬ p = x := fun h => hx h.symm
    simp [insertEdge, lookup, hpx]
  | cons kv rest ih =>
    obtain ⟨k, cs⟩ := kv
    by_cases hk : k = p
    · subst hk
      have hkx : ¬ k = x := fun h => hx h.symm
      simp [insertEdge, lookup, hkx]
    · by_cases hkx : k = x
      · subst hkx
        simp [insertEdge, lookup, hk]
      · simp [insertEdge, lookup, hk, hkx, ih]

theorem lookup_insertEdge_self (p c : String) (E : List (String × List String)) :
    lookup p (insertEdge p c E) =
      some (match lookup p E with
        | some cs => if c ∈ cs then cs else cs ++ [c]
        | none => [c]) := by
  induction E with
  | nil => simp [insertEdge, lookup]
  | cons kv rest ih =>
    obtain ⟨k, cs⟩ := kv
    by_cases hk : k = p
    · subst hk
      simp [insertEdge, lookup]
    · simp [insertEdge, lookup, hk, ih]

theorem hasEdge_addEdge {g g1 : Graph} {p c : String} (he : g.addEdge p c = .ok g1)
    (x y : String) : HasEdge g1 x y ↔ HasEdge g x y ∨ (x = p ∧ y = c) := by
  rw [(addEdge_ok he).1]
  simp only [HasEdge, edgesAt_ok_iff]
  by_cases hx : x = p
  · subst hx
    rw [lookup_insertEdge_self]
    cases hl : lookup x g.m_edges with
    | none => simp
    | some cs =>
      simp only [Option.some.injEq, exists_eq_left', true_and]
      by_cases hc : c ∈ cs
      · simp only [hc, if_true]
        constructor
        · exact fun h => Or.inl h
        · rintro (h | h)
          · exact h
          · exact h ▸ hc
      · simp only [hc, if_false, List.mem_append, List.mem_singleton]
  · rw [lookup_insertEdge_ne hx]
    simp [hx]

theorem edgesNodup_addEdge {g g1 : Graph} {p c : String} (he : g.addEdge p c = .ok g1)
    (hn : EdgesNodup g) : EdgesNodup g1 := by
  rw [(addEdge_ok he).1]
  intro x cs hcs
  rw [edgesAt_ok_iff] at hcs
  simp only [] at hcs
  by_cases hx : x = p
  · subst hx
    rw [lookup_insertEdge_self] at hcs
    simp only [Option.some.injEq] at hcs
    cases hl : lookup x g.m_edges with
    | none => rw [hl] at hcs; rw [← hcs]; simp
    | some cs0 =>
      rw [hl] at hcs
      have h0 : cs0.Nodup := hn x cs0 (edgesAt_ok_iff.mpr hl)
      by_cases hc : c ∈ cs0
      · simp only [hc, if_true] at hcs; exact hcs ▸ h0
      · simp only [hc, if_false] at hcs
        rw [← hcs]
        exact List.Nodup.append h0 (List.nodup_singleton c)
          (by
            intro a ha hac
            rw [List.mem_singleton] at hac
            exact hc (hac ▸ ha))
  · rw [lookup_insertEdge_ne hx] at hcs
    exact hn x cs (edgesAt_ok_iff.mpr hcs)

theorem hasEdge_addParentEdges (name : String) :
    ∀ (ps : List String) (g g1 : Graph), addParentEdges name ps g = .ok g1 → ∀ (x y : String),
      (HasEdge g1 x y ↔ HasEdge g x y ∨ (x ∈ ps ∧ y = name)) := by
  intro ps
  induction ps with
  | nil =>
    intro g g1 h x y
    simp only [addParentEdges, Except.ok.injEq] at h
    subst h
    simp
  | cons p rest ih =>
    intro g g1 h x y
    simp only [addParentEdges] at h
    cases he : g.addEdge p name with
    | error err => simp [he] at h
    | ok g2 =>
      simp only [he] at h
      rw [ih g2 g1 h, hasEdge_addEdge he]
      simp only [List.mem_cons]
      tauto

theorem addEdge_nodes {g g1 : Graph} {p c : String} (he : g.addEdge p c = .ok g1) :
    g1.m_root = g.m_root ∧ g1.m_nodes = g.m_nodes := by
  rw [(addEdge_ok he).1]
  exact ⟨rfl, rfl⟩

/-- The edges of an asset change neither the root nor the nodes. -/
theorem addEdges_nodes {P : Ports} {name : String} {asset : Asset} {g g1 : Graph}
    (he : (if asset.m_parents.isEmpty then g.addEdge g.root name
        else addParentEdges name (P.iter asset.m_parents) g) = .ok g1) :
    g1.m_root = g.m_root ∧ g1.m_nodes = g.m_nodes :=
  addAssetEdges_induct (fun g2 => g2.m_root = g.m_root ∧ g2.m_nodes = g.m_nodes) P name asset
    (fun _ _ _ he1 hq =>
      ⟨(addEdge_nodes he1).1.trans hq.1, (addEdge_nodes he1).2.trans hq.2⟩) he ⟨rfl, rfl⟩

theorem hasEdge_addNode {g g1 : Graph} {key : String} {a : Asset}
    (hadd : g.addNode key a = .ok g1) (x y : String) : HasEdge g1 x y ↔ HasEdge g x y := by
  unfold Graph.addNode at hadd
  split at hadd
  · simp at hadd
  · simp only [Except.ok.injEq] at hadd
    subst hadd
    simp only [HasEdge, edgesAt_ok_iff, mapInsert]
    cases hl : lookup key g.m_edges with
    | some cs0 => rfl
    | none =>
      simp only []
      cases hx : lookup x g.m_edges with
      | some cs =>
        rw [lookup_append_some hx]
      | none =>
        rw [lookup_append_none hx]
        by_cases hk : key = x
        · simp [lookup, hk]
        · simp [lookup, hk]

theorem edgesNodup_addNode {g g1 : Graph} {key : String} {a : Asset}
    (hadd : g.addNode key a = .ok g1) (hn : EdgesNodup g) : EdgesNodup g1 := by
  unfold Graph.addNode at hadd
  split at hadd
  · simp at hadd
  · simp only [Except.ok.injEq] at hadd
    subst hadd
    intro x cs hcs
    rw [edgesAt_ok_iff] at hcs
    simp only [mapInsert] at hcs
    cases hl : lookup key g.m_edges with
    | some cs0 =>
      simp only [hl] at hcs
      exact hn x cs (edgesAt_ok_iff.mpr hcs)
    | none =>
      simp only [hl] at hcs
      cases hx : lookup x g.m_edges with
      | some cs1 =>
        rw [lookup_append_some hx] at hcs
        exact hn x cs (edgesAt_ok_iff.mpr (hx.trans hcs))
      | none =>
        rw [lookup_append_none hx] at hcs
        by_cases hk : key = x
        · simp only [lookup, hk, if_true, Option.some.injEq] at hcs
          exact hcs ▸ List.nodup_nil
        · simp [lookup, hk] at hcs

theorem lookup_append_single_ne {α : Type} {c name : String} (hne : c ≠ name)
    (l : List (String × α)) (a : α) : lookup c (l ++ [(name, a)]) = lookup c l := by
  cases hl : lookup c l with
  | some v => exact lookup_append_some hl
  | none =>
    rw [lookup_append_none hl]
    have hnc : ¬ name = c := fun h => hne h.symm
    simp [lookup, hnc]

theorem fromJson_fresh {P : Ports} {json : Json} {ty : AssetType} {h h1 : Heap} {a : Asset}
    (hp : Asset.fromJson P json ty h = .ok (a, h1)) : a.m_filters = [] ∧ a.m_type = ty := by
  obtain ⟨kvs, rfl⟩ := fromJson_object hp
  rw [fromJson_eq_fromParts] at hp
  simp only [Asset.fromParts] at hp
  split at hp
  · simp at hp
  · split at hp
    · simp at hp
    · split at hp
      · simp at hp
      · split at hp
        · simp at hp
        · split at hp
          · simp at hp
          · simp only [Except.ok.injEq, Prod.mk.injEq] at hp
            rw [← hp.1]
            exact ⟨rfl, rfl⟩

/-- One step of `buildGraph`: the node of an asset and its edges are added to a
graph that has the declared edges only. -/
theorem graphInv_addAsset {P : Ports} (hiter : IterSound P) {family name : String}
    {asset : Asset} {g g1 g2 : Graph} (hadd : g.addNode name asset = .ok g1)
    (hedges : (if asset.m_parents.isEmpty then g1.addEdge g1.root name
        else addParentEdges name (P.iter asset.m_parents) g1) = .ok g2)
    (hg : GraphInv family g) : GraphInv family g2 := by
  obtain ⟨hroot, ⟨ra, hra, hrap⟩, hnd, hex⟩ := hg
  have he1 : ∀ x y, HasEdge g1 x y ↔ HasEdge g x y := hasEdge_addNode hadd
  have hnd1 : EdgesNodup g1 := edgesNodup_addNode hadd hnd
  unfold Graph.addNode at hadd
  split at hadd
  · simp at hadd
  · rename_i hnot
    simp only [Except.ok.injEq] at hadd
    have hnone : lookup name g.m_nodes = none := by
      simp only [Graph.hasNode] at hnot
      cases hl : lookup name g.m_nodes with
      | none => rfl
      | some v => simp [hl] at hnot
    have hra1 := node_ok_iff.mp hra
    have hne : name ≠ g.m_root := by
      intro heq; rw [heq, hra1] at hnone; exact Option.noConfusion hnone
    have hr1 : g1.m_root = g.m_root := by rw [← hadd]
    have hn1 : g1.m_nodes = g.m_nodes ++ [(name, asset)] := by rw [← hadd]
    have hold : ∀ p, ¬ HasEdge g p name := by
      intro p hp
      obtain ⟨a, -, ha, -⟩ := (hex p name).mp hp
      rw [node_ok_iff, hnone] at ha
      exact Option.noConfusion ha
    have hres := addEdges_nodes hedges
    have hedge : ∀ x y, HasEdge g2 x y ↔
        HasEdge g x y ∨ (y = name ∧ ((asset.m_parents = [] ∧ x = g.m_root) ∨
          x ∈ asset.m_parents)) := by
      intro x y
      by_cases hemp : asset.m_parents = []
      · simp only [hemp, List.isEmpty_nil, if_true] at hedges
        simp only [hasEdge_addEdge hedges, hemp, he1, Graph.root, hr1,
          List.not_mem_nil, or_false, true_and]
        tauto
      · have hfalse : asset.m_parents.isEmpty = false := by
          cases hp : asset.m_parents with
          | nil => exact absurd hp hemp
          | cons _ _ => rfl
        simp only [hfalse, Bool.false_eq_true, if_false] at hedges
        simp only [hasEdge_addParentEdges name _ _ _ hedges, he1,
          hiter _ x, hemp, false_and, false_or]
        tauto
    refine ⟨hres.1.trans (hr1.trans hroot), ⟨ra, ?_, hrap⟩, ?_, ?_⟩
    · rw [node_ok_iff, hres.1, hres.2, hr1, hn1]
      exact lookup_append_some hra1
    · exact addAssetEdges_induct EdgesNodup P name asset
        (fun _ _ _ he2 hq => edgesNodup_addEdge he2 hq) hedges hnd1
    · intro x y
      rw [hedge]
      simp only [node_ok_iff, hres.1, hres.2, hr1, hn1]
      by_cases hy : y = name
      · subst hy
        rw [lookup_append_none hnone]
        simp only [lookup, if_true, Option.some.injEq, true_and]
        constructor
        · rintro (h | h)
          · exact absurd h (hold x)
          · exact ⟨asset, hne, rfl, h⟩
        · rintro ⟨a, -, ha, h⟩
          exact Or.inr (ha ▸ h)
      · rw [lookup_append_single_ne hy]
        constructor
        · rintro (h | ⟨h, -⟩)
          · simpa only [node_ok_iff] using (hex x y).mp h
          · exact absurd h hy
        · intro h
          exact Or.inl ((hex x y).mpr (by simpa only [node_ok_iff] using h))

theorem buildGraphLoop_graphInv {P : Ports} (hiter : IterSound P) (family : String)
    (ty : AssetType) :
    ∀ (defs : List (String × Json)) (assets assets1 : List (String × Asset))
      (g g1 : Graph) (h h1 : Heap),
      buildGraphLoop P ty defs (assets, g, h) = .ok (assets1, g1, h1) →
      GraphInv family g → GraphInv family g1 := by
  intro defs
  induction defs with
  | nil =>
    intro assets assets1 g g1 h h1 hb hg
    simp only [buildGraphLoop, Except.ok.injEq, Prod.mk.injEq] at hb
    exact hb.2.1 ▸ hg
  | cons d rest ih =>
    intro assets assets1 g g1 h h1 hb hg
    obtain ⟨name, json⟩ := d
    obtain ⟨asset, h2, g2, g3, -, hadd, he, hb2⟩ := buildGraphLoop_cons hb
    exact ih _ _ _ _ _ _ hb2 (graphInv_addAsset hiter hadd he hg)

/-! ### Cycles -/

theorem findSome_some {α β : Type} {f : α → Option β} :
    ∀ {l : List α} {b : β}, l.findSome? f = some b → ∃ a, a ∈ l ∧ f a = some b := by
  intro l
  induction l with
  | nil => intro b h; simp [List.findSome?] at h
  | cons x rest ih =>
    intro b h
    simp only [List.findSome?] at h
    cases hx : f x with
    | some y =>
      simp only [hx, Option.some.injEq] at h
      exact ⟨x, List.mem_cons_self _ _, h ▸ hx⟩
    | none =>
      simp only [hx] at h
      obtain ⟨a, ha, hfa⟩ := ih h
      exact ⟨a, List.mem_cons_of_mem _ ha, hfa⟩

theorem findSome_of_mem {α β : Type} {f : α → Option β} :
    ∀ {l : List α} {a : α} {b : β}, a ∈ l → f a = some b → ∃ b1, l.findSome? f = some b1 := by
  intro l
  induction l with
  | nil => intro a b h; simp at h
  | cons x rest ih =>
    intro a b h hfa
    simp only [List.findSome?]
    cases hx : f x with
    | some y => exact ⟨y, rfl⟩
    | none =>
      rcases List.mem_cons.mp h with h1 | h1
      · rw [h1, hx] at hfa; exact Option.noConfusion hfa
      · exact ih h1 hfa

theorem hasEdge_iff_lookup {g : Graph} {p c : String} :
    HasEdge g p c ↔ c ∈ (lookup p g.m_edges).getD [] := by
  simp only [HasEdge, edgesAt_ok_iff]
  cases lookup p g.m_edges with
  | none => simp
  | some cs => simp

/-- A path that `findPath` finds leads from `src` to `dst` along edges of the
graph: it starts at `src`, ends at `dst`, and each key has an edge to the
next. -/
theorem findPath_sound (g : Graph) (dst : String) :
    ∀ (fuel : Nat) (src : String) (l : List String),
      findPath g.m_edges fuel src dst = some l →
      l.head? = some src ∧ l.getLast? = some dst ∧ List.Chain' (HasEdge g) l := by
  intro fuel
  induction fuel with
  | zero => intro src l h; simp [findPath] at h
  | succ n ih =>
    intro src l h
    simp only [findPath] at h
    split at h
    · rename_i heq
      simp only [Option.some.injEq] at h
      subst h
      exact ⟨rfl, by simp [heq], List.chain'_singleton _⟩
    · obtain ⟨c, hc, hf⟩ := findSome_some h
      cases hp : findPath g.m_edges n c dst with
      | none => simp [hp] at hf
      | some l1 =>
        simp only [hp, Option.map_some', Option.some.injEq] at hf
        obtain ⟨hhead, hlast, hchain⟩ := ih c l1 hp
        subst hf
        refine ⟨rfl, ?_, ?_⟩
        · cases l1 with
          | nil => simp at hhead
          | cons y ys =>
            rw [List.getLast?_cons_cons]
            exact hlast
        · cases l1 with
          | nil => simp at hhead
          | cons y ys =>
            simp only [List.head?_cons, Option.some.injEq] at hhead
            subst hhead
            exact List.Chain'.cons (hasEdge_iff_lookup.mpr hc) hchain

/-- Every key of a path that `findPath` finds is its start or the child of an
edge. -/
theorem findPath_mem (g : Graph) (dst : String) :
    ∀ (fuel : Nat) (src : String) (l : List String),
      findPath g.m_edges fuel src dst = some l →
      ∀ y ∈ l, y = src ∨ ∃ q, HasEdge g q y := by
  intro fuel
  induction fuel with
  | zero => intro src l h; simp [findPath] at h
  | succ n ih =>
    intro src l h y hy
    simp only [findPath] at h
    split at h
    · simp only [Option.some.injEq] at h
      subst h
      simp only [List.mem_singleton] at hy
      exact Or.inl hy
    · obtain ⟨c, hc, hf⟩ := findSome_some h
      cases hp : findPath g.m_edges n c dst with
      | none => simp [hp] at hf
      | some l1 =>
        simp only [hp, Option.map_some', Option.some.injEq] at hf
        subst hf
        rcases List.mem_cons.mp hy with h1 | h1
        · exact Or.inl h1
        · rcases ih c l1 hp y h1 with h2 | h2
          · exact Or.inr ⟨src, h2 ▸ hasEdge_iff_lookup.mpr hc⟩
          · exact Or.inr h2

theorem keys_length_le {α : Type} {m : List (String × α)} {S : List String} (hnd : S.Nodup)
    (hkeys : ∀ v ∈ S, ∃ x, lookup v m = some x) : S.length ≤ m.length := by
  have hsub : S ⊆ m.map Prod.fst := by
    intro v hv
    obtain ⟨x, hx⟩ := hkeys v hv
    exact mem_keys_of_lookup hx
  have := (hnd.subperm hsub).length_le
  simpa using this

/-- In a graph without cycle the search finds a path wherever one exists: a
path without repeated key is never longer than the edge map. -/
theorem findPath_complete {g : Graph} (hac : Acyclic g) (dst : String) :
    ∀ (fuel : Nat) (x : String) (S : List String), S.Nodup →
      (∀ s ∈ S, Relation.TransGen (HasEdge g) s x) →
      g.m_edges.length + 1 ≤ fuel + S.length →
      Relation.ReflTransGen (HasEdge g) x dst →
      ∃ l, findPath g.m_edges fuel x dst = some l := by
  intro fuel
  induction fuel with
  | zero =>
    intro x S hnd hS hlen _
    exfalso
    have hle : S.length ≤ g.m_edges.length := by
      apply keys_length_le hnd
      intro s hs
      obtain ⟨b, ⟨cs, hcs, -⟩, -⟩ := Relation.TransGen.head'_iff.mp (hS s hs)
      exact ⟨cs, edgesAt_ok_iff.mp hcs⟩
    omega
  | succ n ih =>
    intro x S hnd hS hlen hreach
    simp only [findPath]
    by_cases hx : x = dst
    · simp [hx]
    · simp only [hx, if_false]
      rcases Relation.ReflTransGen.cases_head hreach with h1 | ⟨c, hxc, hcd⟩
      · exact absurd h1 hx
      · have hxS : x ∉ S := fun hmem => hac x (hS x hmem)
        obtain ⟨l, hl⟩ := ih c (x :: S) (List.nodup_cons.mpr ⟨hxS, hnd⟩)
          (by
            intro s hs
            rcases List.mem_cons.mp hs with h1 | h1
            · exact h1 ▸ Relation.TransGen.single hxc
            · exact Relation.TransGen.tail (hS s h1) hxc)
          (by simp only [List.length_cons]; omega) hcd
        exact findSome_of_mem (hasEdge_iff_lookup.mp hxc) (by rw [hl]; rfl)

theorem transGen_insert {α : Type} {R : α → α → Prop} {p c x y : α}
    (h : Relation.TransGen (fun a b => R a b ∨ (a = p ∧ b = c)) x y) :
    Relation.TransGen R x y ∨
      (Relation.ReflTransGen R x p ∧ Relation.ReflTransGen R c y) := by
  induction h with
  | single hab =>
    rcases hab with h1 | ⟨h1, h2⟩
    · exact Or.inl (Relation.TransGen.single h1)
    · subst h1; subst h2
      exact Or.inr ⟨Relation.ReflTransGen.refl, Relation.ReflTransGen.refl⟩
  | tail _ hbc ih =>
    rcases ih with t | ⟨t1, t2⟩
    · rcases hbc with h1 | ⟨h1, h2⟩
      · exact Or.inl (Relation.TransGen.tail t h1)
      · subst h1; subst h2
        exact Or.inr ⟨t.to_reflTransGen, Relation.ReflTransGen.refl⟩
    · rcases hbc with h1 | ⟨h1, h2⟩
      · exact Or.inr ⟨t1, Relation.ReflTransGen.tail t2 h1⟩
      · subst h1; subst h2
        exact Or.inr ⟨t1, Relation.ReflTransGen.refl⟩

/-- An edge that `addEdge` accepts closes no cycle. -/
theorem acyclic_addEdge {g g1 : Graph} {p c : String} (he : g.addEdge p c = .ok g1)
    (hac : Acyclic g) : Acyclic g1 := by
  intro v hv
  have hrel : Relation.TransGen (fun a b => HasEdge g a b ∨ (a = p ∧ b = c)) v v :=
    Relation.TransGen.mono (fun a b hab => (hasEdge_addEdge he a b).mp hab) hv
  rcases transGen_insert hrel with t | ⟨t1, t2⟩
  · exact hac v t
  · obtain ⟨l, hl⟩ := findPath_complete hac p (g.m_edges.length + 1) c [] List.nodup_nil
      (by intro s hs; simp at hs) (by simp) (t2.trans t1)
    rw [(addEdge_ok he).2] at hl
    exact Option.noConfusion hl

theorem acyclic_addNode {g g1 : Graph} {key : String} {a : Asset}
    (hadd : g.addNode key a = .ok g1) (hac : Acyclic g) : Acyclic g1 := by
  intro v hv
  exact hac v (Relation.TransGen.mono (fun a b hab => (hasEdge_addNode hadd a b).mp hab) hv)

theorem acyclic_new (rootId : String) (root : Asset) : Acyclic (Graph.new rootId root) := by
  intro v hv
  obtain ⟨b, ⟨cs, hcs, hmem⟩, -⟩ := Relation.TransGen.head'_iff.mp hv
  rw [edgesAt_ok_iff] at hcs
  simp only [Graph.new, lookup] at hcs
  split at hcs
  · simp only [Option.some.injEq] at hcs
    rw [← hcs] at hmem
    exact List.not_mem_nil _ hmem
  · exact Option.noConfusion hcs

theorem buildGraphLoop_acyclic (P : Ports) (ty : AssetType) :
    ∀ (defs : List (String × Json)) (assets assets1 : List (String × Asset))
      (g g1 : Graph) (h h1 : Heap),
      buildGraphLoop P ty defs (assets, g, h) = .ok (assets1, g1, h1) →
      Acyclic g → Acyclic g1 := by
  intro defs
  induction defs with
  | nil =>
    intro assets assets1 g g1 h h1 hb hg
    simp only [buildGraphLoop, Except.ok.injEq, Prod.mk.injEq] at hb
    exact hb.2.1 ▸ hg
  | cons d rest ih =>
    intro assets assets1 g g1 h h1 hb hg
    obtain ⟨name, json⟩ := d
    obtain ⟨asset, h2, g2, g3, -, hadd, he, hb2⟩ := buildGraphLoop_cons hb
    exact ih _ _ _ _ _ _ hb2 (addAssetEdges_induct Acyclic P name asset
      (fun _ _ _ he1 hq => acyclic_addEdge he1 hq) he (acyclic_addNode hadd hg))

/-! ### The filters of the nodes -/

theorem mem_setInsert (s : List String) (x f : String) :
    f ∈ setInsert s x ↔ f ∈ s ∨ f = x := by
  unfold setInsert
  split
  · rename_i hx
    constructor
    · exact fun h => Or.inl h
    · rintro (h | h)
      · exact h
      · exact h ▸ hx
  · simp

theorem filtersGrow_refl (l : List (String × Asset)) : FiltersGrow (fun _ _ => False) l l := by
  intro c
  cases hl : lookup c l with
  | none => exact Or.inl ⟨rfl, rfl⟩
  | some a => exact Or.inr ⟨a, a, rfl, rfl, rfl, fun f => by simp⟩

theorem filtersGrow_trans {X Y : String → String → Prop} {l l1 l2 : List (String × Asset)}
    (h1 : FiltersGrow X l l1) (h2 : FiltersGrow Y l1 l2) :
    FiltersGrow (fun c f => X c f ∨ Y c f) l l2 := by
  intro c
  rcases h1 c with ⟨ha, hb⟩ | ⟨a, a1, ha, ha1, heq1, hf1⟩
  · rcases h2 c with ⟨-, hc⟩ | ⟨b, b1, hb0, -⟩
    · exact Or.inl ⟨ha, hc⟩
    · rw [hb] at hb0; exact Option.noConfusion hb0
  · rcases h2 c with ⟨hb, -⟩ | ⟨b, b1, hb0, hb1, heq2, hf2⟩
    · rw [ha1] at hb; exact Option.noConfusion hb
    · rw [ha1] at hb0
      simp only [Option.some.injEq] at hb0
      subst hb0
      refine Or.inr ⟨a, b1, ha, hb1, ?_, ?_⟩
      · rw [heq2, heq1]
      · intro f
        rw [hf2, hf1]
        tauto

theorem filtersGrow_congr {X Y : String → String → Prop} {l l1 : List (String × Asset)}
    (hxy : ∀ c f, X c f ↔ Y c f) (h : FiltersGrow X l l1) : FiltersGrow Y l l1 := by
  intro c
  rcases h c with hn | ⟨a, a1, ha, ha1, heq, hf⟩
  · exact Or.inl hn
  · exact Or.inr ⟨a, a1, ha, ha1, heq, fun f => by rw [hf, hxy]⟩

theorem filtersGrow_insertFilter (key name : String) (l : List (String × Asset)) :
    FiltersGrow (fun c f => c = key ∧ f = name) l (insertFilter key name l) := by
  intro c
  induction l with
  | nil => exact Or.inl ⟨rfl, rfl⟩
  | cons kv rest ih =>
    obtain ⟨k, a⟩ := kv
    by_cases hk : k = key
    · subst hk
      by_cases hc : k = c
      · subst hc
        refine Or.inr ⟨a, { a with m_filters := setInsert a.m_filters name },
          by simp [lookup], by simp [insertFilter, lookup], rfl, ?_⟩
        intro f
        simp [mem_setInsert]
      · cases hl : lookup c rest with
        | none => exact Or.inl ⟨by simp [lookup, hc, hl], by simp [insertFilter, lookup, hc, hl]⟩
        | some b =>
          refine Or.inr ⟨b, b, by simp [lookup, hc, hl], by simp [insertFilter, lookup, hc, hl],
            rfl, ?_⟩
          intro f
          have hck : ¬ c = k := fun h => hc h.symm
          simp [hck]
    · by_cases hc : k = c
      · subst hc
        refine Or.inr ⟨a, a, by simp [lookup], by simp [insertFilter, hk, lookup], rfl, ?_⟩
        intro f
        simp [hk]
      · rcases ih with ⟨h1, h2⟩ | ⟨b, b1, h1, h2, heq, hf⟩
        · exact Or.inl ⟨by simp [lookup, hc, h1], by simp [insertFilter, hk, lookup, hc, h2]⟩
        · exact Or.inr ⟨b, b1, by simp [lookup, hc, h1],
            by simp [insertFilter, hk, lookup, hc, h2], heq, hf⟩

/-- The loop over the parents of one filter adds the filter to the nodes among
its parents and changes nothing else. -/
theorem addFilterTo_spec (name : String) :
    ∀ (ps : List String) (g : Graph),
      (addFilterTo name ps g).m_root = g.m_root ∧ (addFilterTo name ps g).m_edges = g.m_edges ∧
      FiltersGrow (fun c f => f = name ∧ c ∈ ps) g.m_nodes (addFilterTo name ps g).m_nodes := by
  intro ps
  induction ps with
  | nil =>
    intro g
    exact ⟨rfl, rfl, filtersGrow_congr (by simp) (filtersGrow_refl _)⟩
  | cons p rest ih =>
    intro g
    simp only [addFilterTo]
    split
    · obtain ⟨h1, h2, h3⟩ := ih { g with m_nodes := insertFilter p name g.m_nodes }
      refine ⟨h1, h2, ?_⟩
      refine filtersGrow_congr ?_ (filtersGrow_trans (filtersGrow_insertFilter p name g.m_nodes) h3)
      intro c f
      simp only [List.mem_cons]
      tauto
    · rename_i hnot
      obtain ⟨h1, h2, h3⟩ := ih g
      refine ⟨h1, h2, ?_⟩
      intro c
      rcases h3 c with hn | ⟨a, a1, ha, ha1, heq, hf⟩
      · exact Or.inl hn
      · refine Or.inr ⟨a, a1, ha, ha1, heq, ?_⟩
        intro f
        rw [hf]
        have hcp : c ≠ p := by
          intro h
          apply hnot
          simp [Graph.hasNode, ← h, ha]
        simp only [List.mem_cons, hcp, false_or]

/-- The loop of `addFilters` adds to every node the filter-typed assets of the
list that have the node among their parents, and changes nothing else. -/
theorem addFiltersLoop_spec (P : Ports) :
    ∀ (L : List (String × Asset)) (g : Graph),
      (addFiltersLoop P L g).m_root = g.m_root ∧ (addFiltersLoop P L g).m_edges = g.m_edges ∧
      FiltersGrow (fun c f => ∃ asset, (f, asset) ∈ L ∧ asset.m_type = .filter ∧
        c ∈ P.iter asset.m_parents) g.m_nodes (addFiltersLoop P L g).m_nodes := by
  intro L
  induction L with
  | nil =>
    intro g
    exact ⟨rfl, rfl, filtersGrow_congr (by simp) (filtersGrow_refl _)⟩
  | cons na rest ih =>
    intro g
    obtain ⟨name, asset⟩ := na
    simp only [addFiltersLoop]
    split
    · rename_i hty
      obtain ⟨h1, h2, h3⟩ := addFilterTo_spec name (P.iter asset.m_parents) g
      obtain ⟨k1, k2, k3⟩ := ih (addFilterTo name (P.iter asset.m_parents) g)
      refine ⟨k1.trans h1, k2.trans h2, filtersGrow_congr ?_ (filtersGrow_trans h3 k3)⟩
      intro c f
      simp only [List.mem_cons, Prod.mk.injEq]
      constructor
      · rintro (⟨hf, hc⟩ | ⟨a, ha, hat, hac⟩)
        · exact ⟨asset, Or.inl ⟨hf, rfl⟩, hty, hc⟩
        · exact ⟨a, Or.inr ha, hat, hac⟩
      · rintro ⟨a, (⟨hf, ha⟩ | ha), hat, hac⟩
        · exact Or.inl ⟨hf, ha ▸ hac⟩
        · exact Or.inr ⟨a, ha, hat, hac⟩
    · rename_i hty
      obtain ⟨k1, k2, k3⟩ := ih g
      refine ⟨k1, k2, filtersGrow_congr ?_ k3⟩
      intro c f
      simp only [List.mem_cons, Prod.mk.injEq]
      constructor
      · rintro ⟨a, ha, hat, hac⟩
        exact ⟨a, Or.inr ha, hat, hac⟩
      · rintro ⟨a, (⟨hf, ha⟩ | ha), hat, hac⟩
        · exact absurd (ha ▸ hat) hty
        · exact ⟨a, ha, hat, hac⟩

theorem graphInv_of_filtersGrow {family : String} {X : String → String → Prop} {g g1 : Graph}
    (hr : g1.m_root = g.m_root) (he : g1.m_edges = g.m_edges)
    (hn : FiltersGrow X g.m_nodes g1.m_nodes) (hg : GraphInv family g) : GraphInv family g1 := by
  obtain ⟨hroot, ⟨ra, hra, hrap⟩, hnd, hex⟩ := hg
  have hnode : ∀ c, (∃ a, g1.node c = .ok a ∧ True) ↔ (∃ a, g.node c = .ok a ∧ True) := by
    intro c; simp only [node_ok_iff]
    rcases hn c with ⟨h1, h2⟩ | ⟨a, a1, h1, h2, -, -⟩
    · simp [h1, h2]
    · simp [h1, h2]
  have hpar : ∀ c a1, g1.node c = .ok a1 → ∃ a, g.node c = .ok a ∧ a1.m_parents = a.m_parents := by
    intro c a1 h1
    rw [node_ok_iff] at h1
    rcases hn c with ⟨-, h2⟩ | ⟨a, b1, h0, h2, heq, -⟩
    · rw [h1] at h2; exact Option.noConfusion h2
    · rw [h1] at h2
      simp only [Option.some.injEq] at h2
      subst h2
      exact ⟨a, node_ok_iff.mpr h0, by rw [heq]⟩
  have hpar2 : ∀ c a, g.node c = .ok a → ∃ a1, g1.node c = .ok a1 ∧ a1.m_parents = a.m_parents := by
    intro c a h0
    rw [node_ok_iff] at h0
    rcases hn c with ⟨h1, -⟩ | ⟨b, b1, h1, h2, heq, -⟩
    · rw [h0] at h1; exact Option.noConfusion h1
    · rw [h0] at h1
      simp only [Option.some.injEq] at h1
      subst h1
      exact ⟨b1, node_ok_iff.mpr h2, by rw [heq]⟩
  have hedge : ∀ x y, HasEdge g1 x y ↔ HasEdge g x y := by
    intro x y; simp only [HasEdge, edgesAt_ok_iff, he]
  refine ⟨hr.trans hroot, ?_, ?_, ?_⟩
  · obtain ⟨a1, h1, h2⟩ := hpar2 _ _ hra
    exact ⟨a1, hr ▸ h1, h2.trans hrap⟩
  · intro p cs hcs
    exact hnd p cs (by rw [edgesAt_ok_iff] at hcs ⊢; rw [← he]; exact hcs)
  · intro x y
    rw [hedge, hex, hr]
    constructor
    · rintro ⟨a, h1, h2, h3⟩
      obtain ⟨a1, k1, k2⟩ := hpar2 _ _ h2
      exact ⟨a1, h1, k1, by rw [k2]; exact h3⟩
    · rintro ⟨a1, h1, h2, h3⟩
      obtain ⟨a, k1, k2⟩ := hpar _ _ h2
      exact ⟨a, h1, k1, by rw [← k2]; exact h3⟩

/-! ### An induction principle for the loop "Build graphs" -/

theorem lookup_sortedInsert {α : Type} (name : String) (r : α) :
    ∀ gs : List (String × α), ∃ g0, lookup name (sortedInsert name r gs) = some g0 ∧
      (g0 = r ∨ (name, g0) ∈ gs) := by
  intro gs
  induction gs with
  | nil => exact ⟨r, by simp [sortedInsert, lookup], Or.inl rfl⟩
  | cons kv rest ih =>
    obtain ⟨k, x⟩ := kv
    by_cases hk : name = k
    · subst hk
      exact ⟨x, by simp [sortedInsert, lookup], Or.inr (List.mem_cons_self _ _)⟩
    · have hk1 : ¬ k = name := fun h => hk h.symm
      by_cases hlt : stringLt name k = true
      · exact ⟨r, by simp [sortedInsert, hk, hlt, lookup], Or.inl rfl⟩
      · obtain ⟨g0, h1, h2⟩ := ih
        refine ⟨g0, by simp [sortedInsert, hk, hlt, lookup, hk1, h1], ?_⟩
        rcases h2 with h2 | h2
        · exact Or.inl h2
        · exact Or.inr (List.mem_cons_of_mem _ h2)

theorem mem_mapSet_sortedInsert {α : Type} (name : String) (r v : α) :
    ∀ (gs : List (String × α)) (x : String × α),
      x ∈ mapSet name v (sortedInsert name r gs) → x ∈ gs ∨ x = (name, v) := by
  intro gs
  induction gs with
  | nil =>
    intro x hx
    simp [sortedInsert, mapSet] at hx
    exact Or.inr hx
  | cons kv rest ih =>
    intro x hx
    obtain ⟨k, w⟩ := kv
    by_cases hk : name = k
    · subst hk
      simp only [sortedInsert, if_true, mapSet, List.mem_cons] at hx
      rcases hx with hx | hx
      · exact Or.inr hx
      · exact Or.inl (List.mem_cons_of_mem _ hx)
    · have hk1 : ¬ k = name := fun h => hk h.symm
      by_cases hlt : stringLt name k = true
      · simp only [sortedInsert, hk, if_false, hlt, if_true, mapSet, List.mem_cons] at hx
        rcases hx with hx | hx | hx
        · exact Or.inr hx
        · exact Or.inl (hx ▸ List.mem_cons_self _ _)
        · exact Or.inl (List.mem_cons_of_mem _ hx)
      · simp only [sortedInsert, hk, if_false, hlt, mapSet, hk1, List.mem_cons] at hx
        rcases hx with hx | hx
        · exact Or.inl (hx ▸ List.mem_cons_self _ _)
        · rcases ih x hx with h | h
          · exact Or.inl (List.mem_cons_of_mem _ h)
          · exact Or.inr h

theorem mapSet_mapSet {α : Type} (k : String) (v w : α) :
    ∀ l : List (String × α), mapSet k v (mapSet k w l) = mapSet k v l := by
  intro l
  induction l with
  | nil => rfl
  | cons kv rest ih =>
    obtain ⟨k1, x⟩ := kv
    by_cases hk : k1 = k
    · simp [mapSet, hk]
    · simp [mapSet, hk, ih]

theorem lookup_mapSet_self {α : Type} (k : String) (v : α) :
    ∀ (l : List (String × α)) (w : α), lookup k l = some w → lookup k (mapSet k v l) = some v := by
  intro l
  induction l with
  | nil => intro w hw; simp [lookup] at hw
  | cons kv rest ih =>
    intro w hw
    obtain ⟨k1, x⟩ := kv
    by_cases hk : k1 = k
    · simp [mapSet, hk, lookup]
    · simp only [lookup, hk, if_false] at hw
      simp [mapSet, hk, lookup, ih w hw]

theorem mem_mapInsert {α : Type} {m : List (String × α)} {key : String} {v : α}
    {x : String × α} (hx : x ∈ mapInsert m key v) : x ∈ m ∨ x = (key, v) := by
  unfold mapInsert at hx
  split at hx
  · exact Or.inl hx
  · simpa using hx

/-- Every definition that `fetchDefinitions` returns is the answer of the
Catalog for the code and the key, and the Catalog has answered for every
listed name. -/
theorem fetchDefinitions_catalog {P : Ports} (code : Nat) :
    ∀ (l : List Json) (acc defs : List (String × Json)),
      fetchDefinitions P code l acc = .ok defs →
      (∀ kd ∈ acc, P.catalog code kd.1 = .ok kd.2) →
      (∀ kd ∈ defs, P.catalog code kd.1 = .ok kd.2) ∧
        ∀ key, Json.str key ∈ l → ∃ d, P.catalog code key = .ok d := by
  intro l
  induction l with
  | nil =>
    intro acc defs h hacc
    simp only [fetchDefinitions, Except.ok.injEq] at h
    exact ⟨h ▸ hacc, by intro key hk; simp at hk⟩
  | cons j rest ih =>
    intro acc defs h hacc
    simp only [fetchDefinitions] at h
    cases hs : j.getString with
    | error err => simp [hs] at h
    | ok key =>
      simp only [hs] at h
      cases hc : P.catalog code key with
      | error err => simp [hc] at h
      | ok definition =>
        simp only [hc] at h
        obtain ⟨h1, h2⟩ := ih _ defs h (by
          intro kd hkd
          rcases mem_mapInsert hkd with h3 | h3
          · exact hacc kd h3
          · rw [h3]; exact hc)
        refine ⟨h1, ?_⟩
        intro k hk
        rcases List.mem_cons.mp hk with h3 | h3
        · rw [← h3] at hs
          simp only [Json.getString, Except.ok.injEq] at hs
          exact ⟨definition, hs ▸ hc⟩
        · exact h2 k h3

theorem iterate_subset {α : Type} (P : Ports) (m : List (String × α)) :
    ∀ kd ∈ iterate P m, kd ∈ m := by
  intro kd hkd
  simp only [iterate, List.mem_filterMap] at hkd
  obtain ⟨k, -, hk⟩ := hkd
  cases hl : lookup k m with
  | none => simp [hl] at hk
  | some v =>
    simp only [hl, Option.map_some', Option.some.injEq] at hk
    exact hk ▸ lookup_mem hl

/-- Induction over the loop "Build graphs": a property `I` of the graphs holds
for every graph of the result when the graph a family starts from has the
weaker `I0`, and one round of `buildGraph` and `addFilters` leads from `I0` to
`I`; `A` is carried along the asset map and `K` restricts the family keys. -/
theorem buildGraphs_induct (P : Ports) (K : String → Prop) (I0 I : String → Graph → Prop)
    (A : List (String × Asset) → Prop)
    (hweak : ∀ fam g, I fam g → I0 fam g)
    (hnew : ∀ fam ty, K fam → getAssetType fam = .ok ty →
      I0 fam (Graph.new (fam ++ "Input") (Asset.named (fam ++ "Input") ty)))
    (hstep : ∀ fam ty defs assets g h assets1 g1 h1, K fam → getAssetType fam = .ok ty →
      (∀ kd ∈ defs, P.catalog ty.code kd.1 = .ok kd.2) →
      I0 fam g → A assets → buildGraphLoop P ty defs (assets, g, h) = .ok (assets1, g1, h1) →
      A assets1 ∧ I fam (addFiltersLoop P (iterate P assets1) g1)) :
    ∀ (entries : List (String × Json)) (env env1 : Environment),
      (∀ k ∈ entries.map Prod.fst, K k) → buildGraphs P entries env = .ok env1 →
      (∀ ng ∈ env.m_graphs, I ng.1 ng.2) → A env.m_assets →
      (∀ ng ∈ env1.m_graphs, I ng.1 ng.2) ∧ A env1.m_assets := by
  intro entries
  induction entries with
  | nil =>
    intro env env1 _ hb hI hA
    simp only [buildGraphs, Except.ok.injEq] at hb
    exact hb ▸ ⟨hI, hA⟩
  | cons en rest ih =>
    intro env env1 hK hb hI hA
    obtain ⟨name, json⟩ := en
    have hKn : K name := hK name (by simp)
    have hKr : ∀ k ∈ rest.map Prod.fst, K k := fun k hk => hK k (by simp at hk ⊢; exact Or.inr hk)
    simp only [buildGraphs] at hb
    cases harr : json.getArray with
    | error err => simp [harr] at hb
    | ok assetNames =>
      simp only [harr] at hb
      cases hty : getAssetType name with
      | error err => simp [hty] at hb
      | ok ty =>
        simp only [hty] at hb
        cases hfd : fetchDefinitions P ty.code assetNames [] with
        | error err => simp [hfd] at hb
        | ok defs =>
          simp only [hfd] at hb
          split at hb
          · simp at hb
          · rename_i env2 hbg
            obtain ⟨g0, hg0, hg0src⟩ := lookup_sortedInsert name
              (Graph.new (name ++ "Input") (Asset.named (name ++ "Input") ty)) env.m_graphs
            have hI0 : I0 name g0 := by
              rcases hg0src with h | h
              · rw [h]; exact hnew name ty hKn hty
              · exact hweak _ _ (hI (name, g0) h)
            simp only [Environment.buildGraph, hg0, Option.getD_some] at hbg
            split at hbg
            · simp at hbg
            · rename_i assets g h hloop
              simp only [Except.ok.injEq] at hbg
              have hdefs : ∀ kd ∈ iterate P defs, P.catalog ty.code kd.1 = .ok kd.2 := by
                intro kd hkd
                exact (fetchDefinitions_catalog ty.code assetNames [] defs hfd
                  (by intro x hx; simp at hx)).1 kd (iterate_subset P defs kd hkd)
              obtain ⟨hA1, hI1⟩ := hstep name ty _ _ _ _ _ _ _ hKn hty hdefs hI0 hA hloop
              have hgr : (env2.addFilters P name).m_graphs =
                  mapSet name (addFiltersLoop P (iterate P assets) g)
                    (sortedInsert name
                      (Graph.new (name ++ "Input") (Asset.named (name ++ "Input") ty))
                      env.m_graphs) := by
                rw [← hbg]
                simp only [Environment.addFilters, lookup_mapSet_self name g _ g0 hg0,
                  Option.getD_some, mapSet_mapSet]
              have has : (env2.addFilters P name).m_assets = assets := by
                rw [← hbg]; rfl
              refine ih _ env1 hKr hb ?_ (has ▸ hA1)
              intro ng hng
              rw [hgr] at hng
              rcases mem_mapSet_sortedInsert _ _ _ _ _ hng with h1 | h1
              · exact hI ng h1
              · rw [h1]; exact hI1

/-! ### The edges of a family graph -/

theorem insertParents_mem :
    ∀ (l : List Json) (acc ps : List String), insertParents l acc = .ok ps →
      ∀ x, x ∈ ps ↔ (x ∈ acc ∨ Json.str x ∈ l) := by
  intro l
  induction l with
  | nil =>
    intro acc ps hp x
    simp only [insertParents, Except.ok.injEq] at hp
    simp [hp]
  | cons j rest ih =>
    intro acc ps hp x
    simp only [insertParents] at hp
    cases j with
    | str s =>
      simp only [Json.getString] at hp
      rw [ih _ _ hp x, mem_setInsert]
      simp only [List.mem_cons, Json.str.injEq]
      tauto
    | _ => simp [Json.getString] at hp

/-- The parents set of a parsed asset holds the strings of the array under the
key `parents` and nothing else; it is empty when the key is missing. -/
theorem fromJson_parents {P : Ports} {kvs : List (String × Json)} {ty : AssetType}
    {h h1 : Heap} {a : Asset} (hp : Asset.fromJson P (.obj kvs) ty h = .ok (a, h1)) :
    (lookup "parents" kvs = none → a.m_parents = []) ∧
    (∀ l, lookup "parents" kvs = some (.arr l) → ∀ x, x ∈ a.m_parents ↔ Json.str x ∈ l) := by
  rw [fromJson_eq_fromParts, lookup_eraseKey_ne (by decide)] at hp
  simp only [Asset.fromParts] at hp
  split at hp
  · simp at hp
  · split at hp
    · simp at hp
    · split at hp
      · simp at hp
      · rename_i ps hps
        split at hp
        · simp at hp
        · split at hp
          · simp at hp
          · simp only [Except.ok.injEq, Prod.mk.injEq] at hp
            rw [← hp.1]
            simp only
            constructor
            · intro hn
              rw [hn] at hps
              simp only [Except.ok.injEq] at hps
              exact hps.symm
            · intro l hl x
              rw [hl] at hps
              simp only [Json.getArray] at hps
              rw [insertParents_mem l [] ps hps x]
              simp

/-- The loop of `buildGraph` appends one node for every definition, in the
order of the definitions: the node has the key of the definition and holds the
asset parsed from it. -/
theorem buildGraphLoop_nodes (P : Ports) (ty : AssetType) :
    ∀ (defs : List (String × Json)) (assets assets1 : List (String × Asset))
      (g g1 : Graph) (h h1 : Heap),
      buildGraphLoop P ty defs (assets, g, h) = .ok (assets1, g1, h1) →
      ∃ news, g1.m_nodes = g.m_nodes ++ news ∧
        List.Forall₂ (fun (d : String × Json) (n : String × Asset) =>
          n.1 = d.1 ∧ ∃ h0 h2, Asset.fromJson P d.2 ty h0 = .ok (n.2, h2)) defs news := by
  intro defs
  induction defs with
  | nil =>
    intro assets assets1 g g1 h h1 hb
    simp only [buildGraphLoop, Except.ok.injEq, Prod.mk.injEq] at hb
    exact ⟨[], by rw [← hb.2.1]; simp, List.Forall₂.nil⟩
  | cons d rest ih =>
    intro assets assets1 g g1 h h1 hb
    obtain ⟨name, json⟩ := d
    obtain ⟨asset, h2, g2, g3, hparse, hadd, he, hb2⟩ := buildGraphLoop_cons hb
    obtain ⟨news, hn, hall⟩ := ih _ _ _ _ _ _ hb2
    have hg2 : g2.m_nodes = g.m_nodes ++ [(name, asset)] := by
      unfold Graph.addNode at hadd
      split at hadd
      · simp at hadd
      · simp only [Except.ok.injEq] at hadd
        rw [← hadd]
    refine ⟨(name, asset) :: news, ?_, List.Forall₂.cons ⟨rfl, h, h2, hparse⟩ hall⟩
    rw [hn, (addEdges_nodes he).2, hg2]
    simp

theorem graphInv_new (family : String) (ty : AssetType) :
    GraphInv family (Graph.new (family ++ "Input") (Asset.named (family ++ "Input") ty)) := by
  refine ⟨rfl, ⟨Asset.named (family ++ "Input") ty, by simp [Graph.new, Graph.node, lookup], rfl⟩,
    ?_, ?_⟩
  · intro p cs hcs
    rw [edgesAt_ok_iff] at hcs
    simp only [Graph.new, lookup] at hcs
    split at hcs
    · simp only [Option.some.injEq] at hcs
      exact hcs ▸ List.nodup_nil
    · exact Option.noConfusion hcs
  · intro p c
    constructor
    · rintro ⟨cs, hcs, hc⟩
      exfalso
      rw [edgesAt_ok_iff] at hcs
      simp only [Graph.new, lookup] at hcs
      split at hcs
      · simp only [Option.some.injEq] at hcs
        rw [← hcs] at hc
        exact List.not_mem_nil _ hc
      · exact Option.noConfusion hcs
    · rintro ⟨a, hne, hnode, -⟩
      exfalso
      rw [node_ok_iff] at hnode
      simp only [Graph.new, lookup] at hnode hne
      split at hnode
      · rename_i heq
        exact hne heq.symm
      · exact Option.noConfusion hnode

/-- Every graph of a compiled environment is the graph of its family: the
edges are exactly the declared ones. -/
theorem compile_graphInv {P : Ports} (hiter : IterSound P) {name : String} {json : Json}
    {env : Environment} (hc : Environment.compile P name json = .ok env) :
    ∀ ng ∈ env.m_graphs, GraphInv ng.1 ng.2 := by
  simp only [Environment.compile] at hc
  split at hc
  · simp at hc
  · split at hc
    · simp at hc
    · refine (buildGraphs_induct P (fun _ => True) GraphInv GraphInv (fun _ => True)
        (fun _ _ hg => hg) (fun fam ty _ _ => graphInv_new fam ty) ?_ _ _ env
        (fun _ _ => trivial) hc (by intro ng hng; simp at hng) trivial).1
      intro fam ty defs assets g h assets1 g1 h1 _ _ _ hg _ hloop
      obtain ⟨hr, he, hn⟩ := addFiltersLoop_spec P (iterate P assets1) g1
      exact ⟨trivial, graphInv_of_filtersGrow hr he hn
        (buildGraphLoop_graphInv hiter fam ty _ _ _ _ _ _ _ hloop hg)⟩

theorem acyclic_of_edges_eq {g g1 : Graph} (he : g1.m_edges = g.m_edges) (hac : Acyclic g) :
    Acyclic g1 := by
  intro v hv
  refine hac v (Relation.TransGen.mono (fun a b hab => ?_) hv)
  simpa only [HasEdge, edgesAt_ok_iff, he] using hab

/-- No graph of a compiled environment has a cycle. -/
theorem compile_acyclic {P : Ports} {name : String} {json : Json}
    {env : Environment} (hc : Environment.compile P name json = .ok env) :
    ∀ ng ∈ env.m_graphs, Acyclic ng.2 := by
  simp only [Environment.compile] at hc
  split at hc
  · simp at hc
  · split at hc
    · simp at hc
    · refine (buildGraphs_induct P (fun _ => True) (fun _ g => Acyclic g) (fun _ g => Acyclic g)
        (fun _ => True) (fun _ _ hg => hg) (fun fam ty _ _ => acyclic_new _ _) ?_ _ _ env
        (fun _ _ => trivial) hc (by intro ng hng; simp at hng) trivial).1
      intro fam ty defs assets g h assets1 g1 h1 _ _ _ hg _ hloop
      obtain ⟨-, he, -⟩ := addFiltersLoop_spec P (iterate P assets1) g1
      exact ⟨trivial, acyclic_of_edges_eq he (buildGraphLoop_acyclic P ty _ _ _ _ _ _ _ hloop hg)⟩

/-- C13. With the `Graph` of the specification, whose `addEdge` refuses an edge
that would close a cycle: in every graph of a compiled environment the
declared parents of the nodes form no cycle, so compiling an environment whose
parent declarations form a cycle produces no Environment.  When `addEdge`
fails, the error is `CycleDetected` with the family of the graph and the cycle
that the edge would close: the parent, then a path along stored edges from the
child back to the parent.  On a graph without cycle, `addEdge` fails whenever
the stored edges lead from the child to the parent. -/
theorem C13_cycle_rejected (P : Ports) (hiter : IterSound P) :
    (∀ (name : String) (json : Json) (env : Environment),
      Environment.compile P name json = .ok env →
      ∀ fam g, lookup fam env.m_graphs = some g →
        ∀ v, ¬ Relation.TransGen (fun p c => ∃ a, g.node c = .ok a ∧ p ∈ a.m_parents) v v) ∧
    (∀ (g : Graph) (parent child : String) (e : Err), g.addEdge parent child = .error e →
      ∃ path, e = .cycleDetected g.family (parent :: path) ∧
        path.head? = some child ∧ path.getLast? = some parent ∧
        List.Chain' (HasEdge g) path) ∧
    (∀ (g : Graph) (parent child : String), Acyclic g →
      Relation.ReflTransGen (HasEdge g) child parent →
      ∃ e, g.addEdge parent child = .error e) := by
  refine ⟨?_, ?_, ?_⟩
  · intro name json env hc fam g hg v hv
    obtain ⟨-, ⟨ra, hra, hrap⟩, -, hex⟩ := compile_graphInv hiter hc (fam, g) (lookup_mem hg)
    refine compile_acyclic hc (fam, g) (lookup_mem hg) v
      (Relation.TransGen.mono (fun p c hpc => ?_) hv)
    obtain ⟨a, ha, hp⟩ := hpc
    refine (hex p c).mpr ⟨a, ?_, ha, Or.inr hp⟩
    intro hc0
    rw [hc0, hra] at ha
    simp only [Except.ok.injEq] at ha
    rw [← ha, hrap] at hp
    exact List.not_mem_nil _ hp
  · intro g parent child e he
    obtain ⟨path, hf, hpath⟩ := addEdge_error he
    exact ⟨path, hpath, findPath_sound g parent _ child path hf⟩
  · intro g parent child hac hreach
    obtain ⟨l, hl⟩ := findPath_complete hac parent (g.m_edges.length + 1) child []
      List.nodup_nil (by intro s hs; simp at hs) (by simp) hreach
    exact ⟨.cycleDetected g.family (parent :: l), by simp only [Graph.addEdge, hl]⟩

/-- Scenario S5 (`a` has the parent `b`, `b` has the parent `a`) is rejected
with `CycleDetected("decoders", ["a", "b", "a"])`; scenario S2 compiles, and the
declared parents of its graph form no cycle. -/
theorem C13_cycle_rejected_witness :
    Environment.compile portsS5 "env" envS5 =
      .error (.cycleDetected "decoders" ["a", "b", "a"]) ∧
    ∃ env, Environment.compile portsS2 "env" envS2 = .ok env ∧
      ∀ fam g, lookup fam env.m_graphs = some g →
        ∀ v, ¬ Relation.TransGen (fun p c => ∃ a, g.node c = .ok a ∧ p ∈ a.m_parents) v v :=
  ⟨rfl, _, rfl, (C13_cycle_rejected portsS2 (fun _ _ => Iff.rfl)).1 "env" envS2 _ rfl⟩

/-- C19. After `buildGraph` has built the graph of a family from the new graph
that holds only the root `<family>Input`, the nodes are the root followed by
one node for every definition, holding the asset parsed from it, and the edges
are exactly these: the edge from the root to every asset whose parents set is
empty, and the edge from `p` to every asset that has `p` in its parents set;
so an asset with parents has an edge from the root only when it names the root.
No list of children holds a child twice.  The parents set of a parsed asset is
empty when the definition has no `parents` key or an empty array, and holds
the strings of the array otherwise. -/
theorem C19_edges_are_declared_parents (P : Ports) (hiter : IterSound P) (env env2 : Environment)
    (family : String) (ty : AssetType) (defs : List (String × Json))
    (hnew : lookup family env.m_graphs =
      some (Graph.new (family ++ "Input") (Asset.named (family ++ "Input") ty)))
    (hb : env.buildGraph P defs family ty = .ok env2) :
    ∃ g news, lookup family env2.m_graphs = some g ∧ g.m_root = family ++ "Input" ∧
      g.m_nodes = (family ++ "Input", Asset.named (family ++ "Input") ty) :: news ∧
      List.Forall₂ (fun (d : String × Json) (n : String × Asset) =>
        n.1 = d.1 ∧ ∃ h0 h2, Asset.fromJson P d.2 ty h0 = .ok (n.2, h2)) (iterate P defs) news ∧
      (∀ p c, HasEdge g p c ↔
        ∃ a, c ≠ g.m_root ∧ g.node c = .ok a ∧
          ((a.m_parents = [] ∧ p = g.m_root) ∨ p ∈ a.m_parents)) ∧
      (∀ p cs, g.edgesAt p = .ok cs → cs.Nodup) ∧
      (∀ (kvs : List (String × Json)) (h h1 : Heap) (a : Asset),
        Asset.fromJson P (.obj kvs) ty h = .ok (a, h1) →
        (lookup "parents" kvs = none → a.m_parents = []) ∧
        (lookup "parents" kvs = some (.arr []) → a.m_parents = []) ∧
        (∀ l, lookup "parents" kvs = some (.arr l) → ∀ x, x ∈ a.m_parents ↔ Json.str x ∈ l)) := by
  simp only [Environment.buildGraph, hnew, Option.getD_some] at hb
  split at hb
  · simp at hb
  · rename_i assets g h hloop
    simp only [Except.ok.injEq] at hb
    obtain ⟨news, hnodes, hall⟩ := buildGraphLoop_nodes P ty _ _ _ _ _ _ _ hloop
    obtain ⟨hroot, -, hnd, hex⟩ :=
      buildGraphLoop_graphInv hiter family ty _ _ _ _ _ _ _ hloop (graphInv_new family ty)
    refine ⟨g, news, ?_, hroot, hnodes, hall, hex, hnd, ?_⟩
    · rw [← hb]
      exact lookup_mapSet_self family g _ _ hnew
    · intro kvs h0 h1 a hp
      obtain ⟨k1, k2⟩ := fromJson_parents hp
      refine ⟨k1, ?_, k2⟩
      intro hl
      cases hpar : a.m_parents with
      | nil => rfl
      | cons x xs =>
        have := (k2 [] hl x).mp (by rw [hpar]; exact List.mem_cons_self _ _)
        simp at this

/-- The graph of the decoders `p` (no parents) and `c` (parent `p`) is built. -/
theorem C19_edges_are_declared_parents_witness :
    envNewDecoders.buildGraph portsS3 [("p", exAsset "p" []), ("c", exAsset "c" ["p"])]
        "decoders" .decoder = .ok envBuiltDecoders ∧
      (lookup "decoders" envBuiltDecoders.m_graphs).map (fun g => g.m_edges) =
        some [("decodersInput", ["p"]), ("p", ["c"]), ("c", [])] ∧
      ∃ g, lookup "decoders" envBuiltDecoders.m_graphs = some g ∧
        (∀ p c, HasEdge g p c ↔
          ∃ a, c ≠ g.m_root ∧ g.node c = .ok a ∧
            ((a.m_parents = [] ∧ p = g.m_root) ∨ p ∈ a.m_parents)) := by
  refine ⟨rfl, rfl, ?_⟩
  obtain ⟨g, news, hg, -, -, -, hex, -⟩ :=
    C19_edges_are_declared_parents portsS3 (fun _ _ => Iff.rfl) envNewDecoders envBuiltDecoders
      "decoders" .decoder [("p", exAsset "p" []), ("c", exAsset "c" ["p"])] rfl rfl
  exact ⟨g, hg, hex⟩

/-! ### The filters after compilation -/

theorem lookup_mapInsert_some {α : Type} {k key : String} {m : List (String × α)} {a : α}
    (v : α) (hl : lookup k m = some a) : lookup k (mapInsert m key v) = some a := by
  unfold mapInsert
  split
  · exact hl
  · exact lookup_append_some hl

theorem lookup_mapInsert_none {α : Type} {k key : String} {m : List (String × α)}
    (v : α) (hl : lookup k m = none) :
    lookup k (mapInsert m key v) = if key = k then some v else none := by
  unfold mapInsert
  split
  · rename_i w hw
    have hne : ¬ key = k := by
      intro h
      rw [h, hl] at hw
      exact Option.noConfusion hw
    simp [hl, hne]
  · rw [lookup_append_none hl]
    simp [lookup]

theorem loadFilters_types {P : Ports} :
    ∀ (l : List Json) (assets F : List (String × Asset)) (h h1 : Heap),
      loadFilters P l (assets, h) = .ok (F, h1) →
      (∀ f a, lookup f assets = some a → a.m_type = .filter) →
      ∀ f a, lookup f F = some a → a.m_type = .filter := by
  intro l
  induction l with
  | nil =>
    intro assets F h h1 hl hty
    simp only [loadFilters, Except.ok.injEq, Prod.mk.injEq] at hl
    rw [← hl.1]
    exact hty
  | cons j rest ih =>
    intro assets F h h1 hl hty
    simp only [loadFilters] at hl
    split at hl
    · simp at hl
    · rename_i key _
      split at hl
      · simp at hl
      · split at hl
        · simp at hl
        · rename_i a0 h2 hparse
          refine ih _ _ _ _ hl ?_
          intro f a hfa
          cases hf : lookup f assets with
          | some b =>
            rw [lookup_mapInsert_some a0 hf] at hfa
            simp only [Option.some.injEq] at hfa
            exact hfa ▸ hty f b hf
          | none =>
            rw [lookup_mapInsert_none a0 hf] at hfa
            split at hfa
            · simp only [Option.some.injEq] at hfa
              exact hfa ▸ (fromJson_fresh hparse).2
            · exact Option.noConfusion hfa

theorem assetsInv_mapInsert {F assets : List (String × Asset)} (name : String) {asset : Asset}
    (hty : asset.m_type ≠ .filter) (hA : AssetsInv F assets) :
    AssetsInv F (mapInsert assets name asset) := by
  intro f a
  rw [← hA f a]
  cases hf : lookup f assets with
  | some b => rw [lookup_mapInsert_some asset hf]
  | none =>
    rw [lookup_mapInsert_none asset hf]
    constructor
    · rintro ⟨h1, h2⟩
      split at h1
      · simp only [Option.some.injEq] at h1
        exact absurd (h1 ▸ h2) hty
      · exact Option.noConfusion h1
    · rintro ⟨h1, -⟩
      exact Option.noConfusion h1

theorem buildGraphLoop_assetsInv {P : Ports} {F : List (String × Asset)} {ty : AssetType}
    (hty : ty ≠ .filter) :
    ∀ (defs : List (String × Json)) (assets assets1 : List (String × Asset))
      (g g1 : Graph) (h h1 : Heap),
      buildGraphLoop P ty defs (assets, g, h) = .ok (assets1, g1, h1) →
      AssetsInv F assets → AssetsInv F assets1 := by
  intro defs
  induction defs with
  | nil =>
    intro assets assets1 g g1 h h1 hb hA
    simp only [buildGraphLoop, Except.ok.injEq, Prod.mk.injEq] at hb
    exact hb.1 ▸ hA
  | cons d rest ih =>
    intro assets assets1 g g1 h h1 hb hA
    obtain ⟨name, json⟩ := d
    obtain ⟨asset, h2, g2, g3, hparse, -, -, hb2⟩ := buildGraphLoop_cons hb
    exact ih _ _ _ _ _ _ hb2
      (assetsInv_mapInsert name (by rw [(fromJson_fresh hparse).2]; exact hty) hA)

theorem forall₂_of_mem_right {α β : Type} {R : α → β → Prop} {l : List α} {ops : List β}
    (hall : List.Forall₂ R l ops) {o : β} (ho : o ∈ ops) : ∃ x, x ∈ l ∧ R x o := by
  induction hall with
  | nil => simp at ho
  | cons hab _ ih =>
    rcases List.mem_cons.mp ho with h1 | h1
    · exact ⟨_, List.mem_cons_self _ _, h1 ▸ hab⟩
    · obtain ⟨x, hx, hr⟩ := ih h1
      exact ⟨x, List.mem_cons_of_mem _ hx, hr⟩

theorem buildGraphLoop_filtersSound {P : Ports} {F : List (String × Asset)} {ty : AssetType}
    {defs : List (String × Json)} {assets assets1 : List (String × Asset)} {g g1 : Graph}
    {h h1 : Heap} (hb : buildGraphLoop P ty defs (assets, g, h) = .ok (assets1, g1, h1))
    (hs : FiltersSound F g) : FiltersSound F g1 := by
  obtain ⟨news, hn, hall⟩ := buildGraphLoop_nodes P ty _ _ _ _ _ _ _ hb
  intro key a hnode f hf
  rw [node_ok_iff, hn] at hnode
  cases hk : lookup key g.m_nodes with
  | some b =>
    rw [lookup_append_some hk] at hnode
    simp only [Option.some.injEq] at hnode
    exact hs key b (node_ok_iff.mpr hk) f (hnode ▸ hf)
  | none =>
    rw [lookup_append_none hk] at hnode
    have hmem := lookup_mem hnode
    obtain ⟨d, -, -, h0, h2, hp⟩ := forall₂_of_mem_right hall hmem
    have := (fromJson_fresh hp).1
    simp only at this
    rw [this] at hf
    simp at hf

theorem mem_iterate {α : Type} {P : Ports} (hiter : IterSound P) (m : List (String × α))
    (f : String) (a : α) : (f, a) ∈ iterate P m ↔ lookup f m = some a := by
  simp only [iterate, List.mem_filterMap]
  constructor
  · rintro ⟨k, -, hk⟩
    cases hl : lookup k m with
    | none => simp [hl] at hk
    | some v =>
      simp only [hl, Option.map_some', Option.some.injEq, Prod.mk.injEq] at hk
      rw [← hk.1, ← hk.2]
      exact hl
  · intro hl
    exact ⟨f, (hiter _ _).mpr (mem_keys_of_lookup hl), by simp [hl]⟩

theorem getAssetType_not_filter {fam : String} {ty : AssetType} (hne : fam ≠ "filters")
    (hty : getAssetType fam = .ok ty) : ty ≠ .filter := by
  unfold getAssetType at hty
  by_cases h1 : fam = "decoders"
  · simp only [h1, if_true, Except.ok.injEq] at hty; rw [← hty]; decide
  · by_cases h2 : fam = "rules"
    · simp only [h2, if_true, Except.ok.injEq] at hty
      simp at hty
      rw [← hty]; decide
    · by_cases h3 : fam = "outputs"
      · simp only [h3, if_true, Except.ok.injEq] at hty
        simp at hty
        rw [← hty]; decide
      · simp [h1, h2, h3, hne] at hty

/-- One round of `buildGraph` and `addFilters` for a family that is not typed
`FILTER`: the nodes end with exactly the filters that name them as a parent. -/
theorem filtersExact_round {P : Ports} (hiter : IterSound P) {F : List (String × Asset)}
    {ty : AssetType} (hty : ty ≠ .filter) {defs : List (String × Json)}
    {assets assets1 : List (String × Asset)} {g g1 : Graph} {h h1 : Heap}
    (hs : FiltersSound F g) (hA : AssetsInv F assets)
    (hb : buildGraphLoop P ty defs (assets, g, h) = .ok (assets1, g1, h1)) :
    AssetsInv F assets1 ∧ FiltersExact F (addFiltersLoop P (iterate P assets1) g1) := by
  have hA1 : AssetsInv F assets1 := buildGraphLoop_assetsInv hty _ _ _ _ _ _ _ hb hA
  have hs1 : FiltersSound F g1 := buildGraphLoop_filtersSound hb hs
  refine ⟨hA1, ?_⟩
  obtain ⟨-, -, hgrow⟩ := addFiltersLoop_spec P (iterate P assets1) g1
  intro key a1 hnode f
  rw [node_ok_iff] at hnode
  have hX : (∃ asset, (f, asset) ∈ iterate P assets1 ∧ asset.m_type = .filter ∧
      key ∈ P.iter asset.m_parents) ↔ ∃ fa, lookup f F = some fa ∧ key ∈ fa.m_parents := by
    constructor
    · rintro ⟨asset, h1, h2, h3⟩
      exact ⟨asset, (hA1 f asset).mp ⟨(mem_iterate hiter _ _ _).mp h1, h2⟩, (hiter _ _).mp h3⟩
    · rintro ⟨fa, h1, h2⟩
      obtain ⟨k1, k2⟩ := (hA1 f fa).mpr h1
      exact ⟨fa, (mem_iterate hiter _ _ _).mpr k1, k2, (hiter _ _).mpr h2⟩
  rcases hgrow key with ⟨-, hnone⟩ | ⟨a, b1, ha, hb1, -, hfil⟩
  · rw [hnode] at hnone; exact Option.noConfusion hnone
  · rw [hnode] at hb1
    simp only [Option.some.injEq] at hb1
    subst hb1
    refine (hfil f).trans ?_
    constructor
    · rintro (h0 | h0)
      · exact hs1 key a (node_ok_iff.mpr ha) f h0
      · exact hX.mp h0
    · exact fun h0 => Or.inr (hX.mpr h0)

theorem addFilterTo_no_node (name : String) :
    ∀ (ps : List String) (g : Graph), (∀ p ∈ ps, g.hasNode p = false) →
      addFilterTo name ps g = g := by
  intro ps
  induction ps with
  | nil => intro g _; rfl
  | cons p rest ih =>
    intro g hall
    simp only [addFilterTo, hall p (List.mem_cons_self _ _)]
    exact ih g (fun q hq => hall q (List.mem_cons_of_mem _ hq))

/-- C20. After compilation, a node of a family graph has the filter `f` in its
filters set exactly when `f` is a preloaded filter that has the key of the node
among its parents; this holds in every family graph, so a filter with parents
in several families is attached in each of them.  A freshly parsed asset has an
empty filters set, and a filter none of whose parents is a node of a graph
leaves that graph as it is.  The environment definition has at most one entry
with the key `filters`. -/
theorem C20_filters_attached_by_parent (P : Ports) (hiter : IterSound P) (name : String)
    (kvs : List (String × Json)) (env : Environment)
    (hone : "filters" ∉ (eraseKey "filters" kvs).map Prod.fst)
    (hc : Environment.compile P name (.obj kvs) = .ok env) :
    (∀ fam g, (fam, g) ∈ env.m_graphs → ∀ key a, g.node key = .ok a →
      ∀ f, f ∈ a.m_filters ↔
        ∃ fa, lookup f (preloadedFilters P kvs) = some fa ∧ key ∈ fa.m_parents) ∧
    (∀ (json : Json) (ty : AssetType) (h h1 : Heap) (a : Asset),
      Asset.fromJson P json ty h = .ok (a, h1) → a.m_filters = []) ∧
    (∀ (f : String) (ps : List String) (g : Graph),
      (∀ p ∈ ps, g.hasNode p = false) → addFilterTo f ps g = g) := by
  refine ⟨?_, fun _ _ _ _ _ hp => (fromJson_fresh hp).1, addFilterTo_no_node⟩
  have hmain : ∀ (F : List (String × Asset)) (h0 : Heap) (o : List (String × Json)),
      "filters" ∉ o.map Prod.fst → (∀ f a, lookup f F = some a → a.m_type = .filter) →
      buildGraphs P o ⟨name, F, [], h0⟩ = .ok env →
      ∀ ng ∈ env.m_graphs, FiltersExact F ng.2 := by
    intro F h0 o ho hF hbg
    refine (buildGraphs_induct P (fun k => k ≠ "filters") (fun _ g => FiltersSound F g)
      (fun _ g => FiltersExact F g) (AssetsInv F) ?_ ?_ ?_ o _ env ?_ hbg
      (by intro ng hng; simp at hng) ?_).1
    · intro fam g hg key a hnode f hf
      exact (hg key a hnode f).mp hf
    · intro fam ty _ _ key a hnode f hf
      rw [node_ok_iff] at hnode
      simp only [Graph.new, lookup] at hnode
      split at hnode
      · simp only [Option.some.injEq] at hnode
        rw [← hnode] at hf
        simp [Asset.named] at hf
      · exact Option.noConfusion hnode
    · intro fam ty defs assets g h assets1 g1 h1 hK hty _ hs hA hloop
      exact filtersExact_round hiter (getAssetType_not_filter hK hty) hs hA hloop
    · intro k hk heq
      exact ho (heq ▸ hk)
    · intro f a
      exact ⟨fun hfa => hfa.1, fun hfa => ⟨hfa, hF f a hfa⟩⟩
  intro fam g hg
  simp only [Environment.compile, Json.getObject] at hc
  cases hx : extract "filters" kvs with
  | none =>
    simp only [hx] at hc
    rw [extract_none hx] at hone
    have hpre : preloadedFilters P kvs = [] := by simp [preloadedFilters, hx]
    rw [hpre]
    exact hmain [] [] kvs hone (by intro f a hfa; simp [lookup] at hfa) hc (fam, g) hg
  | some r =>
    obtain ⟨fj, o⟩ := r
    simp only [hx] at hc
    rw [← extract_some hx] at hone
    cases harr : fj.getArray with
    | error e => simp [harr] at hc
    | ok l =>
      simp only [harr] at hc
      cases hlf : loadFilters P l ([], []) with
      | error e => simp [hlf] at hc
      | ok r2 =>
        obtain ⟨F, h0⟩ := r2
        simp only [hlf] at hc
        have hpre : preloadedFilters P kvs = F := by simp [preloadedFilters, hx, harr, hlf]
        rw [hpre]
        exact hmain F h0 o hone
          (loadFilters_types l [] F [] h0 hlf (by intro f a hfa; simp [lookup] at hfa))
          hc (fam, g) hg

/-- Scenario S3 compiles, and the theorem gives the filters of its nodes. -/
theorem C20_filters_attached_by_parent_witness :
    ∃ env, Environment.compile portsS3 "env" envS3 = .ok env ∧
      (env.m_graphs.map (fun ng => ng.2.m_nodes.map (fun n => (n.1, n.2.m_filters)))) =
        [[("decodersInput", []), ("p", ["f"]), ("c", [])]] ∧
      ∀ fam g, (fam, g) ∈ env.m_graphs → ∀ key a, g.node key = .ok a →
        ∀ f, f ∈ a.m_filters ↔
          ∃ fa, lookup f (preloadedFilters portsS3
            [("filters", .arr [.str "f"]), ("decoders", .arr [.str "p", .str "c"])]) = some fa ∧
            key ∈ fa.m_parents :=
  ⟨_, rfl, rfl, (C20_filters_attached_by_parent portsS3 (fun _ _ => Iff.rfl) "env"
    [("filters", .arr [.str "f"]), ("decoders", .arr [.str "p", .str "c"])] _ (by decide) rfl).1⟩

/-! ### Nodes that no edge from a node leads to -/

theorem lookup_mapSet_ne {α : Type} {k key : String} (hne : k ≠ key) (v : α) :
    ∀ l : List (String × α), lookup k (mapSet key v l) = lookup k l := by
  intro l
  induction l with
  | nil => rfl
  | cons kv rest ih =>
    obtain ⟨k1, x⟩ := kv
    by_cases hk : k1 = key
    · subst hk
      have hk1 : ¬ k1 = k := fun h => hne h.symm
      simp [mapSet, lookup, hk1]
    · by_cases hk2 : k1 = k
      · subst hk2
        simp [mapSet, hk, lookup]
      · simp [mapSet, hk, lookup, hk2, ih]

theorem length_mapSet {α : Type} (key : String) (v : α) :
    ∀ l : List (String × α), (mapSet key v l).length = l.length := by
  intro l
  induction l with
  | nil => rfl
  | cons kv rest ih =>
    obtain ⟨k1, x⟩ := kv
    by_cases hk : k1 = key
    · simp [mapSet, hk]
    · simp [mapSet, hk, ih]

theorem visitChildren_congr
    {v1 v2 : String → FoldState → Except Err (Expression × FoldState)} (op : Nat) :
    ∀ (cs : List String) (st : FoldState), (∀ c ∈ cs, ∀ s, v1 c s = v2 c s) →
      visitChildren v1 op cs st = visitChildren v2 op cs st := by
  intro cs
  induction cs with
  | nil => intro st _; rfl
  | cons c rest ih =>
    intro st hall
    simp only [visitChildren, hall c (List.mem_cons_self _ _)]
    cases v2 c st with
    | error e => rfl
    | ok r =>
      exact ih _ (fun d hd => hall d (List.mem_cons_of_mem _ hd))

/-- The lambda `visit` does not read a node that is no child of a node: the
run on a graph and the run on the graph with another asset at `key` agree on
every other node. -/
theorem visit_setNode (P : Ports) (assets : List (String × Asset)) (g : Graph)
    (ty : AssetType) (key : String) (a1 : Asset)
    (hkey : ∀ p b cs, g.node p = .ok b → g.edgesAt p = .ok cs → key ∉ cs) :
    ∀ (fuel : Nat) (cur : String) (st : FoldState), cur ≠ key →
      visit P assets (g.setNode key a1) ty fuel cur st = visit P assets g ty fuel cur st := by
  intro fuel
  induction fuel with
  | zero => intro cur st _; rfl
  | succ fuel ih =>
    intro cur st hcur
    have hn : (g.setNode key a1).node cur = g.node cur := by
      simp [Graph.node, Graph.setNode, lookup_mapSet_ne hcur]
    have he : (g.setNode key a1).edgesAt cur = g.edgesAt cur := rfl
    simp only [visit, hn, he]
    cases lookup cur st.sharedParents with
    | some e => rfl
    | none =>
      cases hnode : g.node cur with
      | error e => rfl
      | ok asset =>
        cases familyOp ty with
        | none => rfl
        | some k =>
          simp only [create]
          cases buildAssetNode P assets asset st.heap.length
              (st.heap ++ [⟨k, "children", []⟩]) with
          | error e => rfl
          | ok r =>
            cases hedge : g.edgesAt cur with
            | error e => rfl
            | ok cs =>
              simp only []
              rw [visitChildren_congr _ cs _
                (fun c hc s => ih c s (fun h => hkey cur asset cs hnode hedge (h ▸ hc)))]

theorem foldGraphs_setNode (P : Ports) (assets : List (String × Asset)) (envp : Nat)
    (fam : String) (g : Graph) (key : String) (a1 : Asset) (hroot : g.m_root ≠ key)
    (hkey : ∀ p b cs, g.node p = .ok b → g.edgesAt p = .ok cs → key ∉ cs) :
    ∀ (graphs : List (String × Graph)) (h : Heap), lookup fam graphs = some g →
      foldGraphs P assets envp (mapSet fam (g.setNode key a1) graphs) h =
        foldGraphs P assets envp graphs h := by
  intro graphs
  induction graphs with
  | nil => intro h hl; simp [lookup] at hl
  | cons ng rest ih =>
    intro h hl
    obtain ⟨k, g0⟩ := ng
    by_cases hk : k = fam
    · simp only [lookup, hk, if_true, Option.some.injEq] at hl
      subst hl
      have hn : (g0.setNode key a1).node g0.m_root = g0.node g0.m_root := by
        simp [Graph.node, Graph.setNode, lookup_mapSet_ne hroot]
      have hf : visitFuel (g0.setNode key a1) = visitFuel g0 := by
        simp [visitFuel, Graph.setNode, length_mapSet]
      have hr : (g0.setNode key a1).root = g0.root := rfl
      have he : (g0.setNode key a1).edgesAt g0.root = g0.edgesAt g0.root := rfl
      simp only [mapSet, hk, if_true, foldGraphs, hr, he, hf]
      simp only [Graph.root, hn]
      cases hnode : g0.node g0.m_root with
      | error e => rfl
      | ok rootAsset =>
        simp only []
        cases familyOp rootAsset.m_type with
        | none => rfl
        | some kd =>
          simp only [create]
          cases hedge : g0.edgesAt g0.m_root with
          | error e => rfl
          | ok cs =>
            simp only []
            rw [visitChildren_congr _ cs _
              (fun c hc s => visit_setNode P assets g0 rootAsset.m_type key a1 hkey _ c s
                (fun h => hkey g0.m_root rootAsset cs hnode hedge (h ▸ hc)))]
    · simp only [lookup, hk, if_false] at hl
      simp only [mapSet, hk, if_false, foldGraphs]
      cases g0.node g0.root with
      | error e => rfl
      | ok rootAsset =>
        simp only []
        cases familyOp rootAsset.m_type with
        | none => rfl
        | some kd =>
          simp only [create]
          cases g0.edgesAt g0.root with
          | error e => rfl
          | ok cs =>
            simp only []
            cases visitChildren (visit P assets g0 rootAsset.m_type (visitFuel g0)) h.length cs
                ⟨pushOperand (h ++ [⟨kd, rootAsset.m_name, []⟩]) envp (some h.length), []⟩ with
            | error e => rfl
            | ok st => exact ih _ hl

/-- In the graph of a family, no edge from a node leads to a node whose
parents are all missing, and such a node is not the root. -/
theorem graphInv_dangling {family : String} {g : Graph} (hg : GraphInv family g)
    {key : String} {a : Asset} (hnode : g.node key = .ok a) (hpar : a.m_parents ≠ [])
    (hmiss : ∀ p ∈ a.m_parents, g.hasNode p = false) :
    g.m_root ≠ key ∧ ∀ p b cs, g.node p = .ok b → g.edgesAt p = .ok cs → key ∉ cs := by
  obtain ⟨-, ⟨ra, hra, hrap⟩, -, hex⟩ := hg
  constructor
  · intro h
    rw [h, hnode] at hra
    simp only [Except.ok.injEq] at hra
    exact hpar (hra ▸ hrap)
  · intro p b cs hp hcs hmem
    obtain ⟨a2, -, hn2, hor⟩ := (hex p key).mp ⟨cs, hcs, hmem⟩
    rw [hnode] at hn2
    simp only [Except.ok.injEq] at hn2
    subst hn2
    rcases hor with ⟨h1, -⟩ | h1
    · exact hpar h1
    · have := hmiss p h1
      rw [node_ok_iff] at hp
      simp [Graph.hasNode, hp] at this

/-- Every child of an edge is a node. -/
theorem childrenNodes_addEdge {g g1 : Graph} {p c : String} (he : g.addEdge p c = .ok g1)
    (hc : g.hasNode c = true) (hcn : ∀ q y, HasEdge g q y → g.hasNode y = true) :
    ∀ q y, HasEdge g1 q y → g1.hasNode y = true := by
  intro q y hqy
  have hn : g1.hasNode y = g.hasNode y := by
    simp only [Graph.hasNode, (addEdge_nodes he).2]
  rw [hn]
  rcases (hasEdge_addEdge he q y).mp hqy with h1 | ⟨-, h1⟩
  · exact hcn q y h1
  · exact h1 ▸ hc

/-- When `addEdge` refuses an edge to a node, every key of the cycle it reports
is a node. -/
theorem addEdge_error_keys {g : Graph} {p c : String} {e : Err}
    (he : g.addEdge p c = .error e) (hc : g.hasNode c = true)
    (hcn : ∀ q y, HasEdge g q y → g.hasNode y = true) :
    ∃ family path, e = .cycleDetected family path ∧ ∀ x ∈ path, g.hasNode x = true := by
  obtain ⟨path, hf, hpath⟩ := addEdge_error he
  have hkeys : ∀ x ∈ path, g.hasNode x = true := by
    intro x hx
    rcases findPath_mem g p _ c path hf x hx with h1 | ⟨q, h1⟩
    · exact h1 ▸ hc
    · exact hcn q x h1
  refine ⟨_, _, hpath, ?_⟩
  intro x hx
  rcases List.mem_cons.mp hx with h1 | h1
  · obtain ⟨-, hlast, -⟩ := findPath_sound g p _ c path hf
    exact hkeys x (h1 ▸ List.mem_of_getLast?_eq_some hlast)
  · exact hkeys x h1

theorem addParentEdges_error_keys (name : String) :
    ∀ (ps : List String) (g : Graph) (e : Err), addParentEdges name ps g = .error e →
      g.hasNode name = true → (∀ q y, HasEdge g q y → g.hasNode y = true) →
      ∃ family path, e = .cycleDetected family path ∧ ∀ x ∈ path, g.hasNode x = true := by
  intro ps
  induction ps with
  | nil => intro g e h; simp [addParentEdges] at h
  | cons p rest ih =>
    intro g e h hc hcn
    simp only [addParentEdges] at h
    cases he : g.addEdge p name with
    | error err =>
      simp only [he, Except.error.injEq] at h
      exact h ▸ addEdge_error_keys he hc hcn
    | ok g1 =>
      simp only [he] at h
      have hn : ∀ x, g1.hasNode x = g.hasNode x := by
        intro x; simp only [Graph.hasNode, (addEdge_nodes he).2]
      obtain ⟨family, path, hp, hk⟩ := ih g1 e h (by rw [hn]; exact hc)
        (childrenNodes_addEdge he hc hcn)
      exact ⟨family, path, hp, fun x hx => by rw [← hn]; exact hk x hx⟩

/-- The loop of `buildGraph` fails only when the constructor of an asset fails,
when a key is already a node, or when an edge is refused because it would
close a cycle; every key of that cycle is a node of the graph or the key of a
definition. -/
theorem buildGraphLoop_error_keys {P : Ports} (hiter : IterSound P) (family : String)
    (ty : AssetType) :
    ∀ (defs : List (String × Json)) (assets : List (String × Asset)) (g : Graph) (h : Heap)
      (e : Err), GraphInv family g →
      buildGraphLoop P ty defs (assets, g, h) = .error e →
      (∃ name json h0, (name, json) ∈ defs ∧ Asset.fromJson P json ty h0 = .error e) ∨
        (∃ name, (name ∈ defs.map Prod.fst) ∧ e = .duplicateNode name) ∨
        ∃ fam path, e = .cycleDetected fam path ∧
          ∀ x ∈ path, g.hasNode x = true ∨ x ∈ defs.map Prod.fst := by
  intro defs
  induction defs with
  | nil => intro assets g h e _ hb; simp [buildGraphLoop] at hb
  | cons d rest ih =>
    intro assets g hp e hg hb
    obtain ⟨name, json⟩ := d
    rw [buildGraphLoop] at hb
    split at hb
    · rename_i err hf
      simp only [Except.error.injEq] at hb
      exact Or.inl ⟨name, json, hp, List.mem_cons_self _ _, hb ▸ hf⟩
    · rename_i asset h1 hf
      split at hb
      · rename_i err hadd
        simp only [Except.error.injEq] at hb
        right; left
        refine ⟨name, by simp, ?_⟩
        unfold Graph.addNode at hadd
        split at hadd
        · simp only [Except.error.injEq] at hadd
          rw [← hb, ← hadd]
        · simp at hadd
      · rename_i g1 hadd
        have hnodes : g1.m_nodes = g.m_nodes ++ [(name, asset)] := by
          unfold Graph.addNode at hadd
          split at hadd
          · simp at hadd
          · simp only [Except.ok.injEq] at hadd
            rw [← hadd]
        have hnode1 : ∀ x, g1.hasNode x = true → g.hasNode x = true ∨ x = name := by
          intro x hx
          by_cases hxn : x = name
          · exact Or.inr hxn
          · left
            simp only [Graph.hasNode, hnodes, lookup_append_single_ne hxn] at hx
            exact hx
        have hname : g1.hasNode name = true := by
          simp only [Graph.hasNode, hnodes]
          cases hl : lookup name g.m_nodes with
          | some v => rw [lookup_append_some hl]; rfl
          | none => rw [lookup_append_none hl]; simp [lookup]
        have hcn : ∀ q y, HasEdge g1 q y → g1.hasNode y = true := by
          intro q y hqy
          obtain ⟨a, -, ha, -⟩ := (hg.2.2.2 q y).mp ((hasEdge_addNode hadd q y).mp hqy)
          simp only [Graph.hasNode, hnodes, lookup_append_some (node_ok_iff.mp ha)]
          rfl
        split at hb
        · rename_i err hedge
          simp only [Except.error.injEq] at hb
          subst hb
          right; right
          have hkeys : ∃ fam path, err = .cycleDetected fam path ∧
              ∀ x ∈ path, g1.hasNode x = true := by
            split at hedge
            · exact addEdge_error_keys hedge hname hcn
            · exact addParentEdges_error_keys name _ _ _ hedge hname hcn
          obtain ⟨fam, path, he, hk⟩ := hkeys
          refine ⟨fam, path, he, fun x hx => ?_⟩
          rcases hnode1 x (hk x hx) with h2 | h2
          · exact Or.inl h2
          · exact Or.inr (by simp [h2])
        · rename_i g2 hedge
          rcases ih _ g2 _ e (graphInv_addAsset hiter hadd hedge hg) hb with
            ⟨n1, j1, h0, hm, hfe⟩ | ⟨n1, hm, he⟩ | ⟨fam, path, he, hk⟩
          · exact Or.inl ⟨n1, j1, h0, List.mem_cons_of_mem _ hm, hfe⟩
          · exact Or.inr (Or.inl
              ⟨n1, by simp only [List.map_cons, List.mem_cons]; exact Or.inr hm, he⟩)
          · refine Or.inr (Or.inr ⟨fam, path, he, fun x hx => ?_⟩)
            rcases hk x hx with h2 | h2
            · have h3 : g1.hasNode x = true := by
                simpa only [Graph.hasNode, (addEdges_nodes hedge).2] using h2
              rcases hnode1 x h3 with h4 | h4
              · exact Or.inl h4
              · exact Or.inr (by simp [h4])
            · exact Or.inr (by simp only [List.map_cons, List.mem_cons]; exact Or.inr h2)

/-- C15. The loop of `buildGraph`, on the graph of a family as the constructor
builds it, fails only when the constructor of an asset fails, when a name is a
node already, or when an edge is refused for a cycle, and every key of that
cycle is a node of the graph or the key of a definition of the family: the
edge from a parent that is neither is stored and nothing is thrown.  In a
compiled environment, a node that declares parents none of which is a node of
its graph has no edge from a node of the graph, and the fold never visits it:
whatever asset the graph holds under its key, `getExpression` gives the same
outcome, so nothing of the asset enters the output. -/
theorem C15_dangling_parent_unreachable (P : Ports) (hiter : IterSound P) (name : String)
    (json : Json) (env : Environment) (fam key : String) (g : Graph) (a : Asset)
    (hc : Environment.compile P name json = .ok env)
    (hg : lookup fam env.m_graphs = some g) (hnode : g.node key = .ok a)
    (hpar : a.m_parents ≠ []) (hmiss : ∀ p ∈ a.m_parents, g.hasNode p = false) :
    (∀ (family : String) (ty : AssetType) (defs : List (String × Json))
        (assets : List (String × Asset)) (g0 : Graph) (h : Heap) (e : Err),
      GraphInv family g0 → buildGraphLoop P ty defs (assets, g0, h) = .error e →
      (∃ nm js h0, (nm, js) ∈ defs ∧ Asset.fromJson P js ty h0 = .error e) ∨
        (∃ nm, nm ∈ defs.map Prod.fst ∧ e = .duplicateNode nm) ∨
        ∃ fm path, e = .cycleDetected fm path ∧
          ∀ x ∈ path, g0.hasNode x = true ∨ x ∈ defs.map Prod.fst) ∧
    (∀ p, g.hasNode p = true → ¬ HasEdge g p key) ∧
    (∀ a1 : Asset,
      Environment.getExpression P { env with m_graphs := mapSet fam (g.setNode key a1) env.m_graphs } =
        Environment.getExpression P env) := by
  obtain ⟨hroot, hkey⟩ :=
    graphInv_dangling (compile_graphInv hiter hc (fam, g) (lookup_mem hg)) hnode hpar hmiss
  refine ⟨fun family ty defs assets g0 h e =>
    buildGraphLoop_error_keys hiter family ty defs assets g0 h e, ?_, ?_⟩
  · rintro p hp ⟨cs, hcs, hmem⟩
    cases hpn : g.node p with
    | error e =>
      simp only [Graph.hasNode] at hp
      simp only [Graph.node] at hpn
      cases hl : lookup p g.m_nodes with
      | none => simp [hl] at hp
      | some b => simp [hl] at hpn
    | ok b => exact hkey p b cs hpn hcs hmem
  · intro a1
    simp only [Environment.getExpression, create]
    rw [foldGraphs_setNode P env.m_assets _ fam g key a1 hroot hkey env.m_graphs _ hg]

/-- The rule `z` of `envDangling` declares the parent `zz`, which is no node:
the environment compiles, the fold returns, and the theorem applies to `z`. -/
theorem C15_dangling_parent_unreachable_witness :
    Environment.compile portsDangling "env" (.obj envDangling) = .ok envDanglingCompiled ∧
    lookup "rules" envDanglingCompiled.m_graphs = some graphDangling ∧
    graphDangling.m_edges = [("rulesInput", ["a"]), ("a", ["b"]), ("b", ["c"]), ("c", []),
      ("z", []), ("zz", ["z"])] ∧
    (∃ r h, envDanglingCompiled.getExpression portsDangling = .ok (r, h)) ∧
    (∀ a1 : Asset,
      Environment.getExpression portsDangling
        { envDanglingCompiled with
          m_graphs := mapSet "rules" (graphDangling.setNode "z" a1)
            envDanglingCompiled.m_graphs } =
        Environment.getExpression portsDangling envDanglingCompiled) :=
  ⟨rfl, rfl, rfl, ⟨_, _, rfl⟩,
   (C15_dangling_parent_unreachable portsDangling (fun _ _ => Iff.rfl) "env" (.obj envDangling)
     envDanglingCompiled "rules" "z" graphDangling
     ((lookup "z" graphDangling.m_nodes).getD (Asset.named "" .rule)) rfl rfl rfl
     (by decide) (by decide)).2.2⟩

/-! ### assetBuilder -/

theorem placedAt_append_right {h : Heap} {off : Nat} {f : Fragment} (t : Heap)
    (hp : PlacedAt h off f) : PlacedAt (h ++ t) off f := by
  intro j hj
  have h1 := hp j hj
  have hlt : off + j < h.length := by
    by_contra hge
    rw [List.getElem?_eq_none (by omega)] at h1
    exact Option.noConfusion h1
  rw [List.getElem?_append_left hlt]
  exact h1

theorem isStageResult_append {P : Ports} {h : Heap} {kv : String × Json} {o : Expression}
    (t : Heap) (hs : IsStageResult P h kv o) : IsStageResult P (h ++ t) kv o := by
  obtain ⟨b, f, off, h1, h2, h3, h4⟩ := hs
  exact ⟨b, f, off, h1, h2, placedAt_append_right t h3, h4⟩

/-- The stage list of `assetBuilder`: the expressions collected are, in order,
the results of the builders of the tuples, stored behind the nodes that exist. -/
theorem buildStageList_spec (P : Ports) :
    ∀ (l : List (String × Json)) (h h1 : Heap) (es : List Expression),
      buildStageList P l h = .ok (es, h1) →
      (∃ t, h1 = h ++ t) ∧ List.Forall₂ (IsStageResult P h1) l es := by
  intro l
  induction l with
  | nil =>
    intro h h1 es hb
    simp only [buildStageList, Except.ok.injEq, Prod.mk.injEq] at hb
    rw [← hb.1, ← hb.2]
    exact ⟨⟨[], by simp⟩, List.Forall₂.nil⟩
  | cons kv rest ih =>
    intro h h1 es hb
    obtain ⟨k, v⟩ := kv
    simp only [buildStageList] at hb
    cases hr : runBuilder P ("stage." ++ k) v h with
    | error err => simp [hr] at hb
    | ok r =>
      obtain ⟨e, h2⟩ := r
      simp only [hr] at hb
      cases hrest : buildStageList P rest h2 with
      | error err => simp [hrest] at hb
      | ok r2 =>
        obtain ⟨es2, h3⟩ := r2
        simp only [hrest, Except.ok.injEq, Prod.mk.injEq] at hb
        obtain ⟨⟨t, ht⟩, hall⟩ := ih _ _ _ hrest
        obtain ⟨b, f, hb1, hb2, he, hh2⟩ := runBuilder_ok hr
        rw [← hb.1, ← hb.2]
        refine ⟨⟨f.map (shiftNode h.length) ++ t, by rw [ht, hh2, List.append_assoc]⟩,
          List.Forall₂.cons ?_ hall⟩
        refine ⟨b, f, h.length, hb1, hb2, ?_, he⟩
        rw [ht, hh2]
        exact placedAt_append_right t (placedAt_append h f)

theorem buildStageList_total (P : Ports) :
    ∀ (l : List (String × Json)) (h : Heap),
      (∀ kv ∈ l, ∃ b f, P.registry ("stage." ++ kv.1) = some b ∧ b kv.2 = .ok f) →
      ∃ es h1, buildStageList P l h = .ok (es, h1) := by
  intro l
  induction l with
  | nil => intro h _; exact ⟨[], h, rfl⟩
  | cons kv rest ih =>
    intro h hall
    obtain ⟨k, v⟩ := kv
    obtain ⟨b, f, hb1, hb2⟩ := hall (k, v) (List.mem_cons_self _ _)
    obtain ⟨es, h1, hrest⟩ := ih (place h f).2 (fun kv hkv => hall kv (List.mem_cons_of_mem _ hkv))
    refine ⟨(place h f).1 :: es, h1, ?_⟩
    simp only at hb1 hb2
    simp only [buildStageList, runBuilder, hb1, hb2, hrest]

theorem extract_isSome_of_mem {key : String} {l : List (String × Json)}
    (hm : key ∈ l.map Prod.fst) : ∃ v r, extract key l = some (v, r) := by
  induction l with
  | nil => simp at hm
  | cons kv rest ih =>
    obtain ⟨k, w⟩ := kv
    by_cases hk : k = key
    · exact ⟨w, rest, by simp [extract, hk]⟩
    · simp only [List.map_cons, List.mem_cons] at hm
      rcases hm with h1 | h1
      · exact absurd h1.symm hk
      · obtain ⟨v, r, hvr⟩ := ih h1
        exact ⟨v, (k, w) :: r, by simp [extract, hk, hvr]⟩

theorem eraseKey_sublist_mem {key : String} {l : List (String × Json)} {kv : String × Json}
    (hm : kv ∈ eraseKey key l) : kv ∈ l :=
  (eraseKey_sublist key l).subset hm

/-- C24. When every stage key of the list has a builder that succeeds on its
value, `assetBuilder` fails exactly when the list has no entry keyed `check`,
and then with "Asset definition must have a check".  When the list has one,
the result is `Implication(name, condition, And("consequence", ops))`, where
the condition is the result of `stage.check` on the value of the first `check`
entry and `ops` are, in order, the results of the builders of the list
without that one entry. -/
theorem C24_check_required (P : Ports) (name : String) (stages : List (String × Json)) (h : Heap)
    (hall : ∀ kv ∈ stages, ∃ b f, P.registry ("stage." ++ kv.1) = some b ∧ b kv.2 = .ok f) :
    ((∃ e, assetBuilder P name stages h = .error e) ↔ "check" ∉ stages.map Prod.fst) ∧
    ("check" ∉ stages.map Prod.fst →
      assetBuilder P name stages h = .error (.runtime "Asset definition must have a check")) ∧
    ("check" ∈ stages.map Prod.fst →
      ∃ cj r h1 cond cons ops, lookup "check" stages = some cj ∧
        assetBuilder P name stages h = .ok (some r, h1) ∧
        h1[r]? = some ⟨.implication, name, [cond, some cons]⟩ ∧
        h1[cons]? = some ⟨.and, "consequence", ops⟩ ∧
        IsStageResult P h1 ("check", cj) cond ∧
        List.Forall₂ (IsStageResult P h1) (eraseKey "check" stages) ops) := by
  have hnone : "check" ∉ stages.map Prod.fst →
      assetBuilder P name stages h = .error (.runtime "Asset definition must have a check") := by
    intro hn
    have hx : extract "check" stages = none := by
      cases hx : extract "check" stages with
      | none => rfl
      | some r =>
        obtain ⟨v, r1⟩ := r
        exact absurd (mem_keys_of_lookup (lookup_of_extract_some hx)) hn
    simp [assetBuilder, hx]
  have hsome : "check" ∈ stages.map Prod.fst →
      ∃ cj r h1 cond cons ops, lookup "check" stages = some cj ∧
        assetBuilder P name stages h = .ok (some r, h1) ∧
        h1[r]? = some ⟨.implication, name, [cond, some cons]⟩ ∧
        h1[cons]? = some ⟨.and, "consequence", ops⟩ ∧
        IsStageResult P h1 ("check", cj) cond ∧
        List.Forall₂ (IsStageResult P h1) (eraseKey "check" stages) ops := by
    intro hm
    obtain ⟨cj, r1, hx⟩ := extract_isSome_of_mem hm
    have hl := lookup_of_extract_some hx
    have hr1 := extract_some hx
    obtain ⟨b, f, hb1, hb2⟩ := hall ("check", cj) (lookup_mem hl)
    simp only at hb1 hb2
    have hkey : "stage." ++ "check" = "stage.check" := by decide
    rw [hkey] at hb1
    obtain ⟨es, h2, hlist⟩ := buildStageList_total P r1 (place h f).2
      (fun kv hkv => hall kv (eraseKey_sublist_mem (hr1 ▸ hkv)))
    obtain ⟨⟨t, ht⟩, hforall⟩ := buildStageList_spec P _ _ _ _ hlist
    refine ⟨cj, h2.length + 1, h2 ++ [⟨.and, "consequence", es⟩] ++
      [⟨.implication, name, [(place h f).1, some h2.length]⟩], (place h f).1, h2.length, es, hl,
      ?_, ?_, ?_, ?_, ?_⟩
    · simp [assetBuilder, hx, runBuilder, hb1, hb2, hlist, create]
    · rw [List.getElem?_append_right (by simp)]
      simp
    · rw [List.append_assoc, List.getElem?_append_right (le_refl _)]
      simp
    · refine ⟨b, f, h.length, hkey ▸ hb1, hb2, ?_, rfl⟩
      rw [List.append_assoc, ht]
      simp only [place]
      rw [List.append_assoc]
      exact placedAt_append_right _ (placedAt_append h f)
    · rw [← hr1, List.append_assoc]
      exact forall₂_imp_mem hforall (fun kv _ o ho => isStageResult_append _ ho)
  refine ⟨⟨?_, fun hn => ⟨_, hnone hn⟩⟩, hnone, hsome⟩
  rintro ⟨e, he⟩ hm
  obtain ⟨cj, r, h1, cond, cons, ops, -, hok, -⟩ := hsome hm
  rw [hok] at he
  exact Except.noConfusion he

/-- C24 at a list with two `check` entries and at a list with none. -/
theorem C24_check_required_witness :
    assetBuilder portsS1 "d1" stagesTwoChecks [] =
      .ok (some 6, [⟨.term, "c1", []⟩, ⟨.and, "check", [some 0]⟩, ⟨.term, "n", []⟩,
        ⟨.term, "c2", []⟩, ⟨.and, "check", [some 3]⟩,
        ⟨.and, "consequence", [some 2, some 4]⟩, ⟨.implication, "d1", [some 1, some 5]⟩]) ∧
    ((∃ e, assetBuilder portsS1 "d1" stagesTwoChecks [] = .error e) ↔
      "check" ∉ stagesTwoChecks.map Prod.fst) ∧
    assetBuilder portsS1 "d1" [("normalize", .str "n")] [] =
      .error (.runtime "Asset definition must have a check") :=
  ⟨rfl,
   (C24_check_required portsS1 "d1" stagesTwoChecks []
     (by
       intro kv hkv
       simp only [stagesTwoChecks, List.mem_cons, List.mem_singleton, List.not_mem_nil,
         or_false] at hkv
       rcases hkv with rfl | rfl | rfl
       · exact ⟨_, _, rfl, rfl⟩
       · exact ⟨_, _, rfl, rfl⟩
       · exact ⟨_, _, rfl, rfl⟩)).1,
   rfl⟩

/-! ### The two asset compilers -/

theorem treeOf_none (h h1 : Heap) (d : Nat) : treeOf h d none = treeOf h1 d none := by
  cases d <;> rfl

theorem treeOf_node {h : Heap} {p : Nat} {n : Node} (d : Nat) (hn : h[p]? = some n) :
    treeOf h (d + 1) (some p) = .node n.kind n.name (n.operands.map (treeOf h d)) := by
  simp [treeOf, hn]

/-- The tree below a node of a stored fragment does not depend on where the
fragment is stored. -/
theorem treeOf_placed {f : Fragment} (hc : Closed f) {h h1 : Heap} {off off1 : Nat}
    (hp : PlacedAt h off f) (hp1 : PlacedAt h1 off1 f) :
    ∀ (d j : Nat), j < f.length → treeOf h d (some (off + j)) = treeOf h1 d (some (off1 + j)) := by
  intro d
  induction d with
  | zero => intro j _; rfl
  | succ d ih =>
    intro j hj
    rw [treeOf_node d (hp j hj), treeOf_node d (hp1 j hj)]
    simp only [shiftNode, List.map_map]
    congr 1
    apply List.map_congr_left
    intro o ho
    cases o with
    | none => exact treeOf_none h h1 d
    | some i =>
      have hi : i < f.length := hc _ (List.get_mem f j hj) i ho
      simp only [Function.comp, Option.map_some']
      rw [Nat.add_comm i off, Nat.add_comm i off1]
      exact ih i hi

theorem treeOf_root {f : Fragment} (hc : Closed f) {h h1 : Heap} {off off1 : Nat}
    (hp : PlacedAt h off f) (hp1 : PlacedAt h1 off1 f) (d : Nat) :
    treeOf h d (rootOf off f) = treeOf h1 d (rootOf off1 f) := by
  unfold rootOf
  by_cases hl : f.length = 0
  · simp only [hl, if_true]
    exact treeOf_none h h1 d
  · simp only [hl, if_false]
    have e1 : off + f.length - 1 = off + (f.length - 1) := by omega
    have e2 : off1 + f.length - 1 = off1 + (f.length - 1) := by omega
    rw [e1, e2]
    exact treeOf_placed hc hp hp1 d _ (by omega)

theorem treeOf_stageResult {P : Ports}
    (hclosed : ∀ key b j f, P.registry key = some b → b j = .ok f → Closed f)
    {h h1 : Heap} {kv : String × Json} {o o1 : Expression}
    (hs : IsStageResult P h kv o) (hs1 : IsStageResult P h1 kv o1) (d : Nat) :
    treeOf h d o = treeOf h1 d o1 := by
  obtain ⟨b, f, off, hb, hf, hp, ho⟩ := hs
  obtain ⟨b1, f1, off1, hb1, hf1, hp1, ho1⟩ := hs1
  rw [hb] at hb1
  simp only [Option.some.injEq] at hb1
  subst hb1
  rw [hf] at hf1
  simp only [Except.ok.injEq] at hf1
  subst hf1
  rw [ho, ho1]
  exact treeOf_root (hclosed _ _ _ _ hb hf) hp hp1 d

theorem treeOf_stageResults {P : Ports}
    (hclosed : ∀ key b j f, P.registry key = some b → b j = .ok f → Closed f)
    {h h1 : Heap} (d : Nat) :
    ∀ (l : List (String × Json)) (ops ops1 : List Expression),
      List.Forall₂ (IsStageResult P h) l ops → List.Forall₂ (IsStageResult P h1) l ops1 →
      ops.map (treeOf h d) = ops1.map (treeOf h1 d) := by
  intro l
  induction l with
  | nil =>
    intro ops ops1 h0 h1
    cases h0
    cases h1
    rfl
  | cons kv rest ih =>
    intro ops ops1 h0 h1
    cases h0 with
    | cons ha hr =>
      cases h1 with
      | cons ha1 hr1 =>
        simp only [List.map_cons]
        rw [treeOf_stageResult hclosed ha ha1 d, ih _ _ hr hr1]

theorem placedAt_of_agree_lt {h h1 : Heap} {off : Nat} {f : Fragment}
    (hp : PlacedAt h off f) (hag : ∀ i, i < off + f.length → h1[i]? = h[i]?) :
    PlacedAt h1 off f := by
  intro j hj
  rw [hag (off + j) (by omega)]
  exact hp j hj

/-- The stage loop of the constructor and the stage list of `assetBuilder`
fail together, with the same error. -/
theorem stages_error_agree (P : Ports) (s : Nat) :
    ∀ (l : List (String × Json)) (hx hy : Heap) (e : Err),
      buildStages P s l hx = .error e ↔ buildStageList P l hy = .error e := by
  intro l
  induction l with
  | nil => intro hx hy e; simp [buildStages, buildStageList]
  | cons kv rest ih =>
    intro hx hy e
    obtain ⟨k, v⟩ := kv
    simp only [buildStages, buildStageList, runBuilder]
    cases P.registry ("stage." ++ k) with
    | none => simp
    | some b =>
      simp only []
      cases b v with
      | error e1 => simp
      | ok f =>
        simp only []
        rw [ih (pushOperand (place hx f).2 s (place hx f).1) (place hy f).2 e]
        cases buildStageList P rest (place hy f).2 with
        | error e2 => simp
        | ok r => simp

/-- The constructor followed by `getExpression`, on a definition that is a name
and a stage list with a `check` entry and no `parents` or `metaData` entry. -/
theorem decoderExpression_eq (P : Ports) (name : String) (stages : List (String × Json))
    (h : Heap) {cj : Json} (hcheck : lookup "check" stages = some cj)
    (hnp : "parents" ∉ stages.map Prod.fst) (hnm : "metaData" ∉ stages.map Prod.fst) :
    decoderExpression P name stages h =
      match runBuilder P "stage.check" cj h with
      | .error e => .error e
      | .ok (c, h1) =>
        match buildStages P h1.length (eraseKey "check" stages)
            (h1 ++ [⟨.and, "stages", []⟩]) with
        | .error e => .error e
        | .ok h3 => .ok (some h3.length, h3 ++ [⟨.implication, name, [c, some h1.length]⟩]) := by
  have e1 : eraseKey "name" (("name", Json.str name) :: stages) = stages := by simp [eraseKey]
  have e2 : lookup "name" (("name", Json.str name) :: stages) = some (Json.str name) := by
    simp [lookup]
  rw [decoderExpression, fromJson_eq_fromParts, stageTuples, e1, e2, lookup_eq_none hnp,
    eraseKey_of_not_mem hnp, eraseKey_of_not_mem hnm, hcheck]
  simp only [Asset.fromParts, Json.getString]
  cases runBuilder P "stage.check" cj h with
  | error e => rfl
  | ok r =>
    obtain ⟨c, h1⟩ := r
    simp only []
    cases buildStages P h1.length (eraseKey "check" stages) (h1 ++ [⟨.and, "stages", []⟩]) with
    | error e => rfl
    | ok h3 => rfl

theorem getElem?_snoc {α : Type} (l : List α) (a : α) : (l ++ [a])[l.length]? = some a := by
  simp

theorem closed_exRegistry (key : String) (b : Json → Except Err Fragment) (j : Json)
    (f : Fragment) (hb : exRegistry key = some b) (hf : b j = .ok f) : Closed f := by
  unfold exRegistry at hb
  split at hb
  · simp only [Option.some.injEq] at hb
    subst hb
    simp only [Except.ok.injEq] at hf
    subst hf
    intro n hn i hi
    simp only [List.mem_cons, List.mem_singleton, List.not_mem_nil, or_false] at hn
    rcases hn with rfl | rfl
    · simp at hi
    · simp only [List.mem_singleton, Option.some.injEq] at hi
      subst hi
      simp
  · split at hb
    · simp only [Option.some.injEq] at hb
      subst hb
      simp only [Except.ok.injEq] at hf
      subst hf
      intro n hn i hi
      simp only [List.mem_singleton] at hn
      subst hn
      simp at hi
    · exact Option.noConfusion hb

/-- C22. For a stage list with a `check` entry and no `parents` or `metaData`
entry, and a Registry whose builders return expressions made of their own
nodes, `assetBuilder(name, stages)` and the expression of
`Asset({name} + stages, DECODER)` fail together with the same error, and
otherwise unfold to the same tree at every depth but for the name of the inner
`And`: `Implication(name, C, And("consequence", S))` and
`Implication(name, C, And("stages", S))`, where `C` is the tree of the result
of `stage.check` on the first `check` entry and `S` are the trees of the
results of the builders of the other entries, in order. -/
theorem C22_asset_compilers_agree (P : Ports)
    (hclosed : ∀ key b j f, P.registry key = some b → b j = .ok f → Closed f)
    (name : String) (stages : List (String × Json)) (h : Heap)
    (hcheck : "check" ∈ stages.map Prod.fst) (hnp : "parents" ∉ stages.map Prod.fst)
    (hnm : "metaData" ∉ stages.map Prod.fst) :
    (∀ e, assetBuilder P name stages h = .error e ↔
      decoderExpression P name stages h = .error e) ∧
    (∀ r1 h1 r2 h2, assetBuilder P name stages h = .ok (r1, h1) →
      decoderExpression P name stages h = .ok (r2, h2) →
      ∃ cj cond ops, lookup "check" stages = some cj ∧
        IsStageResult P h1 ("check", cj) cond ∧
        List.Forall₂ (IsStageResult P h1) (eraseKey "check" stages) ops ∧
        ∀ d,
          treeOf h1 (d + 2) r1 =
            .node .implication name
              [treeOf h1 (d + 1) cond, .node .and "consequence" (ops.map (treeOf h1 d))] ∧
          treeOf h2 (d + 2) r2 =
            .node .implication name
              [treeOf h1 (d + 1) cond, .node .and "stages" (ops.map (treeOf h1 d))]) := by
  obtain ⟨cj, r1, hx⟩ := extract_isSome_of_mem hcheck
  have hl := lookup_of_extract_some hx
  have hr1 := extract_some hx
  subst hr1
  have hkey : "stage." ++ "check" = "stage.check" := by decide
  rw [decoderExpression_eq P name stages h hl hnp hnm]
  simp only [assetBuilder, hx]
  cases hr : runBuilder P "stage.check" cj h with
  | error e0 => exact ⟨fun e => Iff.rfl, fun _ _ _ _ hA => by simp at hA⟩
  | ok r =>
    obtain ⟨c, hc1⟩ := r
    simp only []
    have hagree := stages_error_agree P hc1.length (eraseKey "check" stages)
      (hc1 ++ [⟨.and, "stages", []⟩]) hc1
    cases hA : buildStageList P (eraseKey "check" stages) hc1 with
    | error eA =>
      rw [(hagree eA).mpr hA]
      exact ⟨fun e => Iff.rfl, fun _ _ _ _ hA1 => by simp at hA1⟩
    | ok rA =>
      obtain ⟨es, h2⟩ := rA
      cases hB : buildStages P hc1.length (eraseKey "check" stages)
          (hc1 ++ [⟨.and, "stages", []⟩]) with
      | error eB =>
        have := (hagree eB).mp hB
        rw [hA] at this
        exact Except.noConfusion this
      | ok h3 =>
        simp only [create]
        refine ⟨fun e => by simp, ?_⟩
        intro q1 g1 q2 g2 hA1 hB1
        simp only [Except.ok.injEq, Prod.mk.injEq] at hA1 hB1
        obtain ⟨hq1, hg1⟩ := hA1
        obtain ⟨hq2, hg2⟩ := hB1
        subst hq1 hg1 hq2 hg2
        obtain ⟨b, fc, hb1, hb2, hce, hc1eq⟩ := runBuilder_ok hr
        obtain ⟨⟨t, ht⟩, hforallA⟩ := buildStageList_spec P _ _ _ _ hA
        obtain ⟨ops, hs3, hforallB, hagB, hlenB⟩ :=
          buildStages_spec P hc1.length _ _ _ [] (by simp) hB
        have hplaced1 : PlacedAt hc1 h.length fc := hc1eq ▸ placedAt_append h fc
        have hlen1 : hc1.length = h.length + fc.length := by rw [hc1eq]; simp
        have hcondA : IsStageResult P
            (h2 ++ [⟨.and, "consequence", es⟩] ++
              [⟨.implication, name, [c, some h2.length]⟩]) ("check", cj) c := by
          refine ⟨b, fc, h.length, hkey ▸ hb1, hb2, ?_, hce⟩
          rw [ht]
          exact placedAt_append_right _ (placedAt_append_right _ (placedAt_append_right t hplaced1))
        have hopsA : List.Forall₂ (IsStageResult P
            (h2 ++ [⟨.and, "consequence", es⟩] ++
              [⟨.implication, name, [c, some h2.length]⟩])) (eraseKey "check" stages) es :=
          forall₂_imp_mem hforallA
            (fun kv _ o ho => isStageResult_append _ (isStageResult_append _ ho))
        have hcondB : IsStageResult P
            (h3 ++ [⟨.implication, name, [c, some hc1.length]⟩]) ("check", cj) c := by
          refine ⟨b, fc, h.length, hkey ▸ hb1, hb2, placedAt_append_right _ ?_, hce⟩
          refine placedAt_of_agree_lt (placedAt_append_right [⟨.and, "stages", []⟩] hplaced1) ?_
          intro i hi
          exact hagB i (by simp; omega) (by omega)
        have hopsB : List.Forall₂ (IsStageResult P
            (h3 ++ [⟨.implication, name, [c, some hc1.length]⟩])) (eraseKey "check" stages) ops :=
          forall₂_imp_mem hforallB (fun kv _ o ho => isStageResult_append _ ho)
        refine ⟨cj, c, es, hl, hcondA, hopsA, ?_⟩
        intro d
        have hlen3 : hc1.length < h3.length := by
          have : (hc1 ++ [(⟨.and, "stages", []⟩ : Node)]).length ≤ h3.length := hlenB
          simp at this
          omega
        constructor
        · show treeOf _ (d + 1 + 1) _ = _
          rw [treeOf_node (d + 1) (getElem?_snoc (h2 ++ [(⟨.and, "consequence", es⟩ : Node)])
            ⟨.implication, name, [c, some h2.length]⟩)]
          simp only [List.map_cons, List.map_nil]
          rw [treeOf_node d
            (show (h2 ++ [⟨.and, "consequence", es⟩] ++
              [⟨.implication, name, [c, some h2.length]⟩])[h2.length]? =
                some ⟨.and, "consequence", es⟩ by
              rw [List.append_assoc, List.getElem?_append_right (le_refl _)]; simp)]
        · show treeOf _ (d + 1 + 1) _ = _
          rw [treeOf_node (d + 1) (getElem?_snoc h3 ⟨.implication, name, [c, some hc1.length]⟩)]
          simp only [List.map_cons, List.map_nil]
          rw [treeOf_node d
            (show (h3 ++ [⟨.implication, name, [c, some hc1.length]⟩])[hc1.length]? =
                some ⟨.and, "stages", [] ++ ops⟩ by
              rw [List.getElem?_append_left hlen3]; exact hs3)]
          simp only [List.nil_append]
          rw [treeOf_stageResult hclosed hcondB hcondA (d + 1),
            treeOf_stageResults hclosed d _ _ _ hopsB hopsA]

/-- C22 at the stage list `check`, `normalize` with the Registry of S1: the two
compilers succeed and the theorem applies. -/
theorem C22_asset_compilers_agree_witness :
    assetBuilder portsS1 "d1" [("check", .str "c"), ("normalize", .str "n")] [] =
      .ok (some 4, [⟨.term, "c", []⟩, ⟨.and, "check", [some 0]⟩, ⟨.term, "n", []⟩,
        ⟨.and, "consequence", [some 2]⟩, ⟨.implication, "d1", [some 1, some 3]⟩]) ∧
    decoderExpression portsS1 "d1" [("check", .str "c"), ("normalize", .str "n")] [] =
      .ok (some 4, [⟨.term, "c", []⟩, ⟨.and, "check", [some 0]⟩, ⟨.and, "stages", [some 3]⟩,
        ⟨.term, "n", []⟩, ⟨.implication, "d1", [some 1, some 2]⟩]) ∧
    (∀ e, assetBuilder portsS1 "d1" [("check", .str "c"), ("normalize", .str "n")] [] =
        .error e ↔
      decoderExpression portsS1 "d1" [("check", .str "c"), ("normalize", .str "n")] [] =
        .error e) :=
  ⟨rfl, rfl,
   (C22_asset_compilers_agree portsS1 closed_exRegistry "d1"
     [("check", .str "c"), ("normalize", .str "n")] [] (by decide) (by decide) (by decide)).1⟩

/-! ### assetBuilderOutput -/

theorem buildRest_toPop {L : Type} (O : OutPorts L) :
    ∀ (l : List (String × Json)) (ls : List L) (toPop : List String),
      buildRest O l = .ok (ls, toPop) → toPop = l.map Prod.fst := by
  intro l
  induction l with
  | nil =>
    intro ls toPop hb
    simp only [buildRest, Except.ok.injEq, Prod.mk.injEq] at hb
    rw [← hb.2]; rfl
  | cons kv rest ih =>
    intro ls toPop hb
    obtain ⟨k, v⟩ := kv
    simp only [buildRest] at hb
    cases hr : runOp O k v with
    | none => simp [hr] at hb
    | some l0 =>
      simp only [hr] at hb
      cases hrest : buildRest O rest with
      | error k2 => simp [hrest] at hb
      | ok r =>
        obtain ⟨ls1, tp1⟩ := r
        simp only [hrest, Except.ok.injEq, Prod.mk.injEq] at hb
        rw [← hb.2, ih _ _ hrest]
        rfl

theorem popAll_keys : ∀ l : List (String × Json), popAll (l.map Prod.fst) l = [] := by
  intro l
  induction l with
  | nil => rfl
  | cons kv rest ih =>
    obtain ⟨k, v⟩ := kv
    simp only [List.map_cons, popAll, eraseKey, if_true]
    exact ih

/-- C25. When the loop over the attributes left returns, `toPop` holds the key
of every one of them, and the pops leave the map empty; so for no Registry and
no definition `assetBuilderOutput` throws "json definition contains
unproccessed attributes". -/
theorem C25_unprocessed_branch_unreachable :
    (∀ (L : Type) (O : OutPorts L) (attributes : List (String × Json)) (ls : List L)
        (toPop : List String),
      buildRest O attributes = .ok (ls, toPop) →
      toPop = attributes.map Prod.fst ∧ popAll toPop attributes = []) ∧
    (∀ (L : Type) (O : OutPorts L) (definition : Json),
      assetBuilderOutput O definition ≠
        .error (.invalidArgument
          "Output builder, json definition contains unproccessed attributes")) := by
  have hloop : ∀ (L : Type) (O : OutPorts L) (attributes : List (String × Json)) (ls : List L)
      (toPop : List String), buildRest O attributes = .ok (ls, toPop) →
      toPop = attributes.map Prod.fst ∧ popAll toPop attributes = [] := by
    intro L O attributes ls toPop hb
    have := buildRest_toPop O _ _ _ hb
    exact ⟨this, this ▸ popAll_keys attributes⟩
  refine ⟨hloop, ?_⟩
  intro L O definition
  cases definition with
  | obj members =>
    simp only [assetBuilderOutput]
    split
    · split
      · simp
      · split
        · simp
        · split
          · simp
          · split
            · simp
            · rename_i rest toPop hb
              rw [(hloop L O _ _ _ hb).2]
              simp only [List.isEmpty_nil, Bool.true_eq_false, if_false]
              split <;> simp
    · simp
  | null =>
    simp only [assetBuilderOutput, Json.typeCode, ne_eq, Except.error.injEq,
      OutErr.invalidArgument.injEq]
    decide
  | bool b =>
    cases b <;>
      simp only [assetBuilderOutput, Json.typeCode, ne_eq, Except.error.injEq,
        OutErr.invalidArgument.injEq] <;>
      decide
  | num n =>
    simp only [assetBuilderOutput, Json.typeCode, ne_eq, Except.error.injEq,
      OutErr.invalidArgument.injEq]
    decide
  | str s =>
    simp only [assetBuilderOutput, Json.typeCode, ne_eq, Except.error.injEq,
      OutErr.invalidArgument.injEq]
    decide
  | arr xs =>
    simp only [assetBuilderOutput, Json.typeCode, ne_eq, Except.error.injEq,
      OutErr.invalidArgument.injEq]
    decide

/-! ### The key order of the attribute map -/

theorem char_eq_of_toNat {a b : Char} (h : a.toNat = b.toNat) : a = b :=
  Char.ext (UInt32.ext h)

theorem charsLt_irrefl : ∀ a : List Char, charsLt a a = false := by
  intro a
  induction a with
  | nil => rfl
  | cons c cs ih => simp [charsLt, ih]

theorem charsLt_trans :
    ∀ a b c : List Char, charsLt a b = true → charsLt b c = true → charsLt a c = true := by
  intro a
  induction a with
  | nil =>
    intro b c hab hbc
    cases b with
    | nil => simp [charsLt] at hab
    | cons y ys =>
      cases c with
      | nil => simp [charsLt] at hbc
      | cons z zs => rfl
  | cons x xs ih =>
    intro b c hab hbc
    cases b with
    | nil => simp [charsLt] at hab
    | cons y ys =>
      cases c with
      | nil => simp [charsLt] at hbc
      | cons z zs =>
        simp only [charsLt] at hab hbc ⊢
        by_cases h1 : x.toNat < y.toNat
        · by_cases h2 : y.toNat < z.toNat
          · have : x.toNat < z.toNat := by omega
            simp [this]
          · simp only [h2, if_false] at hbc
            by_cases h3 : z.toNat < y.toNat
            · simp [h3] at hbc
            · have : x.toNat < z.toNat := by omega
              simp [this]
        · simp only [h1, if_false] at hab
          by_cases h3 : y.toNat < x.toNat
          · simp [h3] at hab
          · simp only [h3, if_false] at hab
            have hxy : x.toNat = y.toNat := by omega
            by_cases h2 : y.toNat < z.toNat
            · have : x.toNat < z.toNat := by omega
              simp [this]
            · simp only [h2, if_false] at hbc
              by_cases h4 : z.toNat < y.toNat
              · simp [h4] at hbc
              · simp only [h4, if_false] at hbc
                have h5 : ¬ x.toNat < z.toNat := by omega
                have h6 : ¬ z.toNat < x.toNat := by omega
                simp only [h5, h6, if_false]
                exact ih ys zs hab hbc

theorem charsLt_total :
    ∀ a b : List Char, charsLt a b = false → a ≠ b → charsLt b a = true := by
  intro a
  induction a with
  | nil =>
    intro b hab hne
    cases b with
    | nil => exact absurd rfl hne
    | cons y ys => simp [charsLt] at hab
  | cons x xs ih =>
    intro b hab hne
    cases b with
    | nil => rfl
    | cons y ys =>
      simp only [charsLt] at hab ⊢
      by_cases h1 : x.toNat < y.toNat
      · simp [h1] at hab
      · simp only [h1, if_false] at hab
        by_cases h2 : y.toNat < x.toNat
        · simp [h2]
        · simp only [h2, if_false] at hab
          simp only [h1, h2, if_false]
          have hxy : x = y := char_eq_of_toNat (by omega)
          subst hxy
          exact ih ys hab (fun h => hne (by rw [h]))

theorem stringLt_irrefl (a : String) : stringLt a a = false := charsLt_irrefl a.data

theorem stringLt_trans {a b c : String} (hab : stringLt a b = true) (hbc : stringLt b c = true) :
    stringLt a c = true := charsLt_trans _ _ _ hab hbc

theorem stringLt_total {a b : String} (hab : stringLt a b = false) (hne : a ≠ b) :
    stringLt b a = true :=
  charsLt_total _ _ hab (fun h => hne (String.ext h))

theorem mem_keys_sortedInsert {α : Type} {key q : String} {v : α} {l : List (String × α)}
    (hq : q ∈ (sortedInsert key v l).map Prod.fst) : q = key ∨ q ∈ l.map Prod.fst := by
  obtain ⟨x, hx, rfl⟩ := List.mem_map.mp hq
  rcases mem_sortedInsert hx with h | h
  · exact Or.inr (List.mem_map.mpr ⟨x, h, rfl⟩)
  · exact Or.inl (by rw [h])

theorem keysSorted_sortedInsert {α : Type} (key : String) (v : α) :
    ∀ l : List (String × α), KeysSorted l → KeysSorted (sortedInsert key v l) := by
  intro l
  induction l with
  | nil => intro _; simp [KeysSorted, sortedInsert]
  | cons kv rest ih =>
    intro hs
    obtain ⟨k, x⟩ := kv
    unfold KeysSorted at hs ih ⊢
    simp only [List.map_cons, List.pairwise_cons] at hs
    by_cases hk : key = k
    · simp only [sortedInsert, hk, if_true, List.map_cons, List.pairwise_cons]
      exact hs
    · by_cases hlt : stringLt key k = true
      · simp only [sortedInsert, hk, if_false, hlt, if_true, List.map_cons, List.pairwise_cons,
          List.mem_cons]
        refine ⟨?_, hs⟩
        rintro y (rfl | hy)
        · exact hlt
        · exact stringLt_trans hlt (hs.1 y hy)
      · have hlt1 : stringLt key k = false := by simpa using hlt
        simp only [sortedInsert, hk, if_false, hlt1, Bool.false_eq_true, List.map_cons,
          List.pairwise_cons]
        refine ⟨?_, ih hs.2⟩
        intro y hy
        rcases mem_keys_sortedInsert hy with rfl | h
        · exact stringLt_total hlt1 hk
        · exact hs.1 y h

theorem lookup_sortedInsert_ne {α : Type} {q key : String} (hne : q ≠ key) (v : α) :
    ∀ l : List (String × α), lookup q (sortedInsert key v l) = lookup q l := by
  intro l
  have hkq : ¬ key = q := fun h => hne h.symm
  induction l with
  | nil => simp [sortedInsert, lookup, hkq]
  | cons kv rest ih =>
    obtain ⟨k, x⟩ := kv
    by_cases hk : key = k
    · simp [sortedInsert, hk]
    · by_cases hlt : stringLt key k = true
      · simp [sortedInsert, hk, hlt, lookup, hkq]
      · by_cases hk2 : k = q
        · subst hk2
          simp [sortedInsert, hk, hlt, lookup]
        · simp [sortedInsert, hk, hlt, lookup, hk2, ih]

theorem lookup_none_of_lt {α : Type} {key : String} :
    ∀ l : List (String × α), (∀ y ∈ l.map Prod.fst, stringLt key y = true) →
      lookup key l = none := by
  intro l hall
  apply lookup_eq_none
  intro hmem
  have := hall key hmem
  rw [stringLt_irrefl] at this
  exact Bool.noConfusion this

theorem lookup_sortedInsert_self {α : Type} (key : String) (v : α) :
    ∀ l : List (String × α), KeysSorted l →
      lookup key (sortedInsert key v l) = some ((lookup key l).getD v) := by
  intro l
  induction l with
  | nil => intro _; simp [sortedInsert, lookup]
  | cons kv rest ih =>
    intro hs
    obtain ⟨k, x⟩ := kv
    unfold KeysSorted at hs ih
    simp only [List.map_cons, List.pairwise_cons] at hs
    by_cases hk : key = k
    · subst hk
      simp [sortedInsert, lookup]
    · have hk1 : ¬ k = key := fun h => hk h.symm
      by_cases hlt : stringLt key k = true
      · have hnone : lookup key rest = none :=
          lookup_none_of_lt rest (fun y hy => stringLt_trans hlt (hs.1 y hy))
        simp [sortedInsert, hk, hlt, lookup, hk1, hnone]
      · simp only [sortedInsert, hk, if_false, hlt, lookup, hk1]
        exact ih hs.2

theorem keysSorted_fillAttributes :
    ∀ (members attributes : List (String × Json)), KeysSorted attributes →
      KeysSorted (fillAttributes members attributes) := by
  intro members
  induction members with
  | nil => intro attributes hs; exact hs
  | cons kv rest ih =>
    intro attributes hs
    obtain ⟨k, v⟩ := kv
    exact ih _ (keysSorted_sortedInsert (cstr k) v attributes hs)

/-- The map `attributes` holds, for every key, the value of the first member
with that key. -/
theorem lookup_fillAttributes (q : String) :
    ∀ (members attributes : List (String × Json)), KeysSorted attributes →
      lookup q (fillAttributes members attributes) =
        match lookup q attributes with
        | some a => some a
        | none => lookup q (cstrKeys members) := by
  intro members
  induction members with
  | nil =>
    intro attributes _
    simp only [fillAttributes, cstrKeys, List.map_nil, lookup]
    cases lookup q attributes <;> rfl
  | cons kv rest ih =>
    intro attributes hs
    obtain ⟨k, v⟩ := kv
    simp only [fillAttributes]
    rw [ih _ (keysSorted_sortedInsert (cstr k) v attributes hs)]
    by_cases hq : q = cstr k
    · rw [hq, lookup_sortedInsert_self (cstr k) v attributes hs]
      cases lookup (cstr k) attributes with
      | none => simp [lookup, cstrKeys]
      | some a => simp
    · rw [lookup_sortedInsert_ne hq v attributes]
      have hkq : ¬ cstr k = q := fun h => hq h.symm
      cases lookup q attributes with
      | none => simp [lookup, cstrKeys, hkq]
      | some a => rfl

theorem keysSorted_nodup {α : Type} {l : List (String × α)} (hs : KeysSorted l) :
    (l.map Prod.fst).Nodup := by
  unfold KeysSorted at hs
  refine List.Pairwise.imp ?_ hs
  intro a b hab heq
  rw [heq, stringLt_irrefl] at hab
  exact Bool.noConfusion hab

theorem keysSorted_eraseKey (key : String) {l : List (String × Json)} (hs : KeysSorted l) :
    KeysSorted (eraseKey key l) :=
  List.Pairwise.sublist (List.Sublist.map Prod.fst (eraseKey_sublist key l)) hs

theorem lookup_eraseKey_self {key : String} {l : List (String × Json)} (hs : KeysSorted l) :
    lookup key (eraseKey key l) = none :=
  lookup_eq_none (not_mem_eraseKey key l (keysSorted_nodup hs))

theorem mem_iff_lookup {α : Type} {l : List (String × α)} (hn : (l.map Prod.fst).Nodup)
    (k : String) (v : α) : (k, v) ∈ l ↔ lookup k l = some v := by
  constructor
  · intro hm
    induction l with
    | nil => simp at hm
    | cons kv rest ih =>
      obtain ⟨k1, x⟩ := kv
      simp only [List.map_cons, List.nodup_cons] at hn
      rcases List.mem_cons.mp hm with h1 | h1
      · simp only [Prod.mk.injEq] at h1
        simp [lookup, h1.1, h1.2]
      · have hne : ¬ k1 = k := by
          intro h
          exact hn.1 (h ▸ List.mem_map.mpr ⟨(k, v), h1, rfl⟩)
        simp only [lookup, hne, if_false]
        exact ih hn.2 h1
  · exact lookup_mem

theorem buildRest_spec {L : Type} (O : OutPorts L) :
    ∀ (l : List (String × Json)) (ls : List L) (toPop : List String),
      buildRest O l = .ok (ls, toPop) →
      List.Forall₂ (fun (kv : String × Json) (x : L) => runOp O kv.1 kv.2 = some x) l ls := by
  intro l
  induction l with
  | nil =>
    intro ls toPop hb
    simp only [buildRest, Except.ok.injEq, Prod.mk.injEq] at hb
    rw [← hb.1]
    exact List.Forall₂.nil
  | cons kv rest ih =>
    intro ls toPop hb
    obtain ⟨k, v⟩ := kv
    simp only [buildRest] at hb
    cases hr : runOp O k v with
    | none => simp [hr] at hb
    | some l0 =>
      simp only [hr] at hb
      cases hrest : buildRest O rest with
      | error k2 => simp [hrest] at hb
      | ok r =>
        obtain ⟨ls1, tp1⟩ := r
        simp only [hrest, Except.ok.injEq, Prod.mk.injEq] at hb
        rw [← hb.1]
        exact List.Forall₂.cons hr (ih _ _ hrest)

theorem pushParents_spec :
    ∀ (ps : List Json) (l : List String), pushParents ps = some l →
      ∃ raw : List String, ps = raw.map Json.str ∧ l = raw.map cstr := by
  intro ps
  induction ps with
  | nil =>
    intro l h
    simp only [pushParents, Option.some.injEq] at h
    exact ⟨[], rfl, h.symm⟩
  | cons j rest ih =>
    intro l h
    cases j with
    | str s =>
      simp only [pushParents] at h
      cases hr : pushParents rest with
      | none => simp [hr] at h
      | some l1 =>
        simp only [hr, Option.some.injEq] at h
        obtain ⟨raw, h1, h2⟩ := ih l1 hr
        exact ⟨s :: raw, by rw [h1]; rfl, by rw [← h, h2]; rfl⟩
    | _ => simp [pushParents] at h

theorem lookup_isSome_of_mem {α : Type} {key : String} {l : List (String × α)}
    (hm : key ∈ l.map Prod.fst) : ∃ v, lookup key l = some v := by
  induction l with
  | nil => simp at hm
  | cons kv rest ih =>
    obtain ⟨k, w⟩ := kv
    by_cases hk : k = key
    · exact ⟨w, by simp [lookup, hk]⟩
    · simp only [List.map_cons, List.mem_cons] at hm
      rcases hm with h1 | h1
      · exact absurd h1.symm hk
      · obtain ⟨v, hv⟩ := ih h1
        exact ⟨v, by simp [lookup, hk, hv]⟩

theorem eraseKey_of_lookup_none {key : String} {l : List (String × Json)}
    (hl : lookup key l = none) : eraseKey key l = l := by
  apply eraseKey_of_not_mem
  intro hm
  obtain ⟨v, hv⟩ := lookup_isSome_of_mem hm
  rw [hl] at hv
  exact Option.noConfusion hv

theorem lookup_restAttributes {A : List (String × Json)} (hs : KeysSorted A) (k : String) :
    lookup k (eraseKey "outputs" (eraseKey "check" (eraseKey "parents" (eraseKey "name" A)))) =
      if k ∈ outputKeys then none else lookup k A := by
  by_cases h1 : k = "name"
  · subst h1
    rw [lookup_eraseKey_ne (by decide), lookup_eraseKey_ne (by decide),
      lookup_eraseKey_ne (by decide), lookup_eraseKey_self hs]
    simp [outputKeys]
  · by_cases h2 : k = "parents"
    · subst h2
      rw [lookup_eraseKey_ne (by decide), lookup_eraseKey_ne (by decide),
        lookup_eraseKey_self (keysSorted_eraseKey _ hs)]
      simp [outputKeys]
    · by_cases h3 : k = "check"
      · subst h3
        rw [lookup_eraseKey_ne (by decide),
          lookup_eraseKey_self (keysSorted_eraseKey _ (keysSorted_eraseKey _ hs))]
        simp [outputKeys]
      · by_cases h4 : k = "outputs"
        · subst h4
          rw [lookup_eraseKey_self
            (keysSorted_eraseKey _ (keysSorted_eraseKey _ (keysSorted_eraseKey _ hs)))]
          simp [outputKeys]
        · rw [lookup_eraseKey_ne h4, lookup_eraseKey_ne h3, lookup_eraseKey_ne h2,
            lookup_eraseKey_ne h1]
          simp [outputKeys, h1, h2, h3, h4]

/-- C23, counterexample. The definition `exOutputDefNul` is accepted, and the
name of the connectable is `out`, not the name of the definition, which goes
on after the character U+0000. -/
theorem C23_name_truncated :
    ∃ conn, assetBuilderOutput exOutPorts exOutputDefNul = .ok conn ∧
      exOutputDefNul = .obj [("name", .str nameWithNul), ("check", .str "c"),
        ("outputs", .str "o")] ∧
      conn.name = "out" ∧ conn.name ≠ nameWithNul :=
  ⟨_, rfl, rfl, rfl, by decide⟩

/-- C23, amended. When `assetBuilderOutput` returns a connectable for a
definition, the definition is an object.  With every member key, the name and
every parent name read up to their first U+0000 character: the name of the
connectable is the string under `name`; its parents are the strings of the
array under `parents`, in the order of the array, and none when there is no
such key; and its output is the result of `combinator.chain` on the stage list
that starts with the stage of `check`, then the stage of `outputs`, then the
stages of the attributes left, which are the members with another key than
these four, each built by the builder named by its key, in strictly ascending
key order.  Of several members with one key the first counts. -/
theorem C23_output_connectable {L : Type} (O : OutPorts L) (definition : Json)
    (conn : Connectable L) (hok : assetBuilderOutput O definition = .ok conn) :
    ∃ members nameV checkV outputsV check outputs rest ls,
      definition = .obj members ∧
      lookup "name" (cstrKeys members) = some (.str nameV) ∧ conn.name = cstr nameV ∧
      ((lookup "parents" (cstrKeys members) = none ∧ conn.parents = []) ∨
        ∃ raw : List String, lookup "parents" (cstrKeys members) = some (.arr (raw.map Json.str)) ∧
          conn.parents = raw.map cstr) ∧
      lookup "check" (cstrKeys members) = some checkV ∧ runOp O "check" checkV = some check ∧
      lookup "outputs" (cstrKeys members) = some outputsV ∧
      runOp O "outputs" outputsV = some outputs ∧
      KeysSorted rest ∧
      (∀ k v, (k, v) ∈ rest ↔ (k ∉ outputKeys ∧ lookup k (cstrKeys members) = some v)) ∧
      List.Forall₂ (fun (kv : String × Json) (x : L) => runOp O kv.1 kv.2 = some x) rest ls ∧
      runCombinator O "combinator.chain" (check :: outputs :: ls) = some conn.output := by
  cases definition with
  | obj members =>
    have hsA : KeysSorted (fillAttributes members []) :=
      keysSorted_fillAttributes members [] (by simp [KeysSorted])
    have hlA : ∀ q, lookup q (fillAttributes members []) = lookup q (cstrKeys members) := by
      intro q
      rw [lookup_fillAttributes q members [] (by simp [KeysSorted])]
      simp [lookup]
    simp only [assetBuilderOutput] at hok
    generalize fillAttributes members [] = A at hok hsA hlA
    split at hok
    · rename_i name hname
      split at hok
      · simp at hok
      · rename_i parents attributes2 hpar
        have hpar2 : attributes2 = eraseKey "parents" (eraseKey "name" A) ∧
            ((lookup "parents" (cstrKeys members) = none ∧ parents = []) ∨
              ∃ raw : List String,
                lookup "parents" (cstrKeys members) = some (.arr (raw.map Json.str)) ∧
                parents = raw.map cstr) := by
          have hlp : lookup "parents" (eraseKey "name" A) =
              lookup "parents" (cstrKeys members) := by
            rw [lookup_eraseKey_ne (by decide), hlA]
          cases hp : lookup "parents" (eraseKey "name" A) with
          | none =>
            simp only [hp, Option.some.injEq, Prod.mk.injEq] at hpar
            rw [← hpar.1, ← hpar.2, eraseKey_of_lookup_none hp]
            exact ⟨rfl, Or.inl ⟨hlp ▸ hp, rfl⟩⟩
          | some j =>
            cases j with
            | arr ps =>
              simp only [hp] at hpar
              cases hpp : pushParents ps with
              | none => simp [hpp] at hpar
              | some l =>
                simp only [hpp, Option.some.injEq, Prod.mk.injEq] at hpar
                rw [← hpar.1, ← hpar.2]
                obtain ⟨raw, hraw1, hraw2⟩ := pushParents_spec ps l hpp
                refine ⟨rfl, Or.inr ⟨raw, ?_, hraw2⟩⟩
                rw [← hlp, hp, hraw1]
            | _ => simp [hp] at hpar
        obtain ⟨hat2, hparents⟩ := hpar2
        subst hat2
        split at hok
        · simp at hok
        · rename_i check hcheck
          obtain ⟨checkV, hcv, hcr⟩ := Option.bind_eq_some.mp hcheck
          split at hok
          · simp at hok
          · rename_i outputs houtputs
            obtain ⟨outputsV, hov, hor⟩ := Option.bind_eq_some.mp houtputs
            split at hok
            · simp at hok
            · rename_i rest toPop hrest
              split at hok
              · simp at hok
              · split at hok
                · simp at hok
                · rename_i output hchain
                  simp only [Except.ok.injEq] at hok
                  subst hok
                  have hsR := keysSorted_eraseKey "outputs" (keysSorted_eraseKey "check"
                    (keysSorted_eraseKey "parents" (keysSorted_eraseKey "name" hsA)))
                  refine ⟨members, name, checkV, outputsV, check, outputs, _, rest, rfl, ?_, rfl,
                    hparents, ?_, hcr, ?_, hor, hsR, ?_, buildRest_spec O _ _ _ hrest, hchain⟩
                  · rw [← hlA, hname]
                  · rw [← hlA, ← hcv, lookup_eraseKey_ne (by decide),
                      lookup_eraseKey_ne (by decide)]
                  · rw [← hlA, ← hov, lookup_eraseKey_ne (by decide),
                      lookup_eraseKey_ne (by decide), lookup_eraseKey_ne (by decide)]
                  · intro k v
                    rw [mem_iff_lookup (keysSorted_nodup hsR), lookup_restAttributes hsA, hlA]
                    by_cases hk : k ∈ outputKeys
                    · simp [hk]
                    · simp [hk]
    · simp at hok
  | _ => simp [assetBuilderOutput] at hok

/-- C23 at a definition that lists `outputs` first and `check` last: the stage
list is check, outputs, map, normalize. -/
theorem C23_output_connectable_witness :
    assetBuilderOutput exOutPorts exOutputDef =
      .ok ⟨"out1", ["p2", "p1"], "check:c outputs:o map:m normalize:n"⟩ ∧
    ∃ members checkV outputsV check outputs rest ls,
      exOutputDef = .obj members ∧
      lookup "check" (cstrKeys members) = some checkV ∧
      runOp exOutPorts "check" checkV = some check ∧
      lookup "outputs" (cstrKeys members) = some outputsV ∧
      runOp exOutPorts "outputs" outputsV = some outputs ∧ KeysSorted rest ∧
      List.Forall₂ (fun (kv : String × Json) (x : String) =>
        runOp exOutPorts kv.1 kv.2 = some x) rest ls ∧
      runCombinator exOutPorts "combinator.chain" (check :: outputs :: ls) =
        some "check:c outputs:o map:m normalize:n" := by
  refine ⟨rfl, ?_⟩
  obtain ⟨members, nameV, checkV, outputsV, check, outputs, rest, ls, h1, -, -, -, h4, h5, h6,
      h7, h8, -, h10, h11⟩ :=
    C23_output_connectable exOutPorts exOutputDef
      ⟨"out1", ["p2", "p1"], "check:c outputs:o map:m normalize:n"⟩ rfl
  exact ⟨members, checkV, outputsV, check, outputs, rest, ls, h1, h4, h5, h6, h7, h8, h10, h11⟩

/-! ### Termination of the fold -/

theorem visitChildren_cache_mono
    {visitRef : String → FoldState → Except Err (Expression × FoldState)}
    (hv : ∀ c s e s1, visitRef c s = .ok (e, s1) → ∀ k x,
      lookup k s.sharedParents = some x → lookup k s1.sharedParents = some x) (op : Nat) :
    ∀ (cs : List String) (st st1 : FoldState), visitChildren visitRef op cs st = .ok st1 →
      ∀ k x, lookup k st.sharedParents = some x → lookup k st1.sharedParents = some x := by
  intro cs
  induction cs with
  | nil =>
    intro st st1 h k x hk
    simp only [visitChildren, Except.ok.injEq] at h
    exact h ▸ hk
  | cons c rest ih =>
    intro st st1 h k x hk
    simp only [visitChildren] at h
    cases hr : visitRef c st with
    | error e => simp [hr] at h
    | ok r =>
      obtain ⟨e, s1⟩ := r
      simp only [hr] at h
      exact ih _ _ h k x (hv c st e s1 hr k x hk)

/-- A run of `visit` that returns keeps every entry of `sharedParents`. -/
theorem visit_cache_mono (P : Ports) (assets : List (String × Asset)) (g : Graph)
    (ty : AssetType) :
    ∀ (fuel : Nat) (cur : String) (st : FoldState) (e : Expression) (st1 : FoldState),
      visit P assets g ty fuel cur st = .ok (e, st1) →
      ∀ k x, lookup k st.sharedParents = some x → lookup k st1.sharedParents = some x := by
  intro fuel
  induction fuel with
  | zero => intro cur st e st1 h; simp [visit] at h
  | succ fuel ih =>
    intro cur st e st1 h k x hk
    simp only [visit] at h
    cases hl : lookup cur st.sharedParents with
    | some e0 =>
      simp only [hl, Except.ok.injEq, Prod.mk.injEq] at h
      exact h.2 ▸ hk
    | none =>
      simp only [hl] at h
      cases hnode : g.node cur with
      | error err => simp [hnode] at h
      | ok asset =>
        simp only [hnode] at h
        cases hfam : familyOp ty with
        | none => simp [hfam] at h
        | some kd =>
          simp only [hfam, create] at h
          cases hban : buildAssetNode P assets asset st.heap.length
              (st.heap ++ [⟨kd, "children", []⟩]) with
          | error err => simp [hban] at h
          | ok r =>
            obtain ⟨p, h2⟩ := r
            simp only [hban] at h
            cases hedge : g.edgesAt cur with
            | error err => simp [hedge] at h
            | ok cs =>
              simp only [hedge] at h
              split at h
              · simp at h
              · rename_i s1 hvc
                simp only [Except.ok.injEq, Prod.mk.injEq] at h
                rw [← h.2]
                refine visitChildren_cache_mono ih _ _ _ _ hvc k x ?_
                simp only
                split
                · exact lookup_mapInsert_some _ hk
                · exact hk

theorem two_parents_of_two_edges {g : Graph} (hex : EdgesExact g) {p1 p2 c : String}
    {a : Asset} (h1 : HasEdge g p1 c) (h2 : HasEdge g p2 c) (hne : p1 ≠ p2)
    (hnode : g.node c = .ok a) : a.m_parents.length > 1 := by
  obtain ⟨a1, -, hn1, ho1⟩ := (hex p1 c).mp h1
  obtain ⟨a2, -, hn2, ho2⟩ := (hex p2 c).mp h2
  rw [hnode] at hn1 hn2
  simp only [Except.ok.injEq] at hn1 hn2
  subst hn1
  subst hn2
  have hm1 : p1 ∈ a.m_parents := by
    rcases ho1 with ⟨he, hr1⟩ | hm
    · rcases ho2 with ⟨_, hr2⟩ | hm2
      · exact absurd (hr1.trans hr2.symm) hne
      · rw [he] at hm2; simp at hm2
    · exact hm
  have hm2 : p2 ∈ a.m_parents := by
    rcases ho2 with ⟨he, _⟩ | hm
    · rw [he] at hm1; simp at hm1
    · exact hm
  cases hps : a.m_parents with
  | nil => rw [hps] at hm1; simp at hm1
  | cons x xs =>
    cases xs with
    | nil =>
      rw [hps] at hm1 hm2
      simp only [List.mem_singleton] at hm1 hm2
      exact absurd (hm1.trans hm2.symm) hne
    | cons y ys => simp

theorem callChain_pred {g : Graph} :
    ∀ (S : List String) (v : String), CallChain g v S →
      ∀ c ∈ v :: S, ∃ p, HasEdge g p c ∧ (p = g.m_root ∨ p ∈ S) := by
  intro S
  induction S with
  | nil =>
    intro v hch c hc
    simp only [List.mem_singleton] at hc
    subst hc
    exact ⟨g.m_root, hch, Or.inl rfl⟩
  | cons p0 S0 ih =>
    intro v hch c hc
    obtain ⟨hedge, hrest⟩ := hch
    rcases List.mem_cons.mp hc with h1 | h1
    · subst h1
      exact ⟨p0, hedge, Or.inr (List.mem_cons_self _ _)⟩
    · obtain ⟨p, hp, hor⟩ := ih p0 hrest c h1
      refine ⟨p, hp, ?_⟩
      rcases hor with h | h
      · exact Or.inl h
      · exact Or.inr (List.mem_cons_of_mem _ h)

theorem child_ne_root {g : Graph} (hex : EdgesExact g) {p c : String} (h : HasEdge g p c) :
    c ≠ g.m_root := by
  obtain ⟨a, hne, -⟩ := (hex p c).mp h
  exact hne

theorem callChain_child_ne_root {g : Graph} (hex : EdgesExact g) {v : String}
    {S : List String} (hch : CallChain g v S) : v ≠ g.m_root := by
  cases S with
  | nil => exact child_ne_root hex hch
  | cons p rest => exact child_ne_root hex hch.1

theorem stack_length_le {g : Graph} {S : List String} (hnd : S.Nodup)
    (hnodes : ∀ v ∈ S, g.hasNode v = true) : S.length ≤ g.m_nodes.length := by
  have hsub : S ⊆ g.m_nodes.map Prod.fst := by
    intro v hv
    have := hnodes v hv
    unfold Graph.hasNode at this
    cases hl : lookup v g.m_nodes with
    | none => simp [hl] at this
    | some a => exact mem_keys_of_lookup hl
  have := (hnd.subperm hsub).length_le
  simpa using this

theorem le_visitFuel (g : Graph) : g.m_nodes.length + 1 ≤ visitFuel g := by
  unfold visitFuel
  have := Nat.le_mul_self (g.m_nodes.length + 2)
  omega

/-- C25 at the attributes `map` and `normalize`, which the loop builds and the
pops remove, and at the definition `exOutputDef`. -/
theorem C25_unprocessed_branch_unreachable_witness :
    buildRest exOutPorts [("map", .str "m"), ("normalize", .str "n")] =
      .ok (["map:m", "normalize:n"], ["map", "normalize"]) ∧
    popAll ["map", "normalize"] [("map", .str "m"), ("normalize", .str "n")] = [] ∧
    assetBuilderOutput exOutPorts exOutputDef ≠
      .error (.invalidArgument
        "Output builder, json definition contains unproccessed attributes") :=
  ⟨rfl,
   (C25_unprocessed_branch_unreachable.1 String exOutPorts
     [("map", .str "m"), ("normalize", .str "n")] ["map:m", "normalize:n"]
     ["map", "normalize"] rfl).2,
   C25_unprocessed_branch_unreachable.2 String exOutPorts exOutputDef⟩

/-! ### The Catalog calls of the constructor -/

/-- The assets that the filter preload inserts are parsed, as filters, from the
answers of the Catalog with code 1, and the Catalog has answered with code 1
for every listed name. -/
theorem loadFilters_catalog {P : Ports} :
    ∀ (l : List Json) (assets assets1 : List (String × Asset)) (h h1 : Heap),
      loadFilters P l (assets, h) = .ok (assets1, h1) →
      (∀ key a, lookup key assets = some a → lookup key assets1 = some a) ∧
      ((∀ key a, lookup key assets = some a → ∃ d h0 h2, P.catalog 1 key = .ok d ∧
          Asset.fromJson P d .filter h0 = .ok (a, h2)) →
        ∀ key a, lookup key assets1 = some a → ∃ d h0 h2, P.catalog 1 key = .ok d ∧
          Asset.fromJson P d .filter h0 = .ok (a, h2)) ∧
      ∀ key, Json.str key ∈ l → ∃ a, lookup key assets1 = some a := by
  intro l
  induction l with
  | nil =>
    intro assets assets1 h h1 hl
    simp only [loadFilters, Except.ok.injEq, Prod.mk.injEq] at hl
    rw [← hl.1]
    exact ⟨fun _ _ hk => hk, fun hk => hk, by intro key hk; simp at hk⟩
  | cons j rest ih =>
    intro assets assets1 h h1 hl
    simp only [loadFilters] at hl
    cases hs : j.getString with
    | error err => simp [hs] at hl
    | ok key =>
      simp only [hs] at hl
      cases hc : P.catalog 1 key with
      | error err => simp [hc] at hl
      | ok definition =>
        simp only [hc] at hl
        cases hf : Asset.fromJson P definition .filter h with
        | error err => simp [hf] at hl
        | ok res =>
          obtain ⟨a0, h2⟩ := res
          simp only [hf] at hl
          obtain ⟨k1, k2, k3⟩ := ih _ assets1 _ h1 hl
          refine ⟨fun k a hk => k1 k a (lookup_mapInsert_some a0 hk), ?_, ?_⟩
          · intro hinv
            apply k2
            intro k a hk
            cases hold : lookup k assets with
            | some b =>
              rw [lookup_mapInsert_some a0 hold] at hk
              exact hinv k a (hold.trans hk)
            | none =>
              rw [lookup_mapInsert_none a0 hold] at hk
              split at hk
              · rename_i hkk
                simp only [Option.some.injEq] at hk
                subst hkk; subst hk
                exact ⟨definition, h, h2, hc, hf⟩
              · exact Option.noConfusion hk
          · intro k hk
            rcases List.mem_cons.mp hk with h3 | h3
            · rw [← h3] at hs
              simp only [Json.getString, Except.ok.injEq] at hs
              subst hs
              cases hold : lookup k assets with
              | some b => exact ⟨b, k1 k b (lookup_mapInsert_some a0 hold)⟩
              | none =>
                exact ⟨a0, k1 k a0 (by rw [lookup_mapInsert_none a0 hold]; simp)⟩
            · exact k3 k h3

theorem buildGraphLoop_assets_mono (P : Ports) (ty : AssetType) :
    ∀ (defs : List (String × Json)) (assets assets1 : List (String × Asset))
      (g g1 : Graph) (h h1 : Heap),
      buildGraphLoop P ty defs (assets, g, h) = .ok (assets1, g1, h1) →
      ∀ key a, lookup key assets = some a → lookup key assets1 = some a := by
  intro defs
  induction defs with
  | nil =>
    intro assets assets1 g g1 h h1 hb key a hk
    simp only [buildGraphLoop, Except.ok.injEq, Prod.mk.injEq] at hb
    exact hb.1 ▸ hk
  | cons d rest ih =>
    intro assets assets1 g g1 h h1 hb key a hk
    obtain ⟨name, json⟩ := d
    obtain ⟨asset, h2, g2, g3, -, -, -, hb2⟩ := buildGraphLoop_cons hb
    exact ih _ _ _ _ _ _ hb2 key a (lookup_mapInsert_some asset hk)

/-- The loop "Build graphs" keeps the assets that the asset map holds. -/
theorem buildGraphs_assets_mono {P : Ports} {entries : List (String × Json)}
    {env env1 : Environment} (hb : buildGraphs P entries env = .ok env1) :
    ∀ key a, lookup key env.m_assets = some a → lookup key env1.m_assets = some a := by
  intro key a hk
  exact (buildGraphs_induct P (fun _ => True) (fun _ _ => True) (fun _ _ => True)
    (fun assets => lookup key assets = some a) (fun _ _ _ => trivial)
    (fun _ _ _ _ => trivial)
    (fun fam ty defs assets g h assets1 g1 h1 _ _ _ _ hA hloop =>
      ⟨buildGraphLoop_assets_mono P ty _ _ _ _ _ _ _ hloop key a hA, trivial⟩)
    entries env env1 (fun _ _ => trivial) hb (fun _ _ => trivial) hk).2

/-- The loop "Build graphs" ends well only when each family key has a type and
the Catalog has answered, with the code of that type, for every name the
family lists. -/
theorem buildGraphs_fetches {P : Ports} :
    ∀ (entries : List (String × Json)) (env env1 : Environment),
      buildGraphs P entries env = .ok env1 →
      ∀ fam l, (fam, Json.arr l) ∈ entries → ∀ key, Json.str key ∈ l →
        ∃ ty d, getAssetType fam = .ok ty ∧ P.catalog ty.code key = .ok d := by
  intro entries
  induction entries with
  | nil => intro env env1 _ fam l hm; simp at hm
  | cons en rest ih =>
    intro env env1 hb fam l hm key hkey
    obtain ⟨name, json⟩ := en
    simp only [buildGraphs] at hb
    cases harr : json.getArray with
    | error err => simp [harr] at hb
    | ok assetNames =>
      simp only [harr] at hb
      cases hty : getAssetType name with
      | error err => simp [hty] at hb
      | ok ty =>
        simp only [hty] at hb
        cases hfd : fetchDefinitions P ty.code assetNames [] with
        | error err => simp [hfd] at hb
        | ok defs =>
          simp only [hfd] at hb
          split at hb
          · simp at hb
          · rcases List.mem_cons.mp hm with h1 | h1
            · simp only [Prod.mk.injEq] at h1
              obtain ⟨hf, hj⟩ := h1
              subst hf
              rw [← hj] at harr
              simp only [Json.getArray, Except.ok.injEq] at harr
              subst harr
              obtain ⟨d, hd⟩ := (fetchDefinitions_catalog ty.code l [] defs hfd
                (by intro x hx; simp at hx)).2 key hkey
              exact ⟨ty, d, hty, hd⟩
            · exact ih _ _ hb fam l h1 key hkey

theorem fromCatalog_round {P : Ports} {fam : String} {ty : AssetType}
    {defs : List (String × Json)} {assets assets1 : List (String × Asset)} {g g1 : Graph}
    {h h1 : Heap} (hty : getAssetType fam = .ok ty)
    (hdefs : ∀ kd ∈ defs, P.catalog ty.code kd.1 = .ok kd.2) (hg : FromCatalog P fam g)
    (hloop : buildGraphLoop P ty defs (assets, g, h) = .ok (assets1, g1, h1)) :
    FromCatalog P fam (addFiltersLoop P (iterate P assets1) g1) := by
  obtain ⟨news, hnodes, hall⟩ := buildGraphLoop_nodes P ty _ _ _ _ _ _ _ hloop
  obtain ⟨-, -, hgrow⟩ := addFiltersLoop_spec P (iterate P assets1) g1
  have h1inv : FromCatalog P fam g1 := by
    intro key a ha hne
    rw [node_ok_iff, hnodes] at ha
    cases hold : lookup key g.m_nodes with
    | some b =>
      rw [lookup_append_some hold] at ha
      exact hg key a (node_ok_iff.mpr (hold.trans ha)) hne
    | none =>
      rw [lookup_append_none hold] at ha
      have hmem := lookup_mem ha
      obtain ⟨d, hd, hkey, h0, h2, hparse⟩ := forall₂_of_mem_right hall hmem
      simp only at hkey
      have hcat := hdefs d hd
      rw [← hkey] at hcat
      exact ⟨ty, d.2, a, h0, h2, hty, hcat, hparse, rfl⟩
  intro key a1 ha1 hne
  rw [node_ok_iff] at ha1
  rcases hgrow key with ⟨-, h2⟩ | ⟨a, b1, h0, h2, heq, -⟩
  · rw [ha1] at h2; exact Option.noConfusion h2
  · rw [ha1] at h2
    simp only [Option.some.injEq] at h2
    subst h2
    obtain ⟨ty1, d, a0, h3, h4, hty1, hcat, hparse, hrec⟩ := h1inv key a (node_ok_iff.mpr h0) hne
    refine ⟨ty1, d, a0, h3, h4, hty1, hcat, hparse, ?_⟩
    rw [heq, hrec]

theorem compile_fromCatalog {P : Ports} {name : String} {json : Json}
    {env : Environment} (hc : Environment.compile P name json = .ok env) :
    ∀ ng ∈ env.m_graphs, FromCatalog P ng.1 ng.2 := by
  simp only [Environment.compile] at hc
  split at hc
  · simp at hc
  · split at hc
    · simp at hc
    · refine (buildGraphs_induct P (fun _ => True) (FromCatalog P) (FromCatalog P)
        (fun _ => True) (fun _ _ hg => hg) ?_ ?_ _ _ env
        (fun _ _ => trivial) hc (by intro ng hng; simp at hng) trivial).1
      · intro fam ty _ _ key a ha hne
        exfalso
        rw [node_ok_iff] at ha
        simp only [Graph.new, lookup] at ha
        split at ha
        · rename_i heq
          exact hne heq.symm
        · exact Option.noConfusion ha
      · intro fam ty defs assets g h assets1 g1 h1 _ hty hdefs hg _ hloop
        exact ⟨trivial, fromCatalog_round hty hdefs hg hloop⟩

/-- C18. The type codes are 0 for a decoder, 1 for a filter, 2 for a rule and 3
for an output, and the families decoders, rules, outputs have the types
decoder, rule, output.  The constructor of the environment asks the Catalog
with code 1 for the filters it preloads and with the code of the family for the
assets of a family, and with no other code: two Catalogs that agree on code 1
(when there is a `filters` key) and on the codes of the family keys give the
same result.  In a compiled environment the Catalog has answered with code 1
for every listed filter, and the asset map holds under the name of the filter
an asset parsed from an answer with code 1; the Catalog has answered with the
code of the family for every name a family lists; and every node of a family
graph but the root holds the asset parsed from the answer for the code of the
family and the key of the node, with the attached filters added. -/
theorem C18_catalog_type_codes :
    (AssetType.code .decoder = 0 ∧ AssetType.code .filter = 1 ∧ AssetType.code .rule = 2 ∧
      AssetType.code .output = 3) ∧
    (getAssetType "decoders" = .ok .decoder ∧ getAssetType "rules" = .ok .rule ∧
      getAssetType "outputs" = .ok .output) ∧
    (∀ (P Q : Ports) (name : String) (kvs : List (String × Json)),
      Q.registry = P.registry → Q.iter = P.iter →
      ("filters" ∈ kvs.map Prod.fst → ∀ n, Q.catalog 1 n = P.catalog 1 n) →
      (∀ fam ∈ (eraseKey "filters" kvs).map Prod.fst, ∀ ty, getAssetType fam = .ok ty →
        ∀ n, Q.catalog ty.code n = P.catalog ty.code n) →
      Environment.compile Q name (.obj kvs) = Environment.compile P name (.obj kvs)) ∧
    (∀ (P : Ports) (name : String) (kvs : List (String × Json)) (env : Environment)
        (l : List Json),
      Environment.compile P name (.obj kvs) = .ok env →
      lookup "filters" kvs = some (.arr l) →
      ∀ key, Json.str key ∈ l →
        ∃ d a h0 h1, P.catalog 1 key = .ok d ∧ lookup key env.m_assets = some a ∧
          Asset.fromJson P d .filter h0 = .ok (a, h1)) ∧
    (∀ (P : Ports) (name : String) (kvs : List (String × Json)) (env : Environment),
      Environment.compile P name (.obj kvs) = .ok env →
      ∀ fam l, (fam, Json.arr l) ∈ eraseKey "filters" kvs → ∀ key, Json.str key ∈ l →
        ∃ ty d, getAssetType fam = .ok ty ∧ P.catalog ty.code key = .ok d) ∧
    (∀ (P : Ports) (name : String) (json : Json) (env : Environment),
      Environment.compile P name json = .ok env →
      ∀ fam g, (fam, g) ∈ env.m_graphs → ∀ key a, g.node key = .ok a → key ≠ fam ++ "Input" →
        ∃ ty d a0 h0 h1, getAssetType fam = .ok ty ∧ P.catalog ty.code key = .ok d ∧
          Asset.fromJson P d ty h0 = .ok (a0, h1) ∧ a = { a0 with m_filters := a.m_filters }) := by
  refine ⟨⟨rfl, rfl, rfl, rfl⟩, ⟨rfl, rfl, rfl⟩, ?_, ?_, ?_, ?_⟩
  · intro P Q name kvs hreg hiter hf hfam
    simp only [Environment.compile, Json.getObject]
    cases hx : extract "filters" kvs with
    | none =>
      simp only
      rw [extract_none hx] at hfam
      exact buildGraphs_congr hreg hiter _ _ hfam
    | some r =>
      obtain ⟨fj, o⟩ := r
      have ho := extract_some hx
      have hmem := mem_keys_of_lookup (lookup_of_extract_some hx)
      simp only
      cases fj.getArray with
      | error e => rfl
      | ok filtersList =>
        simp only
        rw [loadFilters_congr hreg (hf hmem)]
        cases loadFilters P filtersList ([], []) with
        | error e => rfl
        | ok res =>
          simp only
          exact buildGraphs_congr hreg hiter _ _ (ho ▸ hfam)
  · intro P name kvs env l hc hl key hkey
    simp only [Environment.compile, Json.getObject] at hc
    cases hx : extract "filters" kvs with
    | none =>
      rw [lookup_of_extract_none hx] at hl
      exact Option.noConfusion hl
    | some r =>
      obtain ⟨fj, o⟩ := r
      have hfj := lookup_of_extract_some hx
      rw [hl] at hfj
      simp only [Option.some.injEq] at hfj
      subst hfj
      simp only [hx, Json.getArray] at hc
      cases hlf : loadFilters P l ([], []) with
      | error err => simp [hlf] at hc
      | ok res =>
        obtain ⟨assets, h⟩ := res
        simp only [hlf] at hc
        obtain ⟨-, k2, k3⟩ := loadFilters_catalog l [] assets [] h hlf
        obtain ⟨a, ha⟩ := k3 key hkey
        obtain ⟨d, h0, h2, hcat, hparse⟩ :=
          k2 (by intro k b hk; simp [lookup] at hk) key a ha
        exact ⟨d, a, h0, h2, hcat, buildGraphs_assets_mono hc key a ha, hparse⟩
  · intro P name kvs env hc fam l hm key hkey
    simp only [Environment.compile, Json.getObject] at hc
    cases hx : extract "filters" kvs with
    | none =>
      simp only [hx] at hc
      rw [extract_none hx] at hm
      exact buildGraphs_fetches _ _ _ hc fam l hm key hkey
    | some r =>
      obtain ⟨fj, o⟩ := r
      simp only [hx] at hc
      rw [← extract_some hx] at hm
      cases harr : fj.getArray with
      | error err => simp [harr] at hc
      | ok filtersList =>
        simp only [harr] at hc
        cases hlf : loadFilters P filtersList ([], []) with
        | error err => simp [hlf] at hc
        | ok res =>
          simp only [hlf] at hc
          exact buildGraphs_fetches _ _ _ hc fam l hm key hkey
  · intro P name json env hc fam g hg
    exact compile_fromCatalog hc (fam, g) hg

/-- C18 at scenario S3 with a Catalog that answers the codes 0 and 1 only: it
gives the same environment as the Catalog that answers every code, it has
answered with code 1 for the filter `f` and with code 0 for the decoders `p`
and `c`, and the node `p` holds the asset parsed from the answer for code 0. -/
theorem C18_catalog_type_codes_witness :
    Environment.compile portsS3Strict "env" (.obj envS3Kvs) = .ok envS3Compiled ∧
    (∃ d a h0 h1, portsS3Strict.catalog 1 "f" = .ok d ∧
      lookup "f" envS3Compiled.m_assets = some a ∧
      Asset.fromJson portsS3Strict d .filter h0 = .ok (a, h1)) ∧
    (∃ ty d, getAssetType "decoders" = .ok ty ∧ portsS3Strict.catalog ty.code "c" = .ok d) ∧
    (∃ g ap, lookup "decoders" envS3Compiled.m_graphs = some g ∧ g.node "p" = .ok ap ∧
      ∃ ty d a0 h0 h1, getAssetType "decoders" = .ok ty ∧
        portsS3Strict.catalog ty.code "p" = .ok d ∧
        Asset.fromJson portsS3Strict d ty h0 = .ok (a0, h1) ∧
        ap = { a0 with m_filters := ap.m_filters }) ∧
    Environment.compile portsS3Strict "env" envS3 = Environment.compile portsS3 "env" envS3 ∧
    portsS3Strict.catalog 2 "p" = .error (.catalogFetch "p") :=
  ⟨rfl,
   C18_catalog_type_codes.2.2.2.1 portsS3Strict "env" envS3Kvs envS3Compiled [.str "f"] rfl rfl
    "f" (List.mem_singleton.mpr rfl),
   C18_catalog_type_codes.2.2.2.2.1 portsS3Strict "env" envS3Kvs envS3Compiled rfl "decoders"
    [.str "p", .str "c"] (by simp [eraseKey, envS3Kvs]) "c"
    (List.mem_cons_of_mem _ (List.mem_cons_self _ _)),
   ⟨_, _, rfl, rfl,
    C18_catalog_type_codes.2.2.2.2.2 portsS3Strict "env" (.obj envS3Kvs) envS3Compiled rfl
      "decoders" _ (lookup_mem rfl) "p" _ rfl (by decide)⟩,
   C18_catalog_type_codes.2.2.1 portsS3 portsS3Strict "env" _ rfl rfl
    (fun _ n => by simp [portsS3Strict])
    (fun fam hfam ty hty n => by
      have h0 : fam = "decoders" := by
        simpa [eraseKey] using hfam
      subst h0
      simp only [getAssetType, if_true, Except.ok.injEq] at hty
      subst hty
      simp [portsS3Strict, AssetType.code]),
   rfl⟩

/-! ### The structure of the fold -/

theorem isFilterOperand_agree {assets : List (String × Asset)} {h h1 : Heap} {nm : String}
    {o : Expression} {lo hi : Nat}
    (hag : ∀ i, lo < i → i ≤ hi → h1[i]? = h[i]?)
    (hf : IsFilterOperand assets h nm o ∧ ∃ q, o = some q ∧ lo < q ∧ q < hi) :
    IsFilterOperand assets h1 nm o ∧ ∃ q, o = some q ∧ lo < q ∧ q < hi := by
  obtain ⟨⟨fa, hq, q, nd, h1l, h2, h3, h4⟩, q1, h5, h6, h7⟩ := hf
  have hqq : q = q1 := by
    rw [h3] at h5
    exact Option.some.inj h5
  refine ⟨⟨fa, hq, q, nd, h1l, h2, h3, ?_⟩, q1, h5, h6, h7⟩
  rw [hag q (hqq ▸ h6) (by omega)]
  exact h4

/-- An asset node stays an asset node when its own nodes above the children
operator stay as they are; the operands of the children operator may change. -/
theorem assetNodeAt_agree {P : Ports} {assets : List (String × Asset)} {k : Kind}
    {h h1 : Heap} {asset : Asset} {p c : Nat} {ops ops1 : List Expression}
    (hn : AssetNodeAt P assets k h asset p c ops)
    (hag : ∀ i, c < i → i ≤ p → h1[i]? = h[i]?)
    (hc : h1[c]? = some ⟨k, "children", ops1⟩) :
    AssetNodeAt P assets k h1 asset p c ops1 := by
  obtain ⟨-, a, x, hca, hap, hp, ha, hx⟩ := hn
  refine ⟨hc, a, x, hca, hap, ?_, ?_, ?_⟩
  · rw [hag p (by omega) (le_refl _)]; exact hp
  · intro hty
    rw [hag a hca (by omega)]; exact ha hty
  · rcases hx with h0 | ⟨hne, hcx, hxp, fops, hfx, hall⟩
    · exact Or.inl h0
    · refine Or.inr ⟨hne, hcx, hxp, fops, ?_, ?_⟩
      · rw [hag x hcx (by omega)]; exact hfx
      · exact forall₂_imp_mem hall (fun nm _ o ho => isFilterOperand_agree hag ho)

theorem assetNodeAt_lt {P : Ports} {assets : List (String × Asset)} {k : Kind}
    {h : Heap} {asset : Asset} {p c : Nat} {ops : List Expression}
    (hn : AssetNodeAt P assets k h asset p c ops) : c < p ∧ p < h.length := by
  obtain ⟨-, a, x, hca, hap, hp, -⟩ := hn
  exact ⟨by omega, (List.getElem?_eq_some.mp hp).1⟩

/-- The node that `visit` builds for an asset on a store that ends with the new
children operator. -/
theorem buildAssetNode_built {P : Ports} {assets : List (String × Asset)} {asset : Asset}
    {k : Kind} {p : Nat} {h0 h2 : Heap}
    (hb : buildAssetNode P assets asset h0.length (h0 ++ [⟨k, "children", []⟩]) = .ok (p, h2)) :
    AssetNodeAt P assets k h2 asset p h0.length [] ∧
      Extends (h0 ++ [⟨k, "children", []⟩]) h2 := by
  have hext := (buildAssetNode_spec hb).1
  refine ⟨?_, hext⟩
  have hc2 : h2[h0.length]? = some ⟨k, "children", []⟩ := by
    rw [hext _ (by simp)]
    exact List.getElem?_concat_length _ _
  unfold buildAssetNode at hb
  by_cases hlen : asset.m_filters.length > 0
  · have hne : asset.m_filters ≠ [] := List.length_pos.mp hlen
    simp only [hlen, if_true, create] at hb
    generalize hh : h0 ++ [(⟨k, "children", []⟩ : Node)] = h at hb
    have hhl : h.length = h0.length + 1 := by rw [← hh]; simp
    cases hpf : pushFilters assets h.length (P.iter asset.m_filters)
        (h ++ [⟨.and, "filters", []⟩]) with
    | error err => simp [hpf] at hb
    | ok h3 =>
      simp only [hpf] at hb
      cases hg : asset.getExpression (pushOperand h3 h.length (some h0.length)) with
      | error err => simp [hg] at hb
      | ok res =>
        obtain ⟨a, h4⟩ := res
        simp only [hg, Except.ok.injEq, Prod.mk.injEq] at hb
        obtain ⟨ops, hf2, hall⟩ := pushFilters_order assets h.length _ _ h3 []
          (List.getElem?_concat_length h _) hpf
        obtain ⟨n, hh4, ha⟩ := getExpression_ok hg
        have hf3 := getElem?_pushOperand_self h3 h.length (some h0.length) _ hf2
        have hl3 : (pushOperand h3 h.length (some h0.length)).length = h3.length :=
          length_pushOperand _ _ _
        have hflt : h.length < h3.length := (List.getElem?_eq_some.mp hf2).1
        have hkeep : ∀ q nd, h3[q]? = some nd → h.length < q → h2[q]? = some nd := by
          intro q nd hq hlt
          have hq2 : q < h3.length := (List.getElem?_eq_some.mp hq).1
          rw [← hb.2, List.getElem?_append_left (by rw [hh4]; simp; omega), hh4,
            List.getElem?_append_left (by omega),
            getElem?_pushOperand_ne h3 h.length q (some h0.length) (Nat.ne_of_lt hlt)]
          exact hq
        have hp : p = h3.length + 1 := by
          rw [← hb.1, hh4]; simp [hl3]
        refine ⟨hc2, h3.length, h.length, by omega, by omega, ?_, ?_,
          Or.inr ⟨hne, by omega, by omega, ops, ?_, ?_⟩⟩
        · rw [← hb.2, ← hb.1, ha, hl3]; simp
        · intro hty
          have hspec := (asset_getExpression_spec asset
            (pushOperand h3 h.length (some h0.length))).1 hty
          rw [hspec] at hg
          simp only [Except.ok.injEq, Prod.mk.injEq] at hg
          rw [← hb.2, List.getElem?_append_left (by rw [← hg.2]; simp [hl3]), ← hg.2,
            ← hl3]
          exact List.getElem?_concat_length _ _
        · rw [← hb.2, List.getElem?_append_left (by rw [hh4]; simp; omega), hh4,
            List.getElem?_append_left (by omega), hf3]
          simp
        · refine forall₂_imp_mem hall ?_
          rintro nm - o ⟨fa, hq, q, nd, h1, h2', h3', h4', h5'⟩
          have hq3 : q < h3.length := (List.getElem?_eq_some.mp h4').1
          exact ⟨⟨fa, hq, q, nd, h1, h2', h3', hkeep q nd h4' h5'⟩, q, h3', by omega, by omega⟩
  · have hnil : asset.m_filters = [] := by
      cases hm : asset.m_filters with
      | nil => rfl
      | cons x xs => rw [hm] at hlen; simp at hlen
    simp only [hlen, if_false] at hb
    cases hg : asset.getExpression (h0 ++ [⟨k, "children", []⟩]) with
    | error err => simp [hg] at hb
    | ok res =>
      obtain ⟨a, h4⟩ := res
      simp only [hg, create, Except.ok.injEq, Prod.mk.injEq] at hb
      obtain ⟨n, hh4, ha⟩ := getExpression_ok hg
      have hl4 : h4.length = h0.length + 2 := by rw [hh4]; simp
      refine ⟨hc2, h0.length + 1, h0.length, by omega, by omega, ?_, ?_, Or.inl ⟨hnil, rfl⟩⟩
      · rw [← hb.2, ← hb.1, ha]; simp
      · intro hty
        have hspec := (asset_getExpression_spec asset (h0 ++ [⟨k, "children", []⟩])).1 hty
        rw [hspec] at hg
        simp only [Except.ok.injEq, Prod.mk.injEq] at hg
        rw [← hb.2, List.getElem?_append_left (by omega), ← hg.2]
        have : h0.length + 1 = (h0 ++ [(⟨k, "children", []⟩ : Node)]).length := by simp
        rw [this]
        exact List.getElem?_concat_length _ _

theorem lookup_snoc {α : Type} (N : List (String × α)) (cur key : String) (v : α) :
    lookup key (N ++ [(cur, v)]) =
      match lookup key N with
      | some x => some x
      | none => if cur = key then some v else none := by
  cases hl : lookup key N with
  | some x => exact lookup_append_some hl
  | none =>
    rw [lookup_append_none hl]
    simp [lookup]

theorem nodeOf_keep {N N1 : BuiltMap} (hk : ∀ key pc, lookup key N = some pc →
    lookup key N1 = some pc) {cs : List String} (hcs : ∀ d ∈ cs, ∃ pc, lookup d N = some pc) :
    cs.map (nodeOf N1) = cs.map (nodeOf N) := by
  apply List.map_congr_left
  intro d hd
  obtain ⟨pc, hpc⟩ := hcs d hd
  simp only [nodeOf, hpc, hk d pc hpc]

/-- The entries of the map stay asset nodes when the map grows and the store
keeps their own nodes. -/
theorem built_keep {P : Ports} {assets : List (String × Asset)} {g : Graph} {k : Kind}
    {h h1 : Heap} {N N1 : BuiltMap} (hb : Built P assets g k h N)
    (hk : ∀ key pc, lookup key N = some pc → lookup key N1 = some pc)
    (hag : ∀ key p c, lookup key N = some (p, c) → ∀ i, c ≤ i → i ≤ p → h1[i]? = h[i]?) :
    ∀ key p c, lookup key N = some (p, c) →
      ∃ asset cs, g.node key = .ok asset ∧ g.edgesAt key = .ok cs ∧
        (∀ d ∈ cs, ∃ pc, lookup d N1 = some pc) ∧
        AssetNodeAt P assets k h1 asset p c (cs.map (nodeOf N1)) := by
  intro key p c hl
  obtain ⟨asset, cs, hn, he, hcs, hshape⟩ := hb key p c hl
  refine ⟨asset, cs, hn, he, fun d hd => ?_, ?_⟩
  · obtain ⟨pc, hpc⟩ := hcs d hd
    exact ⟨pc, hk d pc hpc⟩
  · rw [nodeOf_keep hk hcs]
    have hcp := (assetNodeAt_lt hshape).1
    exact assetNodeAt_agree hshape (fun i h1i h2i => hag key p c hl i (by omega) h2i)
      (by rw [hag key p c hl c (le_refl _) (by omega)]; exact hshape.1)

theorem callChain_transGen {g : Graph} :
    ∀ (S : List String) (v : String), CallChain g v S →
      ∀ s ∈ S, Relation.TransGen (HasEdge g) s v := by
  intro S
  induction S with
  | nil => intro v _ s hs; simp at hs
  | cons p0 S0 ih =>
    intro v hch s hs
    obtain ⟨hedge, hrest⟩ := hch
    rcases List.mem_cons.mp hs with h1 | h1
    · exact h1 ▸ Relation.TransGen.single hedge
    · exact Relation.TransGen.tail (ih p0 hrest s h1) hedge

theorem foldInv_heap {P : Ports} {assets : List (String × Asset)} {g : Graph} {k : Kind}
    {st : FoldState} {N : BuiltMap} {S : List String} (hinv : FoldInv P assets g k st N S)
    {h1 : Heap} (hb : Built P assets g k h1 N) :
    FoldInv P assets g k ⟨h1, st.sharedParents⟩ N S :=
  ⟨hb, hinv.cacheOk, hinv.cacheMulti, hinv.shared, hinv.single, hinv.stackFree, hinv.rootFree,
    hinv.inj⟩

/-- The loop over the children of `cur` keeps `LoopInv`. -/
theorem visitChildren_built {P : Ports} {assets : List (String × Asset)} {g : Graph}
    {k : Kind} (hex : EdgesExact g)
    {visitRef : String → FoldState → Except Err (Expression × FoldState)}
    (hv : VisitBuilds P assets g k visitRef) (cur : String) (S : List String)
    (hcur : cur = g.m_root ∨ cur ∈ S) (hchain : ∀ c, HasEdge g cur c → CallChain g c S)
    (op : Nat) (nm : String) (N0 : BuiltMap) (h0 : Heap) (cache0 : List (String × Expression)) :
    ∀ (rest pre : List String) (st st1 : FoldState) (N : BuiltMap),
      (pre ++ rest).Nodup → (∀ c ∈ rest, HasEdge g cur c) → h0.length ≤ st.heap.length →
      LoopInv P assets g k cur S op nm N0 h0 cache0 pre st N →
      visitChildren visitRef op rest st = .ok st1 →
      ∃ N1, LoopInv P assets g k cur S op nm N0 h0 cache0 (pre ++ rest) st1 N1 ∧
        h0.length ≤ st1.heap.length := by
  intro rest
  induction rest with
  | nil =>
    intro pre st st1 N _ _ hlen hL hvc
    simp only [visitChildren, Except.ok.injEq] at hvc
    subst hvc
    exact ⟨N, by simpa using hL, hlen⟩
  | cons c rest ih =>
    intro pre st st1 N hnd hedges hlen hL hvc
    simp only [visitChildren] at hvc
    cases hr : visitRef c st with
    | error err => simp [hr] at hvc
    | ok res =>
      obtain ⟨e, st2⟩ := res
      simp only [hr] at hvc
      have hcedge : HasEdge g cur c := hedges c (List.mem_cons_self _ _)
      have hcpre : c ∉ pre := by
        intro hmem
        have := List.disjoint_of_nodup_append hnd hmem
        exact this (List.mem_cons_self _ _)
      have hpreT : ∀ a, g.node c = .ok a → a.m_parents.length ≤ 1 → lookup c N = none := by
        intro a ha hle
        cases hl : lookup c N with
        | none => rfl
        | some pc => exact absurd (hL.own c pc a hl ha hle hcedge) hcpre
      obtain ⟨N1, hinv1, hkeep1, ⟨pc, hpc, he⟩, hext1, hcm1, hfresh1, hclosed1⟩ :=
        hv c st N S e st2 hL.inv (hchain c hcedge) hpreT hr
      have hoplt : op < st.heap.length := (List.getElem?_eq_some.mp hL.top).1
      have hlen2 : st.heap.length ≤ st2.heap.length := extends_length hext1
      have hcurfree : lookup cur N1 = none := by
        rcases hcur with h1 | h1
        · rw [h1]; exact hinv1.rootFree
        · exact hinv1.stackFree cur h1
      have hapart1 : ∀ key pc, lookup key N1 = some pc → pc.1 < op ∨ op < pc.2 := by
        intro key pc1 hl1
        cases hl : lookup key N with
        | some pc0 =>
          have := hkeep1 key pc0 hl
          rw [hl1] at this
          simp only [Option.some.injEq] at this
          exact this ▸ hL.apart key pc0 hl
        | none =>
          have := hfresh1 key pc1 hl1 hl
          exact Or.inr (by omega)
      have hbuilt2 : Built P assets g k (pushOperand st2.heap op e) N1 := by
        refine built_keep hinv1.built (fun _ _ h => h) ?_
        intro key p1 c1 hl1 i hci hip
        have hne : op ≠ i := by
          rcases hapart1 key (p1, c1) hl1 with h1 | h1
          · simp only at h1; omega
          · simp only at h1; omega
        exact getElem?_pushOperand_ne st2.heap op i e hne
      have htop2 : st2.heap[op]? = some ⟨k, nm, pre.map (nodeOf N)⟩ := by
        rw [hext1 op hoplt]; exact hL.top
      have hL2 : LoopInv P assets g k cur S op nm N0 h0 cache0 (pre ++ [c])
          ⟨pushOperand st2.heap op e, st2.sharedParents⟩ N1 := by
        refine ⟨foldInv_heap hinv1 hbuilt2, ?_, ?_, ?_, hapart1,
          fun key pc0 h => hkeep1 key pc0 (hL.keep key pc0 h), ?_,
          fun key x h => hcm1 key x (hL.cacheKeep key x h), ?_, ?_⟩
        · show (pushOperand st2.heap op e)[op]? = _
          rw [getElem?_pushOperand_self st2.heap op e _ htop2]
          simp only [List.map_append, List.map_cons, List.map_nil]
          rw [nodeOf_keep hkeep1 hL.done]
          simp only [nodeOf, hpc, Option.map_some', he]
        · intro d hd
          rcases List.mem_append.mp hd with h1 | h1
          · obtain ⟨pc0, hpc0⟩ := hL.done d h1
            exact ⟨pc0, hkeep1 d pc0 hpc0⟩
          · rw [List.mem_singleton.mp h1]; exact ⟨pc, hpc⟩
        · intro d pc1 a hl1 ha hle hedge
          cases hl : lookup d N with
          | some pc0 =>
            exact List.mem_append_left _ (hL.own d pc0 a hl ha hle hedge)
          | none =>
            rcases hclosed1 d pc1 hl1 hl with h1 | ⟨q, pcq, hq1, -, hqd⟩
            · exact List.mem_append_right _ (by simp [h1])
            · exfalso
              by_cases hqc : q = cur
              · rw [hqc, hcurfree] at hq1
                exact Option.noConfusion hq1
              · have := two_parents_of_two_edges hex hqd hedge hqc ha
                omega
        · intro i hi hne
          show (pushOperand st2.heap op e)[i]? = _
          rw [getElem?_pushOperand_ne st2.heap op i e (Ne.symm hne),
            hext1 i (by omega), hL.agree i hi hne]
        · intro key pc1 hl1 hn0
          cases hl : lookup key N with
          | some pc0 =>
            have := hkeep1 key pc0 hl
            rw [hl1] at this
            simp only [Option.some.injEq] at this
            exact this ▸ hL.fresh key pc0 hl hn0
          | none =>
            have := hfresh1 key pc1 hl1 hl
            omega
        · intro d pc1 hl1 hn0
          cases hl : lookup d N with
          | some pc0 =>
            rcases hL.closed d pc0 hl hn0 with h1 | ⟨q, pcq, hq1, hq0, hqd⟩
            · exact Or.inl (List.mem_append_left _ h1)
            · exact Or.inr ⟨q, pcq, hkeep1 q pcq hq1, hq0, hqd⟩
          | none =>
            rcases hclosed1 d pc1 hl1 hl with h1 | ⟨q, pcq, hq1, hqn, hqd⟩
            · exact Or.inl (List.mem_append_right _ (by simp [h1]))
            · refine Or.inr ⟨q, pcq, hq1, ?_, hqd⟩
              cases hq0 : lookup q N0 with
              | none => rfl
              | some x =>
                rw [hL.keep q x hq0] at hqn
                exact Option.noConfusion hqn
      obtain ⟨N2, hL3, hlen3⟩ := ih (pre ++ [c]) _ st1 N1 (by simpa using hnd)
        (fun d hd => hedges d (List.mem_cons_of_mem _ hd))
        (by show h0.length ≤ (pushOperand st2.heap op e).length
            rw [length_pushOperand]; omega) hL2 hvc
      exact ⟨N2, by simpa using hL3, hlen3⟩

/-- Every run of `visit` that returns keeps `FoldInv`, on a graph without
cycle whose edges are the declared ones. -/
theorem visit_builds (P : Ports) (assets : List (String × Asset)) (g : Graph)
    (ty : AssetType) (k : Kind) (hfam : familyOp ty = some k) (hex : EdgesExact g)
    (hnd : EdgesNodup g) (hac : Acyclic g) :
    ∀ fuel, VisitBuilds P assets g k (visit P assets g ty fuel) := by
  intro fuel
  induction fuel with
  | zero =>
    intro cur st N S e st1 _ _ _ hvis
    simp [visit] at hvis
  | succ fuel ih =>
    intro cur st N S e st1 hinv hch hpre hvis
    have hcurS : cur ∉ S := fun hmem => hac cur (callChain_transGen S cur hch cur hmem)
    have hcurR : cur ≠ g.m_root := callChain_child_ne_root hex hch
    simp only [visit] at hvis
    cases hl : lookup cur st.sharedParents with
    | some e0 =>
      simp only [hl, Except.ok.injEq, Prod.mk.injEq] at hvis
      obtain ⟨he, hst⟩ := hvis
      subst hst
      rcases hinv.cacheOk cur e0 hl with h1 | ⟨pc, hpc, hepc⟩
      · exact absurd h1 hcurS
      · refine ⟨N, hinv, fun _ _ h => h, ⟨pc, hpc, he ▸ hepc⟩, extends_refl _,
          fun _ _ h => h, ?_, ?_⟩
        · intro key pc1 h1 h2
          rw [h1] at h2; exact Option.noConfusion h2
        · intro d pc1 h1 h2
          rw [h1] at h2; exact Option.noConfusion h2
    | none =>
      simp only [hl] at hvis
      cases hnode : g.node cur with
      | error err => simp [hnode] at hvis
      | ok asset =>
        simp only [hnode, hfam, create] at hvis
        cases hb : buildAssetNode P assets asset st.heap.length
            (st.heap ++ [⟨k, "children", []⟩]) with
        | error err => simp [hb] at hvis
        | ok res =>
          obtain ⟨p, h2⟩ := res
          simp only [hb] at hvis
          cases hedges : g.edgesAt cur with
          | error err => simp [hedges] at hvis
          | ok cs =>
            simp only [hedges] at hvis
            split at hvis
            · simp at hvis
            · rename_i st2 hvc
              simp only [Except.ok.injEq, Prod.mk.injEq] at hvis
              obtain ⟨he, hst⟩ := hvis
              subst hst
              obtain ⟨hshape, hext2⟩ := buildAssetNode_built hb
              have hext02 : Extends st.heap h2 := extends_trans (extends_append _ _) hext2
              have hlen02 : st.heap.length ≤ h2.length := extends_length hext02
              obtain ⟨htp, hph2⟩ := assetNodeAt_lt hshape
              have hcurN : lookup cur N = none := by
                by_cases hmulti : asset.m_parents.length > 1
                · cases hcn : lookup cur N with
                  | none => rfl
                  | some pc =>
                    rw [hinv.shared cur pc asset hcn hnode hmulti] at hl
                    exact Option.noConfusion hl
                · exact hpre asset hnode (by omega)
              have holdp : ∀ key pc, lookup key N = some pc → pc.1 < st.heap.length := by
                intro key pc hpc
                obtain ⟨a1, cs1, -, -, -, hsh⟩ := hinv.built key pc.1 pc.2 hpc
                exact (assetNodeAt_lt hsh).2
              generalize hcache : (if asset.m_parents.length > 1 then
                mapInsert st.sharedParents cur (some p) else st.sharedParents) = cache1 at hvc
              have hc1 : ∀ key x, lookup key cache1 = some x →
                  lookup key st.sharedParents = some x ∨
                    (key = cur ∧ x = some p ∧ asset.m_parents.length > 1) := by
                intro key x hx
                rw [← hcache] at hx
                split at hx
                · rename_i hm
                  unfold mapInsert at hx
                  rw [hl] at hx
                  simp only [lookup_snoc] at hx
                  cases hk : lookup key st.sharedParents with
                  | some y => rw [hk] at hx; exact Or.inl hx
                  | none =>
                    rw [hk] at hx
                    simp only at hx
                    split at hx
                    · rename_i hck
                      simp only [Option.some.injEq] at hx
                      exact Or.inr ⟨hck.symm, hx.symm, hm⟩
                    · exact Option.noConfusion hx
                · exact Or.inl hx
              have hc2 : ∀ key x, lookup key st.sharedParents = some x →
                  lookup key cache1 = some x := by
                intro key x hx
                rw [← hcache]
                split
                · exact lookup_mapInsert_some _ hx
                · exact hx
              have hc3 : asset.m_parents.length > 1 → lookup cur cache1 = some (some p) := by
                intro hm
                rw [← hcache]
                simp only [hm, if_true]
                rw [lookup_mapInsert_none _ hl]
                simp
              have hinv1 : FoldInv P assets g k ⟨h2, cache1⟩ N (cur :: S) := by
                refine ⟨?_, ?_, ?_, ?_, ?_, ?_, hinv.rootFree, hinv.inj⟩
                · exact built_keep hinv.built (fun _ _ h => h)
                    (fun key p1 c1 h1 i _ hip => hext02 i (by
                      have := holdp key (p1, c1) h1
                      simp only at this
                      omega))
                · intro key x hx
                  rcases hc1 key x hx with h1 | ⟨h1, -, -⟩
                  · rcases hinv.cacheOk key x h1 with h3 | h3
                    · exact Or.inl (List.mem_cons_of_mem _ h3)
                    · exact Or.inr h3
                  · exact Or.inl (h1 ▸ List.mem_cons_self _ _)
                · intro key x hx
                  rcases hc1 key x hx with h1 | ⟨h1, -, h3⟩
                  · exact hinv.cacheMulti key x h1
                  · exact ⟨asset, h1 ▸ hnode, h3⟩
                · intro key pc a h1 h3 h4
                  exact hc2 key _ (hinv.shared key pc a h1 h3 h4)
                · intro key pc a h1 h3 h4 q hq
                  rcases hinv.single key pc a h1 h3 h4 q hq with h5 | h5 | h5
                  · exact Or.inl h5
                  · exact Or.inr (Or.inl (List.mem_cons_of_mem _ h5))
                  · exact Or.inr (Or.inr h5)
                · intro key hkey
                  rcases List.mem_cons.mp hkey with h1 | h1
                  · exact h1 ▸ hcurN
                  · exact hinv.stackFree key h1
              have hL0 : LoopInv P assets g k cur (cur :: S) st.heap.length "children" N h2
                  cache1 [] ⟨h2, cache1⟩ N := by
                refine ⟨hinv1, by simpa using hshape.1, by intro d hd; simp at hd, ?_, ?_,
                  fun _ _ h => h, fun _ _ _ => rfl, fun _ _ h => h, ?_, ?_⟩
                · intro d pc a h1 h3 h4 hedge
                  exfalso
                  rcases hinv.single d pc a h1 h3 h4 cur hedge with h5 | h5 | ⟨pc1, h5⟩
                  · exact hcurR h5
                  · exact hcurS h5
                  · rw [hcurN] at h5; exact Option.noConfusion h5
                · intro key pc h1
                  exact Or.inl (holdp key pc h1)
                · intro key pc h1 h3
                  rw [h1] at h3; exact Option.noConfusion h3
                · intro d pc h1 h3
                  rw [h1] at h3; exact Option.noConfusion h3
              obtain ⟨NL, hL, hlenL⟩ := visitChildren_built hex ih cur (cur :: S)
                (Or.inr (List.mem_cons_self _ _)) (fun c hc => ⟨hc, hch⟩) st.heap.length
                "children" N h2 cache1 cs [] ⟨h2, cache1⟩ st2 N
                (by simpa using hnd cur cs hedges) (fun c hc => ⟨cs, hedges, hc⟩) (le_refl _)
                hL0 hvc
              simp only [List.nil_append] at hL
              have hcurNL : lookup cur NL = none :=
                hL.inv.stackFree cur (List.mem_cons_self _ _)
              have hkeepL : ∀ key pc, lookup key NL = some pc →
                  lookup key (NL ++ [(cur, (p, st.heap.length))]) = some pc :=
                fun key pc h => lookup_append_some h
              have hcurN1 : lookup cur (NL ++ [(cur, (p, st.heap.length))]) =
                  some (p, st.heap.length) := by
                rw [lookup_append_none hcurNL]; simp [lookup]
              have hcases : ∀ key pc, lookup key (NL ++ [(cur, (p, st.heap.length))]) = some pc →
                  lookup key NL = some pc ∨
                    (lookup key NL = none ∧ key = cur ∧ pc = (p, st.heap.length)) := by
                intro key pc h1
                rw [lookup_snoc] at h1
                cases hk : lookup key NL with
                | some x => rw [hk] at h1; exact Or.inl h1
                | none =>
                  rw [hk] at h1
                  simp only at h1
                  split at h1
                  · rename_i hck
                    simp only [Option.some.injEq] at h1
                    exact Or.inr ⟨rfl, hck.symm, h1.symm⟩
                  · exact Option.noConfusion h1
              have hcurcache : ∀ x, lookup cur st2.sharedParents = some x → x = some p := by
                intro x hx
                obtain ⟨a1, ha1, hm1⟩ := hL.inv.cacheMulti cur x hx
                rw [hnode] at ha1
                simp only [Except.ok.injEq] at ha1
                have := hL.cacheKeep cur _ (hc3 (ha1 ▸ hm1))
                rw [hx] at this
                exact Option.some.inj this
              have hnewp : ∀ key pc, lookup key NL = some pc → pc.1 ≠ p := by
                intro key pc h1
                cases hk : lookup key N with
                | some pc0 =>
                  have h3 := hL.keep key pc0 hk
                  rw [h1] at h3
                  simp only [Option.some.injEq] at h3
                  have := holdp key pc0 hk
                  rw [← h3] at this
                  omega
                | none =>
                  have h3 := hL.fresh key pc h1 hk
                  obtain ⟨a1, cs1, -, -, -, hsh⟩ := hL.inv.built key pc.1 pc.2 h1
                  have := (assetNodeAt_lt hsh).1
                  omega
              refine ⟨NL ++ [(cur, (p, st.heap.length))], ⟨?_, ?_, hL.inv.cacheMulti, ?_, ?_, ?_,
                ?_, ?_⟩, fun key pc h => hkeepL key pc (hL.keep key pc h),
                ⟨(p, st.heap.length), hcurN1, he.symm⟩, ?_,
                fun key x h => hL.cacheKeep key x (hc2 key x h), ?_, ?_⟩
              · intro key p1 c1 h1
                rcases hcases key (p1, c1) h1 with h3 | ⟨-, h3, h4⟩
                · exact built_keep hL.inv.built hkeepL (fun _ _ _ _ _ _ _ => rfl) key p1 c1 h3
                · simp only [Prod.mk.injEq] at h4
                  obtain ⟨h5, h6⟩ := h4
                  subst h3; subst h5; subst h6
                  refine ⟨asset, cs, hnode, hedges, fun d hd => ?_, ?_⟩
                  · obtain ⟨pc, hpc⟩ := hL.done d hd
                    exact ⟨pc, hkeepL d pc hpc⟩
                  · rw [nodeOf_keep hkeepL hL.done]
                    exact assetNodeAt_agree hshape
                      (fun i h7 h8 => hL.agree i (by omega) (by omega)) hL.top
              · intro key x hx
                rcases hL.inv.cacheOk key x hx with h1 | ⟨pc, hpc, hxe⟩
                · rcases List.mem_cons.mp h1 with h3 | h3
                  · subst h3
                    exact Or.inr ⟨(p, st.heap.length), hcurN1, hcurcache x hx⟩
                  · exact Or.inl h3
                · exact Or.inr ⟨pc, hkeepL key pc hpc, hxe⟩
              · intro key pc a h1 h3 h4
                rcases hcases key pc h1 with h5 | ⟨-, h5, h6⟩
                · exact hL.inv.shared key pc a h5 h3 h4
                · subst h5; subst h6
                  rw [hnode] at h3
                  simp only [Except.ok.injEq] at h3
                  exact hL.cacheKeep key _ (hc3 (h3 ▸ h4))
              · intro key pc a h1 h3 h4 q hq
                rcases hcases key pc h1 with h5 | ⟨-, h5, -⟩
                · rcases hL.inv.single key pc a h5 h3 h4 q hq with h6 | h6 | ⟨pc1, h6⟩
                  · exact Or.inl h6
                  · rcases List.mem_cons.mp h6 with h7 | h7
                    · exact Or.inr (Or.inr ⟨_, by rw [h7]; exact hcurN1⟩)
                    · exact Or.inr (Or.inl h7)
                  · exact Or.inr (Or.inr ⟨pc1, hkeepL q pc1 h6⟩)
                · subst h5
                  obtain ⟨p0, hp0, hp0S⟩ := callChain_pred S key hch key
                    (List.mem_cons_self _ _)
                  by_cases hq0 : q = p0
                  · rcases hp0S with h6 | h6
                    · exact Or.inl (hq0 ▸ h6)
                    · exact Or.inr (Or.inl (hq0 ▸ h6))
                  · have := two_parents_of_two_edges hex hq hp0 hq0 h3
                    omega
              · intro key hkey
                rw [lookup_append_none (hL.inv.stackFree key (List.mem_cons_of_mem _ hkey))]
                have : ¬ cur = key := fun h => hcurS (h ▸ hkey)
                simp [lookup, this]
              · rw [lookup_append_none hL.inv.rootFree]
                simp [lookup, hcurR]
              · intro k1 k2 pc1 pc2 h1 h3 h4
                rcases hcases k1 pc1 h1 with h5 | ⟨-, h5, h6⟩
                · rcases hcases k2 pc2 h3 with h7 | ⟨-, h7, h8⟩
                  · exact hL.inv.inj k1 k2 pc1 pc2 h5 h7 h4
                  · exact absurd (by rw [h4, h8]) (hnewp k1 pc1 h5)
                · rcases hcases k2 pc2 h3 with h7 | ⟨-, h7, h8⟩
                  · exact absurd (by rw [← h4, h6]) (hnewp k2 pc2 h7)
                  · rw [h5, h7]
              · intro i hi
                rw [hL.agree i (by omega) (by omega), hext02 i hi]
              · intro key pc h1 h3
                rcases hcases key pc h1 with h5 | ⟨-, -, h6⟩
                · have := hL.fresh key pc h5 h3
                  omega
                · rw [h6]
              · intro d pc h1 h3
                rcases hcases d pc h1 with h5 | ⟨-, h5, -⟩
                · right
                  rcases hL.closed d pc h5 h3 with h6 | ⟨q, pcq, hq1, hq0, hqd⟩
                  · exact ⟨cur, _, hcurN1, hcurN, cs, hedges, h6⟩
                  · exact ⟨q, pcq, hkeepL q pcq hq1, hq0, hqd⟩
                · exact Or.inl h5

theorem getExpression_kind {a : Asset} {hq : Heap} {q : Nat} {nd : Node}
    (hg : a.getExpression hq = .ok (some q, hq ++ [nd])) : nd.kind ≠ .chain := by
  unfold Asset.getExpression at hg
  cases hty : a.m_type <;> simp only [hty, create, Except.ok.injEq, Prod.mk.injEq] at hg
  · have := List.append_cancel_left hg.2
    simp only [List.cons.injEq, and_true] at this
    rw [← this]; simp
  · cases hop : getOperands hq a.m_check with
    | error err => simp [hop] at hg
    | ok ops =>
      simp only [hop, Except.ok.injEq, Prod.mk.injEq] at hg
      have := List.append_cancel_left hg.2
      simp only [List.cons.injEq, and_true] at this
      rw [← this]; simp
  · have := List.append_cancel_left hg.2
    simp only [List.cons.injEq, and_true] at this
    rw [← this]; simp
  · have := List.append_cancel_left hg.2
    simp only [List.cons.injEq, and_true] at this
    rw [← this]; simp

/-- An asset node of a Decoder, Rule or Output stays one when every node that
is no `Chain` stays as it is. -/
theorem assetNodeAt_agreeOffChain {P : Ports} {assets : List (String × Asset)} {k : Kind}
    (hk : k ≠ .chain) {h h1 : Heap} {asset : Asset} {p c : Nat} {ops : List Expression}
    (hn : AssetNodeAt P assets k h asset p c ops) (hag : AgreeOffChain h h1) :
    AssetNodeAt P assets k h1 asset p c ops := by
  obtain ⟨hc, a, x, hca, hap, hp, ha, hx⟩ := hn
  refine ⟨hag _ _ hc (by simpa using hk), a, x, hca, hap, hag _ _ hp (by simp), ?_, ?_⟩
  · intro hty
    exact hag _ _ (ha hty) (by simp)
  · rcases hx with h0 | ⟨hne, hcx, hxp, fops, hfx, hall⟩
    · exact Or.inl h0
    · refine Or.inr ⟨hne, hcx, hxp, fops, hag _ _ hfx (by simp), ?_⟩
      refine forall₂_imp_mem hall ?_
      rintro nm - o ⟨⟨fa, hq, q, nd, h1l, h2, h3, h4⟩, hq1⟩
      exact ⟨⟨fa, hq, q, nd, h1l, h2, h3, hag _ _ h4 (getExpression_kind h2)⟩, hq1⟩

theorem built_agreeOffChain {P : Ports} {assets : List (String × Asset)} {g : Graph}
    {k : Kind} (hk : k ≠ .chain) {h h1 : Heap} {N : BuiltMap}
    (hb : Built P assets g k h N) (hag : AgreeOffChain h h1) : Built P assets g k h1 N := by
  intro key p c hl
  obtain ⟨asset, cs, hn, he, hcs, hshape⟩ := hb key p c hl
  exact ⟨asset, cs, hn, he, hcs, assetNodeAt_agreeOffChain hk hshape hag⟩

/-- The loop over the family graphs, on graphs without cycle whose edges are
the declared ones: every graph adds one operand to the top `Chain`, the root
operator of its family, and below it every node of the graph that the fold has
reached has one asset node. -/
theorem foldGraphs_built (P : Ports) (assets : List (String × Asset)) (envp : Nat)
    (nm : String) :
    ∀ (graphs : List (String × Graph)) (h hfin : Heap) (ops0 : List Expression),
      (∀ ng ∈ graphs, EdgesExact ng.2 ∧ EdgesNodup ng.2 ∧ Acyclic ng.2) →
      h[envp]? = some ⟨.chain, nm, ops0⟩ →
      foldGraphs P assets envp graphs h = .ok hfin →
      ∃ ops, hfin[envp]? = some ⟨.chain, nm, ops0 ++ ops⟩ ∧ AgreeOffChain h hfin ∧
        List.Forall₂ (fun ng o => ∃ k N, BuiltFamily P assets hfin ng o k N) graphs ops := by
  intro graphs
  induction graphs with
  | nil =>
    intro h hfin ops0 _ he hf
    simp only [foldGraphs, Except.ok.injEq] at hf
    subst hf
    exact ⟨[], by simpa using he, fun _ _ hn _ => hn, List.Forall₂.nil⟩
  | cons ng rest ih =>
    intro h hfin ops0 hgraphs he hf
    obtain ⟨name, graph⟩ := ng
    obtain ⟨hex, hnd, hac⟩ := hgraphs (name, graph) (List.mem_cons_self _ _)
    simp only [foldGraphs] at hf
    cases hroot : graph.node graph.root with
    | error err => simp [hroot] at hf
    | ok rootAsset =>
      simp only [hroot] at hf
      cases hfam : familyOp rootAsset.m_type with
      | none => simp [hfam] at hf
      | some k =>
        simp only [hfam, create] at hf
        cases hedges : graph.edgesAt graph.root with
        | error err => simp [hedges] at hf
        | ok children =>
          simp only [hedges] at hf
          split at hf
          · simp at hf
          · rename_i st hvc
            obtain ⟨hki, hka, hkc⟩ := familyOp_kind hfam
            have helt : envp < h.length := (List.getElem?_eq_some.mp he).1
            have hne : envp ≠ h.length := Nat.ne_of_lt helt
            have he1 : (h ++ [(⟨k, rootAsset.m_name, []⟩ : Node)])[envp]? =
                some ⟨.chain, nm, ops0⟩ := by
              rw [List.getElem?_append_left helt]; exact he
            have hr2 : (pushOperand (h ++ [(⟨k, rootAsset.m_name, []⟩ : Node)]) envp
                (some h.length))[h.length]? = some ⟨k, rootAsset.m_name, []⟩ := by
              rw [getElem?_pushOperand_ne _ envp h.length _ hne]
              exact List.getElem?_concat_length _ _
            have hl2 : (pushOperand (h ++ [(⟨k, rootAsset.m_name, []⟩ : Node)]) envp
                (some h.length)).length = h.length + 1 := by
              rw [length_pushOperand]; simp
            have he2 := getElem?_pushOperand_self _ envp (some h.length) _ he1
            have hag : ∀ i, i < h.length → i ≠ envp →
                (pushOperand (h ++ [(⟨k, rootAsset.m_name, []⟩ : Node)]) envp
                  (some h.length))[i]? = h[i]? := by
              intro i hi hie
              rw [getElem?_pushOperand_ne _ envp i _ (Ne.symm hie),
                List.getElem?_append_left hi]
            generalize pushOperand (h ++ [(⟨k, rootAsset.m_name, []⟩ : Node)]) envp
              (some h.length) = h2 at hvc hr2 hl2 he2 hag
            have hnil : ∀ (key : String) (pc : Nat × Nat),
                lookup key ([] : BuiltMap) = some pc → False := by
              intro key pc hl; simp [lookup] at hl
            have hL0 : LoopInv P assets graph k graph.m_root [] h.length rootAsset.m_name []
                h2 [] [] ⟨h2, []⟩ [] := by
              refine ⟨⟨?_, ?_, ?_, ?_, ?_, ?_, rfl, ?_⟩, by simpa using hr2,
                by intro d hd; simp at hd, ?_, ?_, fun _ _ hl => hl, fun _ _ _ => rfl,
                fun _ _ hl => hl, ?_, ?_⟩
              · intro key p c hl; exact absurd hl (by simp [lookup])
              · intro key e hl; exact absurd hl (by simp [lookup])
              · intro key e hl; exact absurd hl (by simp [lookup])
              · intro key pc a hl; exact (hnil key pc hl).elim
              · intro key pc a hl; exact (hnil key pc hl).elim
              · intro key hkey; simp at hkey
              · intro k1 k2 pc1 pc2 hl; exact (hnil k1 pc1 hl).elim
              · intro d pc a hl; exact (hnil d pc hl).elim
              · intro key pc hl; exact (hnil key pc hl).elim
              · intro key pc hl; exact (hnil key pc hl).elim
              · intro d pc hl; exact (hnil d pc hl).elim
            obtain ⟨N, hL, -⟩ := visitChildren_built hex
              (visit_builds P assets graph rootAsset.m_type k hfam hex hnd hac (visitFuel graph))
              graph.m_root [] (Or.inl rfl) (fun c hc => hc) h.length rootAsset.m_name [] h2 []
              children [] ⟨h2, []⟩ st []
              (by simpa using hnd graph.m_root children hedges)
              (fun c hc => ⟨children, hedges, hc⟩) (le_refl _) hL0 hvc
            simp only [List.nil_append] at hL
            have hag1a : AgreeExcept h.length h2 st.heap := hL.agree
            have hest : st.heap[envp]? = some ⟨.chain, nm, ops0 ++ [some h.length]⟩ := by
              rw [hag1a envp (by omega) hne]
              exact he2
            obtain ⟨ops, hfin1, hag2, hall2⟩ := ih st.heap hfin (ops0 ++ [some h.length])
              (fun ng hng => hgraphs ng (List.mem_cons_of_mem _ hng)) hest hf
            have hag0 : AgreeOffChain h st.heap := by
              intro i n hin hnk
              have hilt : i < h.length := (List.getElem?_eq_some.mp hin).1
              have hie : i ≠ envp := by
                intro heq; rw [heq, he] at hin
                simp only [Option.some.injEq] at hin
                rw [← hin] at hnk; exact hnk rfl
              rw [hag1a i (by omega) (Nat.ne_of_lt hilt), hag i hilt hie]
              exact hin
            refine ⟨some h.length :: ops, by simpa using hfin1,
              agreeOffChain_trans hag0 hag2, List.Forall₂.cons ?_ hall2⟩
            exact ⟨k, N, rootAsset, h.length, children, hroot, hfam, rfl, hedges,
              hag2 _ _ hL.top (by simpa using hkc), hL.done,
              built_agreeOffChain hkc hL.inv.built hag2, hL.inv.inj, hL.inv.rootFree⟩

/-- The result of `getExpression`, when it returns, on graphs without cycle
whose edges are the declared ones. -/
theorem getExpression_built {P : Ports} {env : Environment} {r : Expression}
    {h : Heap} (hgraphs : ∀ ng ∈ env.m_graphs, EdgesExact ng.2 ∧ EdgesNodup ng.2 ∧ Acyclic ng.2)
    (hg : env.getExpression P = .ok (r, h)) :
    ∃ rp ops, r = some rp ∧ h[rp]? = some ⟨.chain, env.m_name, ops⟩ ∧
      List.Forall₂ (fun ng o => ∃ k N, BuiltFamily P env.m_assets h ng o k N)
        env.m_graphs ops := by
  simp only [Environment.getExpression, create] at hg
  split at hg
  · simp at hg
  · rename_i hfin hf
    simp only [Except.ok.injEq, Prod.mk.injEq] at hg
    obtain ⟨ops, hfin1, -, hall⟩ := foldGraphs_built P env.m_assets env.heap.length env.m_name
      env.m_graphs _ hfin [] hgraphs (List.getElem?_concat_length _ _) hf
    exact ⟨env.heap.length, ops, hg.1.symm, by simpa [← hg.2] using hfin1, hg.2 ▸ hall⟩

/-- The graphs of a compiled environment have no cycle and exactly the
declared edges, each once. -/
theorem compile_graphs {P : Ports} (hiter : IterSound P) {name : String} {json : Json}
    {env : Environment} (hc : Environment.compile P name json = .ok env) :
    ∀ ng ∈ env.m_graphs, EdgesExact ng.2 ∧ EdgesNodup ng.2 ∧ Acyclic ng.2 := by
  intro ng hng
  obtain ⟨-, -, hnd, hex⟩ := compile_graphInv hiter hc ng hng
  exact ⟨hex, hnd, compile_acyclic hc ng hng⟩

theorem familyOp_familyKind {fam : String} {ty : AssetType} {k : Kind}
    (hty : getAssetType fam = .ok ty) (hfam : familyOp ty = some k) :
    (fam = "decoders" ∨ fam = "rules" ∨ fam = "outputs") ∧ k = familyKind fam ∧
      ty ≠ .filter := by
  unfold getAssetType at hty
  unfold familyKind
  split at hty
  · rename_i h1
    simp only [Except.ok.injEq] at hty
    rw [← hty] at hfam
    simp only [familyOp, Option.some.injEq] at hfam
    exact ⟨Or.inl h1, by simp [h1, hfam], by rw [← hty]; simp⟩
  · rename_i h1
    split at hty
    · rename_i h2
      simp only [Except.ok.injEq] at hty
      rw [← hty] at hfam
      simp only [familyOp, Option.some.injEq] at hfam
      exact ⟨Or.inr (Or.inl h2), by simp [h1, hfam], by rw [← hty]; simp⟩
    · split at hty
      · rename_i h3
        simp only [Except.ok.injEq] at hty
        rw [← hty] at hfam
        simp only [familyOp, Option.some.injEq] at hfam
        exact ⟨Or.inr (Or.inr h3), by simp [h1, hfam], by rw [← hty]; simp⟩
      · split at hty
        · simp only [Except.ok.injEq] at hty
          rw [← hty] at hfam
          simp [familyOp] at hfam
        · simp at hty

/-- In a compiled environment the root of the graph of a family is named
`<family>Input`, and every node holds an asset of the type of the family. -/
theorem compile_types {P : Ports} (hiter : IterSound P) {name : String} {json : Json}
    {env : Environment} (hc : Environment.compile P name json = .ok env) :
    ∀ ng ∈ env.m_graphs, ∃ ra, ng.2.node ng.2.root = .ok ra ∧ ra.m_name = ng.1 ++ "Input" ∧
      getAssetType ng.1 = .ok ra.m_type ∧
      ∀ key a, ng.2.node key = .ok a → a.m_type = ra.m_type := by
  intro ng hng
  obtain ⟨ra, hl, hn, hty⟩ := (compile_spec hc).2 ng hng
  obtain ⟨hroot, -, -, -⟩ := compile_graphInv hiter hc ng hng
  have hcat := compile_fromCatalog hc ng hng
  refine ⟨ra, node_ok_iff.mpr hl, hn, hty, ?_⟩
  intro key a ha
  by_cases hk : key = ng.1 ++ "Input"
  · rw [hk, ← hroot, node_ok_iff, hl] at ha
    simp only [Option.some.injEq] at ha
    rw [ha]
  · obtain ⟨ty, d, a0, h0, h1, hty1, -, hparse, hrec⟩ := hcat key a ha hk
    rw [hty] at hty1
    simp only [Except.ok.injEq] at hty1
    rw [hrec]
    simp only
    rw [(fromJson_fresh hparse).2, hty1]

/-- The result of `getExpression` on a compiled environment, when it returns:
the top `Chain` named as the environment, and for every family graph, in the
order of the graph map, the sub-expression of the family. -/
theorem compile_built {P : Ports} (hiter : IterSound P) {name : String} {json : Json}
    {env : Environment} {r : Expression} {h : Heap}
    (hc : Environment.compile P name json = .ok env)
    (hg : env.getExpression P = .ok (r, h)) :
    ∃ rp ops, r = some rp ∧ h[rp]? = some ⟨.chain, name, ops⟩ ∧
      List.Forall₂ (fun ng o => ∃ N, BuiltFamily P env.m_assets h ng o (familyKind ng.1) N ∧
        ∀ key a, ng.2.node key = .ok a → a.m_type ≠ .filter) env.m_graphs ops := by
  obtain ⟨rp, ops, hr, hrp, hall⟩ := getExpression_built (compile_graphs hiter hc) hg
  refine ⟨rp, ops, hr, (compile_spec hc).1 ▸ hrp, forall₂_imp_mem hall ?_⟩
  rintro ng hng o ⟨k, N, hbf⟩
  obtain ⟨ra, hra, -, hty, htypes⟩ := compile_types hiter hc ng hng
  obtain ⟨rootAsset, r0, cs, hroot, hfam, -⟩ := id hbf
  rw [hra] at hroot
  simp only [Except.ok.injEq] at hroot
  subst hroot
  obtain ⟨-, hk, hnf⟩ := familyOp_familyKind hty hfam
  exact ⟨N, hk ▸ hbf, fun key a ha => by rw [htypes key a ha]; exact hnf⟩

/-- C1. In the result of `getExpression` on a compiled environment, with `N`
the asset nodes built for a family graph (the operands of the root operator of
the family are the nodes of the children of the root, and the operands of the
children operator of a node are the nodes of its children): the node of an
asset without filters is `Implication(name + "Node", A, children)` where `A`
is `Implication(name, check, stages)` and `children` is the operator of the
kind of the family, named `children`, whose operands are the asset nodes of
the children of the asset in the order of its edge list. -/
theorem C1_node_without_filters (P : Ports) (hiter : IterSound P) (name : String)
    (json : Json) (env : Environment) (r : Expression) (h : Heap)
    (hc : Environment.compile P name json = .ok env)
    (hg : env.getExpression P = .ok (r, h)) :
    ∃ rp ops, r = some rp ∧ h[rp]? = some ⟨.chain, name, ops⟩ ∧
      List.Forall₂ (fun ng o => ∃ N, BuiltFamily P env.m_assets h ng o (familyKind ng.1) N ∧
        ∀ key p c asset, lookup key N = some (p, c) → ng.2.node key = .ok asset →
          asset.m_filters = [] →
          ∃ a cs, ng.2.edgesAt key = .ok cs ∧
            h[p]? = some ⟨.implication, asset.m_name ++ "Node", [some a, some c]⟩ ∧
            h[a]? = some ⟨.implication, asset.m_name, [asset.m_check, asset.m_stages]⟩ ∧
            h[c]? = some ⟨familyKind ng.1, "children", cs.map (nodeOf N)⟩)
        env.m_graphs ops := by
  obtain ⟨rp, ops, hr, hrp, hall⟩ := compile_built hiter hc hg
  refine ⟨rp, ops, hr, hrp, forall₂_imp_mem hall ?_⟩
  rintro ng hng o ⟨N, hbf, htypes⟩
  refine ⟨N, hbf, ?_⟩
  intro key p c asset hl hnode hnil
  obtain ⟨_, _, _, _, _, _, _, _, _, hbuilt, _, _⟩ := id hbf
  obtain ⟨asset1, cs, hn1, he, -, hc1, a, x, -, -, hp, ha, hx⟩ := hbuilt key p c hl
  rw [hnode] at hn1
  simp only [Except.ok.injEq] at hn1
  subst hn1
  rcases hx with ⟨-, hxc⟩ | ⟨hne, -⟩
  · exact ⟨a, cs, he, hxc ▸ hp, ha (htypes key asset hnode), hc1⟩
  · exact absurd hnil hne

/-- C1 at scenario S1: `getExpression` returns
`Chain("env", [Or("decodersInput", [Implication("d1Node", Implication("d1",
And("check", [c]), And("stages", [n])), Or("children", []))])])`, with the
`Chain` at index 4, and the theorem applies to this result. -/
theorem C1_node_without_filters_witness :
    ∃ env, Environment.compile portsS1 "env" envS1 = .ok env ∧
      env.getExpression portsS1 = .ok (some 4,
        [⟨.term, "c", []⟩, ⟨.and, "check", [some 0]⟩, ⟨.and, "stages", [some 3]⟩,
         ⟨.term, "n", []⟩, ⟨.chain, "env", [some 5]⟩, ⟨.or, "decodersInput", [some 8]⟩,
         ⟨.or, "children", []⟩, ⟨.implication, "d1", [some 1, some 2]⟩,
         ⟨.implication, "d1Node", [some 7, some 6]⟩]) ∧
      ∃ rp ops, some 4 = some rp ∧
        ([⟨.term, "c", []⟩, ⟨.and, "check", [some 0]⟩, ⟨.and, "stages", [some 3]⟩,
          ⟨.term, "n", []⟩, ⟨.chain, "env", [some 5]⟩, ⟨.or, "decodersInput", [some 8]⟩,
          ⟨.or, "children", []⟩, ⟨.implication, "d1", [some 1, some 2]⟩,
          ⟨.implication, "d1Node", [some 7, some 6]⟩] : Heap)[rp]? =
          some ⟨.chain, "env", ops⟩ :=
  ⟨_, rfl, rfl, by
    obtain ⟨rp, ops, h1, h2, -⟩ := C1_node_without_filters portsS1 (fun _ _ => Iff.rfl) "env"
      envS1 _ (some 4) _ rfl rfl
    exact ⟨rp, ops, h1, h2⟩⟩

/-- A run of `visit` for a key with several parents leaves its result in the
cache `sharedParents`. -/
theorem visit_caches (P : Ports) (assets : List (String × Asset)) (g : Graph)
    (ty : AssetType) (fuel : Nat) (cur : String) (st st1 : FoldState) (e : Expression)
    (a : Asset) (hvis : visit P assets g ty fuel cur st = .ok (e, st1))
    (hnode : g.node cur = .ok a) (hmulti : a.m_parents.length > 1) :
    lookup cur st1.sharedParents = some e := by
  cases fuel with
  | zero => simp [visit] at hvis
  | succ fuel =>
    simp only [visit] at hvis
    cases hl : lookup cur st.sharedParents with
    | some e0 =>
      simp only [hl, Except.ok.injEq, Prod.mk.injEq] at hvis
      rw [← hvis.2, ← hvis.1]; exact hl
    | none =>
      simp only [hl, hnode] at hvis
      cases hfam : familyOp ty with
      | none => simp [hfam] at hvis
      | some k =>
        simp only [hfam, create] at hvis
        cases hb : buildAssetNode P assets a st.heap.length
            (st.heap ++ [⟨k, "children", []⟩]) with
        | error err => simp [hb] at hvis
        | ok res =>
          obtain ⟨p, h2⟩ := res
          simp only [hb] at hvis
          cases hedges : g.edgesAt cur with
          | error err => simp [hedges] at hvis
          | ok cs =>
            simp only [hedges, hmulti, if_true] at hvis
            split at hvis
            · simp at hvis
            · rename_i st2 hvc
              simp only [Except.ok.injEq, Prod.mk.injEq] at hvis
              rw [← hvis.2, ← hvis.1]
              refine visitChildren_cache_mono (visit_cache_mono P assets g ty fuel) _ cs _ st2
                hvc cur (some p) ?_
              show lookup cur (mapInsert st.sharedParents cur (some p)) = some (some p)
              rw [lookup_mapInsert_none _ hl]
              simp

/-- C7. In the result of `getExpression` on a compiled environment, with `N`
the asset nodes built for a family graph, which hold one node for a key and
different nodes for different keys: the one node of an asset with more than
one declared parent is an operand of the children operator of every parent
whose node is built, and of the root operator when the root is among the
parents.  A visit of a key that is in the cache returns the cached expression
and changes nothing, and a visit of a key with more than one parent leaves its
result in the cache. -/
theorem C7_shared_node (P : Ports) (hiter : IterSound P) (name : String)
    (json : Json) (env : Environment) (r : Expression) (h : Heap)
    (hc : Environment.compile P name json = .ok env)
    (hg : env.getExpression P = .ok (r, h)) :
    (∃ rp ops, r = some rp ∧ h[rp]? = some ⟨.chain, name, ops⟩ ∧
      List.Forall₂ (fun ng o => ∃ N, BuiltFamily P env.m_assets h ng o (familyKind ng.1) N ∧
        ∀ key pc a, lookup key N = some pc → ng.2.node key = .ok a →
          a.m_parents.length > 1 → ∀ q ∈ a.m_parents,
            (∀ pq, lookup q N = some pq →
              ∃ qops, h[pq.2]? = some ⟨familyKind ng.1, "children", qops⟩ ∧
                some pc.1 ∈ qops) ∧
            (q = ng.2.m_root →
              ∃ r0 nm rops, o = some r0 ∧ h[r0]? = some ⟨familyKind ng.1, nm, rops⟩ ∧
                some pc.1 ∈ rops))
        env.m_graphs ops) ∧
    (∀ (assets : List (String × Asset)) (g : Graph) (ty : AssetType) (fuel : Nat)
        (cur : String) (st : FoldState) (e : Expression),
      lookup cur st.sharedParents = some e →
      visit P assets g ty (fuel + 1) cur st = .ok (e, st)) ∧
    (∀ (assets : List (String × Asset)) (g : Graph) (ty : AssetType) (fuel : Nat)
        (cur : String) (st st1 : FoldState) (e : Expression) (a : Asset),
      visit P assets g ty fuel cur st = .ok (e, st1) → g.node cur = .ok a →
      a.m_parents.length > 1 → lookup cur st1.sharedParents = some e) := by
  refine ⟨?_, ?_, ?_⟩
  · obtain ⟨rp, ops, hr, hrp, hall⟩ := compile_built hiter hc hg
    refine ⟨rp, ops, hr, hrp, forall₂_imp_mem hall ?_⟩
    rintro ng hng o ⟨N, hbf, -⟩
    refine ⟨N, hbf, ?_⟩
    obtain ⟨hex, -, -⟩ := compile_graphs hiter hc ng hng
    obtain ⟨rootAsset, r0, cs0, -, -, ho, hedges0, hr0, -, hbuilt, -, hrootfree⟩ := id hbf
    intro key pc a hl hnode hmulti q hq
    have hkr : key ≠ ng.2.m_root := by
      intro heq
      rw [heq, hrootfree] at hl
      exact Option.noConfusion hl
    obtain ⟨csq, hcsq, hmem⟩ := (hex q key).mpr ⟨a, hkr, hnode, Or.inr hq⟩
    have hin : some pc.1 ∈ csq.map (nodeOf N) :=
      List.mem_map.mpr ⟨key, hmem, by simp [nodeOf, hl]⟩
    constructor
    · intro pq hpq
      obtain ⟨aq, cs, -, he, -, hc1, -⟩ := hbuilt q pq.1 pq.2 hpq
      rw [hcsq] at he
      simp only [Except.ok.injEq] at he
      exact ⟨_, hc1, he ▸ hin⟩
    · intro hqr
      rw [hqr] at hcsq
      have : ng.2.edgesAt ng.2.m_root = .ok cs0 := hedges0
      rw [hcsq] at this
      simp only [Except.ok.injEq] at this
      exact ⟨r0, _, _, ho, hr0, this ▸ hin⟩
  · intro assets g ty fuel cur st e hl
    simp [visit, hl]
  · intro assets g ty fuel cur st st1 e a hvis hnode hmulti
    exact visit_caches P assets g ty fuel cur st st1 e a hvis hnode hmulti

/-- C7 at scenario S2, where `c` has the parents `a` and `b`: the node of `c`,
`Implication("cNode", ..)` at index 19, is the one operand of the children
operator of `a` (index 14) and of the children operator of `b` (index 20), and
the theorem applies to the result of `getExpression`. -/
theorem C7_shared_node_witness :
    ∃ env, Environment.compile portsS2 "env" envS2 = .ok env ∧
      env.getExpression portsS2 = .ok (some 12,
        [⟨.term, "c_a", []⟩, ⟨.and, "check", [some 0]⟩, ⟨.and, "stages", [some 3]⟩,
         ⟨.term, "n_a", []⟩, ⟨.term, "c_b", []⟩, ⟨.and, "check", [some 4]⟩,
         ⟨.and, "stages", [some 7]⟩, ⟨.term, "n_b", []⟩, ⟨.term, "c_c", []⟩,
         ⟨.and, "check", [some 8]⟩, ⟨.and, "stages", [some 11]⟩, ⟨.term, "n_c", []⟩,
         ⟨.chain, "env", [some 13]⟩, ⟨.broadcast, "rulesInput", [some 16, some 22]⟩,
         ⟨.broadcast, "children", [some 19]⟩, ⟨.implication, "a", [some 1, some 2]⟩,
         ⟨.implication, "aNode", [some 15, some 14]⟩, ⟨.broadcast, "children", []⟩,
         ⟨.implication, "c", [some 9, some 10]⟩,
         ⟨.implication, "cNode", [some 18, some 17]⟩,
         ⟨.broadcast, "children", [some 19]⟩, ⟨.implication, "b", [some 5, some 6]⟩,
         ⟨.implication, "bNode", [some 21, some 20]⟩]) ∧
      ∃ r h rp ops, env.getExpression portsS2 = .ok (r, h) ∧ r = some rp ∧
        h[rp]? = some ⟨.chain, "env", ops⟩ :=
  ⟨_, rfl, rfl, by
    obtain ⟨⟨rp, ops, h1, h2, -⟩, -⟩ := C7_shared_node portsS2 (fun _ _ => Iff.rfl) "env"
      envS2 _ _ _ rfl rfl
    exact ⟨_, _, rp, ops, rfl, h1, h2⟩⟩

/-! ### The fold returns -/

theorem extends_push {h0 h : Heap} (hext : Extends h0 h) {f : Nat} (hf : h0.length ≤ f)
    (e : Expression) : Extends h0 (pushOperand h f e) := by
  intro i hi
  rw [getElem?_pushOperand_ne h f i e (by omega)]
  exact hext i hi

theorem asset_getExpression_total {h0 h : Heap} {a : Asset}
    (ha : a.m_type ≠ .filter ∨ checkIsOperation h0 a = true) (hext : Extends h0 h) :
    ∃ e h1, a.getExpression h = .ok (e, h1) := by
  by_cases hty : a.m_type = .filter
  · rcases ha with h1 | h1
    · exact absurd hty h1
    · unfold checkIsOperation at h1
      cases hc : a.m_check with
      | none => simp [hc] at h1
      | some p =>
        simp only [hc] at h1
        cases hp : h0[p]? with
        | none => simp [hp] at h1
        | some n =>
          simp only [hp, bne_iff_ne, ne_eq] at h1
          have hplt : p < h0.length := (List.getElem?_eq_some.mp hp).1
          have hp2 : h[p]? = some n := by rw [hext p hplt]; exact hp
          exact ⟨_, _, ((asset_getExpression_spec a h).2.1 hty p n hc hp2 h1)⟩
  · exact ⟨_, _, (asset_getExpression_spec a h).1 hty⟩

theorem pushFilters_total (assets : List (String × Asset)) (h0 : Heap) (f : Nat)
    (hf : h0.length ≤ f) :
    ∀ (names : List String) (h : Heap),
      (∀ nm ∈ names, ∃ fa, lookup nm assets = some fa ∧
        (fa.m_type ≠ .filter ∨ checkIsOperation h0 fa = true)) →
      Extends h0 h → ∃ h1, pushFilters assets f names h = .ok h1 := by
  intro names
  induction names with
  | nil => intro h _ _; exact ⟨h, rfl⟩
  | cons nm rest ih =>
    intro h hall hext
    obtain ⟨fa, hl, hfa⟩ := hall nm (List.mem_cons_self _ _)
    obtain ⟨e, h1, hg⟩ := asset_getExpression_total hfa hext
    obtain ⟨n, hh1, -⟩ := getExpression_ok hg
    have hext1 : Extends h0 h1 := hh1 ▸ extends_trans hext (extends_append h _)
    obtain ⟨h2, hp⟩ := ih (pushOperand h1 f e)
      (fun x hx => hall x (List.mem_cons_of_mem _ hx)) (extends_push hext1 hf e)
    exact ⟨h2, by simp only [pushFilters, hl, hg]; exact hp⟩

theorem buildAssetNode_total {P : Ports} {assets : List (String × Asset)} {asset : Asset}
    {h0 : Heap} (hty : asset.m_type ≠ .filter)
    (hfil : ∀ nm ∈ P.iter asset.m_filters, ∃ fa, lookup nm assets = some fa ∧
      (fa.m_type ≠ .filter ∨ checkIsOperation h0 fa = true))
    (c : Nat) (h : Heap) (hext : Extends h0 h) :
    ∃ r, buildAssetNode P assets asset c h = .ok r := by
  unfold buildAssetNode
  split
  · simp only [create]
    obtain ⟨h2, hp⟩ := pushFilters_total assets h0 h.length (extends_length hext)
      (P.iter asset.m_filters) (h ++ [⟨.and, "filters", []⟩]) hfil
      (extends_trans hext (extends_append h _))
    simp only [hp]
    rw [(asset_getExpression_spec asset _).1 hty]
    exact ⟨_, rfl⟩
  · rw [(asset_getExpression_spec asset _).1 hty]
    exact ⟨_, rfl⟩

theorem visitChildren_total
    {visitRef : String → FoldState → Except Err (Expression × FoldState)}
    (Good : FoldState → Prop) (op : Nat)
    (hpush : ∀ s e, Good s → Good ⟨pushOperand s.heap op e, s.sharedParents⟩) :
    ∀ (cs : List String) (st : FoldState),
      (∀ c ∈ cs, ∀ s, Good s → ∃ e s1, visitRef c s = .ok (e, s1) ∧ Good s1) → Good st →
      ∃ st1, visitChildren visitRef op cs st = .ok st1 ∧ Good st1 := by
  intro cs
  induction cs with
  | nil => intro st _ hg; exact ⟨st, rfl, hg⟩
  | cons c rest ih =>
    intro st hv hg
    obtain ⟨e, s1, hr, hg1⟩ := hv c (List.mem_cons_self _ _) st hg
    obtain ⟨st1, hvc, hg2⟩ := ih ⟨pushOperand s1.heap op e, s1.sharedParents⟩
      (fun d hd => hv d (List.mem_cons_of_mem _ hd)) (hpush s1 e hg1)
    exact ⟨st1, by simp only [visitChildren, hr]; exact hvc, hg2⟩

theorem callChain_node {g : Graph} (hex : EdgesExact g) {cur : String} {S : List String}
    (hch : CallChain g cur S) : ∃ a, g.node cur = .ok a := by
  obtain ⟨p0, hp0, -⟩ := callChain_pred S cur hch cur (List.mem_cons_self _ _)
  obtain ⟨a, -, ha, -⟩ := (hex p0 cur).mp hp0
  exact ⟨a, ha⟩

/-- The visit of a key on the recursion path `S` returns, on a graph without
cycle in which every node has its edge list and the node of every asset can be
built. -/
theorem visit_total (P : Ports) (assets : List (String × Asset)) (g : Graph)
    (ty : AssetType) (k : Kind) (hfam : familyOp ty = some k) (hex : EdgesExact g)
    (hac : Acyclic g) (hentries : AllEntries g) (h0 : Heap)
    (hbuild : ∀ key a, g.node key = .ok a → ∀ c h, Extends h0 h →
      ∃ r, buildAssetNode P assets a c h = .ok r) :
    ∀ (fuel : Nat) (cur : String) (st : FoldState) (S : List String),
      S.Nodup → (∀ v ∈ S, g.hasNode v = true) → CallChain g cur S →
      g.m_nodes.length + 1 ≤ fuel + S.length → Extends h0 st.heap →
      ∃ e st1, visit P assets g ty fuel cur st = .ok (e, st1) ∧ Extends h0 st1.heap := by
  intro fuel
  induction fuel with
  | zero =>
    intro cur st S hnd hnodes _ hlen _
    have := stack_length_le hnd hnodes
    omega
  | succ fuel ih =>
    intro cur st S hnd hnodes hch hlen hext
    simp only [visit]
    cases hl : lookup cur st.sharedParents with
    | some e0 => exact ⟨e0, st, rfl, hext⟩
    | none =>
      obtain ⟨asset, hnode⟩ := callChain_node hex hch
      have hnode1 : g.hasNode cur = true := by
        rw [node_ok_iff] at hnode
        simp [Graph.hasNode, hnode]
      obtain ⟨cs, hedge⟩ := hentries cur hnode1
      have hext1 : Extends h0 (st.heap ++ [⟨k, "children", []⟩]) :=
        extends_trans hext (extends_append _ _)
      obtain ⟨⟨p, h2⟩, hb⟩ := hbuild cur asset hnode st.heap.length _ hext1
      have hext2 : Extends h0 h2 := extends_trans hext1 (buildAssetNode_spec hb).1
      have hcurS : cur ∉ S := fun hmem => hac cur (callChain_transGen S cur hch cur hmem)
      simp only [hnode, hfam, create, hb, hedge]
      obtain ⟨st1, hvc, hg1⟩ := visitChildren_total (fun s => Extends h0 s.heap) st.heap.length
        (fun s e hs => extends_push hs (extends_length hext) e) cs
        ⟨h2, if asset.m_parents.length > 1 then
          mapInsert st.sharedParents cur (some p) else st.sharedParents⟩
        (fun c hc s hs => ih c s (cur :: S) (List.nodup_cons.mpr ⟨hcurS, hnd⟩)
          (by
            intro v hv
            rcases List.mem_cons.mp hv with h | h
            · exact h ▸ hnode1
            · exact hnodes v h)
          ⟨⟨cs, hedge, hc⟩, hch⟩ (by simp only [List.length_cons]; omega) hs)
        hext2
      simp only [hvc]
      exact ⟨_, _, rfl, hg1⟩

/-- The fold of the family graphs returns when every graph has a root of a
family type, no cycle, an edge list for every node, and assets whose nodes can
be built. -/
theorem foldGraphs_total (P : Ports) (assets : List (String × Asset)) (envp : Nat)
    (h0 : Heap) (henv : h0.length ≤ envp) :
    ∀ (graphs : List (String × Graph)) (h : Heap),
      (∀ ng ∈ graphs, (∃ ra k, ng.2.node ng.2.root = .ok ra ∧ familyOp ra.m_type = some k) ∧
        EdgesExact ng.2 ∧ Acyclic ng.2 ∧ AllEntries ng.2 ∧
        ∀ key a, ng.2.node key = .ok a → ∀ c h, Extends h0 h →
          ∃ r, buildAssetNode P assets a c h = .ok r) →
      Extends h0 h → ∃ hfin, foldGraphs P assets envp graphs h = .ok hfin := by
  intro graphs
  induction graphs with
  | nil => intro h _ _; exact ⟨h, rfl⟩
  | cons ng rest ih =>
    intro h hall hext
    obtain ⟨nm, g⟩ := ng
    obtain ⟨⟨ra, k, hroot, hfam⟩, hex, hac, hentries, hbuild⟩ :=
      hall (nm, g) (List.mem_cons_self _ _)
    have hroot1 : g.hasNode g.root = true := by
      rw [node_ok_iff] at hroot
      simp [Graph.hasNode, hroot]
    obtain ⟨cs, hedge⟩ := hentries g.root hroot1
    simp only [foldGraphs, hroot, hfam, create, hedge]
    have hext2 : Extends h0 (pushOperand (h ++ [(⟨k, ra.m_name, []⟩ : Node)]) envp
        (some h.length)) :=
      extends_push (extends_trans hext (extends_append _ _)) henv _
    obtain ⟨st1, hvc, hg1⟩ := visitChildren_total (fun s => Extends h0 s.heap) h.length
      (fun s e hs => extends_push hs (extends_length hext) e) cs
      ⟨pushOperand (h ++ [(⟨k, ra.m_name, []⟩ : Node)]) envp (some h.length), []⟩
      (fun c hc s hs => visit_total P assets g ra.m_type k hfam hex hac hentries h0 hbuild
        (visitFuel g) c s [] List.nodup_nil (by intro v hv; simp at hv) ⟨cs, hedge, hc⟩
        (by simpa using le_visitFuel g) hs)
      hext2
    simp only [hvc]
    exact ih st1.heap (fun ng hng => hall ng (List.mem_cons_of_mem _ hng)) hg1

theorem allEntries_addEdge {g g1 : Graph} {p c : String} (he : g.addEdge p c = .ok g1)
    (ha : AllEntries g) : AllEntries g1 := by
  intro key hkey
  have hn : g1.hasNode key = g.hasNode key := by
    simp only [Graph.hasNode, (addEdge_nodes he).2]
  obtain ⟨cs, hcs⟩ := ha key (hn ▸ hkey)
  rw [(addEdge_ok he).1]
  simp only [edgesAt_ok_iff] at hcs ⊢
  by_cases hk : key = p
  · rw [hk, lookup_insertEdge_self]
    exact ⟨_, rfl⟩
  · rw [lookup_insertEdge_ne hk]
    exact ⟨cs, hcs⟩

theorem allEntries_addNode {g g1 : Graph} {key : String} {a : Asset}
    (hadd : g.addNode key a = .ok g1) (ha : AllEntries g) : AllEntries g1 := by
  unfold Graph.addNode at hadd
  split at hadd
  · simp at hadd
  · simp only [Except.ok.injEq] at hadd
    subst hadd
    intro x hx
    simp only [edgesAt_ok_iff]
    simp only [Graph.hasNode] at hx
    cases hold : lookup x g.m_nodes with
    | some b =>
      obtain ⟨cs, hcs⟩ := ha x (by simp [Graph.hasNode, hold])
      exact ⟨cs, lookup_mapInsert_some _ (edgesAt_ok_iff.mp hcs)⟩
    | none =>
      rw [lookup_append_none hold] at hx
      have hkx : key = x := by
        by_contra hne
        simp [lookup, hne] at hx
      subst hkx
      cases he : lookup key g.m_edges with
      | some cs => exact ⟨cs, lookup_mapInsert_some _ he⟩
      | none => exact ⟨[], by rw [lookup_mapInsert_none _ he]; simp⟩

theorem buildGraphLoop_entries (P : Ports) (ty : AssetType) :
    ∀ (defs : List (String × Json)) (assets assets1 : List (String × Asset))
      (g g1 : Graph) (h h1 : Heap),
      buildGraphLoop P ty defs (assets, g, h) = .ok (assets1, g1, h1) →
      AllEntries g → AllEntries g1 := by
  intro defs
  induction defs with
  | nil =>
    intro assets assets1 g g1 h h1 hb hg
    simp only [buildGraphLoop, Except.ok.injEq, Prod.mk.injEq] at hb
    exact hb.2.1 ▸ hg
  | cons d rest ih =>
    intro assets assets1 g g1 h h1 hb hg
    obtain ⟨name, json⟩ := d
    obtain ⟨asset, h2, g2, g3, -, hadd, he, hb2⟩ := buildGraphLoop_cons hb
    exact ih _ _ _ _ _ _ hb2 (addAssetEdges_induct AllEntries P name asset
      (fun _ _ _ he1 hq => allEntries_addEdge he1 hq) he (allEntries_addNode hadd hg))

/-- Every node of a graph of a compiled environment has its edge list. -/
theorem compile_entries {P : Ports} {name : String} {json : Json}
    {env : Environment} (hc : Environment.compile P name json = .ok env) :
    ∀ ng ∈ env.m_graphs, AllEntries ng.2 := by
  simp only [Environment.compile] at hc
  split at hc
  · simp at hc
  · split at hc
    · simp at hc
    · refine (buildGraphs_induct P (fun _ => True) (fun _ g => AllEntries g)
        (fun _ g => AllEntries g) (fun _ => True) (fun _ _ hg => hg) ?_ ?_ _ _ env
        (fun _ _ => trivial) hc (by intro ng hng; simp at hng) trivial).1
      · intro fam ty _ _ key hkey
        simp only [Graph.hasNode, Graph.new, lookup] at hkey
        simp only [edgesAt_ok_iff, Graph.new, lookup]
        split at hkey
        · rename_i heq
          exact ⟨[], by simp [heq]⟩
        · simp at hkey
      · intro fam ty defs assets g h assets1 g1 h1 _ _ _ hg _ hloop
        refine ⟨trivial, ?_⟩
        obtain ⟨-, he, hgrow⟩ := addFiltersLoop_spec P (iterate P assets1) g1
        have h1e := buildGraphLoop_entries P ty _ _ _ _ _ _ _ hloop hg
        intro key hkey
        have hkey1 : g1.hasNode key = true := by
          simp only [Graph.hasNode] at hkey ⊢
          rcases hgrow key with ⟨h3, h4⟩ | ⟨a, a1, h3, h4, -, -⟩
          · rw [h4] at hkey; simp at hkey
          · rw [h3]; rfl
        obtain ⟨cs, hcs⟩ := h1e key hkey1
        exact ⟨cs, by simpa only [edgesAt_ok_iff, he] using hcs⟩

theorem valid_spec {env : Environment} (hv : env.valid = true) :
    ∀ ng ∈ env.m_graphs, ng.1 ≠ "filters" ∧
      ∀ key a, ng.2.node key = .ok a →
        (∀ p ∈ a.m_parents, ng.2.hasNode p = true) ∧
        ∀ f ∈ a.m_filters, ∃ fa, lookup f env.m_assets = some fa ∧
          (fa.m_type ≠ .filter ∨ checkIsOperation env.heap fa = true) := by
  intro ng hng
  unfold Environment.valid at hv
  rw [List.all_eq_true] at hv
  have h1 := hv ng hng
  simp only [Bool.and_eq_true, bne_iff_ne, ne_eq] at h1
  refine ⟨h1.1, ?_⟩
  intro key a ha
  have h2 := h1.2
  rw [List.all_eq_true] at h2
  have h3 := h2 (key, a) (lookup_mem (node_ok_iff.mp ha))
  simp only [Bool.and_eq_true, List.all_eq_true] at h3
  refine ⟨h3.1, ?_⟩
  intro f hf
  have h4 := h3.2 f hf
  cases hl : lookup f env.m_assets with
  | none => simp [hl] at h4
  | some fa =>
    simp only [hl, Bool.or_eq_true, bne_iff_ne, ne_eq] at h4
    exact ⟨fa, rfl, h4⟩

/-- On a valid compiled environment `getExpression` returns. -/
theorem compile_total {P : Ports} (hiter : IterSound P) {name : String} {json : Json}
    {env : Environment} (hc : Environment.compile P name json = .ok env)
    (hv : env.valid = true) : ∃ r h, env.getExpression P = .ok (r, h) := by
  simp only [Environment.getExpression, create]
  obtain ⟨hfin, hf⟩ := foldGraphs_total P env.m_assets env.heap.length env.heap (le_refl _)
    env.m_graphs (env.heap ++ [⟨.chain, env.m_name, []⟩])
    (by
      intro ng hng
      obtain ⟨hex, -, hac⟩ := compile_graphs hiter hc ng hng
      obtain ⟨ra, hra, -, hty, htypes⟩ := compile_types hiter hc ng hng
      obtain ⟨hnf, hvalid⟩ := valid_spec hv ng hng
      have hraty : ra.m_type ≠ .filter := getAssetType_not_filter hnf hty
      have hk : ∃ k, familyOp ra.m_type = some k := by
        cases hm : ra.m_type with
        | filter => exact absurd hm hraty
        | decoder => exact ⟨_, rfl⟩
        | rule => exact ⟨_, rfl⟩
        | output => exact ⟨_, rfl⟩
      obtain ⟨k, hk⟩ := hk
      refine ⟨⟨ra, k, hra, hk⟩, hex, hac, compile_entries hc ng hng, ?_⟩
      intro key a ha c h hext
      refine buildAssetNode_total (by rw [htypes key a ha]; exact hraty) ?_ c h hext
      intro nm hnm
      exact (hvalid key a ha).2 nm ((hiter _ _).mp hnm))
    (extends_append _ _)
  exact ⟨_, _, by rw [hf]⟩

/-- On a graph without cycle whose edges are the declared ones and whose
declared parents are all nodes, every node but the root is reached from the
root. -/
theorem all_reachable {g : Graph} (hex : EdgesExact g) (hac : Acyclic g)
    (hpar : ∀ key a, g.node key = .ok a → ∀ p ∈ a.m_parents, g.hasNode p = true) :
    ∀ (n : Nat) (x : String) (S : List String), S.Nodup →
      (∀ s ∈ S, g.hasNode s = true ∧ Relation.TransGen (HasEdge g) x s) →
      g.m_nodes.length + 1 ≤ n + S.length → g.hasNode x = true → x ≠ g.m_root →
      Relation.TransGen (HasEdge g) g.m_root x := by
  intro n
  induction n with
  | zero =>
    intro x S hnd hS hlen _ _
    have := stack_length_le hnd (fun v hv => (hS v hv).1)
    omega
  | succ n ih =>
    intro x S hnd hS hlen hx hxr
    have hxa : ∃ a, g.node x = .ok a := by
      unfold Graph.hasNode at hx
      cases hl : lookup x g.m_nodes with
      | none => simp [hl] at hx
      | some a => exact ⟨a, node_ok_iff.mpr hl⟩
    obtain ⟨a, ha⟩ := hxa
    cases hp : a.m_parents with
    | nil =>
      exact Relation.TransGen.single ((hex g.m_root x).mpr ⟨a, hxr, ha, Or.inl ⟨hp, rfl⟩⟩)
    | cons p ps =>
      have hpm : p ∈ a.m_parents := by rw [hp]; exact List.mem_cons_self _ _
      have hedge : HasEdge g p x := (hex p x).mpr ⟨a, hxr, ha, Or.inr hpm⟩
      by_cases hpr : p = g.m_root
      · exact Relation.TransGen.single (hpr ▸ hedge)
      · have hxS : x ∉ S := fun hmem => hac x (hS x hmem).2
        have := ih p (x :: S) (List.nodup_cons.mpr ⟨hxS, hnd⟩)
          (by
            intro s hs
            rcases List.mem_cons.mp hs with h1 | h1
            · exact ⟨h1 ▸ hx, h1 ▸ Relation.TransGen.single hedge⟩
            · exact ⟨(hS s h1).1, Relation.TransGen.trans (Relation.TransGen.single hedge)
                (hS s h1).2⟩)
          (by simp only [List.length_cons]; omega) (hpar x a ha p hpm) hpr
        exact Relation.TransGen.tail this hedge

/-- The fold has built a node for every key that is reached from the root. -/
theorem built_reach {P : Ports} {assets : List (String × Asset)} {h : Heap}
    {ng : String × Graph} {o : Expression} {k : Kind} {N : BuiltMap}
    (hbf : BuiltFamily P assets h ng o k N) {x : String}
    (hx : Relation.TransGen (HasEdge ng.2) ng.2.m_root x) : ∃ pc, lookup x N = some pc := by
  obtain ⟨rootAsset, r0, cs0, -, -, -, hedges0, -, hdone, hbuilt, -, -⟩ := id hbf
  induction hx with
  | single hedge =>
    obtain ⟨cs, hcs, hmem⟩ := hedge
    have : ng.2.edgesAt ng.2.m_root = .ok cs0 := hedges0
    rw [hcs] at this
    simp only [Except.ok.injEq] at this
    exact hdone _ (this ▸ hmem)
  | tail _ hedge ih =>
    obtain ⟨pc, hpc⟩ := ih
    obtain ⟨cs, hcs, hmem⟩ := hedge
    obtain ⟨aq, cs1, -, he, hall, -⟩ := hbuilt _ pc.1 pc.2 hpc
    rw [hcs] at he
    simp only [Except.ok.injEq] at he
    exact hall _ (he ▸ hmem)

/-- C8. On a valid compiled environment (every declared parent is a node,
every attached filter has a check that is an operation) `getExpression`
returns, and with `N` the asset nodes built for a family graph, which make up
the sub-expression of the family: every node of the graph but the root has a
node in `N`, an `Implication` named `<name>Node`; `N` holds one node for a
key, and different keys have different nodes; and the node of an asset with
more than one parent is an operand of the root operator when the root is among
its parents, and of the children operator of every other parent. -/
theorem C8_one_node_per_asset (P : Ports) (hiter : IterSound P) (name : String)
    (json : Json) (env : Environment)
    (hc : Environment.compile P name json = .ok env) (hvalid : env.valid = true) :
    ∃ r h rp ops, env.getExpression P = .ok (r, h) ∧ r = some rp ∧
      h[rp]? = some ⟨.chain, name, ops⟩ ∧
      List.Forall₂ (fun ng o => ∃ N, BuiltFamily P env.m_assets h ng o (familyKind ng.1) N ∧
        (∀ key a, ng.2.node key = .ok a → key ≠ ng.2.m_root →
          ∃ p c x y, lookup key N = some (p, c) ∧
            h[p]? = some ⟨.implication, a.m_name ++ "Node", [x, y]⟩) ∧
        (∀ k1 k2 pc1 pc2, lookup k1 N = some pc1 → lookup k2 N = some pc2 → k1 ≠ k2 →
          pc1.1 ≠ pc2.1) ∧
        (∀ key pc a, lookup key N = some pc → ng.2.node key = .ok a →
          a.m_parents.length > 1 → ∀ q ∈ a.m_parents,
            (q = ng.2.m_root →
              ∃ r0 nm rops, o = some r0 ∧ h[r0]? = some ⟨familyKind ng.1, nm, rops⟩ ∧
                some pc.1 ∈ rops) ∧
            (q ≠ ng.2.m_root →
              ∃ pq qops, lookup q N = some pq ∧
                h[pq.2]? = some ⟨familyKind ng.1, "children", qops⟩ ∧ some pc.1 ∈ qops)))
        env.m_graphs ops := by
  obtain ⟨r, h, hg⟩ := compile_total hiter hc hvalid
  obtain ⟨rp, ops, hr, hrp, hall⟩ := compile_built hiter hc hg
  refine ⟨r, h, rp, ops, hg, hr, hrp, forall₂_imp_mem hall ?_⟩
  rintro ng hng o ⟨N, hbf, -⟩
  obtain ⟨hex, -, hac⟩ := compile_graphs hiter hc ng hng
  obtain ⟨-, hval⟩ := valid_spec hvalid ng hng
  have hpar : ∀ key a, ng.2.node key = .ok a → ∀ p ∈ a.m_parents, ng.2.hasNode p = true :=
    fun key a ha => (hval key a ha).1
  have hcover : ∀ key, ng.2.hasNode key = true → key ≠ ng.2.m_root →
      ∃ pc, lookup key N = some pc := by
    intro key hkey hne
    exact built_reach hbf (all_reachable hex hac hpar (ng.2.m_nodes.length + 1) key []
      List.nodup_nil (by intro s hs; simp at hs) (by simp) hkey hne)
  obtain ⟨rootAsset, r0, cs0, -, -, ho, hedges0, hr0, -, hbuilt, hinj, hrootfree⟩ := id hbf
  refine ⟨N, hbf, ?_, ?_, ?_⟩
  · intro key a ha hne
    have hkey : ng.2.hasNode key = true := by
      simp [Graph.hasNode, node_ok_iff.mp ha]
    obtain ⟨pc, hpc⟩ := hcover key hkey hne
    obtain ⟨a1, cs, ha1, -, -, -, a2, x, -, -, hp, -⟩ := hbuilt key pc.1 pc.2 hpc
    rw [ha] at ha1
    simp only [Except.ok.injEq] at ha1
    exact ⟨pc.1, pc.2, _, _, hpc, ha1 ▸ hp⟩
  · intro k1 k2 pc1 pc2 h1 h2 hne heq
    exact hne (hinj k1 k2 pc1 pc2 h1 h2 heq)
  · intro key pc a hl hnode hmulti q hq
    have hkr : key ≠ ng.2.m_root := by
      intro heq
      rw [heq, hrootfree] at hl
      exact Option.noConfusion hl
    obtain ⟨csq, hcsq, hmem⟩ := (hex q key).mpr ⟨a, hkr, hnode, Or.inr hq⟩
    have hin : some pc.1 ∈ csq.map (nodeOf N) :=
      List.mem_map.mpr ⟨key, hmem, by simp [nodeOf, hl]⟩
    constructor
    · intro hqr
      rw [hqr] at hcsq
      have : ng.2.edgesAt ng.2.m_root = .ok cs0 := hedges0
      rw [hcsq] at this
      simp only [Except.ok.injEq] at this
      exact ⟨r0, _, _, ho, hr0, this ▸ hin⟩
    · intro hqr
      obtain ⟨pq, hpq⟩ := hcover q (hpar key a hnode q hq) hqr
      obtain ⟨aq, cs, -, he, -, hc1, -⟩ := hbuilt q pq.1 pq.2 hpq
      rw [hcsq] at he
      simp only [Except.ok.injEq] at he
      exact ⟨pq, _, hpq, hc1, he ▸ hin⟩

/-- C8 at scenario S2: the environment is valid, `getExpression` returns, and
the theorem applies. -/
theorem C8_one_node_per_asset_witness :
    ∃ env, Environment.compile portsS2 "env" envS2 = .ok env ∧ env.valid = true ∧
      ∃ r h rp ops, env.getExpression portsS2 = .ok (r, h) ∧ r = some rp ∧
        h[rp]? = some ⟨.chain, "env", ops⟩ :=
  ⟨_, rfl, rfl, by
    obtain ⟨r, h, rp, ops, h1, h2, h3, -⟩ := C8_one_node_per_asset portsS2
      (fun _ _ => Iff.rfl) "env" envS2 _ rfl rfl
    exact ⟨r, h, rp, ops, h1, h2, h3⟩⟩

end Wazuh
